import Mathlib

/-!
# Shallow embedding of `css/parse2.go` (package css)

The CSS grammar parser `Parser2` works over an external token stream through a
lookahead buffer (`read`, `peek`, `shift`) and a family of descent functions.
Byte slices are lists of byte values, Go slices are lists together with their
capacity, and loops take a fuel argument. The function `bytes.ToLower` of the Go
library is a parameter (`BytesLib`).
-/

namespace css

/-- Modelled from the spec: the token kinds of the css lexer (its declaration is not part of
the sources at hand); the kinds the parser tests for, and some further kinds of ordinary
value tokens. -/
inductive TokenType where
  | ErrorToken
  | IdentToken
  | FunctionToken
  | AtKeywordToken
  | HashToken
  | StringToken
  | DelimToken
  | NumberToken
  | WhitespaceToken
  | CDOToken
  | CDCToken
  | ColonToken
  | SemicolonToken
  | CommaToken
  | LeftBracketToken
  | RightBracketToken
  | LeftParenthesisToken
  | RightParenthesisToken
  | LeftBraceToken
  | RightBraceToken
  | CommentToken
  deriving DecidableEq, Repr

open TokenType

/-- GrammarType determines the type of grammar (the event kinds of `Next`). -/
inductive GrammarType where
  | ErrorGrammar
  | AtRuleGrammar
  | EndAtRuleGrammar
  | RulesetGrammar
  | EndRulesetGrammar
  | DeclarationGrammar
  | TokenGrammar
  deriving DecidableEq, Repr

open GrammarType

/-- ParserState denotes the state of the parser. -/
inductive ParserState where
  | StylesheetState
  | AtRuleState
  | RulesetState
  deriving DecidableEq, Repr

open ParserState

/-- Modelled from the spec: a token leaf `TokenNode` (its declaration is not part of the
sources at hand): a token kind and its bytes. -/
structure TokenNode where
  TokenType : TokenType
  Data : List Nat
  deriving DecidableEq, Repr

/-- NewToken(tt, data). -/
def NewToken (tt : TokenType) (data : List Nat) : TokenNode := ⟨tt, data⟩

/-- Modelled from the spec: a selector, an ordered sequence of element tokens. -/
structure SelectorNode where
  Elems : List TokenNode
  deriving DecidableEq, Repr

/-- Modelled from the spec: the tagged variant of stylesheet tree nodes (the node declarations
are not part of the sources at hand). `Function.Args` holds `Argument` nodes and
`Ruleset.Decls` holds `Declaration` nodes; `Nil` is the nil value of the Go interface `Node`. -/
inductive Node where
  | Token (tok : TokenNode)
  | Stylesheet (Nodes : List Node)
  | AtRule (At : TokenNode) (Nodes : List Node) (Rules : List Node)
  | Ruleset (Selectors : List SelectorNode) (Decls : List Node)
  | Declaration (Property : TokenNode) (Vals : List Node) (Important : Bool)
  | Function (Func : TokenNode) (Args : List Node)
  | Argument (Vals : List Node)
  | Block (Open : TokenNode) (Nodes : List Node) (Close : Option TokenNode)
  | Nil
  deriving Repr

/-- The terminal error a token stream reports through `Err()`: end of input (`io.EOF`) or
another error. -/
inductive StreamError where
  | EOF
  | other (msg : String)
  deriving DecidableEq, Repr

/-- The external `TokenStream`: a finite list of tokens, after which `Next` returns
`ErrorToken` forever, and the terminal error that `Err` reports. -/
structure TokenStream where
  toks : List TokenNode
  err : StreamError
  deriving Repr

/-- The token `Next` returns once the stream is exhausted. -/
def eofToken : TokenNode := ⟨ErrorToken, []⟩

/-- TokenStream.Next. -/
def TokenStream.Next (z : TokenStream) : TokenNode × TokenStream :=
  match z.toks with
  | [] => (eofToken, z)
  | t :: ts => (t, { z with toks := ts })

/-- TokenStream.Err. -/
def TokenStream.Err (z : TokenStream) : StreamError := z.err

/-- The lookahead fields of `Parser2`: the stream `z`, the buffer `buf` with its capacity
(`cap(p.buf)`) and the position `pos`. -/
structure Lookahead where
  z : TokenStream
  buf : List TokenNode
  bufCap : Nat
  pos : Nat
  deriving Repr

/-- The parser: the lookahead fields and the stack of parser states. -/
structure Parser2 extends Lookahead where
  state : List ParserState
  deriving Repr

/-- NewParser2: state `[StylesheetState]`, an empty buffer of capacity 16, position 0. -/
def NewParser2 (z : TokenStream) : Parser2 :=
  { z := z, buf := [], bufCap := 16, pos := 0, state := [StylesheetState] }

/-- Whether the last buffered token is whitespace
(`len(p.buf) > 0 && p.buf[len(p.buf)-1].TokenType == WhitespaceToken`). -/
def lastIsWhitespace (buf : List TokenNode) : Bool :=
  match buf.getLast? with
  | some t => t.TokenType == WhitespaceToken
  | none => false

/-- The recursion of `read` over the tokens of the stream: comments, and whitespace when the
last buffered token is whitespace, are skipped. -/
def readToks (lastWs : Bool) : List TokenNode → TokenNode × List TokenNode
  | [] => (eofToken, [])
  | t :: ts =>
    if t.TokenType = CommentToken ∨ (t.TokenType = WhitespaceToken ∧ lastWs = true) then
      readToks lastWs ts
    else (t, ts)

/-- Parser2.read: the next token of the stream that is kept. -/
def read (p : Lookahead) : TokenNode × Lookahead :=
  let r := readToks (lastIsWhitespace p.buf) p.z.toks
  (NewToken r.1.TokenType r.1.Data, { p with z := { p.z with toks := r.2 } })

/-- The loop `for j := len(p.buf); j <= p.pos+i; j++ { p.buf = append(p.buf, p.read()) }`
of `peek`, by its number of iterations. -/
def fill : Nat → Lookahead → Lookahead
  | 0, p => p
  | n + 1, p =>
    let r := read p
    fill n { r.2 with buf := r.2.buf ++ [r.1] }

/-- The synthetic token of `peek` when the request exceeds the capacity: its bytes are those of
"looking too far ahead". -/
def tooFarToken : TokenNode :=
  ⟨ErrorToken, [108, 111, 111, 107, 105, 110, 103, 32, 116, 111, 111, 32, 102, 97, 114, 32,
    97, 104, 101, 97, 100]⟩

/-- The branch of `peek` that makes room: the capacity doubles when the live part
(`l = len(p.buf) - p.pos`) is more than half of it, else the live part moves to the front;
the position becomes 0. -/
def regrow (p : Lookahead) : Lookahead :=
  let c := p.bufCap
  let l := p.buf.length - p.pos
  -- expand buffer when len is bigger than half the cap
  if 2 * l > c then { p with buf := p.buf.drop p.pos, bufCap := 2 * c, pos := 0 }
  else { p with buf := p.buf.drop p.pos, pos := 0 }

/-- The end of `peek`: the loop that reads up to index `p.pos+i`, and the token there. -/
def fillTo (i : Nat) (p : Lookahead) : TokenNode × Lookahead :=
  let p2 := fill (p.pos + i + 1 - p.buf.length) p
  (p2.buf.getD (p2.pos + i) eofToken, p2)

/-- Parser2.peek. The index expressions `p.buf[p.pos+i]` are in range by construction (the loop
before them fills the buffer up to that index), and `append` never exceeds the capacity there,
so that the capacity changes only where `peek` doubles it. -/
def peek (i : Nat) (p : Lookahead) : TokenNode × Lookahead :=
  if p.pos + i ≥ p.buf.length then
    if p.pos + i ≥ p.bufCap then
      let p1 := regrow p
      if i ≥ p1.bufCap then (tooFarToken, p1)
      else fillTo i p1
    else fillTo i p
  else (p.buf.getD (p.pos + i) eofToken, p)

/-- Parser2.shift. -/
def shift (p : Lookahead) : TokenNode × Lookahead :=
  let r := peek 0 p
  (r.1, { r.2 with pos := r.2.pos + 1 })

/-- Parser2.copy: every buffered token from `pos` on gets a fresh copy of its bytes. -/
def copy (p : Lookahead) : Lookahead :=
  { p with buf := p.buf.take p.pos ++ (p.buf.drop p.pos).map (fun n => { n with Data := n.Data.map id }) }

/-- How a run of the model can end without a result: the fuel of a loop ran out, or the Go
code panics (an index into empty token bytes, an empty state stack, a failed type
assertion). -/
inductive Abort where
  | fuel
  | panic
  deriving DecidableEq, Repr

/-- Parser2.at. -/
def atToken (tt : TokenType) (p : Lookahead) : Bool × Lookahead :=
  let r := peek 0 p
  (r.1.TokenType == tt, r.2)

/-- Parser2.data. -/
def data (p : Lookahead) : List Nat × Lookahead :=
  let r := peek 0 p
  (r.1.Data, r.2)

/-- A chain `p.at(t1) || p.at(t2) || ...`, evaluated left to right up to the first kind that
matches; a loop condition `!p.at(t1) && !p.at(t2) && ...` is its negation. -/
def atAny : List TokenType → Lookahead → Bool × Lookahead
  | [], p => (false, p)
  | tt :: tts, p =>
    let r := atToken tt p
    if r.1 then (true, r.2) else atAny tts r.2

/-- A chain `p.data()[0] == c1 || p.data()[0] == c2 || ...`; indexing empty bytes panics. -/
def dataFirstIs : List Nat → Lookahead → Except Abort (Bool × Lookahead)
  | [], p => .ok (false, p)
  | c :: cs, p =>
    let r := data p
    match r.1 with
    | [] => .error .panic
    | b :: _ => if b = c then .ok (true, r.2) else dataFirstIs cs r.2

/-- The condition `p.at(DelimToken) && (p.data()[0] == c1 || ...)`. -/
def delimIs (cs : List Nat) (p : Lookahead) : Except Abort (Bool × Lookahead) :=
  let r := atToken DelimToken p
  if r.1 then dataFirstIs cs r.2 else .ok (false, r.2)

/-- Parser2.skipWhitespace. -/
def skipWhitespace (p : Lookahead) : Lookahead :=
  let r := atToken WhitespaceToken p
  if r.1 then (shift r.2).2 else r.2

/-- Parser2.skipWhile. -/
def skipWhile (tt : TokenType) : Nat → Lookahead → Except Abort Lookahead
  | 0, _ => .error .fuel
  | f + 1, p =>
    let r := atAny [tt, WhitespaceToken] p
    if r.1 then skipWhile tt f (shift r.2).2 else .ok r.2

/-- The result of a descent function on the lookahead fields: a value and the new fields. -/
abbrev Res (α : Type) := Except Abort (α × Lookahead)

/-- The loop of `parseBlock`; `sc` is `shiftComponent`. -/
def blockLoop (sc : Lookahead → Res Node) (open_ : TokenNode) :
    Nat → List Node → Lookahead → Res Node
  | 0, _, _ => .error .fuel
  | f + 1, nodes, p =>
    let r := atAny [RightBraceToken, RightParenthesisToken, RightBracketToken, ErrorToken] p
    if r.1 then
      let e := atToken ErrorToken r.2
      if !e.1 then
        let s := shift e.2
        .ok (Node.Block open_ nodes (some s.1), s.2)
      else .ok (Node.Block open_ nodes none, e.2)
    else
      match sc r.2 with
      | .error a => .error a
      | .ok (c, q) => blockLoop sc open_ f (nodes ++ [c]) (skipWhitespace q)

/-- Parser2.parseBlock; `sc` is `shiftComponent`; `none` is the nil result. -/
def parseBlock (sc : Lookahead → Res Node) (fuel : Nat) (p : Lookahead) : Res (Option Node) :=
  let r := atAny [LeftParenthesisToken, LeftBraceToken, LeftBracketToken] p
  if !r.1 then .ok (none, r.2)
  else
    let s := shift r.2
    match blockLoop sc s.1 fuel [] (skipWhitespace s.2) with
    | .error a => .error a
    | .ok (n, q) => .ok (some n, q)

/-- Parser2.parseArgument, with the values collected so far; `sc` is `shiftComponent`. -/
def parseArgument (sc : Lookahead → Res Node) : Nat → List Node → Lookahead → Res Node
  | 0, _, _ => .error .fuel
  | f + 1, vals, p =>
    let r := atAny [CommaToken, RightParenthesisToken, ErrorToken] p
    if r.1 then .ok (Node.Argument vals, r.2)
    else
      match sc r.2 with
      | .error a => .error a
      | .ok (c, q) => parseArgument sc f (vals ++ [c]) (skipWhitespace q)

/-- The loop of `parseFunction` and what follows it; `sc` is `shiftComponent`. -/
def functionLoop (sc : Lookahead → Res Node) (func : TokenNode) :
    Nat → List Node → Lookahead → Res (Option Node)
  | 0, _, _ => .error .fuel
  | f + 1, args, p =>
    let r := atAny [RightParenthesisToken, ErrorToken] p
    if r.1 then
      let e := atToken ErrorToken r.2
      if e.1 then .ok (none, e.2)
      else
        let s := shift e.2
        .ok (some (Node.Function func args), s.2)
    else
      let c := atToken CommaToken r.2
      if c.1 then functionLoop sc func f args (skipWhitespace (shift c.2).2)
      else
        match parseArgument sc f [] c.2 with
        | .error a => .error a
        | .ok (a, q) => functionLoop sc func f (args ++ [a]) q

/-- Parser2.parseFunction; `sc` is `shiftComponent`; `none` is the nil result. -/
def parseFunctionWith (sc : Lookahead → Res Node) (fuel : Nat) (p : Lookahead) :
    Res (Option Node) :=
  let r := atToken FunctionToken p
  if !r.1 then .ok (none, r.2)
  else
    let s := shift r.2
    functionLoop sc s.1 fuel [] (skipWhitespace s.2)

/-- Parser2.shiftComponent: a block, else a function, else the next token. The fuel bounds the
nesting depth and the loops. -/
def shiftComponent : Nat → Lookahead → Res Node
  | 0, _ => .error .fuel
  | f + 1, p =>
    match parseBlock (shiftComponent f) f p with
    | .error a => .error a
    | .ok (some cn, q) => .ok (cn, q)
    | .ok (none, q) =>
      match parseFunctionWith (shiftComponent f) f q with
      | .error a => .error a
      | .ok (some cn, q2) => .ok (cn, q2)
      | .ok (none, q2) =>
        let s := shift q2
        .ok (Node.Token s.1, s.2)

/-- Parser2.parseFunction. -/
def parseFunction (fuel : Nat) (p : Lookahead) : Res (Option Node) :=
  parseFunctionWith (shiftComponent fuel) fuel p

/-- The function `bytes.ToLower` of the Go library, which is not part of the repository: a
parameter of the parser. -/
class BytesLib where
  ToLower : List Nat → List Nat

/-- The lowering of an ASCII capital; every other byte is kept. -/
def byteToLower (b : Nat) : Nat := if 65 ≤ b ∧ b ≤ 90 then b + 32 else b

/-- The library of the examples: its `ToLower` lowers the ASCII capitals byte by byte, which
is what `bytes.ToLower` returns for input whose bytes are all below 0x80, as are the bytes of
every example of this file. The theorems that are not about an example hold for every
`ToLower`. -/
def asciiLib : BytesLib := ⟨fun s => s.map byteToLower⟩

/-- The bytes of "important". -/
def importantBytes : List Nat := [105, 109, 112, 111, 114, 116, 97, 110, 116]

/-- The condition
`p.at(IdentToken) && bytes.Equal(bytes.ToLower(p.data()), []byte("important"))`. -/
def atImportant [BytesLib] (p : Lookahead) : Bool × Lookahead :=
  let r := atToken IdentToken p
  if r.1 then
    let d := data r.2
    (BytesLib.ToLower d.1 == importantBytes, d.2)
  else (false, r.2)

/-- The loop of `parseDeclaration` over the values, with `n.Vals` and `n.Important` so far. -/
def declarationLoop [BytesLib] :
    Nat → List Node → Bool → Lookahead → Res (List Node × Bool)
  | 0, _, _, _ => .error .fuel
  | f + 1, vals, important, p =>
    let r := atAny [SemicolonToken, RightBraceToken, ErrorToken] p
    if r.1 then .ok ((vals, important), r.2)
    else
      match delimIs [33] r.2 with
      | .error a => .error a
      | .ok (true, q) =>
        let exclamation := shift q
        let i := atImportant (skipWhitespace exclamation.2)
        if i.1 then declarationLoop f vals true (skipWhitespace (shift i.2).2)
        else declarationLoop f (vals ++ [Node.Token exclamation.1]) important (skipWhitespace i.2)
      | .ok (false, q) =>
        match parseFunction f q with
        | .error a => .error a
        | .ok (some cn, q2) => declarationLoop f (vals ++ [cn]) important (skipWhitespace q2)
        | .ok (none, q2) =>
          let s := shift q2
          declarationLoop f (vals ++ [Node.Token s.1]) important (skipWhitespace s.2)

/-- Parser2.parseDeclaration; `none` is the nil result. -/
def parseDeclaration [BytesLib] (fuel : Nat) (p : Lookahead) : Res (Option Node) :=
  let r := atToken IdentToken p
  if !r.1 then .ok (none, r.2)
  else
    let ident := shift r.2
    let c := atToken ColonToken (skipWhitespace ident.2)
    if !c.1 then .ok (none, c.2)
    else
      match declarationLoop fuel [] false (skipWhitespace (shift c.2).2) with
      | .error a => .error a
      | .ok ((vals, important), q) =>
        match skipWhile SemicolonToken fuel q with
        | .error a => .error a
        | .ok q2 => .ok (some (Node.Declaration ident.1 vals important), q2)

/-- The loop over an attribute selector `[...]` in `parseSelector`, and the `]` after it. -/
def bracketLoop : Nat → List TokenNode → Lookahead → Res (List TokenNode)
  | 0, _, _ => .error .fuel
  | f + 1, elems, p =>
    let r := atAny [RightBracketToken, ErrorToken] p
    if r.1 then
      let b := atToken RightBracketToken r.2
      if b.1 then
        let s := shift b.2
        .ok (elems ++ [s.1], s.2)
      else .ok (elems, b.2)
    else
      let s := shift r.2
      bracketLoop f (elems ++ [s.1]) (skipWhitespace s.2)

/-- The loop of `parseSelector`, with `n.Elems` and `ws` so far. -/
def selectorLoop : Nat → List TokenNode → Option TokenNode → Lookahead → Res (List TokenNode)
  | 0, _, _, _ => .error .fuel
  | f + 1, elems, ws, p =>
    let r := atAny [CommaToken, LeftBraceToken, ErrorToken] p
    if r.1 then .ok (elems, r.2)
    else
      let body : Res (List TokenNode) :=
        match delimIs [62, 43, 126] r.2 with
        | .error a => .error a
        | .ok (true, q) =>
          let s := shift q
          .ok (elems ++ [s.1], skipWhitespace s.2)
        | .ok (false, q) =>
          let b := atToken LeftBracketToken q
          if b.1 then bracketLoop f elems b.2
          else
            let s := shift b.2
            .ok ((match ws with | some w => elems ++ [w] | none => elems) ++ [s.1], s.2)
      match body with
      | .error a => .error a
      | .ok (elems2, q2) =>
        let w := atToken WhitespaceToken q2
        if w.1 then
          let s := shift w.2
          selectorLoop f elems2 (some s.1) s.2
        else selectorLoop f elems2 none w.2

/-- Parser2.parseSelector; `none` is the nil result (no element). -/
def parseSelector (fuel : Nat) (p : Lookahead) : Res (Option SelectorNode) :=
  match selectorLoop fuel [] none p with
  | .error a => .error a
  | .ok (elems, q) => if elems.length = 0 then .ok (none, q) else .ok (some ⟨elems⟩, q)

/-- The forward scan of `parseRuleset` from index `i`: whether a left brace comes before any
semicolon or error token. -/
def scanLeftBrace : Nat → Nat → Lookahead → Res Bool
  | 0, _, _ => .error .fuel
  | f + 1, i, p =>
    let r := peek i p
    if r.1.TokenType ≠ LeftBraceToken then
      let r2 := peek i r.2
      if r2.1.TokenType = SemicolonToken then .ok (false, r2.2)
      else
        let r3 := peek i r2.2
        if r3.1.TokenType = ErrorToken then .ok (false, r3.2)
        else scanLeftBrace f (i + 1) r3.2
    else .ok (true, r.2)

/-- The loop of `parseRuleset` over the selectors, with `n.Selectors` so far. -/
def selectorsLoop : Nat → List SelectorNode → Lookahead → Res (List SelectorNode)
  | 0, _, _ => .error .fuel
  | f + 1, sels, p =>
    let r := atAny [LeftBraceToken, ErrorToken] p
    if r.1 then .ok (sels, r.2)
    else
      let c := atToken CommaToken r.2
      if c.1 then selectorsLoop f sels (skipWhitespace (shift c.2).2)
      else
        match parseSelector f c.2 with
        | .error a => .error a
        | .ok (some cn, q) => selectorsLoop f (sels ++ [cn]) (skipWhitespace q)
        | .ok (none, q) => selectorsLoop f sels (skipWhitespace q)

/-- Parser2.parseRuleset; `none` is the nil result. -/
def parseRuleset (fuel : Nat) (p : Parser2) : Except Abort (Option Node × Parser2) :=
  match scanLeftBrace fuel 0 p.toLookahead with
  | .error a => .error a
  | .ok (false, q) => .ok (none, { p with toLookahead := q })
  | .ok (true, q) =>
    match selectorsLoop fuel [] q with
    | .error a => .error a
    | .ok (sels, q2) =>
      let e := atToken ErrorToken q2
      if e.1 then .ok (none, { p with toLookahead := e.2 })
      else
        .ok (some (Node.Ruleset sels []),
          { toLookahead := (shift e.2).2, state := p.state ++ [RulesetState] })

/-- The loop of `parseAtRule` over the prelude, with `n.Nodes` so far. -/
def atRuleLoop : Nat → List Node → Lookahead → Res (List Node)
  | 0, _, _ => .error .fuel
  | f + 1, nodes, p =>
    let r := atAny [SemicolonToken, LeftBraceToken, ErrorToken] p
    if r.1 then .ok (nodes, r.2)
    else
      match shiftComponent f r.2 with
      | .error a => .error a
      | .ok (c, q) => atRuleLoop f (nodes ++ [c]) (skipWhitespace q)

/-- Parser2.parseAtRule; `none` is the nil result. -/
def parseAtRule (fuel : Nat) (p : Parser2) : Except Abort (Option Node × Parser2) :=
  let r := atToken AtKeywordToken p.toLookahead
  if !r.1 then .ok (none, { p with toLookahead := r.2 })
  else
    let s := shift r.2
    match atRuleLoop fuel [] (skipWhitespace s.2) with
    | .error a => .error a
    | .ok (nodes, q) =>
      let b := atToken LeftBraceToken q
      let q2 := if b.1 then (shift b.2).2 else b.2
      .ok (some (Node.AtRule s.1 nodes []), { toLookahead := q2, state := p.state ++ [AtRuleState] })

/-- Parser2.State; the Go index panics on an empty stack. -/
def Parser2.State (p : Parser2) : Except Abort ParserState :=
  match p.state.getLast? with
  | some s => .ok s
  | none => .error .panic

/-- The branch of `Next` that returns the End types. -/
def nextEnd (fuel : Nat) (state : ParserState) (p : Parser2) (q : Lookahead) :
    Except Abort (GrammarType × Node × Parser2) :=
  let n := shift q
  match skipWhile SemicolonToken fuel n.2 with
  | .error a => .error a
  | .ok q2 =>
    let p2 : Parser2 := { toLookahead := q2, state := p.state.dropLast }
    if state = AtRuleState then .ok (EndAtRuleGrammar, Node.Token n.1, p2)
    else .ok (EndRulesetGrammar, Node.Token n.1, p2)

/-- The part of `Next` after the End types. -/
def nextRule [BytesLib] (fuel : Nat) (p : Parser2) :
    Except Abort (GrammarType × Node × Parser2) :=
  let c := atAny [CDOToken, CDCToken] p.toLookahead
  if c.1 then
    let s := shift c.2
    .ok (TokenGrammar, Node.Token s.1, { p with toLookahead := s.2 })
  else
    match parseAtRule fuel { p with toLookahead := c.2 } with
    | .error a => .error a
    | .ok (some cn, p1) => .ok (AtRuleGrammar, cn, p1)
    | .ok (none, p1) =>
      match parseRuleset fuel p1 with
      | .error a => .error a
      | .ok (some cn, p2) => .ok (RulesetGrammar, cn, p2)
      | .ok (none, p2) =>
        match parseDeclaration fuel p2.toLookahead with
        | .error a => .error a
        | .ok (some cn, q3) => .ok (DeclarationGrammar, cn, { p2 with toLookahead := q3 })
        | .ok (none, q3) =>
          let s := shift q3
          .ok (TokenGrammar, Node.Token s.1, { p2 with toLookahead := s.2 })

/-- Parser2.Next. -/
def Parser2.Next [BytesLib] (fuel : Nat) (p : Parser2) :
    Except Abort (GrammarType × Node × Parser2) :=
  let e := atToken ErrorToken p.toLookahead
  if e.1 then .ok (ErrorGrammar, Node.Nil, { p with toLookahead := e.2 })
  else
    let q := skipWhitespace e.2
    match Parser2.State p with
    | .error a => .error a
    | .ok state =>
      let a := atToken RightBraceToken q
      if a.1 && (state = AtRuleState || state = RulesetState) then nextEnd fuel state p a.2
      else
        let b := atToken SemicolonToken a.2
        if b.1 && state = AtRuleState then nextEnd fuel state p b.2
        else nextRule fuel { p with toLookahead := b.2 }

/-- Parser2.parseRecursively: the node `n` with the children collected, the error returned
(`none` is nil) and the parser. The `for` loop of either branch is the tail call on the
node as updated. `inner` is the fuel of the `Next` calls. -/
def Parser2.parseRecursively [BytesLib] (inner : Nat) :
    Nat → GrammarType → Node → Parser2 → Except Abort (Node × Option StreamError × Parser2)
  | 0, _, _, _ => .error .fuel
  | f + 1, rootGt, n, p =>
    if rootGt = AtRuleGrammar then
      match n with
      | Node.AtRule at_ nodes rules =>
        match Parser2.Next inner p with
        | .error a => .error a
        | .ok (gt, m, q) =>
          if gt = ErrorGrammar then .ok (n, some q.z.Err, q)
          else if gt = EndAtRuleGrammar then .ok (n, none, q)
          else
            match Parser2.parseRecursively inner f gt m q with
            | .error a => .error a
            | .ok (m2, some err, q2) => .ok (Node.AtRule at_ nodes (rules ++ [m2]), some err, q2)
            | .ok (m2, none, q2) =>
              Parser2.parseRecursively inner f AtRuleGrammar (Node.AtRule at_ nodes (rules ++ [m2])) q2
      | _ => .error .panic
    else if rootGt = RulesetGrammar then
      match n with
      | Node.Ruleset sels decls =>
        match Parser2.Next inner p with
        | .error a => .error a
        | .ok (gt, m, q) =>
          if gt = ErrorGrammar then .ok (n, some q.z.Err, q)
          else if gt = EndRulesetGrammar then .ok (n, none, q)
          else
            match m with
            | Node.Declaration _ _ _ =>
              Parser2.parseRecursively inner f RulesetGrammar (Node.Ruleset sels (decls ++ [m])) q
            | _ => Parser2.parseRecursively inner f RulesetGrammar n q
      | _ => .error .panic
    else .ok (n, none, p)

/-- The loop of `Parse`, with `stylesheet.Nodes` so far; it returns the nodes and `err` as
they are after the loop. -/
def parseLoop [BytesLib] (inner : Nat) :
    Nat → List Node → Parser2 → Except Abort (List Node × StreamError × Parser2)
  | 0, _, _ => .error .fuel
  | f + 1, nodes, p =>
    match Parser2.Next inner p with
    | .error a => .error a
    | .ok (gt, n, q) =>
      if gt = ErrorGrammar then .ok (nodes, q.z.Err, q)
      else
        match Parser2.parseRecursively inner inner gt n q with
        | .error a => .error a
        | .ok (n2, some err, q2) => .ok (nodes ++ [n2], err, q2)
        | .ok (n2, none, q2) => parseLoop inner f (nodes ++ [n2]) q2

/-- Parser2.Parse: the stylesheet and the error (`none` is nil). -/
def Parser2.Parse [BytesLib] (fuel : Nat) (p : Parser2) :
    Except Abort (Node × Option StreamError) :=
  match parseLoop fuel fuel [] p with
  | .error a => .error a
  | .ok (nodes, err, _) =>
    if err ≠ StreamError.EOF then .ok (Node.Stylesheet nodes, some err)
    else .ok (Node.Stylesheet nodes, none)

/-! ## Definitions used to state the properties -/

/-- The shape of a buffer: `pos ≤ len(buf) ≤ cap(buf)` and a positive capacity. -/
def Inv (p : Lookahead) : Prop :=
  p.pos ≤ p.buf.length ∧ p.buf.length ≤ p.bufCap ∧ 0 < p.bufCap

/-- What the loop of `peek` does to the stream: `Filled z new z2` when reading the tokens
`new` from the unread tokens `z` leaves `z2` unread; comments and whitespace may be skipped
before each token, and an exhausted stream gives the end token. -/
inductive Filled : List TokenNode → List TokenNode → List TokenNode → Prop where
  | done (z : List TokenNode) : Filled z [] z
  | tok (sk : List TokenNode) (t : TokenNode) (z1 new z2 : List TokenNode)
      (hsk : ∀ x ∈ sk, x.TokenType = CommentToken ∨ x.TokenType = WhitespaceToken)
      (hc : t.TokenType ≠ CommentToken)
      (h : Filled z1 new z2) : Filled (sk ++ t :: z1) (t :: new) z2
  | eof (z new z2 : List TokenNode)
      (hsk : ∀ x ∈ z, x.TokenType = CommentToken ∨ x.TokenType = WhitespaceToken)
      (h : Filled [] new z2) : Filled z (eofToken :: new) z2

/-- The buffered tokens from the position on. -/
def live (p : Lookahead) : List TokenNode := p.buf.drop p.pos

/-- The current token: what `peek(0)` returns. -/
def cur (p : Lookahead) : TokenNode := (peek 0 p).1

/-- `Moves p c q`: the parser gets from the buffer `p` to the buffer `q` by shifting exactly
the tokens `c`, in this order, reading from the stream what it needs. -/
def Moves (p : Lookahead) (c : List TokenNode) (q : Lookahead) : Prop :=
  Inv q ∧ p.bufCap ≤ q.bufCap ∧ q.z.err = p.z.err ∧
    ∃ new, live p ++ new = c ++ live q ∧ Filled p.z.toks new q.z.toks

/-- Tokens other than error tokens. -/
def nonError (t : TokenNode) : Bool := t.TokenType != ErrorToken

/-- The measure of what is left to consume: the buffered tokens from the position on that are
not error tokens, and the unread tokens. -/
def mu (p : Lookahead) : Nat := ((live p).filter nonError).length + p.z.toks.length

/-- Tokens that are neither whitespace nor comments. -/
def notSpace (t : TokenNode) : Bool :=
  t.TokenType != WhitespaceToken && t.TokenType != CommentToken

/-- Tokens that are neither whitespace nor comments nor error tokens. -/
def keep (t : TokenNode) : Bool :=
  t.TokenType != WhitespaceToken && t.TokenType != CommentToken && t.TokenType != ErrorToken

/-- No two adjacent tokens are both whitespace. -/
def NoAdjacentWhitespace (l : List TokenNode) : Prop :=
  l.Chain' (fun a b => ¬ (a.TokenType = WhitespaceToken ∧ b.TokenType = WhitespaceToken))

/-- The buffer holds no comment and no two adjacent whitespace tokens. -/
def BufOK (l : List TokenNode) : Prop :=
  NoAdjacentWhitespace l ∧ ∀ t ∈ l, t.TokenType ≠ CommentToken

/-- An operation on the lookahead buffer. -/
inductive BufOp where
  | peek (i : Nat)
  | shift
  | copy
  deriving DecidableEq, Repr

/-- One operation on the buffer, with the tokens that `shift` has returned so far. -/
def BufOp.apply (s : List TokenNode × Lookahead) : BufOp → List TokenNode × Lookahead
  | .peek i => (s.1, (css.peek i s.2).2)
  | .shift => (s.1 ++ [(css.shift s.2).1], (css.shift s.2).2)
  | .copy => (s.1, css.copy s.2)

/-- A sequence of operations from a buffer: the tokens returned by the `shift` calls, in
order, and the buffer reached. -/
def runOps (ops : List BufOp) (p : Lookahead) : List TokenNode × Lookahead :=
  ops.foldl BufOp.apply ([], p)

mutual
/-- The token leaves of a node, in order. -/
def Node.leaves : Node → List TokenNode
  | .Token t => [t]
  | .Stylesheet ns => leavesList ns
  | .AtRule a ns rs => a :: (leavesList ns ++ leavesList rs)
  | .Ruleset ss ds => (ss.map (fun s => s.Elems)).flatten ++ leavesList ds
  | .Declaration p vs _ => p :: leavesList vs
  | .Function f as => f :: leavesList as
  | .Argument vs => leavesList vs
  | .Block o ns c => o :: (leavesList ns ++ c.toList)
  | .Nil => []
/-- The token leaves of a list of nodes, in order. -/
def leavesList : List Node → List TokenNode
  | [] => []
  | n :: ns => n.leaves ++ leavesList ns
end

/-- The events of repeated `Next` calls up to the first Error event (which is left out), and
the parser after that Error event; `none` when `k` calls do not reach it. -/
def Parser2.events [BytesLib]
    (inner : Nat) : Nat → Parser2 → Option (List (GrammarType × Node) × Parser2)
  | 0, _ => none
  | k + 1, p =>
    match Parser2.Next inner p with
    | .error _ => none
    | .ok (gt, n, q) =>
      if gt = ErrorGrammar then some ([], q)
      else
        match Parser2.events inner k q with
        | none => none
        | some (es, q2) => some ((gt, n) :: es, q2)

/-- Strict nesting of a sequence of events, given the start events that are still open
(the most recent first): an `EndAtRule` closes the most recent open start event, which is an
`AtRule`; an `EndRuleset` closes the most recent open start event, which is a `Ruleset`; no
End event comes when no start event is open. -/
def nestedFrom : List GrammarType → List GrammarType → Bool
  | _, [] => true
  | st, AtRuleGrammar :: es => nestedFrom (AtRuleGrammar :: st) es
  | st, RulesetGrammar :: es => nestedFrom (RulesetGrammar :: st) es
  | AtRuleGrammar :: st, EndAtRuleGrammar :: es => nestedFrom st es
  | _, EndAtRuleGrammar :: _ => false
  | RulesetGrammar :: st, EndRulesetGrammar :: es => nestedFrom st es
  | _, EndRulesetGrammar :: _ => false
  | st, _ :: es => nestedFrom st es

/-- The parser state that a start event pushes. -/
def stateOf : GrammarType → ParserState
  | AtRuleGrammar => AtRuleState
  | _ => RulesetState

/-- What an event of `Next` does to the stack of parser states. -/
def StateStep (p : Parser2) (gt : GrammarType) (q : Parser2) : Prop :=
  (gt = AtRuleGrammar ∧ q.state = p.state ++ [AtRuleState]) ∨
  (gt = RulesetGrammar ∧ q.state = p.state ++ [RulesetState]) ∨
  (gt = EndAtRuleGrammar ∧ p.state.getLast? = some AtRuleState ∧ q.state = p.state.dropLast) ∨
  (gt = EndRulesetGrammar ∧ p.state.getLast? = some RulesetState ∧
    q.state = p.state.dropLast) ∨
  ((gt = ErrorGrammar ∨ gt = DeclarationGrammar ∨ gt = TokenGrammar) ∧ q.state = p.state)

/-- The delimiter tokens carry at least one byte (the lexer gives them exactly one). -/
def DelimOK (t : TokenNode) : Prop := t.TokenType = DelimToken → t.Data ≠ []

/-- A buffer of the right shape all of whose pending delimiter tokens carry a byte. -/
def Good (p : Lookahead) : Prop :=
  Inv p ∧ ∀ t ∈ live p ++ p.z.toks, DelimOK t

/-- `Consumes p q l`: the parser gets from `p` to `q` shifting tokens of which `l` is a
subsequence. -/
def Consumes (p q : Lookahead) (l : List TokenNode) : Prop :=
  ∃ c, Moves p c q ∧ List.Sublist l c

/-- `ConsumesCur p q l`: as `Consumes`, and the first token shifted is the current token
of `p`. -/
def ConsumesCur (p q : Lookahead) (l : List TokenNode) : Prop :=
  ∃ c, Moves p (cur p :: c) q ∧ List.Sublist l (cur p :: c)

/-- What the descent functions need of `shiftComponent`: it shifts the current token first,
and the leaves of its node are among the tokens shifted, in order. -/
def ScOK (sc : Lookahead → Res Node) : Prop :=
  ∀ p r q, Inv p → sc p = .ok (r, q) → ConsumesCur p q r.leaves

/-- What a `Next` call does: an Error event at an error token leaves it in place (only
`peek(0)` is done), any other event shifts at least one token, the first of which is not an
error token, and the leaves of its node are among the tokens shifted, in order. -/
def NextPost (p : Parser2) (gt : GrammarType) (n : Node) (q : Parser2) : Prop :=
  (gt = ErrorGrammar ∧ n = Node.Nil ∧ q = { p with toLookahead := (peek 0 p.toLookahead).2 } ∧
    (cur p.toLookahead).TokenType = ErrorToken) ∨
  (gt ≠ ErrorGrammar ∧ mu q.toLookahead < mu p.toLookahead ∧
    ∃ c, Moves p.toLookahead c q.toLookahead ∧ List.Sublist n.leaves c)

/-- `shiftComponent` with fuel `F` returns from every buffer whose measure, doubled, is below
`F`. -/
def ScTotal (sc : Lookahead → Res Node) (F : Nat) : Prop :=
  ∀ p, Good p → 2 * mu p < F → ∃ r q, sc p = .ok (r, q)

/-- The stream of scenario 1, `a { color: red !important; }`. -/
def importantStream : TokenStream :=
  ⟨[⟨IdentToken, [97]⟩, ⟨WhitespaceToken, [32]⟩, ⟨LeftBraceToken, [123]⟩,
    ⟨WhitespaceToken, [32]⟩, ⟨IdentToken, [99, 111, 108, 111, 114]⟩, ⟨ColonToken, [58]⟩,
    ⟨WhitespaceToken, [32]⟩, ⟨IdentToken, [114, 101, 100]⟩, ⟨WhitespaceToken, [32]⟩,
    ⟨DelimToken, [33]⟩, ⟨IdentToken, [105, 109, 112, 111, 114, 116, 97, 110, 116]⟩,
    ⟨SemicolonToken, [59]⟩, ⟨WhitespaceToken, [32]⟩, ⟨RightBraceToken, [125]⟩],
    StreamError.EOF⟩

/-- The stream of scenario 2, `@media screen { a{b:c} }`. -/
def mediaStream : TokenStream :=
  ⟨[⟨AtKeywordToken, [64, 109, 101, 100, 105, 97]⟩, ⟨WhitespaceToken, [32]⟩,
    ⟨IdentToken, [115, 99, 114, 101, 101, 110]⟩, ⟨WhitespaceToken, [32]⟩,
    ⟨LeftBraceToken, [123]⟩, ⟨WhitespaceToken, [32]⟩, ⟨IdentToken, [97]⟩,
    ⟨LeftBraceToken, [123]⟩, ⟨IdentToken, [98]⟩, ⟨ColonToken, [58]⟩, ⟨IdentToken, [99]⟩,
    ⟨RightBraceToken, [125]⟩, ⟨WhitespaceToken, [32]⟩, ⟨RightBraceToken, [125]⟩],
    StreamError.EOF⟩

/-- Fifteen identifiers `x`, then whitespace, a comment, whitespace and the identifier `y`. -/
def padStream : TokenStream :=
  ⟨List.replicate 15 ⟨IdentToken, [120]⟩ ++ [⟨WhitespaceToken, [32]⟩,
    ⟨CommentToken, [47, 42, 42, 47]⟩, ⟨WhitespaceToken, [32]⟩, ⟨IdentToken, [121]⟩],
    StreamError.EOF⟩

/-- The buffer after fifteen `shift` calls and a `peek(0)` on `padStream`: the first whitespace
token is in the last of the sixteen slots and is the only live token. -/
def padState : Lookahead :=
  (runOps (List.replicate 15 BufOp.shift ++ [BufOp.peek 0]) (NewParser2 padStream).toLookahead).2

/-- The bottom of the stack of parser states is `StylesheetState`. -/
def StateOK (p : Parser2) : Prop := ∃ rest, p.state = StylesheetState :: rest

/-- The node that comes with an event: an at-rule node with `AtRule`, a ruleset node with
`Ruleset`, a declaration node with `Declaration`, nil with `Error`, a token otherwise. -/
def NodeKind (gt : GrammarType) (n : Node) : Prop :=
  match gt with
  | AtRuleGrammar => ∃ a ns rs, n = Node.AtRule a ns rs
  | RulesetGrammar => ∃ ss ds, n = Node.Ruleset ss ds
  | DeclarationGrammar => ∃ p vs i, n = Node.Declaration p vs i
  | ErrorGrammar => n = Node.Nil
  | _ => ∃ t, n = Node.Token t

/-- `Run inner p es b q`: repeated `Next` calls from `p` return the events `es`, none of them
an Error event, and reach `q`; when `b` is true one more `Next` call has returned the Error
event, and `q` is the parser after it. -/
inductive Run [BytesLib]
    (inner : Nat) : Parser2 → List (GrammarType × Node) → Bool → Parser2 → Prop where
  | stop (p : Parser2) : Run inner p [] false p
  | error (p : Parser2) (n : Node) (q : Parser2)
      (h : Parser2.Next inner p = .ok (ErrorGrammar, n, q)) : Run inner p [] true q
  | step (p : Parser2) (gt : GrammarType) (n : Node) (p1 : Parser2)
      (es : List (GrammarType × Node)) (b : Bool) (q : Parser2)
      (h : Parser2.Next inner p = .ok (gt, n, p1)) (hgt : gt ≠ ErrorGrammar)
      (hr : Run inner p1 es b q) : Run inner p ((gt, n) :: es) b q

/-- A start event opens a node. -/
def isStart (gt : GrammarType) : Bool := gt == AtRuleGrammar || gt == RulesetGrammar

/-- An End event closes the innermost open node. -/
def isEnd (gt : GrammarType) : Bool := gt == EndAtRuleGrammar || gt == EndRulesetGrammar

/-- A node becomes the last child of its parent: of the nodes of a stylesheet, of the rules of
an at-rule, of the declarations of a ruleset when it is a declaration (a ruleset node holds
declarations only). -/
def attach (parent child : Node) : Node :=
  match parent with
  | Node.Stylesheet ns => Node.Stylesheet (ns ++ [child])
  | Node.AtRule a ns rs => Node.AtRule a ns (rs ++ [child])
  | Node.Ruleset ss ds =>
    match child with
    | Node.Declaration _ _ _ => Node.Ruleset ss (ds ++ [child])
    | _ => parent
  | _ => parent

/-- At the Error event every node still open becomes a child of the node around it. -/
def closeAll : Node → List Node → Node
  | top, [] => top
  | top, parent :: st => closeAll (attach parent top) st

/-- The reconstruction of the nesting from the events, in the words of the spec: `top` is the
innermost open node and `st` the open nodes around it, the root last. A start event opens
its node; an End event closes the innermost open node, which becomes a child of the node
around it, and the terminator token of the End event is not kept; the node of any other
event becomes a child of the innermost open node. -/
def reconstruct : Node → List Node → List (GrammarType × Node) → Node
  | top, st, [] => closeAll top st
  | top, st, (gt, n) :: es =>
    if isStart gt then reconstruct n (top :: st) es
    else if isEnd gt then
      match st with
      | parent :: st2 => reconstruct (attach parent top) st2 es
      | [] => reconstruct top [] es
    else reconstruct (attach top n) st es

/-- No start event comes while the innermost open start event is a `Ruleset`; the first
argument lists the start events still open, the most recent first. -/
def rulesetsFlat : List GrammarType → List GrammarType → Bool
  | _, [] => true
  | st, gt :: es =>
    if isStart gt then (st.head? != some RulesetGrammar) && rulesetsFlat (gt :: st) es
    else if isEnd gt then rulesetsFlat st.tail es
    else rulesetsFlat st es

/-- The events are strictly nested and no start event comes inside a ruleset, given the start
events still open. -/
def Flat (ks : List GrammarType) (evs : List GrammarType) : Prop :=
  nestedFrom ks evs = true ∧ rulesetsFlat ks evs = true

/-- The stream of `a{b{c:d}}`: a ruleset inside a ruleset. -/
def nestedStream : TokenStream :=
  ⟨[⟨IdentToken, [97]⟩, ⟨LeftBraceToken, [123]⟩, ⟨IdentToken, [98]⟩, ⟨LeftBraceToken, [123]⟩,
    ⟨IdentToken, [99]⟩, ⟨ColonToken, [58]⟩, ⟨IdentToken, [100]⟩, ⟨RightBraceToken, [125]⟩,
    ⟨RightBraceToken, [125]⟩], StreamError.EOF⟩

/-- The token kinds at which the forward scan of `parseRuleset` stops: `{`, `;` and error. -/
def scanStop (t : TokenNode) : Bool :=
  t.TokenType == LeftBraceToken || t.TokenType == SemicolonToken || t.TokenType == ErrorToken

/-- The stream of `a,a,a,a,a,a,a,a,a,a{}`: nineteen tokens come before the `{`. -/
def longPreludeStream : TokenStream :=
  ⟨(List.replicate 9 [⟨IdentToken, [97]⟩, ⟨CommaToken, [44]⟩]).flatten ++
    [⟨IdentToken, [97]⟩, ⟨LeftBraceToken, [123]⟩, ⟨RightBraceToken, [125]⟩],
    StreamError.EOF⟩

/-- The stream of `b:f(;) x x x x ! /**/ important;`: the `!` is followed by whitespace, a
comment and whitespace, and the first of these whitespace tokens is the sixteenth token the
buffer reads. -/
def gapStream : TokenStream :=
  ⟨[⟨IdentToken, [98]⟩, ⟨ColonToken, [58]⟩, ⟨FunctionToken, [102, 40]⟩,
    ⟨SemicolonToken, [59]⟩, ⟨RightParenthesisToken, [41]⟩,
    ⟨WhitespaceToken, [32]⟩, ⟨IdentToken, [120]⟩, ⟨WhitespaceToken, [32]⟩,
    ⟨IdentToken, [120]⟩, ⟨WhitespaceToken, [32]⟩, ⟨IdentToken, [120]⟩,
    ⟨WhitespaceToken, [32]⟩, ⟨IdentToken, [120]⟩, ⟨WhitespaceToken, [32]⟩,
    ⟨DelimToken, [33]⟩, ⟨WhitespaceToken, [32]⟩, ⟨CommentToken, [47, 42, 42, 47]⟩,
    ⟨WhitespaceToken, [32]⟩, ⟨IdentToken, [105, 109, 112, 111, 114, 116, 97, 110, 116]⟩,
    ⟨SemicolonToken, [59]⟩],
    StreamError.EOF⟩

/-- The stream of `b:f(;) x x x x ! important;`, which is `gapStream` without the comment and
the whitespace after it. -/
def noGapStream : TokenStream :=
  ⟨[⟨IdentToken, [98]⟩, ⟨ColonToken, [58]⟩, ⟨FunctionToken, [102, 40]⟩,
    ⟨SemicolonToken, [59]⟩, ⟨RightParenthesisToken, [41]⟩,
    ⟨WhitespaceToken, [32]⟩, ⟨IdentToken, [120]⟩, ⟨WhitespaceToken, [32]⟩,
    ⟨IdentToken, [120]⟩, ⟨WhitespaceToken, [32]⟩, ⟨IdentToken, [120]⟩,
    ⟨WhitespaceToken, [32]⟩, ⟨IdentToken, [120]⟩, ⟨WhitespaceToken, [32]⟩,
    ⟨DelimToken, [33]⟩, ⟨WhitespaceToken, [32]⟩,
    ⟨IdentToken, [105, 109, 112, 111, 114, 116, 97, 110, 116]⟩,
    ⟨SemicolonToken, [59]⟩],
    StreamError.EOF⟩

/-- A `!` delimiter: the test `p.at(DelimToken) && p.data()[0] == '!'` on a token. -/
def isBang (t : TokenNode) : Bool := t.TokenType == DelimToken && t.Data.head? == some 33

/-- An identifier equal to "important" ignoring case, that is, one whose bytes
`bytes.ToLower` maps to `important`: the test
`p.at(IdentToken) && bytes.Equal(bytes.ToLower(p.data()), []byte("important"))` on a token. -/
def isImportant [BytesLib] (t : TokenNode) : Bool :=
  t.TokenType == IdentToken && BytesLib.ToLower t.Data == importantBytes

/-- The first token of the list is an identifier equal to "important" ignoring case. -/
def importantAtHead [BytesLib] : List TokenNode → Bool
  | [] => false
  | t :: _ => isImportant t

/-- The list starts with an identifier equal to "important" ignoring case, directly or after
one whitespace token. -/
def followedByImportant [BytesLib] : List TokenNode → Bool
  | [] => false
  | t :: r => isImportant t || (t.TokenType == WhitespaceToken && importantAtHead r)

/-- Some `!` delimiter of the list is followed, directly or after one whitespace token, by an
identifier equal to "important" ignoring case. -/
def bangImportant [BytesLib] : List TokenNode → Bool
  | [] => false
  | t :: r => (isBang t && followedByImportant r) || bangImportant r

/-- The token sequence, whitespace ignored, ends with a `!` delimiter followed by an identifier
equal to "important" ignoring case. -/
def endsWithImportant [BytesLib] (l : List TokenNode) : Bool :=
  match (l.filter notSpace).reverse with
  | i :: b :: _ => isImportant i && isBang b
  | _ => false

/-- The stream of `b:c !IMPORTANT d;`. -/
def midImportantStream : TokenStream :=
  ⟨[⟨IdentToken, [98]⟩, ⟨ColonToken, [58]⟩, ⟨IdentToken, [99]⟩, ⟨WhitespaceToken, [32]⟩,
    ⟨DelimToken, [33]⟩, ⟨IdentToken, [73, 77, 80, 79, 82, 84, 65, 78, 84]⟩,
    ⟨WhitespaceToken, [32]⟩, ⟨IdentToken, [100]⟩, ⟨SemicolonToken, [59]⟩],
    StreamError.EOF⟩

/-- The stream of `color: red ! important;`. -/
def declStream : TokenStream :=
  ⟨[⟨IdentToken, [99, 111, 108, 111, 114]⟩, ⟨ColonToken, [58]⟩, ⟨WhitespaceToken, [32]⟩,
    ⟨IdentToken, [114, 101, 100]⟩, ⟨WhitespaceToken, [32]⟩, ⟨DelimToken, [33]⟩,
    ⟨WhitespaceToken, [32]⟩, ⟨IdentToken, [105, 109, 112, 111, 114, 116, 97, 110, 116]⟩,
    ⟨SemicolonToken, [59]⟩],
    StreamError.EOF⟩

/-- `Shifts p c q`: the parser gets from `p` to `q` by shifting exactly the tokens `c`, and
the token sequence `c` followed by the current token of `q` starts with the current token
of `p`. -/
def Shifts (p : Lookahead) (c : List TokenNode) (q : Lookahead) : Prop :=
  Moves p c q ∧ (c ++ [cur q]).head? = some (cur p)

/-- The tokens that open a block: `(`, `{` and `[`. -/
def isOpener (t : TokenNode) : Bool :=
  t.TokenType == LeftParenthesisToken || t.TokenType == LeftBraceToken ||
    t.TokenType == LeftBracketToken

/-- The tokens at which the loop of `parseBlock` stops other than the error token: `}`, `)`
and `]`. -/
def isCloser (t : TokenNode) : Bool :=
  t.TokenType == RightBraceToken || t.TokenType == RightParenthesisToken ||
    t.TokenType == RightBracketToken

/-- The closer that matches an opener: `)` for `(`, `}` for `{`, `]` for `[`. -/
def matchingCloser : TokenType → Option TokenType
  | LeftParenthesisToken => some RightParenthesisToken
  | LeftBraceToken => some RightBraceToken
  | LeftBracketToken => some RightBracketToken
  | _ => none

/-- The stream of `(a]`. -/
def mismatchStream : TokenStream :=
  ⟨[⟨LeftParenthesisToken, [40]⟩, ⟨IdentToken, [97]⟩, ⟨RightBracketToken, [93]⟩],
    StreamError.EOF⟩

/-- The stream of `(a)`. -/
def parenStream : TokenStream :=
  ⟨[⟨LeftParenthesisToken, [40]⟩, ⟨IdentToken, [97]⟩, ⟨RightParenthesisToken, [41]⟩],
    StreamError.EOF⟩

/-- A Block node whose Close token is absent. -/
def Node.unclosed : Node → Bool
  | Node.Block _ _ none => true
  | _ => false

/-- No element of the sequence other than the last is a Block without its Close token. -/
def unclosedLast (ns : List Node) : Bool := ns.dropLast.all (fun n => !n.unclosed)

mutual
/-- Everywhere in the tree, in an at-rule prelude, in the values of an Argument and in the
nodes of a Block, a Block without its Close token is the last element of the sequence. -/
def Node.blocksLast : Node → Bool
  | Node.Token _ => true
  | Node.Stylesheet ns => listBlocksLast ns
  | Node.AtRule _ ns rs => unclosedLast ns && listBlocksLast ns && listBlocksLast rs
  | Node.Ruleset _ ds => listBlocksLast ds
  | Node.Declaration _ vs _ => listBlocksLast vs
  | Node.Function _ args => listBlocksLast args
  | Node.Argument vs => unclosedLast vs && listBlocksLast vs
  | Node.Block _ ns _ => unclosedLast ns && listBlocksLast ns
  | Node.Nil => true
/-- The property `Node.blocksLast` of every node of a list. -/
def listBlocksLast : List Node → Bool
  | [] => true
  | n :: ns => n.blocksLast && listBlocksLast ns
end

/-- What the loops need of `shiftComponent` about unclosed blocks: its node has the property
`blocksLast`, and when the node is a Block without its Close token the parser stands at an
error token. -/
def ScBlocks (sc : Lookahead → Res Node) : Prop :=
  ∀ p r q, Inv p → sc p = .ok (r, q) →
    r.blocksLast = true ∧ (r.unclosed = true → (cur q).TokenType = ErrorToken)

/-- The state of a loop that appends components to `nodes`: the nodes have the property
`blocksLast`, only the last one may be an unclosed block, and it is one only when the parser
stands at an error token. -/
def SeqOK (nodes : List Node) (p : Lookahead) : Prop :=
  listBlocksLast nodes = true ∧ unclosedLast nodes = true ∧
    ((cur p).TokenType ≠ ErrorToken → nodes.all (fun n => !n.unclosed) = true)

/-- The stream of `@media (a { b`: the block `(` is never closed. -/
def unclosedStream : TokenStream :=
  ⟨[⟨AtKeywordToken, [64, 109, 101, 100, 105, 97]⟩, ⟨WhitespaceToken, [32]⟩,
    ⟨LeftParenthesisToken, [40]⟩, ⟨IdentToken, [97]⟩, ⟨WhitespaceToken, [32]⟩,
    ⟨LeftBraceToken, [123]⟩, ⟨WhitespaceToken, [32]⟩, ⟨IdentToken, [98]⟩],
    StreamError.EOF⟩

/-- The stream of `func(1, 2)`. -/
def funcStream : TokenStream :=
  ⟨[⟨FunctionToken, [102, 117, 110, 99, 40]⟩, ⟨NumberToken, [49]⟩, ⟨CommaToken, [44]⟩,
    ⟨WhitespaceToken, [32]⟩, ⟨NumberToken, [50]⟩, ⟨RightParenthesisToken, [41]⟩],
    StreamError.EOF⟩

/-- A Function node. -/
def Node.isFunction : Node → Bool
  | Node.Function _ _ => true
  | _ => false

/-- The stream of `a[b{c}`: the attribute bracket is never closed. -/
def attrStream : TokenStream :=
  ⟨[⟨IdentToken, [97]⟩, ⟨LeftBracketToken, [91]⟩, ⟨IdentToken, [98]⟩,
    ⟨LeftBraceToken, [123]⟩, ⟨IdentToken, [99]⟩, ⟨RightBraceToken, [125]⟩],
    StreamError.EOF⟩

/-- The stream of `a [b]{}`. -/
def spaceBracketStream : TokenStream :=
  ⟨[⟨IdentToken, [97]⟩, ⟨WhitespaceToken, [32]⟩, ⟨LeftBracketToken, [91]⟩,
    ⟨IdentToken, [98]⟩, ⟨RightBracketToken, [93]⟩, ⟨LeftBraceToken, [123]⟩,
    ⟨RightBraceToken, [125]⟩],
    StreamError.EOF⟩

/-- The stream of `a b{}`. -/
def spaceIdentStream : TokenStream :=
  ⟨[⟨IdentToken, [97]⟩, ⟨WhitespaceToken, [32]⟩, ⟨IdentToken, [98]⟩,
    ⟨LeftBraceToken, [123]⟩, ⟨RightBraceToken, [125]⟩],
    StreamError.EOF⟩

/-- The stream of `@import "x";`. -/
def importStream : TokenStream :=
  ⟨[⟨AtKeywordToken, [64, 105, 109, 112, 111, 114, 116]⟩, ⟨WhitespaceToken, [32]⟩,
    ⟨StringToken, [34, 120, 34]⟩, ⟨SemicolonToken, [59]⟩],
    StreamError.EOF⟩

/-- The stream of `a{p:v}b{q:w}`: two rulesets, whose declarations are not followed by `;`. -/
def twoRulesetsStream : TokenStream :=
  ⟨[⟨IdentToken, [97]⟩, ⟨LeftBraceToken, [123]⟩, ⟨IdentToken, [112]⟩, ⟨ColonToken, [58]⟩,
    ⟨IdentToken, [118]⟩, ⟨RightBraceToken, [125]⟩, ⟨IdentToken, [98]⟩,
    ⟨LeftBraceToken, [123]⟩, ⟨IdentToken, [113]⟩, ⟨ColonToken, [58]⟩, ⟨IdentToken, [119]⟩,
    ⟨RightBraceToken, [125]⟩],
    StreamError.EOF⟩

/-- The stream of `a{p:v;}b{q:w;}`, which is `twoRulesetsStream` with a `;` after each
declaration. -/
def twoRulesetsSemiStream : TokenStream :=
  ⟨[⟨IdentToken, [97]⟩, ⟨LeftBraceToken, [123]⟩, ⟨IdentToken, [112]⟩, ⟨ColonToken, [58]⟩,
    ⟨IdentToken, [118]⟩, ⟨SemicolonToken, [59]⟩, ⟨RightBraceToken, [125]⟩,
    ⟨IdentToken, [98]⟩, ⟨LeftBraceToken, [123]⟩, ⟨IdentToken, [113]⟩, ⟨ColonToken, [58]⟩,
    ⟨IdentToken, [119]⟩, ⟨SemicolonToken, [59]⟩, ⟨RightBraceToken, [125]⟩],
    StreamError.EOF⟩

/-- The stream of `a,a,a,a,a,a,a,a /**/ y`: fifteen tokens, then whitespace, a comment,
whitespace and the identifier `y`. -/
def commaPadStream : TokenStream :=
  ⟨(List.replicate 7 [⟨IdentToken, [97]⟩, ⟨CommaToken, [44]⟩]).flatten ++
    [⟨IdentToken, [97]⟩, ⟨WhitespaceToken, [32]⟩, ⟨CommentToken, [47, 42, 42, 47]⟩,
      ⟨WhitespaceToken, [32]⟩, ⟨IdentToken, [121]⟩],
    StreamError.EOF⟩

/-- The buffer after fifteen `shift` calls on `commaPadStream`. -/
def commaPadState : Lookahead :=
  (runOps (List.replicate 15 BufOp.shift) (NewParser2 commaPadStream).toLookahead).2

/-- The stream of `@media screen{a{b:c}d{e:f}}`: two rulesets nested in an at-rule. -/
def mediaTwoStream : TokenStream :=
  ⟨[⟨AtKeywordToken, [64, 109, 101, 100, 105, 97]⟩, ⟨WhitespaceToken, [32]⟩,
    ⟨IdentToken, [115, 99, 114, 101, 101, 110]⟩, ⟨LeftBraceToken, [123]⟩,
    ⟨IdentToken, [97]⟩, ⟨LeftBraceToken, [123]⟩, ⟨IdentToken, [98]⟩, ⟨ColonToken, [58]⟩,
    ⟨IdentToken, [99]⟩, ⟨RightBraceToken, [125]⟩,
    ⟨IdentToken, [100]⟩, ⟨LeftBraceToken, [123]⟩, ⟨IdentToken, [101]⟩, ⟨ColonToken, [58]⟩,
    ⟨IdentToken, [102]⟩, ⟨RightBraceToken, [125]⟩, ⟨RightBraceToken, [125]⟩],
    StreamError.EOF⟩

/-- The stream of `@media screen{a{b:c;}d{e:f;}}`: as `mediaTwoStream`, with a `;` after
each declaration. -/
def mediaTwoSemiStream : TokenStream :=
  ⟨[⟨AtKeywordToken, [64, 109, 101, 100, 105, 97]⟩, ⟨WhitespaceToken, [32]⟩,
    ⟨IdentToken, [115, 99, 114, 101, 101, 110]⟩, ⟨LeftBraceToken, [123]⟩,
    ⟨IdentToken, [97]⟩, ⟨LeftBraceToken, [123]⟩, ⟨IdentToken, [98]⟩, ⟨ColonToken, [58]⟩,
    ⟨IdentToken, [99]⟩, ⟨SemicolonToken, [59]⟩, ⟨RightBraceToken, [125]⟩,
    ⟨IdentToken, [100]⟩, ⟨LeftBraceToken, [123]⟩, ⟨IdentToken, [101]⟩, ⟨ColonToken, [58]⟩,
    ⟨IdentToken, [102]⟩, ⟨SemicolonToken, [59]⟩, ⟨RightBraceToken, [125]⟩,
    ⟨RightBraceToken, [125]⟩],
    StreamError.EOF⟩

/-- The tokens still to come that are neither whitespace nor comments: those buffered from
the position on, then those unread. -/
def ahead (p : Lookahead) : List TokenNode := (live p ++ p.z.toks).filter notSpace

/-- The lowering of the bytes of an identifier that holds ASCII letters and the capital `İ`
(U+0130, the bytes 0xC4 0xB0): the ASCII capitals are lowered and `İ` becomes `i`, as
`unicode.ToLower` maps it. -/
def lowerDotted : List Nat → List Nat
  | 196 :: 176 :: r => 105 :: lowerDotted r
  | b :: r => byteToLower b :: lowerDotted r
  | [] => []

/-- The library of the example with the identifier `İmportant`: on its bytes `bytes.ToLower`
maps every rune with `unicode.ToLower`, which is what `lowerDotted` computes for them. -/
def dottedLib : BytesLib := ⟨lowerDotted⟩

/-- The stream of `b:c !İmportant;`, the identifier with the capital `İ` (U+0130). -/
def dottedImportantStream : TokenStream :=
  ⟨[⟨IdentToken, [98]⟩, ⟨ColonToken, [58]⟩, ⟨IdentToken, [99]⟩, ⟨WhitespaceToken, [32]⟩,
    ⟨DelimToken, [33]⟩, ⟨IdentToken, [196, 176, 109, 112, 111, 114, 116, 97, 110, 116]⟩,
    ⟨SemicolonToken, [59]⟩],
    StreamError.EOF⟩

/-- The tokens at which the loop of `parseBlock` stops: `}`, `)`, `]` and the error token. -/
def blockStop (t : TokenNode) : Bool := isCloser t || t.TokenType == ErrorToken

/-- The tokens at which the loop of `parseFunction` stops: `)` and the error token. -/
def funcStop (t : TokenNode) : Bool :=
  t.TokenType == RightParenthesisToken || t.TokenType == ErrorToken

/-- `Components stop l`: the tokens `l` (whitespace and comments apart) are a sequence of
components as `shiftComponent` takes them, none of which begins with a token of `stop`. A
component is a token that opens neither a block nor a function; or a block, from `(`, `[` or
`{` over the components in it to the first `)`, `]` or `}` after them; or a function, from
the function-open token over its arguments (components and commas) to the `)` after them. -/
inductive Components : (TokenNode → Bool) → List TokenNode → Prop where
  | nil (stop : TokenNode → Bool) : Components stop []
  | token (stop : TokenNode → Bool) (t : TokenNode) (rest : List TokenNode)
      (hs : stop t = false) (ho : isOpener t = false) (hf : t.TokenType ≠ FunctionToken)
      (h : Components stop rest) : Components stop (t :: rest)
  | block (stop : TokenNode → Bool) (o : TokenNode) (body : List TokenNode) (c : TokenNode)
      (rest : List TokenNode) (hs : stop o = false) (ho : isOpener o = true)
      (hb : Components blockStop body) (hc : isCloser c = true) (h : Components stop rest) :
      Components stop (o :: (body ++ c :: rest))
  | function (stop : TokenNode → Bool) (f : TokenNode) (args : List TokenNode) (c : TokenNode)
      (rest : List TokenNode) (hs : stop f = false) (hf : f.TokenType = FunctionToken)
      (ha : Components funcStop args) (hc : c.TokenType = RightParenthesisToken)
      (h : Components stop rest) : Components stop (f :: (args ++ c :: rest))

/-- The stream of `@import f(x, y) (a [b]);`: an at-rule in statement form whose prelude
holds a function and a block. -/
def importComponentsStream : TokenStream :=
  ⟨[⟨AtKeywordToken, [64, 105, 109, 112, 111, 114, 116]⟩, ⟨WhitespaceToken, [32]⟩,
    ⟨FunctionToken, [102, 40]⟩, ⟨IdentToken, [120]⟩, ⟨CommaToken, [44]⟩,
    ⟨WhitespaceToken, [32]⟩, ⟨IdentToken, [121]⟩, ⟨RightParenthesisToken, [41]⟩,
    ⟨WhitespaceToken, [32]⟩, ⟨LeftParenthesisToken, [40]⟩, ⟨IdentToken, [97]⟩,
    ⟨WhitespaceToken, [32]⟩, ⟨LeftBracketToken, [91]⟩, ⟨IdentToken, [98]⟩,
    ⟨RightBracketToken, [93]⟩, ⟨RightParenthesisToken, [41]⟩, ⟨SemicolonToken, [59]⟩],
    StreamError.EOF⟩

/-- What `shiftComponent` with fuel `F` does at the component `comp`: from a parser at whose
current token the component begins it gets to a parser behind the component. -/
def CompOK (F : Nat) (comp : List TokenNode) : Prop :=
  ∀ (p : Lookahead) (rest : List TokenNode) (r : Node) (q : Lookahead), Inv p →
    (comp ++ rest) <+: ahead p → notSpace (cur p) = true → shiftComponent F p = .ok (r, q) →
    Inv q ∧ rest <+: ahead q

/-- The token lists `cs` are components that do not begin with a token of `stop`; one that
begins with a comma is the comma alone. -/
def GoodComps (stop : TokenNode → Bool) (cs : List (List TokenNode)) : Prop :=
  ∀ comp ∈ cs, ∃ t l, comp = t :: l ∧ stop t = false ∧ (t.TokenType = CommaToken → l = []) ∧
    ∀ F, CompOK F comp

end css

/-!
# Shallow embedding of `js/parse.go` (package js)

The JavaScript parser `Parser` is a recursive descent parser over a lexer. The lexer, its
token kinds and `IsIdentifier` are not part of the sources at hand: the lexer is a list of
tokens, and `IsIdentifier` and the re-lexing `RegExp` are parameters (`Env`). Byte slices are
lists of byte values; the recursion of the descent functions and their loops take fuel.
-/

namespace js

/-- Modelled from the spec: the token kinds of the lexer that `parse.go` names (the
declaration of `TokenType` is not part of the sources at hand); `ErrorToken` is the kind with
value 0, and `OtherToken` stands for any kind that `parse.go` does not name. -/
inductive TokenType where
  | ErrorToken | WhitespaceToken | LineTerminatorToken | CommentToken
  | StringToken | TemplateToken | TemplateStartToken | TemplateMiddleToken | TemplateEndToken
  | RegExpToken | NumericToken | IdentifierToken
  | OpenBraceToken | CloseBraceToken | OpenParenToken | CloseParenToken
  | OpenBracketToken | CloseBracketToken | DotToken | SemicolonToken | CommaToken
  | QuestionToken | ColonToken | ArrowToken | EllipsisToken | OptChainToken
  | EqToken | EqEqToken | EqEqEqToken | NotToken | NotEqToken | NotEqEqToken
  | LtToken | LtEqToken | LtLtToken | LtLtEqToken | GtToken | GtEqToken | GtGtToken
  | GtGtEqToken | GtGtGtToken | GtGtGtEqToken
  | AddToken | AddEqToken | IncrToken | SubToken | SubEqToken | DecrToken
  | MulToken | MulEqToken | ExpToken | ExpEqToken | DivToken | DivEqToken
  | ModToken | ModEqToken | BitAndToken | BitOrToken | BitXorToken | BitNotToken
  | BitAndEqToken | BitOrEqToken | BitXorEqToken | AndToken | OrToken | NullishToken
  | AwaitToken | BreakToken | CaseToken | CatchToken | ClassToken | ConstToken
  | ContinueToken | DebuggerToken | DefaultToken | DeleteToken | DoToken | ElseToken
  | ExportToken | ExtendsToken | FalseToken | FinallyToken | ForToken | FunctionToken
  | IfToken | ImportToken | InToken | InstanceofToken | NewToken | NullToken
  | ReturnToken | SuperToken | SwitchToken | ThisToken | ThrowToken | TrueToken
  | TryToken | TypeofToken | VarToken | VoidToken | WhileToken | WithToken | YieldToken
  | LetToken | StaticToken | AsyncToken | OfToken | TargetToken
  | OtherToken
  deriving DecidableEq, Repr

open TokenType

/-- GrammarType determines the type of grammar. -/
inductive GrammarType where
  | ErrorGrammar
  | ModuleGrammar
  | TokenGrammar
  | CommentGrammar
  | BindingGrammar
  | ClauseGrammar
  | MethodGrammar
  | ExprGrammar
  | StmtGrammar
  deriving DecidableEq, Repr

open GrammarType

/-- The struct `Node`: `gt`, `nodes`, and `tt`, `data` (filled if `gt == TokenGrammar`). -/
inductive Node where
  | mk (gt : GrammarType) (nodes : List Node) (tt : TokenType) (data : List Nat)
  deriving Repr

/-- The field `gt`. -/
def Node.gt : Node → GrammarType
  | Node.mk g _ _ _ => g

/-- The field `nodes`. -/
def Node.nodes : Node → List Node
  | Node.mk _ ns _ _ => ns

/-- The field `tt`. -/
def Node.tt : Node → TokenType
  | Node.mk _ _ t _ => t

/-- The field `data`. -/
def Node.data : Node → List Nat
  | Node.mk _ _ _ d => d

/-- The zero value `Node{}`: the grammar type 0 (`ErrorGrammar`), no nodes, the token kind 0
(`ErrorToken`), no data. -/
def Node.zero : Node := Node.mk ErrorGrammar [] ErrorToken []

/-- A node `Node{gt, nodes, 0, nil}`. -/
def Node.inner (gt : GrammarType) (nodes : List Node) : Node := Node.mk gt nodes ErrorToken []

/-- Modelled from the spec: the error that the lexer reports through `Err()`: end of input
(`io.EOF`) or another error. -/
inductive LexError where
  | EOF
  | other (msg : String)
  deriving DecidableEq, Repr

/-- Modelled from the spec: the lexer (its source is not part of the sources at hand): the
tokens still to come, after which `Next` returns `ErrorToken` forever, the error that `Err`
reports, the offset `l.r.Offset()` in the input, and the number of `RegExp` calls so far. -/
structure Lexer where
  toks : List (TokenType × List Nat)
  err : LexError
  offset : Nat
  regexps : Nat
  deriving Repr

/-- Modelled from the spec: `Lexer.Next`, the next token kind and its bytes. -/
def Lexer.Next (l : Lexer) : (TokenType × List Nat) × Lexer :=
  match l.toks with
  | [] => ((ErrorToken, []), l)
  | t :: ts => (t, { l with toks := ts, offset := l.offset + t.2.length })

/-- Lexer.Err. -/
def Lexer.Err (l : Lexer) : LexError := l.err

/-- What `fail` reports as found: the bytes of the current token, or the error of the lexer
when the current token is the error token. -/
inductive Found where
  | data (bytes : List Nat)
  | lexer (e : LexError)
  deriving DecidableEq, Repr

/-- The error of the parser: the error of the lexer, or the error that `fail` builds with
`parse.NewError` from the offset, the expected token kinds (the text `s`), what was found
(the text `at`) and the name of the grammar rule (`in`). -/
inductive Error where
  | lexer (e : LexError)
  | grammar (offset : Int) (expected : List TokenType) (found : Found) (rule : String)
  deriving DecidableEq, Repr

/-- Parser is the state for the parser; `err` is `none` for nil. -/
structure Parser where
  l : Lexer
  err : Option Error
  tt : TokenType
  data : List Nat
  prevLineTerminator : Bool
  deriving Repr

/-- The parts of the lexer package that the parser takes as given: `IsIdentifier` and the
method `RegExp`, which re-lexes the current token as a regular expression. -/
structure Env where
  IsIdentifier : TokenType → Bool
  RegExp : Lexer → (TokenType × List Nat) × Lexer

/-- How a computation ends without a result: the fuel of the model is used up, or the Go
code panics. -/
inductive Abort where
  | fuel
  | panic
  deriving DecidableEq, Repr

/-- A method of `Parser`: it returns a value and the parser as it is afterwards. -/
def M (α : Type) : Type := Parser → Except Abort (α × Parser)

instance : Monad M where
  pure a := fun p => .ok (a, p)
  bind m f := fun p =>
    match m p with
    | .error e => .error e
    | .ok (a, q) => f a q

/-- The field `p.tt`. -/
def getTt : M TokenType := fun p => .ok (p.tt, p)

/-- The field `p.data`. -/
def getData : M (List Nat) := fun p => .ok (p.data, p)

/-- The field `p.prevLineTerminator`. -/
def getPrevLineTerminator : M Bool := fun p => .ok (p.prevLineTerminator, p)

/-- The fuel of the model is used up. -/
def outOfFuel {α : Type} : M α := fun _ => .error .fuel

/-- A Go panic. -/
def goPanic {α : Type} : M α := fun _ => .error .panic

/-- The loop of `next` that skips whitespace and line terminators; its fuel is the number of
tokens still to come plus one, which it never uses up. -/
def nextLoop : Nat → Parser → Parser
  | 0, p => p
  | n + 1, p =>
    if p.tt = WhitespaceToken ∨ p.tt = LineTerminatorToken then
      let p1 := if p.tt = LineTerminatorToken then { p with prevLineTerminator := true } else p
      let r := p1.l.Next
      nextLoop n { p1 with tt := r.1.1, data := r.1.2, l := r.2 }
    else p

/-- The state after `next`. -/
def nextState (p : Parser) : Parser :=
  if p.tt = ErrorToken then p
  else
    let r := p.l.Next
    nextLoop (r.2.toks.length + 1)
      { p with prevLineTerminator := false, tt := r.1.1, data := r.1.2, l := r.2 }

/-- Parser.next. -/
def next : M Unit := fun p => .ok ((), nextState p)

/-- The state after `fail`. -/
def failState (rule : String) (expected : List TokenType) (p : Parser) : Parser :=
  match p.err with
  | none =>
    let found := if p.tt = ErrorToken then Found.lexer p.l.Err else Found.data p.data
    let offset : Int := (p.l.offset : Int) - (p.data.length : Int)
    { p with err := some (Error.grammar offset expected found rule), tt := ErrorToken,
             data := [] }
  | some _ => p

/-- Parser.fail; `rule` is the argument `in`. -/
def fail (rule : String) (expected : List TokenType) : M Unit :=
  fun p => .ok ((), failState rule expected p)

/-- Parser.consume. -/
def consume (rule : String) (tt : TokenType) : M Bool := do
  if (← getTt) ≠ tt then
    fail rule [tt]
    pure false
  else
    next
    pure true

/-- Parser.parseToken. -/
def parseToken : M Node := do
  let node := Node.mk TokenGrammar [] (← getTt) (← getData)
  next
  pure node

/-- The descent functions through which the recursion goes, as the callee has them. -/
structure Rec where
  parseStmt : M Node
  parseAssignmentExpr : M Node
  parseLeftHandSideExpr : List Node → M (List Node)
  parseBinding : M Node

/-- The identifier-like token kinds `IdentifierToken`, `YieldToken` and `AwaitToken`. -/
def identLike (tt : TokenType) : Bool :=
  tt = IdentifierToken || tt = YieldToken || tt = AwaitToken

/-- The loop of `parseExpr` over the commas. -/
def parseExprLoop (r : Rec) : Nat → Node → M Node
  | 0, _ => outOfFuel
  | f + 1, node => do
    if (← getTt) = CommaToken then
      next
      let n ← r.parseAssignmentExpr
      parseExprLoop r f (Node.mk node.gt (node.nodes ++ n.nodes) node.tt node.data)
    else pure node

/-- Parser.parseExpr. -/
def parseExpr (F : Nat) (r : Rec) : M Node := do
  let node ← r.parseAssignmentExpr
  parseExprLoop r F node

/-- Parser.parseTemplateLiteral. The body of the `for` loop always returns, so that the loop
is an `if`. -/
def parseTemplateLiteral (F : Nat) (r : Rec) (nodes : List Node) : M (List Node) := do
  let tt ← getTt
  if tt = TemplateStartToken ∨ tt = TemplateMiddleToken then
    let t ← parseToken
    let e ← parseExpr F r
    let nodes := nodes ++ [t] ++ [e]
    if (← getTt) = TemplateEndToken then
      let t2 ← parseToken
      pure (nodes ++ [t2])
    else
      fail "template literal" [TemplateToken]
      pure []
  else
    let t ← parseToken
    pure (nodes ++ [t])

/-- Parser.parseBindingElement. -/
def parseBindingElement (r : Rec) : M Node := do
  let binding ← r.parseBinding
  if (← getTt) = EqToken then
    let t ← parseToken
    let e ← r.parseAssignmentExpr
    pure (Node.mk binding.gt (binding.nodes ++ [t] ++ [e]) binding.tt binding.data)
  else pure binding

/-- The loop of `parseFuncParams`; `none` is the early `return nil`. -/
def parseFuncParamsLoop (rule : String) (r : Rec) : Nat → List Node → M (Option (List Node))
  | 0, _ => outOfFuel
  | f + 1, nodes => do
    if (← getTt) ≠ CloseParenToken then
      if (← getTt) = EllipsisToken then
        let t ← parseToken
        let b ← r.parseBinding
        pure (some (nodes ++ [t] ++ [b]))
      else
        let b ← parseBindingElement r
        let nodes := nodes ++ [b]
        if (← getTt) = CommaToken then
          next
          parseFuncParamsLoop rule r f nodes
        else if (← getTt) = CloseParenToken then pure (some nodes)
        else
          fail rule [CommaToken, CloseParenToken]
          pure none
    else pure (some nodes)

/-- Parser.parseFuncParams; the result `nil` is the empty list. -/
def parseFuncParams (rule : String) (F : Nat) (r : Rec) (nodes : List Node) :
    M (List Node) := do
  if !(← consume rule OpenParenToken) then pure []
  else
    match ← parseFuncParamsLoop rule r F nodes with
    | none => pure []
    | some nodes =>
      if !(← consume rule CloseParenToken) then pure []
      else pure nodes

/-- The loop of `parseBlockStmt`. -/
def parseBlockStmtLoop (r : Rec) : Nat → List Node → M (List Node)
  | 0, _ => outOfFuel
  | f + 1, nodes => do
    if (← getTt) ≠ ErrorToken then
      if (← getTt) = CloseBraceToken then
        let t ← parseToken
        pure (nodes ++ [t])
      else
        let st ← r.parseStmt
        parseBlockStmtLoop r f (nodes ++ [st])
    else pure nodes

/-- Parser.parseBlockStmt. -/
def parseBlockStmt (rule : String) (F : Nat) (r : Rec) : M Node := do
  if (← getTt) ≠ OpenBraceToken then
    fail rule [OpenBraceToken]
    pure Node.zero
  else
    let t ← parseToken
    let nodes ← parseBlockStmtLoop r F [t]
    pure (Node.inner StmtGrammar nodes)

/-- Parser.parseFuncDecl. -/
def parseFuncDecl (F : Nat) (r : Rec) (nodes : List Node) : M (List Node) := do
  let t ← parseToken
  let nodes := nodes ++ [t]
  let nodes ← (do
    if (← getTt) = MulToken then
      let t ← parseToken
      pure (nodes ++ [t])
    else pure nodes)
  let nodes ← (do
    if identLike (← getTt) then
      let t ← parseToken
      pure (nodes ++ [t])
    else pure nodes)
  let nodes ← parseFuncParams "function declaration" F r nodes
  let b ← parseBlockStmt "function declaration" F r
  pure (nodes ++ [b])

/-- The loop of `parseVarDecl`. -/
def parseVarDeclLoop (r : Rec) : Nat → List Node → M (List Node)
  | 0, _ => outOfFuel
  | f + 1, nodes => do
    let b ← parseBindingElement r
    let nodes := nodes ++ [b]
    if (← getTt) = CommaToken then
      next
      parseVarDeclLoop r f nodes
    else pure nodes

/-- Parser.parseVarDecl. -/
def parseVarDecl (F : Nat) (r : Rec) (nodes : List Node) : M (List Node) := do
  let t ← parseToken
  parseVarDeclLoop r F (nodes ++ [t])

/-- The bytes of "get", "set", "of" and "target". -/
def bytesGet : List Nat := [103, 101, 116]
def bytesSet : List Nat := [115, 101, 116]
def bytesOf : List Nat := [111, 102]
def bytesTarget : List Nat := [116, 97, 114, 103, 101, 116]

/-- Parser.parseMethodDef. -/
def parseMethodDef (env : Env) (F : Nat) (r : Rec) : M Node := do
  let nodes : List Node := []
  let nodes ← (do
    if (← getTt) = StaticToken then
      let t ← parseToken
      pure (nodes ++ [t])
    else pure nodes)
  let nodes ← (do
    if (← getTt) = AsyncToken ∨ (← getTt) = MulToken then
      let nodes ← (do
        if (← getTt) = AsyncToken then
          let t ← parseToken
          pure (nodes ++ [t])
        else pure nodes)
      if (← getTt) = MulToken then
        let t ← parseToken
        pure (nodes ++ [t])
      else pure nodes
    else if (← getTt) = IdentifierToken ∧ ((← getData) = bytesGet ∨ (← getData) = bytesSet) then
      let t ← parseToken
      pure (nodes ++ [t])
    else pure nodes)
  let tt ← getTt
  if env.IsIdentifier tt ∨ tt = StringToken ∨ tt = NumericToken then
    let t ← parseToken
    let nodes ← parseFuncParams "method definition" F r (nodes ++ [t])
    let b ← parseBlockStmt "method definition" F r
    pure (Node.inner MethodGrammar (nodes ++ [b]))
  else if tt = OpenBracketToken then
    let t ← parseToken
    let e ← r.parseAssignmentExpr
    if (← getTt) ≠ CloseBracketToken then
      fail "method definition" [CloseBracketToken]
      pure Node.zero
    else
      let t2 ← parseToken
      let nodes ← parseFuncParams "method definition" F r (nodes ++ [t] ++ [e] ++ [t2])
      let b ← parseBlockStmt "method definition" F r
      pure (Node.inner MethodGrammar (nodes ++ [b]))
  else
    fail "method definition" [IdentifierToken, StringToken, NumericToken, OpenBracketToken]
    pure Node.zero

/-- The loop of `parseClassDecl` over the class body. -/
def parseClassDeclLoop (env : Env) (F : Nat) (r : Rec) : Nat → List Node → M (List Node)
  | 0, _ => outOfFuel
  | f + 1, nodes => do
    if (← getTt) ≠ ErrorToken then
      if (← getTt) = SemicolonToken then
        next
        parseClassDeclLoop env F r f nodes
      else if (← getTt) = CloseBraceToken then pure nodes
      else
        let m ← parseMethodDef env F r
        parseClassDeclLoop env F r f (nodes ++ [m])
    else pure nodes

/-- Parser.parseClassDecl; the result `nil` is the empty list. -/
def parseClassDecl (env : Env) (F : Nat) (r : Rec) (nodes : List Node) : M (List Node) := do
  let t ← parseToken
  let nodes := nodes ++ [t]
  let nodes ← (do
    if identLike (← getTt) then
      let t ← parseToken
      pure (nodes ++ [t])
    else pure nodes)
  let nodes ← (do
    if (← getTt) = ExtendsToken then
      let t ← parseToken
      let lhs ← r.parseLeftHandSideExpr []
      pure (nodes ++ [t] ++ [Node.inner ExprGrammar lhs])
    else pure nodes)
  if !(← consume "class statement" OpenBraceToken) then pure []
  else
    let nodes ← parseClassDeclLoop env F r F nodes
    if !(← consume "class statement" CloseBraceToken) then pure []
    else pure nodes

/-- The loop `for p.tt == MulToken || p.tt == AsyncToken || IsIdentifier(p.tt)` of
`parseObjectLiteral`. -/
def propertyLoop (env : Env) : Nat → List Node → M (List Node)
  | 0, _ => outOfFuel
  | f + 1, property => do
    let tt ← getTt
    if tt = MulToken ∨ tt = AsyncToken ∨ env.IsIdentifier tt then
      let t ← parseToken
      propertyLoop env f (property ++ [t])
    else pure property

/-- The tail of a property of `parseObjectLiteral` after the property name: `:` and a value,
or a method; `none` is the early `return nil`. -/
def propertyTail (F : Nat) (r : Rec) (nodes property : List Node) :
    M (Option (List Node)) := do
  if (← getTt) = ColonToken then
    let t ← parseToken
    let e ← r.parseAssignmentExpr
    pure (some (nodes ++ property ++ [t] ++ [e]))
  else if (← getTt) = OpenParenToken then
    let property ← parseFuncParams "method definition" F r property
    let b ← parseBlockStmt "method definition" F r
    pure (some (nodes ++ [Node.inner MethodGrammar (property ++ [b])]))
  else
    fail "object literal" [ColonToken, OpenParenToken]
    pure none

/-- A property of `parseObjectLiteral`, the last branch of the loop body; `none` is the early
`return nil`. -/
def parseProperty (env : Env) (F : Nat) (r : Rec) (nodes : List Node) :
    M (Option (List Node)) := do
  let property ← propertyLoop env F []
  let tt ← getTt
  if (tt = EqToken ∨ tt = CommaToken ∨ tt = CloseBraceToken) ∧ property.length = 1 ∧
      identLike ((property.headD Node.zero).tt) then
    let nodes := nodes ++ [property.headD Node.zero]
    if tt = EqToken then
      let t ← parseToken
      let e ← r.parseAssignmentExpr
      pure (some (nodes ++ [t] ++ [e]))
    else pure (some nodes)
  else if (0 < property.length ∧ env.IsIdentifier ((property.getLastD Node.zero).tt)) ∨
      tt = StringToken ∨ tt = NumericToken ∨ tt = OpenBracketToken then
    if tt = StringToken ∨ tt = NumericToken then
      let t ← parseToken
      propertyTail F r nodes (property ++ [t])
    else if tt = OpenBracketToken then
      let t ← parseToken
      let e ← r.parseAssignmentExpr
      if (← getTt) ≠ CloseBracketToken then
        fail "object literal" [CloseBracketToken]
        pure none
      else
        let t2 ← parseToken
        propertyTail F r nodes (property ++ [t] ++ [e] ++ [t2])
    else propertyTail F r nodes property
  else
    fail "object literal" [EqToken, CommaToken, CloseBraceToken, EllipsisToken,
      IdentifierToken, StringToken, NumericToken, OpenBracketToken]
    pure none

/-- The loop of `parseObjectLiteral`; `none` is the early `return nil`. -/
def parseObjectLiteralLoop (env : Env) (F : Nat) (r : Rec) :
    Nat → List Node → M (Option (List Node))
  | 0, _ => outOfFuel
  | f + 1, nodes => do
    if (← getTt) ≠ CloseBraceToken ∧ (← getTt) ≠ ErrorToken then
      if (← getTt) = EllipsisToken then
        let t ← parseToken
        let e ← r.parseAssignmentExpr
        parseObjectLiteralLoop env F r f (nodes ++ [t] ++ [e])
      else if (← getTt) = CommaToken then
        let t ← parseToken
        parseObjectLiteralLoop env F r f (nodes ++ [t])
      else
        match ← parseProperty env F r nodes with
        | none => pure none
        | some nodes => parseObjectLiteralLoop env F r f nodes
    else pure (some nodes)

/-- Parser.parseObjectLiteral; the result `nil` is the empty list. -/
def parseObjectLiteral (env : Env) (F : Nat) (r : Rec) (nodes : List Node) :
    M (List Node) := do
  let t ← parseToken
  match ← parseObjectLiteralLoop env F r F (nodes ++ [t]) with
  | none => pure []
  | some nodes =>
    if (← getTt) = CloseBraceToken then
      let t2 ← parseToken
      pure (nodes ++ [t2])
    else pure nodes

/-- The loop of the array literal in `parsePrimaryExpr`. -/
def arrayLiteralLoop (r : Rec) : Nat → List Node → M (List Node)
  | 0, _ => outOfFuel
  | f + 1, nodes => do
    if (← getTt) ≠ CloseBracketToken ∧ (← getTt) ≠ ErrorToken then
      if (← getTt) = EllipsisToken ∨ (← getTt) = CommaToken then
        let t ← parseToken
        arrayLiteralLoop r f (nodes ++ [t])
      else
        let e ← r.parseAssignmentExpr
        arrayLiteralLoop r f (nodes ++ [e])
    else pure nodes

/-- The loop of the parenthesized expression or arrow parameter list in
`parsePrimaryExpr`. -/
def parenLoop (r : Rec) : Nat → List Node → M (List Node)
  | 0, _ => outOfFuel
  | f + 1, nodes => do
    if (← getTt) ≠ CloseParenToken ∧ (← getTt) ≠ ErrorToken then
      if (← getTt) = EllipsisToken then
        let t ← parseToken
        let b ← r.parseBinding
        parenLoop r f (nodes ++ [t] ++ [b])
      else if (← getTt) = CommaToken then
        let t ← parseToken
        parenLoop r f (nodes ++ [t])
      else
        let e ← r.parseAssignmentExpr
        parenLoop r f (nodes ++ [e])
    else pure nodes

/-- The token kinds of the first case of `parsePrimaryExpr`. -/
def primaryTokens : List TokenType :=
  [ThisToken, IdentifierToken, YieldToken, AwaitToken, NullToken, TrueToken, FalseToken,
    NumericToken, StringToken, RegExpToken]

/-- The assignment `p.tt, p.data = p.l.RegExp()`. -/
def reLex (env : Env) : M Unit := fun p =>
  let r := env.RegExp p.l
  .ok ((), { p with tt := r.1.1, data := r.1.2, l := r.2 })

/-- Parser.parsePrimaryExpr; the result `nil` is the empty list. -/
def parsePrimaryExpr (env : Env) (F : Nat) (r : Rec) (nodes : List Node) :
    M (List Node) := do
  -- reparse input if we have / or /= as the beginning of a new expression
  (do if (← getTt) = DivToken ∨ (← getTt) = DivEqToken then
        reLex env)
  let tt ← getTt
  if tt ∈ primaryTokens then
    let t ← parseToken
    pure (nodes ++ [t])
  else if tt = TemplateToken ∨ tt = TemplateStartToken then
    parseTemplateLiteral F r nodes
  else if tt = OpenBracketToken then
    let t ← parseToken
    let nodes ← arrayLiteralLoop r F (nodes ++ [t])
    let t2 ← parseToken
    pure (nodes ++ [t2])
  else if tt = OpenBraceToken then
    parseObjectLiteral env F r nodes
  else if tt = OpenParenToken then
    let t ← parseToken
    let nodes ← parenLoop r F (nodes ++ [t])
    let t2 ← parseToken
    pure (nodes ++ [t2])
  else if tt = ClassToken then
    parseClassDecl env F r nodes
  else if tt = FunctionToken then
    parseFuncDecl F r nodes
  else if tt = AsyncToken then
    let t ← parseToken
    let nodes := nodes ++ [t]
    if !(← getPrevLineTerminator) then
      if (← getTt) = FunctionToken then
        parseFuncDecl F r nodes
      else
        fail "async function expression" [FunctionToken]
        pure []
    else pure nodes
  else
    fail "expression" []
    pure []

/-- The loop over the arguments in `parseLeftHandSideExprEnd`. -/
def argumentsLoop (r : Rec) : Nat → List Node → M (List Node)
  | 0, _ => outOfFuel
  | f + 1, nodes => do
    if (← getTt) = ErrorToken ∨ (← getTt) = CloseParenToken then pure nodes
    else if (← getTt) = CommaToken then
      next
      argumentsLoop r f nodes
    else if (← getTt) = EllipsisToken then
      let t ← parseToken
      let e ← r.parseAssignmentExpr
      pure (nodes ++ [t] ++ [e])
    else
      let e ← r.parseAssignmentExpr
      argumentsLoop r f (nodes ++ [e])

/-- Parser.parseLeftHandSideExprEnd; the result `nil` is the empty list. -/
def parseLeftHandSideExprEnd (env : Env) (F : Nat) (r : Rec) (nodes : List Node) :
    M (List Node) := do
  if (← getTt) = OpenParenToken then
    let t ← parseToken
    let nodes ← argumentsLoop r F (nodes ++ [t])
    (do if (← getTt) = CommaToken then
          next)
    if (← getTt) ≠ CloseParenToken then
      fail "left hand side expression" [CloseParenToken]
      pure []
    else
      let t2 ← parseToken
      pure (nodes ++ [t2])
  else if (← getTt) = OpenBracketToken then
    let t ← parseToken
    let e ← parseExpr F r
    if (← getTt) ≠ CloseBracketToken then
      fail "left hand side expression" [CloseBracketToken]
      pure []
    else
      let t2 ← parseToken
      pure (nodes ++ [t] ++ [e] ++ [t2])
  else if (← getTt) = DotToken then
    let t ← parseToken
    if !env.IsIdentifier (← getTt) then
      fail "left hand side expression" [IdentifierToken]
      pure []
    else
      let t2 ← parseToken
      pure (nodes ++ [t] ++ [t2])
  else if (← getTt) = TemplateToken ∨ (← getTt) = TemplateStartToken then
    parseTemplateLiteral F r nodes
  else
    fail "left hand side expression" [OpenParenToken, OpenBracketToken, DotToken,
      TemplateToken]
    pure []

/-- The token kinds at which `parseLeftHandSideExprEnd` is tried after `LHSEND`. -/
def lhsEndTokens : List TokenType :=
  [OpenParenToken, OpenBracketToken, DotToken, TemplateToken, TemplateStartToken]

/-- The loop `for p.tt == OpenParenToken || ...` after `LHSEND` and in the optional
chaining. -/
def lhsEndLoop (env : Env) (F : Nat) (r : Rec) : Nat → List Node → M (List Node)
  | 0, _ => outOfFuel
  | f + 1, nodes => do
    if (← getTt) ∈ lhsEndTokens then
      let nodes ← parseLeftHandSideExprEnd env F r nodes
      lhsEndLoop env F r f nodes
    else pure nodes

/-- The loop over the optional chaining at the end of `parseLeftHandSideExpr`; the result
`nil` is the empty list. -/
def optChainLoop (env : Env) (F : Nat) (r : Rec) : Nat → List Node → M (List Node)
  | 0, _ => outOfFuel
  | f + 1, nodes => do
    if (← getTt) = OptChainToken then
      let t ← parseToken
      let nodes := nodes ++ [t]
      let tt ← getTt
      if env.IsIdentifier tt then
        let t2 ← parseToken
        let nodes ← lhsEndLoop env F r F (nodes ++ [t2])
        optChainLoop env F r f nodes
      else if tt = OpenParenToken ∨ tt = OpenBracketToken ∨ tt = TemplateToken ∨
          tt = TemplateStartToken then
        let nodes ← parseLeftHandSideExprEnd env F r nodes
        let nodes ← lhsEndLoop env F r F nodes
        optChainLoop env F r f nodes
      else
        fail "left hand side expression" [IdentifierToken, OpenParenToken,
          OpenBracketToken, TemplateToken]
        pure []
    else pure nodes

/-- The part of `parseLeftHandSideExpr` from the label `LHSEND` on. -/
def lhsEnd (env : Env) (F : Nat) (r : Rec) (nodes : List Node) : M (List Node) := do
  let nodes ← lhsEndLoop env F r F nodes
  optChainLoop env F r F nodes

/-- The loop `for p.tt == NewToken` of `parseLeftHandSideExpr`: the nodes, and whether the
loop was left through `goto LHSEND` (`some true`), through its end (`some false`) or through
`return nil` (`none`). -/
def newLoop : Nat → List Node → M (Option Bool × List Node)
  | 0, _ => outOfFuel
  | f + 1, nodes => do
    if (← getTt) = NewToken then
      let t ← parseToken
      let nodes := nodes ++ [t]
      if (← getTt) = DotToken then
        let t2 ← parseToken
        let nodes := nodes ++ [t2]
        if (← getTt) ≠ IdentifierToken ∨ (← getData) ≠ bytesTarget then
          fail "left hand side expression" [TargetToken]
          pure (none, [])
        else
          let t3 ← parseToken
          pure (some true, nodes ++ [t3])
      else newLoop f nodes
    else pure (some false, nodes)

/-- Parser.parseLeftHandSideExpr, with the callees in `r`; the result `nil` is the empty
list. -/
def parseLeftHandSideExprF (env : Env) (F : Nat) (r : Rec) (nodes : List Node) :
    M (List Node) := do
  match ← newLoop F nodes with
  | (none, _) => pure []
  | (some true, nodes) => lhsEnd env F r nodes
  | (some false, nodes) =>
    if (← getTt) = SuperToken then
      let t ← parseToken
      (do if (← getTt) = TemplateToken ∨ (← getTt) = TemplateStartToken then
            fail "left hand side expression" [])
      let nodes ← parseLeftHandSideExprEnd env F r (nodes ++ [t])
      lhsEnd env F r nodes
    else if (← getTt) = ImportToken then
      let t ← parseToken
      if (← getTt) ≠ OpenParenToken then
        fail "left hand side expression" [OpenParenToken]
        pure []
      else
        next
        let e ← parseExpr F r
        if (← getTt) ≠ CloseParenToken then
          fail "left hand side expression" [CloseParenToken]
          pure []
        else
          next
          lhsEnd env F r (nodes ++ [t] ++ [e])
    else
      let nodes ← parsePrimaryExpr env F r nodes
      lhsEnd env F r nodes

/-- The operator token kinds after which `parseAssignmentExpr` goes back to `LHS`. -/
def binaryTokens : List TokenType :=
  [NullishToken, OrToken, AndToken, BitOrToken, BitXorToken, BitAndToken, EqEqToken,
    NotEqToken, EqEqEqToken, NotEqEqToken, LtToken, GtToken, LtEqToken, GtEqToken, LtLtToken,
    GtGtToken, GtGtGtToken, AddToken, SubToken, MulToken, DivToken, ModToken, ExpToken,
    NotToken, BitNotToken, InstanceofToken, InToken, TypeofToken, VoidToken, DeleteToken]

/-- The assignment operator token kinds of `parseAssignmentExpr`. -/
def assignTokens : List TokenType :=
  [EqToken, MulEqToken, DivEqToken, ModEqToken, ExpEqToken, AddEqToken, SubEqToken,
    LtLtEqToken, GtGtEqToken, GtGtGtEqToken, BitAndEqToken, BitXorEqToken, BitOrEqToken]

/-- The end of an arrow function: the `=>` token and the body. -/
def arrowBody (rule : String) (F : Nat) (r : Rec) (nodes : List Node) : M (List Node) := do
  let t ← parseToken
  if (← getTt) = OpenBraceToken then
    let b ← parseBlockStmt rule F r
    pure (nodes ++ [t] ++ [b])
  else
    let e ← r.parseAssignmentExpr
    pure (nodes ++ [t] ++ [e])

/-- The part of `parseAssignmentExpr` from the label `LHS` on; each `goto LHS` is one turn of
the loop. -/
def assignLoop (F : Nat) (r : Rec) : Nat → List Node → M Node
  | 0, _ => outOfFuel
  | f + 1, nodes => do
    let nodes ← (do
      if (← getTt) = IncrToken ∨ (← getTt) = DecrToken then
        let t ← parseToken
        pure (nodes ++ [t])
      else pure nodes)
    let nodes ← r.parseLeftHandSideExpr nodes
    let nodes ← (do
      if !(← getPrevLineTerminator) ∧ ((← getTt) = IncrToken ∨ (← getTt) = DecrToken) then
        let t ← parseToken
        pure (nodes ++ [t])
      else pure nodes)
    let tt ← getTt
    if tt ∈ binaryTokens then
      let t ← parseToken
      assignLoop F r f (nodes ++ [t])
    else if tt ∈ assignTokens then
      let t ← parseToken
      let e ← r.parseAssignmentExpr
      pure (Node.inner ExprGrammar (nodes ++ [t] ++ [e]))
    else if tt = QuestionToken then
      let t ← parseToken
      let e ← r.parseAssignmentExpr
      if (← getTt) ≠ ColonToken then
        fail "conditional expression" [ColonToken]
        pure Node.zero
      else
        let t2 ← parseToken
        let e2 ← r.parseAssignmentExpr
        pure (Node.inner ExprGrammar (nodes ++ [t] ++ [e] ++ [t2] ++ [e2]))
    else if tt = ArrowToken then
      match nodes.getLast? with
      | none => goPanic
      | some last =>
        if identLike last.tt then
          let nodes ← arrowBody "arrow function expression" F r
            (nodes.dropLast ++ [Node.inner BindingGrammar [last]])
          pure (Node.inner ExprGrammar nodes)
        else if last.tt ≠ CloseParenToken then
          fail "arrow function expression" []
          pure Node.zero
        else
          let nodes ← arrowBody "arrow function expression" F r nodes
          pure (Node.inner ExprGrammar nodes)
    else pure (Node.inner ExprGrammar nodes)

/-- Parser.parseAssignmentExpr, with the callees in `r`. -/
def parseAssignmentExprF (F : Nat) (r : Rec) : M Node := do
  if (← getTt) = YieldToken then
    let t ← parseToken
    if (← getTt) = ArrowToken then
      let nodes ← arrowBody "arrow function expression" F r [Node.inner BindingGrammar [t]]
      pure (Node.inner ExprGrammar nodes)
    else if !(← getPrevLineTerminator) then
      let nodes ← (do
        if (← getTt) = MulToken then
          let t2 ← parseToken
          pure [t, t2]
        else pure [t])
      let e ← r.parseAssignmentExpr
      pure (Node.inner ExprGrammar (nodes ++ [e]))
    else pure (Node.inner ExprGrammar [t])
  else if (← getTt) = AsyncToken then
    let t ← parseToken
    if (← getPrevLineTerminator) then
      fail "async function expression" []
      pure Node.zero
    else if (← getTt) = FunctionToken then
      -- primary expression
      let nodes ← parseFuncDecl F r [t]
      pure (Node.inner ExprGrammar nodes)
    else if identLike (← getTt) then
      let t2 ← parseToken
      let nodes := [t, Node.inner BindingGrammar [t2]]
      if (← getTt) ≠ ArrowToken then
        fail "async arrow function expression" [ArrowToken]
        pure Node.zero
      else
        let nodes ← arrowBody "async arrow function expression" F r nodes
        pure (Node.inner ExprGrammar nodes)
    else
      fail "async function expression" [FunctionToken, IdentifierToken]
      pure Node.zero
  else assignLoop F r F []

/-- The loop `for p.tt == CommaToken` over an elision. -/
def elisionLoop : Nat → M Unit
  | 0 => outOfFuel
  | f + 1 => do
    if (← getTt) = CommaToken then
      next
      elisionLoop f
    else pure ()

/-- The loop of the array binding pattern in `parseBinding`; `none` is the early
`return Node{}`. -/
def arrayBindingLoop (F : Nat) (r : Rec) : Nat → List Node → M (Option (List Node))
  | 0, _ => outOfFuel
  | f + 1, nodes => do
    if (← getTt) ≠ CloseBracketToken then
      -- elision
      elisionLoop F
      -- binding rest element
      if (← getTt) = EllipsisToken then
        let t ← parseToken
        let b ← r.parseBinding
        if (← getTt) ≠ CloseBracketToken then
          fail "array binding pattern" [CloseBracketToken]
          pure none
        else pure (some (nodes ++ [t] ++ [b]))
      else
        let b ← parseBindingElement r
        let nodes := nodes ++ [b]
        if (← getTt) = CommaToken then
          elisionLoop F
          arrayBindingLoop F r f nodes
        else if (← getTt) ≠ CloseBracketToken then
          fail "array binding pattern" [CommaToken, CloseBracketToken]
          pure none
        else arrayBindingLoop F r f nodes
    else pure (some nodes)

/-- One property of the object binding pattern in `parseBinding`, up to the check for `,` or
the closing brace; `none` is the early `return Node{}`. -/
def objectBindingProperty (env : Env) (r : Rec) (nodes : List Node) :
    M (Option (List Node)) := do
  let tt ← getTt
  if identLike tt then
    -- single name binding
    let ident ← parseToken
    if (← getTt) = ColonToken then
      -- property name + : + binding element
      let t ← parseToken
      let b ← parseBindingElement r
      pure (some (nodes ++ [ident] ++ [t] ++ [b]))
    else if (← getTt) = EqToken then
      let t ← parseToken
      let e ← r.parseAssignmentExpr
      pure (some (nodes ++ [Node.inner BindingGrammar [ident, t, e]]))
    else pure (some (nodes ++ [Node.inner BindingGrammar [ident]]))
  else if env.IsIdentifier tt ∨ tt = StringToken ∨ tt = NumericToken ∨
      tt = OpenBracketToken then
    -- property name + : + binding element
    let name ← (do
      if tt = OpenBracketToken then
        let t ← parseToken
        let e ← r.parseAssignmentExpr
        if (← getTt) ≠ CloseBracketToken then
          fail "object binding pattern" [CloseBracketToken]
          pure none
        else
          let t2 ← parseToken
          pure (some (nodes ++ [t] ++ [e] ++ [t2]))
      else
        let t ← parseToken
        pure (some (nodes ++ [t])))
    match name with
    | none => pure none
    | some nodes =>
      if (← getTt) ≠ ColonToken then
        fail "object binding pattern" [ColonToken]
        pure none
      else
        let t ← parseToken
        let b ← parseBindingElement r
        pure (some (nodes ++ [t] ++ [b]))
  else
    fail "object binding pattern" [IdentifierToken, StringToken, NumericToken,
      OpenBracketToken]
    pure none

/-- The loop of the object binding pattern in `parseBinding`; `none` is the early
`return Node{}`. -/
def objectBindingLoop (env : Env) (r : Rec) : Nat → List Node → M (Option (List Node))
  | 0, _ => outOfFuel
  | f + 1, nodes => do
    if (← getTt) ≠ CloseBraceToken then
      -- binding rest property
      if (← getTt) = EllipsisToken then
        let t ← parseToken
        (do if !identLike (← getTt) then
              fail "object binding pattern" [IdentifierToken])
        let t2 ← parseToken
        let nodes := nodes ++ [t] ++ [Node.inner BindingGrammar [t2]]
        if (← getTt) ≠ CloseBraceToken then
          fail "object binding pattern" [CloseBraceToken]
          pure none
        else pure (some nodes)
      else
        match ← objectBindingProperty env r nodes with
        | none => pure none
        | some nodes =>
          if (← getTt) = CommaToken then
            next
            objectBindingLoop env r f nodes
          else if (← getTt) ≠ CloseBraceToken then
            fail "object binding pattern" [CommaToken, CloseBraceToken]
            pure none
          else objectBindingLoop env r f nodes
    else pure (some nodes)

/-- Parser.parseBinding, with the callees in `r`. -/
def parseBindingF (env : Env) (F : Nat) (r : Rec) : M Node := do
  -- binding identifier or binding pattern
  if identLike (← getTt) then
    let t ← parseToken
    pure (Node.inner BindingGrammar [t])
  else if (← getTt) = OpenBracketToken then
    let t ← parseToken
    match ← arrayBindingLoop F r F [t] with
    | none => pure Node.zero
    | some nodes =>
      let t2 ← parseToken
      pure (Node.inner BindingGrammar (nodes ++ [t2]))
  else if (← getTt) = OpenBraceToken then
    let t ← parseToken
    match ← objectBindingLoop env r F [t] with
    | none => pure Node.zero
    | some nodes =>
      let t2 ← parseToken
      pure (Node.inner BindingGrammar (nodes ++ [t2]))
  else
    fail "binding" []
    pure Node.zero

/-- The statement after `if (expr)`, `with (expr)`, `while (expr)`: the keyword, the
parenthesized expression and the statement; `none` is the early `return Node{}`. -/
def stmtParenExpr (rule : String) (F : Nat) (r : Rec) : M (Option (List Node)) := do
  let t ← parseToken
  if !(← consume rule OpenParenToken) then pure none
  else
    let e ← parseExpr F r
    if !(← consume rule CloseParenToken) then pure none
    else
      let st ← r.parseStmt
      pure (some [t, e, st])

/-- The case `IfToken` of `parseStmt`. -/
def stmtIf (F : Nat) (r : Rec) : M (Option (List Node)) := do
  match ← stmtParenExpr "if statement" F r with
  | none => pure none
  | some nodes =>
    if (← getTt) = ElseToken then
      let t ← parseToken
      let st ← r.parseStmt
      pure (some (nodes ++ [t] ++ [st]))
    else pure (some nodes)

/-- The case `DoToken` of `parseStmt`. -/
def stmtDo (F : Nat) (r : Rec) : M (Option (List Node)) := do
  let t ← parseToken
  let st ← r.parseStmt
  if (← getTt) ≠ WhileToken then
    fail "do statement" [WhileToken]
    pure none
  else
    let t2 ← parseToken
    if !(← consume "do statement" OpenParenToken) then pure none
    else
      let e ← parseExpr F r
      if !(← consume "do statement" CloseParenToken) then pure none
      else pure (some [t, st, t2, e])

/-- The case `ForToken` of `parseStmt`. -/
def stmtFor (F : Nat) (r : Rec) : M (Option (List Node)) := do
  let t ← parseToken
  let nodes := [t]
  let nodes ← (do
    if (← getTt) = AwaitToken then
      let t2 ← parseToken
      pure (nodes ++ [t2])
    else pure nodes)
  if !(← consume "for statement" OpenParenToken) then pure none
  else
    let nodes ← (do
      if (← getTt) = VarToken ∨ (← getTt) = LetToken ∨ (← getTt) = ConstToken then
        let declNodes ← parseVarDecl F r []
        pure (nodes ++ [Node.inner StmtGrammar declNodes])
      else
        let lhs ← r.parseLeftHandSideExpr []
        pure (nodes ++ [Node.inner ExprGrammar lhs]))
    let head ← (do
      if (← getTt) = SemicolonToken then
        next
        let e ← parseExpr F r
        if !(← consume "for statement" SemicolonToken) then pure none
        else
          let e2 ← parseExpr F r
          pure (some (nodes ++ [e] ++ [e2]))
      else if (← getTt) = InToken then
        let t2 ← parseToken
        let e ← parseExpr F r
        pure (some (nodes ++ [t2] ++ [e]))
      else if (← getTt) = IdentifierToken ∧ (← getData) = bytesOf then
        let t2 ← parseToken
        let e ← r.parseAssignmentExpr
        pure (some (nodes ++ [t2] ++ [e]))
      else
        fail "for statement" [InToken, OfToken, SemicolonToken]
        pure none)
    match head with
    | none => pure none
    | some nodes =>
      if !(← consume "for statement" CloseParenToken) then pure none
      else
        let st ← r.parseStmt
        pure (some (nodes ++ [st]))

/-- The loop over the statements of a clause of a switch statement. -/
def clauseStmtsLoop (r : Rec) : Nat → List Node → M (List Node)
  | 0, _ => outOfFuel
  | f + 1, clauseNodes => do
    let tt ← getTt
    if tt ≠ CaseToken ∧ tt ≠ DefaultToken ∧ tt ≠ CloseBraceToken ∧ tt ≠ ErrorToken then
      let st ← r.parseStmt
      clauseStmtsLoop r f (clauseNodes ++ [st])
    else pure clauseNodes

/-- The loop over the case block of a switch statement; `none` is the early
`return Node{}`. -/
def caseBlockLoop (F : Nat) (r : Rec) : Nat → List Node → M (Option (List Node))
  | 0, _ => outOfFuel
  | f + 1, nodes => do
    if (← getTt) ≠ ErrorToken then
      if (← getTt) = CloseBraceToken then
        next
        pure (some nodes)
      else
        let head ← (do
          if (← getTt) = CaseToken then
            let t ← parseToken
            let e ← parseExpr F r
            pure (some [t, e])
          else if (← getTt) = DefaultToken then
            let t ← parseToken
            pure (some [t])
          else
            fail "switch statement" [CaseToken, DefaultToken]
            pure none)
        match head with
        | none => pure none
        | some clauseNodes =>
          if !(← consume "switch statement" ColonToken) then pure none
          else
            let clauseNodes ← clauseStmtsLoop r F clauseNodes
            caseBlockLoop F r f (nodes ++ [Node.inner ClauseGrammar clauseNodes])
    else pure (some nodes)

/-- The case `SwitchToken` of `parseStmt`. -/
def stmtSwitch (F : Nat) (r : Rec) : M (Option (List Node)) := do
  let t ← parseToken
  if !(← consume "switch statement" OpenParenToken) then pure none
  else
    let e ← parseExpr F r
    if !(← consume "switch statement" CloseParenToken) then pure none
    else
      -- case block
      if !(← consume "switch statement" OpenBraceToken) then pure none
      else caseBlockLoop F r F [t, e]

/-- The case `TryToken` of `parseStmt`. -/
def stmtTry (F : Nat) (r : Rec) : M (Option (List Node)) := do
  let t ← parseToken
  let b ← parseBlockStmt "try statement" F r
  let nodes := [t, b]
  let caught ← (do
    if (← getTt) = CatchToken then
      let t2 ← parseToken
      let nodes := nodes ++ [t2]
      let param ← (do
        if (← getTt) = OpenParenToken then
          next
          let bd ← r.parseBinding
          if (← getTt) ≠ CloseParenToken then
            fail "try statement" [CloseParenToken]
            pure none
          else
            next
            pure (some (nodes ++ [bd]))
        else pure (some nodes))
      match param with
      | none => pure none
      | some nodes =>
        let b2 ← parseBlockStmt "try statement" F r
        pure (some (nodes ++ [b2]))
    else pure (some nodes))
  match caught with
  | none => pure none
  | some nodes =>
    if (← getTt) = FinallyToken then
      let t3 ← parseToken
      let b3 ← parseBlockStmt "try statement" F r
      pure (some (nodes ++ [t3] ++ [b3]))
    else pure (some nodes)

/-- The cases of the `switch` of `parseStmt` other than `OpenBraceToken`: the nodes of the
statement; `none` is the early `return Node{}`. -/
def stmtCases (env : Env) (F : Nat) (r : Rec) : M (Option (List Node)) := do
  let tt ← getTt
  if tt = LetToken ∨ tt = ConstToken ∨ tt = VarToken then
    let nodes ← parseVarDecl F r []
    pure (some nodes)
  else if tt = ContinueToken ∨ tt = BreakToken then
    let t ← parseToken
    if !(← getPrevLineTerminator) ∧ identLike (← getTt) then
      let t2 ← parseToken
      pure (some [t, t2])
    else pure (some [t])
  else if tt = ReturnToken then
    let t ← parseToken
    if !(← getPrevLineTerminator) ∧ (← getTt) ≠ SemicolonToken ∧
        (← getTt) ≠ LineTerminatorToken ∧ (← getTt) ≠ ErrorToken then
      let e ← parseExpr F r
      pure (some [t, e])
    else pure (some [t])
  else if tt = IfToken then stmtIf F r
  else if tt = WithToken then stmtParenExpr "with statement" F r
  else if tt = DoToken then stmtDo F r
  else if tt = WhileToken then stmtParenExpr "while statement" F r
  else if tt = ForToken then stmtFor F r
  else if tt = IdentifierToken ∨ tt = YieldToken ∨ tt = AwaitToken then
    -- could be expression or labelled statement
    let expr ← parseExpr F r
    if (← getTt) = ColonToken ∧ expr.nodes.length = 1 then
      next
      let st ← r.parseStmt
      pure (some [expr.nodes.headD Node.zero, st])
    else pure (some [expr])
  else if tt = SwitchToken then stmtSwitch F r
  else if tt = FunctionToken then
    let nodes ← parseFuncDecl F r []
    pure (some nodes)
  else if tt = AsyncToken then
    -- async function
    let t ← parseToken
    if (← getTt) ≠ FunctionToken then
      fail "async function statement" [FunctionToken]
      pure none
    else
      let nodes ← parseFuncDecl F r [t]
      pure (some nodes)
  else if tt = ClassToken then
    let nodes ← parseClassDecl env F r []
    pure (some nodes)
  else if tt = ThrowToken then
    let t ← parseToken
    if !(← getPrevLineTerminator) then
      let e ← parseExpr F r
      pure (some [t, e])
    else pure (some [t])
  else if tt = TryToken then stmtTry F r
  else if tt = DebuggerToken then
    let t ← parseToken
    pure (some [t])
  else if tt = SemicolonToken ∨ tt = LineTerminatorToken then
    -- empty
    pure (some [])
  else
    let expr ← parseExpr F r
    if 0 < expr.nodes.length then pure (some [expr])
    else
      fail "statement" []
      pure none

/-- Parser.parseStmt, with the callees in `r`. -/
def parseStmtF (env : Env) (F : Nat) (r : Rec) : M Node := do
  if (← getTt) = OpenBraceToken then parseBlockStmt "block statement" F r
  else
    match ← stmtCases env F r with
    | none => pure Node.zero
    | some nodes =>
      (do if (← getTt) = SemicolonToken ∨ (← getTt) = LineTerminatorToken then
            next)
      pure (Node.inner StmtGrammar nodes)

/-- The descent functions with `k` levels of recursion left. -/
def descent (env : Env) (F : Nat) : Nat → Rec
  | 0 => ⟨outOfFuel, outOfFuel, fun _ => outOfFuel, outOfFuel⟩
  | k + 1 =>
    ⟨parseStmtF env F (descent env F k), parseAssignmentExprF F (descent env F k),
      parseLeftHandSideExprF env F (descent env F k), parseBindingF env F (descent env F k)⟩

/-- Parser.parseStmt. -/
def parseStmt (env : Env) (F k : Nat) : M Node := (descent env F k).parseStmt

/-- Parser.parseAssignmentExpr. -/
def parseAssignmentExpr (env : Env) (F k : Nat) : M Node := (descent env F k).parseAssignmentExpr

/-- Parser.parseLeftHandSideExpr. -/
def parseLeftHandSideExpr (env : Env) (F k : Nat) (nodes : List Node) : M (List Node) :=
  (descent env F k).parseLeftHandSideExpr nodes

/-- Parser.parseBinding. -/
def parseBinding (env : Env) (F k : Nat) : M Node := (descent env F k).parseBinding

/-- The loop of `parseModule`, with the nodes so far. The `panic` of the cases
`ImportToken`, `ExportToken` is the result `Abort.panic`. -/
def parseModuleLoop (env : Env) (F k : Nat) : Nat → List Node → M Node
  | 0, _ => outOfFuel
  | f + 1, nodes => do
    let tt ← getTt
    if tt = ErrorToken then pure (Node.inner ModuleGrammar nodes)
    else if tt = ImportToken ∨ tt = ExportToken then
      goPanic -- import and export statements not implemented
    else
      let st ← parseStmt env F k
      parseModuleLoop env F k f (nodes ++ [st])

/-- Parser.parseModule. -/
def parseModule (env : Env) (F k : Nat) : M Node := parseModuleLoop env F k F []

/-- The parser that `Parse` sets up: `p := &Parser{l: l}` and
`p.tt = WhitespaceToken // trick so that next() works from the start`. -/
def newParser (l : Lexer) : Parser :=
  { l := l, err := none, tt := WhitespaceToken, data := [], prevLineTerminator := false }

/-- Parse returns a JS AST tree of the input and the error: `F` is the fuel of the loops and
`k` the fuel of the recursion. -/
def Parse (env : Env) (F k : Nat) (l : Lexer) : Except Abort (Node × Error) :=
  match (do next; parseModule env F k : M Node) (newParser l) with
  | .error a => .error a
  | .ok (module, p) =>
    match p.err with
    | none => .ok (module, Error.lexer p.l.Err)
    | some e => .ok (module, e)

/-- Modelled from the spec: `IsIdentifier` of the lexer package, which holds of the
identifier token and of the keyword tokens. -/
def stdIsIdentifier (tt : TokenType) : Bool :=
  tt ∈ [IdentifierToken, AwaitToken, BreakToken, CaseToken, CatchToken, ClassToken,
    ConstToken, ContinueToken, DebuggerToken, DefaultToken, DeleteToken, DoToken, ElseToken,
    ExportToken, ExtendsToken, FalseToken, FinallyToken, ForToken, FunctionToken, IfToken,
    ImportToken, InToken, InstanceofToken, NewToken, NullToken, ReturnToken, SuperToken,
    SwitchToken, ThisToken, ThrowToken, TrueToken, TryToken, TypeofToken, VarToken,
    VoidToken, WhileToken, WithToken, YieldToken, LetToken, StaticToken, AsyncToken,
    OfToken, TargetToken]

/-- Modelled from the spec: `RegExp` of the lexer, which re-tokenizes the current position as
a regular expression literal. On a list of tokens the literal runs up to the next `/` token:
the tokens up to it become the bytes of one `RegExpToken`; without a closing `/` the lexer
fails. -/
def stdRegExp (l : Lexer) : (TokenType × List Nat) × Lexer :=
  match l.toks.span (fun t => t.1 ≠ DivToken) with
  | (body, close :: rest) =>
    let bytes := (body.map Prod.snd).flatten ++ close.2
    ((RegExpToken, 47 :: bytes),
      { l with toks := rest, offset := l.offset + bytes.length, regexps := l.regexps + 1 })
  | (_, []) =>
    ((ErrorToken, []),
      { l with toks := [], err := LexError.other "unexpected EOF or newline",
               regexps := l.regexps + 1 })

/-- The lexer package as modelled from the spec. -/
def stdEnv : Env := ⟨stdIsIdentifier, stdRegExp⟩

/-- A lexer over the tokens `toks`, which ends with `io.EOF`. -/
def lexerOf (toks : List (TokenType × List Nat)) : Lexer := ⟨toks, LexError.EOF, 0, 0⟩

/-- The measure of what is left to parse: 0 at the error token, else the number of tokens
still to come plus one (for the current token). -/
def meas (p : Parser) : Nat := if p.tt = ErrorToken then 0 else p.l.toks.length + 1

/-- Once an error is recorded the current token is the error token. -/
def WF (p : Parser) : Prop := p.err ≠ none → p.tt = ErrorToken

/-- What the proofs of termination need of the lexer package: the error token is no
identifier, and `RegExp` does not lengthen the input still to come. -/
def EnvOK (env : Env) : Prop :=
  env.IsIdentifier ErrorToken = false ∧ ∀ l, (env.RegExp l).2.toks.length ≤ l.toks.length

/-- `Step p q`: the parser `q` comes after `p`: it is well-formed, no more is left to parse,
and when an error was recorded in `p` nothing has changed. -/
def Step (p q : Parser) : Prop :=
  WF q ∧ meas q ≤ meas p ∧ (p.err ≠ none → q = p)

/-- `Prog p q`: `q` comes after `p`, and unless `p` was at the error token less is left to
parse. -/
def Prog (p q : Parser) : Prop :=
  Step p q ∧ (p.tt ≠ ErrorToken → meas q < meas p)

/-- `Returns m p Q`: the method `m` returns from the parser `p`, with a value and a parser
that satisfy `Q`. -/
def Returns {α : Type} (m : M α) (p : Parser) (Q : α → Parser → Prop) : Prop :=
  ∃ a q, m p = .ok (a, q) ∧ Q a q

/-- `Spec F B c m`: with loop fuel `F` and recursion fuel `B`, the method `m` returns from
every well-formed parser `p` with `3 * meas p + c ≤ B` and `meas p < F`, and makes
progress. -/
def Spec {α : Type} (F B c : Nat) (m : M α) : Prop :=
  ∀ p, WF p → 3 * meas p + c ≤ B → meas p < F → Returns m p (fun _ q => Prog p q)

/-- `SpecQ F B c m Q`: as `Spec F B c m`, and the value and the parser that `m` returns
satisfy `Q`. -/
def SpecQ {α : Type} (F B c : Nat) (m : M α) (Q : α → Parser → Prop) : Prop :=
  ∀ p, WF p → 3 * meas p + c ≤ B → meas p < F → Returns m p (fun a q => Prog p q ∧ Q a q)

/-- `NE nodes q`: the nodes are not empty, unless the parser has failed. -/
def NE (nodes : List Node) (q : Parser) : Prop := nodes ≠ [] ∨ q.tt = ErrorToken

/-- The callees `r` are as `Spec` describes, with recursion fuel `B`: `parseStmt` needs
three levels more than three times the measure, `parseAssignmentExpr` two,
`parseLeftHandSideExpr` and `parseBinding` one; `parseLeftHandSideExpr` returns nodes
unless it fails. -/
def RecOK (F B : Nat) (r : Rec) : Prop :=
  Spec F B 3 r.parseStmt ∧ Spec F B 2 r.parseAssignmentExpr ∧
    (∀ nodes, SpecQ F B 1 (r.parseLeftHandSideExpr nodes) NE) ∧ Spec F B 1 r.parseBinding

/-- The token kinds at which the loop of `parseModule` finds the parser before a statement,
from the parser `p` on: the token kinds with which the top-level statements begin. -/
def moduleStarts (env : Env) (F k : Nat) : Nat → Parser → List TokenType
  | 0, _ => []
  | f + 1, p =>
    if p.tt = ErrorToken then []
    else
      p.tt :: (match parseStmt env F k p with
        | .ok (_, q) => moduleStarts env F k f q
        | .error _ => [])

mutual
/-- Some node of the tree has the grammar `Expr` and no children. -/
def Node.hasEmptyExpr : Node → Bool
  | Node.mk gt nodes _ _ => (gt = ExprGrammar && nodes.isEmpty) || listHasEmptyExpr nodes
/-- Some tree of the list has a node with the grammar `Expr` and no children. -/
def listHasEmptyExpr : List Node → Bool
  | [] => false
  | n :: ns => n.hasEmptyExpr || listHasEmptyExpr ns
end

/-- The tokens of `return )`. -/
def returnParenTokens : List (TokenType × List Nat) :=
  [(ReturnToken, [114, 101, 116, 117, 114, 110]), (WhitespaceToken, [32]),
    (CloseParenToken, [41])]

/-- The tokens of `import x`. -/
def importTokens : List (TokenType × List Nat) :=
  [(ImportToken, [105, 109, 112, 111, 114, 116]), (WhitespaceToken, [32]),
    (IdentifierToken, [120])]

/-- The tokens of `x;`. -/
def identTokens : List (TokenType × List Nat) :=
  [(IdentifierToken, [120]), (SemicolonToken, [59])]

/-- A parser in which `fail` has recorded an error. -/
def failedParser : Parser :=
  failState "expression" [] (nextState (newParser (lexerOf returnParenTokens)))

/-- The parser of `Parse` on the tokens `toks` after its first `next`. -/
def startParser (toks : List (TokenType × List Nat)) : Parser :=
  nextState (newParser (lexerOf toks))

/-- The leaf of a token. -/
def leaf (t : TokenType × List Nat) : Node := Node.mk TokenGrammar [] t.1 t.2

/-- The tokens of the template literal with two interpolations: the template start
`a${`, `b`, the template middle `}c${`, `d` and the template end `}e`, each with its
backtick. -/
def templateTwoTokens : List (TokenType × List Nat) :=
  [(TemplateStartToken, [96, 97, 36, 123]), (IdentifierToken, [98]),
    (TemplateMiddleToken, [125, 99, 36, 123]), (IdentifierToken, [100]),
    (TemplateEndToken, [125, 101, 96])]

/-- The tokens of the template literal with one interpolation: the template start `a${`,
`b` and the template end `}e`. -/
def templateOneTokens : List (TokenType × List Nat) :=
  [(TemplateStartToken, [96, 97, 36, 123]), (IdentifierToken, [98]),
    (TemplateEndToken, [125, 101, 96])]

/-- The tokens of `!x`. -/
def notTokens : List (TokenType × List Nat) :=
  [(NotToken, [33]), (IdentifierToken, [120])]

/-- The tokens of `a + -b`. -/
def addNegTokens : List (TokenType × List Nat) :=
  [(IdentifierToken, [97]), (WhitespaceToken, [32]), (AddToken, [43]),
    (WhitespaceToken, [32]), (SubToken, [45]), (IdentifierToken, [98])]

/-- The tokens of `a ! x`. -/
def binaryNotTokens : List (TokenType × List Nat) :=
  [(IdentifierToken, [97]), (WhitespaceToken, [32]), (NotToken, [33]),
    (WhitespaceToken, [32]), (IdentifierToken, [120])]

/-- Whitespace and line terminator tokens, which `next` skips. -/
def isSpace (t : TokenType × List Nat) : Bool :=
  t.1 = WhitespaceToken || t.1 = LineTerminatorToken

/-- The tokens at which `next` stops: those that are neither whitespace nor line
terminators. -/
def significant (toks : List (TokenType × List Nat)) : List (TokenType × List Nat) :=
  toks.filter (fun t => !isSpace t)

/-- Whether a line terminator comes before the first token at which `next` stops. -/
def lineBreakFirst (toks : List (TokenType × List Nat)) : Bool :=
  (toks.takeWhile isSpace).any (fun t => t.1 = LineTerminatorToken)

/-- The kind of the first token of a list, the error token for the empty list. -/
def headKind (toks : List (TokenType × List Nat)) : TokenType :=
  (toks.head?.map Prod.fst).getD ErrorToken

/-- The bytes of the first token of a list. -/
def headData (toks : List (TokenType × List Nat)) : List Nat :=
  (toks.head?.map Prod.snd).getD []

/-- The parser after the assignment `p.tt, p.data = p.l.RegExp()`. -/
def relex (env : Env) (p : Parser) : Parser :=
  { p with tt := (env.RegExp p.l).1.1, data := (env.RegExp p.l).1.2, l := (env.RegExp p.l).2 }

/-- An operand of a flat expression: an identifier, numeric or string token. -/
def isOperand (t : TokenType × List Nat) : Bool :=
  t.1 = IdentifierToken || t.1 = NumericToken || t.1 = StringToken

/-- An operand, then operators of `binaryTokens` and operands in turn, up to a last
operand. -/
def alternating : List (TokenType × List Nat) → Bool
  | [] => false
  | [a] => isOperand a
  | a :: o :: rest => isOperand a && decide (o.1 ∈ binaryTokens) && alternating rest

/-- The tokens of `a + b * c`. -/
def sumTokens : List (TokenType × List Nat) :=
  [(IdentifierToken, [97]), (WhitespaceToken, [32]), (AddToken, [43]),
    (WhitespaceToken, [32]), (IdentifierToken, [98]), (WhitespaceToken, [32]),
    (MulToken, [42]), (WhitespaceToken, [32]), (IdentifierToken, [99])]

/-- The tokens of `return`, a line terminator and `1`. -/
def returnBreakTokens : List (TokenType × List Nat) :=
  [(ReturnToken, [114, 101, 116, 117, 114, 110]), (LineTerminatorToken, [10]),
    (NumericToken, [49])]

/-- The tokens of `x => x+1`. -/
def arrowTokens : List (TokenType × List Nat) :=
  [(IdentifierToken, [120]), (WhitespaceToken, [32]), (ArrowToken, [61, 62]),
    (WhitespaceToken, [32]), (IdentifierToken, [120]), (AddToken, [43]),
    (NumericToken, [49])]

/-- The tokens of `a.b => 1`. -/
def memberArrowTokens : List (TokenType × List Nat) :=
  [(IdentifierToken, [97]), (DotToken, [46]), (IdentifierToken, [98]),
    (WhitespaceToken, [32]), (ArrowToken, [61, 62]), (WhitespaceToken, [32]),
    (NumericToken, [49])]

/-- The tokens of `a[0] => 1`. -/
def indexArrowTokens : List (TokenType × List Nat) :=
  [(IdentifierToken, [97]), (OpenBracketToken, [91]), (NumericToken, [48]),
    (CloseBracketToken, [93]), (WhitespaceToken, [32]), (ArrowToken, [61, 62]),
    (WhitespaceToken, [32]), (NumericToken, [49])]

/-- The body of an arrow function from the parser `q`, which is after the `=>` token: a block
statement at `{`, else an assignment expression. -/
def arrowBodyAt (env : Env) (F k : Nat) (q : Parser) : Except Abort (Node × Parser) :=
  if q.tt = OpenBraceToken then
    parseBlockStmt "arrow function expression" F (descent env F k) q
  else parseAssignmentExpr env F k q

/-- The tokens of `return /a/` as the lexer gives them before any re-lexing: `return`, a
space, `/`, `a` and `/`. -/
def returnRegexpTokens : List (TokenType × List Nat) :=
  [(ReturnToken, [114, 101, 116, 117, 114, 110]), (WhitespaceToken, [32]), (DivToken, [47]),
    (IdentifierToken, [97]), (DivToken, [47])]

/-- The tokens of `a++ / b`. -/
def postfixDivTokens : List (TokenType × List Nat) :=
  [(IdentifierToken, [97]), (IncrToken, [43, 43]), (WhitespaceToken, [32]), (DivToken, [47]),
    (WhitespaceToken, [32]), (IdentifierToken, [98])]

/-- The tokens of `a / b`. -/
def divTokens : List (TokenType × List Nat) :=
  [(IdentifierToken, [97]), (WhitespaceToken, [32]), (DivToken, [47]),
    (WhitespaceToken, [32]), (IdentifierToken, [98])]

/-- The statement that `parseStmt` makes of the `return` token with the bytes `data` and of
the outcome of `parseExpr`: the Stmt node of the two, after the `next` over a `;` (or a line
terminator) if the parser is at one. -/
def returnStmtOf (data : List Nat) (x : Except Abort (Node × Parser)) :
    Except Abort (Node × Parser) :=
  x.map (fun r => (Node.inner StmtGrammar [leaf (ReturnToken, data), r.1],
    if r.2.tt = SemicolonToken ∨ r.2.tt = LineTerminatorToken then nextState r.2 else r.2))

/-- The nodes and the parser at the call of `parseLeftHandSideExpr` in `parseAssignmentExpr`
(label `LHS`): after the prefix `++` or `--` token if the parser is at one. -/
def lhsStart (nodes : List Node) (p : Parser) : List Node × Parser :=
  if p.tt = IncrToken ∨ p.tt = DecrToken then (nodes ++ [leaf (p.tt, p.data)], nextState p)
  else (nodes, p)

end js

namespace css
open TokenType GrammarType ParserState

theorem readToks_cases (lw : Bool) (l : List TokenNode) :
    (∃ sk, l = sk ++ (readToks lw l).1 :: (readToks lw l).2 ∧
        (∀ t ∈ sk, t.TokenType = CommentToken ∨ t.TokenType = WhitespaceToken) ∧
        (readToks lw l).1.TokenType ≠ CommentToken ∧
        ((readToks lw l).1.TokenType = WhitespaceToken → lw = false)) ∨
    ((readToks lw l).1 = eofToken ∧ (readToks lw l).2 = [] ∧
        ∀ t ∈ l, t.TokenType = CommentToken ∨ t.TokenType = WhitespaceToken) := by
  induction l with
  | nil => right; simp [readToks]
  | cons t ts ih =>
    unfold readToks
    split
    · rename_i h
      rcases ih with ⟨sk, h1, h2, h3⟩ | ⟨h1, h2, h3⟩
      · left
        refine ⟨t :: sk, ?_, ?_, h3⟩
        · simp; exact h1
        · intro x hx
          rcases List.mem_cons.1 hx with rfl | hx
          · rcases h with h | h
            · exact Or.inl h
            · exact Or.inr h.1
          · exact h2 x hx
      · right
        refine ⟨h1, h2, ?_⟩
        intro x hx
        rcases List.mem_cons.1 hx with rfl | hx
        · rcases h with h | h
          · exact Or.inl h
          · exact Or.inr h.1
        · exact h3 x hx
    · rename_i h
      left
      refine ⟨[], rfl, by simp, ?_, ?_⟩
      · intro hc; exact h (Or.inl hc)
      · intro hw
        by_contra hl
        exact h (Or.inr ⟨hw, by simpa using hl⟩)

@[simp] theorem NewToken_eta (t : TokenNode) : NewToken t.TokenType t.Data = t := rfl

@[simp] theorem fill_pos (n : Nat) (p : Lookahead) : (fill n p).pos = p.pos := by
  induction n generalizing p with
  | zero => rfl
  | succ n ih => simp [fill, ih, read]

@[simp] theorem fill_bufCap (n : Nat) (p : Lookahead) : (fill n p).bufCap = p.bufCap := by
  induction n generalizing p with
  | zero => rfl
  | succ n ih => simp [fill, ih, read]

@[simp] theorem fill_length (n : Nat) (p : Lookahead) :
    (fill n p).buf.length = p.buf.length + n := by
  induction n generalizing p with
  | zero => rfl
  | succ n ih => simp [fill, ih, read]; omega

@[simp] theorem fill_err (n : Nat) (p : Lookahead) : (fill n p).z.err = p.z.err := by
  induction n generalizing p with
  | zero => rfl
  | succ n ih => simp [fill, ih, read]

theorem fill_filled (n : Nat) (p : Lookahead) :
    ∃ new, (fill n p).buf = p.buf ++ new ∧ new.length = n ∧
      Filled p.z.toks new (fill n p).z.toks := by
  induction n generalizing p with
  | zero => exact ⟨[], by simp [fill], rfl, Filled.done _⟩
  | succ n ih =>
    obtain ⟨new, h1, h2, h3⟩ := ih { (read p).2 with buf := (read p).2.buf ++ [(read p).1] }
    refine ⟨(read p).1 :: new, ?_, by simp [h2], ?_⟩
    · simp only [fill]
      rw [h1]
      simp [read]
    · simp only [fill]
      simp only [read, NewToken_eta] at h3 ⊢
      rcases readToks_cases (lastIsWhitespace p.buf) p.z.toks with ⟨sk, e1, e2, e3, _⟩ | ⟨e1, e2, e3⟩
      · have := Filled.tok sk _ _ new _ e2 e3 h3
        rw [← e1] at this
        exact this
      · rw [e2, e1] at h3
        rw [e1, e2]
        exact Filled.eof p.z.toks new _ e3 h3

theorem regrow_inv (p : Lookahead) (h : Inv p) : Inv (regrow p) := by
  obtain ⟨h1, h2, h3⟩ := h
  unfold regrow
  simp only []
  split <;> simp [Inv] <;> omega

@[simp] theorem regrow_pos (p : Lookahead) : (regrow p).pos = 0 := by
  unfold regrow; simp only []; split <;> rfl

@[simp] theorem regrow_buf (p : Lookahead) : (regrow p).buf = p.buf.drop p.pos := by
  unfold regrow; simp only []; split <;> rfl

@[simp] theorem regrow_z (p : Lookahead) : (regrow p).z = p.z := by
  unfold regrow; simp only []; split <;> rfl

theorem regrow_bufCap (p : Lookahead) :
    (regrow p).bufCap = if 2 * (p.buf.length - p.pos) > p.bufCap then 2 * p.bufCap
      else p.bufCap := by
  unfold regrow; simp only []; split <;> rfl

theorem regrow_bufCap_le (p : Lookahead) : p.bufCap ≤ (regrow p).bufCap := by
  rw [regrow_bufCap]; split <;> omega

theorem fillTo_spec (i : Nat) (p : Lookahead) (h : Inv p) (hi : p.pos + i < p.bufCap) :
    ∃ new, Inv (fillTo i p).2 ∧
      (fillTo i p).2.buf.drop (fillTo i p).2.pos = p.buf.drop p.pos ++ new ∧
      Filled p.z.toks new (fillTo i p).2.z.toks ∧
      (fillTo i p).2.bufCap = p.bufCap ∧
      (fillTo i p).2.pos + i < (fillTo i p).2.buf.length ∧
      (fillTo i p).1 = (fillTo i p).2.buf.getD ((fillTo i p).2.pos + i) eofToken ∧
      (fillTo i p).2.z.err = p.z.err := by
  obtain ⟨h1, h2, h3⟩ := h
  obtain ⟨new, e1, e2, e3⟩ := fill_filled (p.pos + i + 1 - p.buf.length) p
  refine ⟨new, ?_, ?_, e3, ?_, ?_, rfl, ?_⟩
  · simp [fillTo, Inv]; omega
  · simp [fillTo, e1, List.drop_append_of_le_length h1]
  · simp [fillTo]
  · simp [fillTo]; omega
  · simp [fillTo]

theorem peek_spec (i : Nat) (p : Lookahead) (h : Inv p) :
    ∃ new, Inv (peek i p).2 ∧
      (peek i p).2.buf.drop (peek i p).2.pos = p.buf.drop p.pos ++ new ∧
      Filled p.z.toks new (peek i p).2.z.toks ∧
      p.bufCap ≤ (peek i p).2.bufCap ∧
      (i < (peek i p).2.bufCap →
        (peek i p).2.pos + i < (peek i p).2.buf.length ∧
        (peek i p).1 = (peek i p).2.buf.getD ((peek i p).2.pos + i) eofToken) ∧
      (peek i p).2.z.err = p.z.err := by
  have h0 := h
  obtain ⟨h1, h2, h3⟩ := h
  unfold peek
  by_cases hge : p.pos + i ≥ p.buf.length
  · rw [if_pos hge]
    by_cases hc : p.pos + i ≥ p.bufCap
    · rw [if_pos hc]
      simp only []
      by_cases hfar : i ≥ (regrow p).bufCap
      · rw [if_pos hfar]
        exact ⟨[], regrow_inv p h0, by simp, by simpa using Filled.done _, regrow_bufCap_le p,
          fun hlt => absurd hfar (by simpa using hlt), by simp⟩
      · rw [if_neg hfar]
        obtain ⟨new, a1, a2, a3, a4, a5, a6, a7⟩ := fillTo_spec i (regrow p) (regrow_inv p h0)
          (by simp; omega)
        refine ⟨new, a1, ?_, by simpa using a3, ?_, fun _ => ⟨a5, a6⟩, by simpa using a7⟩
        · simpa using a2
        · rw [a4]; exact regrow_bufCap_le p
    · rw [if_neg hc]
      obtain ⟨new, a1, a2, a3, a4, a5, a6, a7⟩ := fillTo_spec i p h0 (by omega)
      exact ⟨new, a1, a2, a3, by omega, fun _ => ⟨a5, a6⟩, a7⟩
  · rw [if_neg hge]
    dsimp only
    exact ⟨[], h0, by simp, Filled.done _, le_refl _, fun _ => ⟨by omega, rfl⟩, rfl⟩

theorem Filled.append {z new z1 new2 z2 : List TokenNode} (h1 : Filled z new z1)
    (h2 : Filled z1 new2 z2) : Filled z (new ++ new2) z2 := by
  induction h1 with
  | done z => simpa using h2
  | tok sk t z1 new z3 hsk hc _ ih => exact Filled.tok sk t z1 _ z2 hsk hc (ih h2)
  | eof z new z3 hsk _ ih => exact Filled.eof z _ z2 hsk (ih h2)

theorem Moves.mrefl (p : Lookahead) (h : Inv p) : Moves p [] p :=
  ⟨h, le_refl _, rfl, [], by simp, Filled.done _⟩

theorem Moves.mtrans {p q r : Lookahead} {c d : List TokenNode} (h1 : Moves p c q)
    (h2 : Moves q d r) : Moves p (c ++ d) r := by
  obtain ⟨_, a2, ae, n1, a3, a4⟩ := h1
  obtain ⟨b1, b2, be, n2, b3, b4⟩ := h2
  refine ⟨b1, le_trans a2 b2, be.trans ae, n1 ++ n2, ?_, a4.append b4⟩
  rw [← List.append_assoc, a3, List.append_assoc, b3, List.append_assoc]

theorem Moves.minv {p q : Lookahead} {c : List TokenNode} (h : Moves p c q) : Inv q := h.1

theorem peek_moves (i : Nat) (p : Lookahead) (h : Inv p) : Moves p [] (peek i p).2 := by
  obtain ⟨new, a1, a2, a3, a4, _, a6⟩ := peek_spec i p h
  exact ⟨a1, a4, a6, new, by simpa [live] using a2.symm, a3⟩

theorem peek_zero_live (p : Lookahead) (h : Inv p) :
    live (peek 0 p).2 = cur p :: live (shift p).2 := by
  obtain ⟨new, a1, a2, a3, a4, a5, _⟩ := peek_spec 0 p h
  have hc : 0 < (peek 0 p).2.bufCap := a1.2.2
  obtain ⟨b1, b2⟩ := a5 hc
  simp only [Nat.add_zero] at b1 b2
  simp only [live, shift, cur]
  rw [b2, List.getD_eq_getElem _ _ b1]
  exact List.drop_eq_getElem_cons b1

theorem peek_of_lt (i : Nat) (q : Lookahead) (h : q.pos + i < q.buf.length) :
    peek i q = (q.buf.getD (q.pos + i) eofToken, q) := by
  unfold peek
  rw [if_neg (by omega)]

theorem peek_zero_idem (p : Lookahead) (h : Inv p) : peek 0 (peek 0 p).2 = peek 0 p := by
  obtain ⟨new, a1, a2, a3, a4, a5, _⟩ := peek_spec 0 p h
  have hc : 0 < (peek 0 p).2.bufCap := a1.2.2
  obtain ⟨b1, b2⟩ := a5 hc
  simp only [Nat.add_zero] at b1 b2
  rw [peek_of_lt 0 _ (by omega)]
  simp only [Nat.add_zero]
  rw [← b2]

theorem shift_moves (p : Lookahead) (h : Inv p) : Moves p [cur p] (shift p).2 := by
  obtain ⟨a1, a2, ae, new, a3, a4⟩ := peek_moves 0 p h
  have hl := peek_zero_live p h
  refine ⟨?_, a2, ae, new, ?_, a4⟩
  · have : (peek 0 p).2.pos < (peek 0 p).2.buf.length := by
      by_contra hn
      have : live (peek 0 p).2 = [] := by simp [live]; omega
      rw [this] at hl
      exact List.noConfusion hl
    obtain ⟨i1, i2, i3⟩ := a1
    exact ⟨by simp [shift]; omega, by simpa [shift] using i2, by simpa [shift] using i3⟩
  · simp only [List.nil_append] at a3
    rw [a3, hl]
    rfl

@[simp] theorem shift_fst (p : Lookahead) : (shift p).1 = cur p := rfl

theorem cur_peek_zero (p : Lookahead) (h : Inv p) : cur (peek 0 p).2 = cur p := by
  simp only [cur]; rw [peek_zero_idem p h]

theorem atToken_eq (tt : TokenType) (p : Lookahead) :
    atToken tt p = ((cur p).TokenType == tt, (peek 0 p).2) := rfl

theorem data_eq (p : Lookahead) : data p = ((cur p).Data, (peek 0 p).2) := rfl

theorem atAny_eq (tts : List TokenType) (p : Lookahead) (h : Inv p) (hne : tts ≠ []) :
    atAny tts p = (decide ((cur p).TokenType ∈ tts), (peek 0 p).2) := by
  induction tts generalizing p with
  | nil => exact absurd rfl hne
  | cons tt tts ih =>
    simp only [atAny, atToken_eq]
    by_cases hc : (cur p).TokenType = tt
    · simp [hc]
    · have hb : ((cur p).TokenType == tt) = false := by simpa using hc
      rw [hb]
      simp only [Bool.false_eq_true, if_false]
      by_cases hn : tts = []
      · subst hn
        simp [atAny, hc]
      · rw [ih _ (peek_moves 0 p h).minv hn, peek_zero_idem p h, cur_peek_zero p h]
        simp [hc]

/-! ### The invariants of the buffer under `peek`, `shift` and `copy` -/

theorem copy_eq (p : Lookahead) : copy p = p := by
  have h : ∀ l : List TokenNode,
      l.map (fun n => ({ n with Data := n.Data.map id } : TokenNode)) = l := by
    intro l
    induction l with
    | nil => rfl
    | cons a l ih => simp
  unfold copy
  rw [h, List.take_append_drop]

theorem lastIsWhitespace_eq_false {l : List TokenNode} (h : lastIsWhitespace l = false) :
    ∀ x ∈ l.getLast?, x.TokenType ≠ WhitespaceToken := by
  intro x hx
  simp only [lastIsWhitespace] at h
  rw [Option.mem_def] at hx
  rw [hx] at h
  simpa using h

theorem readToks_not_comment (lw : Bool) (l : List TokenNode) :
    (readToks lw l).1.TokenType ≠ CommentToken := by
  rcases readToks_cases lw l with ⟨_, _, _, h, _⟩ | ⟨h, _, _⟩
  · exact h
  · rw [h]; decide

theorem readToks_whitespace (lw : Bool) (l : List TokenNode)
    (h : (readToks lw l).1.TokenType = WhitespaceToken) : lw = false := by
  rcases readToks_cases lw l with ⟨_, _, _, _, h2⟩ | ⟨h2, _, _⟩
  · exact h2 h
  · rw [h2] at h; exact absurd h (by decide)

theorem fill_bufOK (n : Nat) (p : Lookahead) (h : BufOK p.buf) : BufOK (fill n p).buf := by
  induction n generalizing p with
  | zero => exact h
  | succ n ih =>
    simp only [fill]
    apply ih
    simp only [read, NewToken_eta]
    refine ⟨?_, ?_⟩
    · unfold NoAdjacentWhitespace
      rw [List.chain'_append]
      refine ⟨h.1, List.chain'_singleton _, ?_⟩
      intro x hx y hy
      simp only [List.head?_cons, Option.mem_def, Option.some.injEq] at hy
      subst hy
      intro hxy
      exact lastIsWhitespace_eq_false (readToks_whitespace _ _ hxy.2) x hx hxy.1
    · intro t ht
      rcases List.mem_append.1 ht with ht | ht
      · exact h.2 t ht
      · simp only [List.mem_singleton] at ht
        subst ht
        exact readToks_not_comment _ _

theorem drop_bufOK (k : Nat) (l : List TokenNode) (h : BufOK l) : BufOK (l.drop k) :=
  ⟨List.Chain'.drop h.1 k, fun t ht => h.2 t (List.mem_of_mem_drop ht)⟩

theorem peek_bufOK (i : Nat) (p : Lookahead) (h : BufOK p.buf) : BufOK (peek i p).2.buf := by
  have hr : BufOK (regrow p).buf := by rw [regrow_buf]; exact drop_bufOK _ _ h
  unfold peek
  split
  · split
    · simp only []
      split
      · exact hr
      · exact fill_bufOK _ _ hr
    · exact fill_bufOK _ _ h
  · exact h

theorem apply_bufOK (s : List TokenNode × Lookahead) (op : BufOp) (h : BufOK s.2.buf) :
    BufOK (op.apply s).2.buf := by
  cases op with
  | peek i => exact peek_bufOK i _ h
  | shift => exact peek_bufOK 0 _ h
  | copy => simp only [BufOp.apply, copy_eq]; exact h

theorem foldl_bufOK (ops : List BufOp) (s : List TokenNode × Lookahead) (h : BufOK s.2.buf) :
    BufOK (ops.foldl BufOp.apply s).2.buf := by
  induction ops generalizing s with
  | nil => exact h
  | cons op ops ih => exact ih _ (apply_bufOK s op h)

/-- C9: in every state of the lookahead buffer reached from the empty buffer of `NewParser2`
by any sequence of `peek`, `shift` and `copy` operations, no two adjacent entries of `buf` are
both whitespace tokens and no entry of `buf` is a comment token. -/
theorem buffer_no_adjacent_whitespace_no_comment (z : TokenStream) (ops : List BufOp) :
    NoAdjacentWhitespace (runOps ops (NewParser2 z).toLookahead).2.buf ∧
      ∀ t ∈ (runOps ops (NewParser2 z).toLookahead).2.buf, t.TokenType ≠ CommentToken := by
  apply foldl_bufOK
  exact ⟨List.chain'_nil, fun t ht => absurd ht (List.not_mem_nil t)⟩

/-! ### The tokens shifted are those of the stream, in order -/

theorem Filled.sublist {z new z2 : List TokenNode} (h : Filled z new z2) :
    ∃ m, List.Sublist (new ++ z2) (z ++ List.replicate m eofToken) ∧
      (new ++ z2).filter notSpace = z.filter notSpace ++ List.replicate m eofToken ∧
      (0 < m → z2 = []) := by
  induction h with
  | done z => exact ⟨0, by simp, by simp, by simp⟩
  | tok sk t z1 new z3 hsk hc _ ih =>
    obtain ⟨m, h1, h2, h3⟩ := ih
    refine ⟨m, ?_, ?_, h3⟩
    · rw [List.append_assoc]
      exact List.Sublist.trans (by simpa using h1.cons₂ t) (List.sublist_append_right sk _)
    · have hs : sk.filter notSpace = [] := by
        rw [List.filter_eq_nil_iff]
        intro x hx
        rcases hsk x hx with h | h <;> simp [notSpace, h]
      rw [List.filter_append sk, hs, List.nil_append, List.cons_append]
      by_cases ht : notSpace t = true
      · rw [List.filter_cons_of_pos ht, List.filter_cons_of_pos ht, h2, List.cons_append]
      · rw [List.filter_cons_of_neg ht, List.filter_cons_of_neg ht, h2]
  | eof z new z3 hsk _ ih =>
    obtain ⟨m, h1, h2, h3⟩ := ih
    have hz : z.filter notSpace = [] := by
      rw [List.filter_eq_nil_iff]
      intro x hx
      rcases hsk x hx with h | h <;> simp [notSpace, h]
    have hz3 : z3 = [] := by
      cases m with
      | zero =>
        simp only [List.replicate_zero, List.append_nil, List.sublist_nil,
          List.append_eq_nil] at h1
        exact h1.2
      | succ m => exact h3 (Nat.succ_pos m)
    refine ⟨m + 1, ?_, ?_, fun _ => hz3⟩
    · rw [List.replicate_succ]
      simp only [List.nil_append] at h1
      exact List.Sublist.trans (by simpa using h1.cons₂ eofToken)
        (List.sublist_append_right z _)
    · rw [hz, List.nil_append, List.replicate_succ]
      simp only [List.nil_append, List.filter_nil] at h2
      simp only [List.cons_append, List.filter_cons]
      have : notSpace eofToken = true := by decide
      rw [this, if_pos rfl, h2]

theorem Filled.not_comment {z new z2 : List TokenNode} (h : Filled z new z2) :
    ∀ t ∈ new, t.TokenType ≠ CommentToken := by
  induction h with
  | done z => intro t ht; exact absurd ht (List.not_mem_nil t)
  | tok sk t z1 new z3 hsk hc _ ih =>
    intro x hx
    rcases List.mem_cons.1 hx with rfl | hx
    · exact hc
    · exact ih x hx
  | eof z new z3 hsk _ ih =>
    intro x hx
    rcases List.mem_cons.1 hx with rfl | hx
    · decide
    · exact ih x hx

theorem apply_moves (p0 : Lookahead) (s : List TokenNode × Lookahead) (op : BufOp)
    (h : Moves p0 s.1 s.2) : Moves p0 (op.apply s).1 (op.apply s).2 := by
  cases op with
  | peek i => simpa [BufOp.apply] using h.mtrans (peek_moves i s.2 h.minv)
  | shift => exact h.mtrans (shift_moves s.2 h.minv)
  | copy => simpa [BufOp.apply, copy_eq] using h

theorem foldl_moves (p0 : Lookahead) (ops : List BufOp) (s : List TokenNode × Lookahead)
    (h : Moves p0 s.1 s.2) :
    Moves p0 (ops.foldl BufOp.apply s).1 (ops.foldl BufOp.apply s).2 := by
  induction ops generalizing s with
  | nil => exact h
  | cons op ops ih => exact ih _ (apply_moves p0 s op h)

theorem newParser2_inv (z : TokenStream) : Inv (NewParser2 z).toLookahead := by
  simp [NewParser2, Inv]

/-- C2: for every token stream and every sequence of `peek(i)`, `shift()` (and `copy`) calls
from the buffer of `NewParser2`, the tokens returned by the `shift` calls are a subsequence of
the stream (the tokens of `z`, then end tokens) in source order; the tokens that are neither
whitespace nor comments, taken from the tokens shifted, then from those still buffered, then
from those still unread, are exactly those of the stream in the same order, each once; and no
token shifted is a comment. -/
theorem shift_sequence_in_source_order (z : TokenStream) (ops : List BufOp) :
    ∃ m, List.Sublist (runOps ops (NewParser2 z).toLookahead).1
        (z.toks ++ List.replicate m eofToken) ∧
      ((runOps ops (NewParser2 z).toLookahead).1 ++
          live (runOps ops (NewParser2 z).toLookahead).2 ++
          (runOps ops (NewParser2 z).toLookahead).2.z.toks).filter notSpace
        = z.toks.filter notSpace ++ List.replicate m eofToken ∧
      ∀ t ∈ (runOps ops (NewParser2 z).toLookahead).1, t.TokenType ≠ CommentToken := by
  have hm := foldl_moves (NewParser2 z).toLookahead ops ([], (NewParser2 z).toLookahead)
    (Moves.mrefl _ (newParser2_inv z))
  obtain ⟨_, _, _, new, h1, h2⟩ := hm
  have hnew : new = (runOps ops (NewParser2 z).toLookahead).1 ++
      live (runOps ops (NewParser2 z).toLookahead).2 := by
    simpa [live, NewParser2, runOps] using h1
  obtain ⟨m, s1, s2, _⟩ := h2.sublist
  refine ⟨m, ?_, ?_, ?_⟩
  · refine List.Sublist.trans ?_ s1
    rw [hnew, List.append_assoc]
    exact List.sublist_append_left _ _
  · rw [← hnew]; exact s2
  · intro t ht
    exact h2.not_comment t (by rw [hnew]; exact List.mem_append_left _ ht)

/-- C8 fails on the code: in `padState` (position 15, sixteen tokens buffered, capacity 16,
index 1 below the capacity) two `shift` calls return the two whitespace tokens of the stream,
while `peek(1)` returns the identifier `y` and makes the same two `shift` calls return the
whitespace token and `y`: `peek(1)` is not the token of the second `shift`, and it changes
the tokens that the later `shift` calls return. -/
theorem peek_changes_later_shifts :
    padState.pos = 15 ∧ padState.buf.length = 16 ∧ padState.bufCap = 16 ∧
    (runOps [BufOp.shift, BufOp.shift] padState).1
      = [⟨WhitespaceToken, [32]⟩, ⟨WhitespaceToken, [32]⟩] ∧
    (peek 1 padState).1 = ⟨IdentToken, [121]⟩ ∧
    (runOps [BufOp.peek 1, BufOp.shift, BufOp.shift] padState).1
      = [⟨WhitespaceToken, [32]⟩, ⟨IdentToken, [121]⟩] := by
  decide

/-! ### The state stack and the nesting of the events -/

theorem parseAtRule_state (fuel : Nat) (p : Parser2) (r : Option Node) (q : Parser2)
    (h : parseAtRule fuel p = .ok (r, q)) :
    (r = none ∧ q.state = p.state) ∨ (r ≠ none ∧ q.state = p.state ++ [AtRuleState]) := by
  unfold parseAtRule at h
  simp only [] at h
  split at h
  · simp only [Except.ok.injEq, Prod.mk.injEq] at h
    left; exact ⟨h.1.symm, by rw [← h.2]⟩
  · split at h
    · exact absurd h (by simp)
    · simp only [Except.ok.injEq, Prod.mk.injEq] at h
      right; exact ⟨by rw [← h.1]; simp, by rw [← h.2]⟩

theorem parseRuleset_state (fuel : Nat) (p : Parser2) (r : Option Node) (q : Parser2)
    (h : parseRuleset fuel p = .ok (r, q)) :
    (r = none ∧ q.state = p.state) ∨ (r ≠ none ∧ q.state = p.state ++ [RulesetState]) := by
  unfold parseRuleset at h
  split at h
  · exact absurd h (by simp)
  · simp only [Except.ok.injEq, Prod.mk.injEq] at h
    left; exact ⟨h.1.symm, by rw [← h.2]⟩
  · split at h
    · exact absurd h (by simp)
    · simp only [] at h
      split at h
      · simp only [Except.ok.injEq, Prod.mk.injEq] at h
        left; exact ⟨h.1.symm, by rw [← h.2]⟩
      · simp only [Except.ok.injEq, Prod.mk.injEq] at h
        right; exact ⟨by rw [← h.1]; simp, by rw [← h.2]⟩

theorem nextEnd_state (fuel : Nat) (state : ParserState) (p : Parser2) (l : Lookahead)
    (gt : GrammarType) (n : Node) (q : Parser2)
    (hs : p.state.getLast? = some state) (hst : state = AtRuleState ∨ state = RulesetState)
    (h : nextEnd fuel state p l = .ok (gt, n, q)) : StateStep p gt q := by
  unfold nextEnd at h
  simp only [] at h
  split at h
  · exact absurd h (by simp)
  · split at h
    · rename_i ha
      simp only [Except.ok.injEq, Prod.mk.injEq] at h
      right; right; left
      exact ⟨h.1.symm, by rw [hs, ha], by rw [← h.2.2]⟩
    · rename_i ha
      simp only [Except.ok.injEq, Prod.mk.injEq] at h
      right; right; right; left
      refine ⟨h.1.symm, ?_, by rw [← h.2.2]⟩
      rcases hst with h1 | h1
      · exact absurd h1 ha
      · rw [hs, h1]

theorem nextRule_state [BytesLib]
    (fuel : Nat) (p : Parser2) (gt : GrammarType) (n : Node) (q : Parser2)
    (h : nextRule fuel p = .ok (gt, n, q)) : StateStep p gt q := by
  unfold nextRule at h
  simp only [] at h
  split at h
  · simp only [Except.ok.injEq, Prod.mk.injEq] at h
    right; right; right; right
    exact ⟨Or.inr (Or.inr h.1.symm), by rw [← h.2.2]⟩
  · split at h
    · exact absurd h (by simp)
    · rename_i cn p1 h1
      simp only [Except.ok.injEq, Prod.mk.injEq] at h
      rcases parseAtRule_state _ _ _ _ h1 with ⟨e, _⟩ | ⟨_, e⟩
      · exact absurd e (by simp)
      · left; exact ⟨h.1.symm, by rw [← h.2.2, e]⟩
    · rename_i p1 h1
      have e1 : p1.state = p.state := by
        rcases parseAtRule_state _ _ _ _ h1 with ⟨_, e⟩ | ⟨e, _⟩
        · exact e
        · exact absurd rfl e
      split at h
      · exact absurd h (by simp)
      · rename_i cn p2 h2
        simp only [Except.ok.injEq, Prod.mk.injEq] at h
        rcases parseRuleset_state _ _ _ _ h2 with ⟨e, _⟩ | ⟨_, e⟩
        · exact absurd e (by simp)
        · right; left; exact ⟨h.1.symm, by rw [← h.2.2, e, e1]⟩
      · rename_i p2 h2
        have e2 : p2.state = p.state := by
          rcases parseRuleset_state _ _ _ _ h2 with ⟨_, e⟩ | ⟨e, _⟩
          · rw [e, e1]
          · exact absurd rfl e
        split at h
        · exact absurd h (by simp)
        · simp only [Except.ok.injEq, Prod.mk.injEq] at h
          right; right; right; right
          exact ⟨Or.inr (Or.inl h.1.symm), by rw [← h.2.2]; exact e2⟩
        · simp only [Except.ok.injEq, Prod.mk.injEq] at h
          right; right; right; right
          exact ⟨Or.inr (Or.inr h.1.symm), by rw [← h.2.2]; exact e2⟩

theorem next_state [BytesLib] (fuel : Nat) (p : Parser2) (gt : GrammarType) (n : Node) (q : Parser2)
    (h : Parser2.Next fuel p = .ok (gt, n, q)) : StateStep p gt q := by
  unfold Parser2.Next at h
  generalize atToken ErrorToken p.toLookahead = e at h
  dsimp only at h
  by_cases he : e.1 = true
  · rw [if_pos he] at h
    simp only [Except.ok.injEq, Prod.mk.injEq] at h
    right; right; right; right
    exact ⟨Or.inl h.1.symm, by rw [← h.2.2]⟩
  · rw [if_neg he] at h
    generalize skipWhitespace e.2 = q0 at h
    cases hstate : Parser2.State p with
    | error a => rw [hstate] at h; exact absurd h (by simp)
    | ok state =>
      rw [hstate] at h
      dsimp only at h
      have hs : p.state.getLast? = some state := by
        unfold Parser2.State at hstate
        split at hstate
        · rename_i s hs
          simp only [Except.ok.injEq] at hstate
          rw [hs, hstate]
        · exact absurd hstate (by simp)
      generalize atToken RightBraceToken q0 = a at h
      by_cases hc : (a.1 && (decide (state = AtRuleState) || decide (state = RulesetState))) = true
      · rw [if_pos hc] at h
        refine nextEnd_state _ _ _ _ _ _ _ hs ?_ h
        simp only [Bool.and_eq_true, Bool.or_eq_true, decide_eq_true_eq] at hc
        exact hc.2
      · rw [if_neg hc] at h
        generalize atToken SemicolonToken a.2 = b at h
        by_cases hd : (b.1 && decide (state = AtRuleState)) = true
        · rw [if_pos hd] at h
          refine nextEnd_state _ _ _ _ _ _ _ hs ?_ h
          simp only [Bool.and_eq_true, decide_eq_true_eq] at hd
          exact Or.inl hd.2
        · rw [if_neg hd] at h
          exact nextRule_state _ { p with toLookahead := b.2 } _ _ _ h

theorem events_nested_aux [BytesLib] (inner : Nat) (k : Nat) (p : Parser2) (st : List GrammarType)
    (es : List (GrammarType × Node)) (q : Parser2)
    (hp : p.state = StylesheetState :: (st.reverse.map stateOf))
    (hst : ∀ g ∈ st, g = AtRuleGrammar ∨ g = RulesetGrammar)
    (h : Parser2.events inner k p = some (es, q)) :
    nestedFrom st (es.map (fun e => e.1)) = true := by
  induction k generalizing p st es q with
  | zero => simp [Parser2.events] at h
  | succ k ih =>
    unfold Parser2.events at h
    split at h
    · exact absurd h (by simp)
    · rename_i gt n p1 hn
      split at h
      · simp only [Option.some.injEq, Prod.mk.injEq] at h
        rw [← h.1]; simp [nestedFrom]
      · rename_i hgt
        split at h
        · exact absurd h (by simp)
        · rename_i es1 q2 he
          simp only [Option.some.injEq, Prod.mk.injEq] at h
          rw [← h.1]
          simp only [List.map_cons]
          rcases next_state _ _ _ _ _ hn with ⟨e, s⟩ | ⟨e, s⟩ | ⟨e, l, s⟩ | ⟨e, l, s⟩ | ⟨e, s⟩
          · subst e
            simp only [nestedFrom]
            refine ih p1 (AtRuleGrammar :: st) es1 _ ?_ ?_ he
            · rw [s, hp]; simp [stateOf]
            · intro g hg
              rcases List.mem_cons.1 hg with rfl | hg
              · exact Or.inl rfl
              · exact hst g hg
          · subst e
            simp only [nestedFrom]
            refine ih p1 (RulesetGrammar :: st) es1 _ ?_ ?_ he
            · rw [s, hp]; simp [stateOf]
            · intro g hg
              rcases List.mem_cons.1 hg with rfl | hg
              · exact Or.inr rfl
              · exact hst g hg
          · subst e
            cases st with
            | nil => rw [hp] at l; simp at l
            | cons g st =>
              rw [hp] at l s
              simp only [List.reverse_cons, List.map_append, List.map_cons, List.map_nil] at l s
              rw [← List.cons_append, List.getLast?_concat] at l
              simp only [Option.some.injEq] at l
              rw [← List.cons_append, List.dropLast_concat] at s
              rcases hst g (List.mem_cons_self _ _) with rfl | rfl
              · simp only [nestedFrom]
                exact ih p1 st es1 _ s (fun g hg => hst g (List.mem_cons_of_mem _ hg)) he
              · simp [stateOf] at l
          · subst e
            cases st with
            | nil => rw [hp] at l; simp at l
            | cons g st =>
              rw [hp] at l s
              simp only [List.reverse_cons, List.map_append, List.map_cons, List.map_nil] at l s
              rw [← List.cons_append, List.getLast?_concat] at l
              simp only [Option.some.injEq] at l
              rw [← List.cons_append, List.dropLast_concat] at s
              rcases hst g (List.mem_cons_self _ _) with rfl | rfl
              · simp [stateOf] at l
              · simp only [nestedFrom]
                exact ih p1 st es1 _ s (fun g hg => hst g (List.mem_cons_of_mem _ hg)) he
          · have : nestedFrom st (gt :: es1.map (fun e => e.1))
                = nestedFrom st (es1.map (fun e => e.1)) := by
              rcases e with e | e | e <;> subst e
              · exact absurd rfl hgt
              · cases st with
                | nil => rfl
                | cons g st => cases g <;> rfl
              · cases st with
                | nil => rfl
                | cons g st => cases g <;> rfl
            rw [this]
            exact ih p1 st es1 _ (by rw [s, hp]) hst he

/-- C1: for every token stream, the events returned by repeated `Next` calls from `NewParser2`
up to the first Error event are strictly nested: every `EndAtRule` closes the most recent
start event still open, which is an `AtRule`, every `EndRuleset` closes the most recent start
event still open, which is a `Ruleset`, and no End event comes when no start event is open. -/
theorem events_strictly_nested [BytesLib] (z : TokenStream) (inner k : Nat)
    (es : List (GrammarType × Node)) (q : Parser2)
    (h : Parser2.events inner k (NewParser2 z) = some (es, q)) :
    nestedFrom [] (es.map (fun e => e.1)) = true :=
  events_nested_aux inner k (NewParser2 z) [] es q rfl
    (fun g hg => absurd hg (List.not_mem_nil g)) h

section
attribute [local instance] asciiLib

/-- The nesting of the events of `@media screen { a{b:c} }`. -/
theorem events_strictly_nested_witness :
    ∃ es q, Parser2.events 30 10 (NewParser2 mediaStream) = some (es, q) ∧
      es.map (fun e => e.1) = [AtRuleGrammar, RulesetGrammar, DeclarationGrammar,
        EndRulesetGrammar, EndAtRuleGrammar] ∧
      nestedFrom [] (es.map (fun e => e.1)) = true :=
  ⟨_, _, rfl, rfl, events_strictly_nested mediaStream 30 10 _ _ rfl⟩

end

/-! ### What follows from `Moves` -/

theorem Filled.length_le {z new z2 : List TokenNode} (h : Filled z new z2) :
    (new.filter nonError).length + z2.length ≤ z.length := by
  induction h with
  | done z => simp
  | tok sk t z1 new z3 hsk hc _ ih =>
    have : ((t :: new).filter nonError).length ≤ (new.filter nonError).length + 1 := by
      rw [List.filter_cons]; split <;> simp
    simp only [List.length_append, List.length_cons]
    omega
  | eof z new z3 hsk _ ih =>
    have : ((eofToken :: new).filter nonError) = new.filter nonError := by
      rw [List.filter_cons_of_neg (by decide)]
    rw [this]
    simp only [List.length_nil] at ih
    omega

theorem Filled.mem {z new z2 : List TokenNode} (h : Filled z new z2) :
    ∀ t ∈ new ++ z2, t ∈ z ∨ t = eofToken := by
  induction h with
  | done z => intro t ht; simpa using Or.inl ht
  | tok sk t z1 new z3 hsk hc _ ih =>
    intro x hx
    simp only [List.cons_append, List.mem_cons] at hx
    rcases hx with rfl | hx
    · left; simp
    · rcases ih x hx with h | h
      · left; simp [h]
      · right; exact h
  | eof z new z3 hsk _ ih =>
    intro x hx
    simp only [List.cons_append, List.mem_cons] at hx
    rcases hx with rfl | hx
    · right; rfl
    · rcases ih x hx with h | h
      · exact absurd h (List.not_mem_nil x)
      · right; exact h

theorem Moves.mmu_le {p q : Lookahead} {c : List TokenNode} (h : Moves p c q) :
    mu q + (c.filter nonError).length ≤ mu p := by
  obtain ⟨_, _, _, new, h1, h2⟩ := h
  have h3 := h2.length_le
  have h4 := congrArg (fun l => (l.filter nonError).length) h1
  simp only [List.filter_append, List.length_append] at h4
  simp only [mu]
  omega

theorem Moves.pending_mem {p q : Lookahead} {c : List TokenNode} (h : Moves p c q) :
    ∀ t ∈ c ++ (live q ++ q.z.toks), t ∈ live p ++ p.z.toks ∨ t = eofToken := by
  obtain ⟨_, _, _, new, h1, h2⟩ := h
  intro t ht
  rw [← List.append_assoc, ← h1, List.append_assoc] at ht
  rcases List.mem_append.1 ht with ht | ht
  · left; exact List.mem_append_left _ ht
  · rcases h2.mem t ht with h | h
    · left; exact List.mem_append_right _ h
    · right; exact h

theorem Moves.msublist {p q : Lookahead} {c : List TokenNode} (h : Moves p c q) :
    ∃ m, List.Sublist (c ++ (live q ++ q.z.toks))
      (live p ++ p.z.toks ++ List.replicate m eofToken) := by
  obtain ⟨_, _, _, new, h1, h2⟩ := h
  obtain ⟨m, s1, _, _⟩ := h2.sublist
  refine ⟨m, ?_⟩
  rw [← List.append_assoc, ← h1, List.append_assoc, List.append_assoc]
  exact List.Sublist.append (List.Sublist.refl _) s1

theorem eofToken_delimOK : DelimOK eofToken := by
  intro h; exact absurd h (by decide)

theorem Moves.mgood {p q : Lookahead} {c : List TokenNode} (h : Moves p c q) (hp : Good p) :
    Good q := by
  refine ⟨h.minv, fun t ht => ?_⟩
  rcases h.pending_mem t (List.mem_append_right _ ht) with h1 | h1
  · exact hp.2 t h1
  · rw [h1]; exact eofToken_delimOK

theorem live_peek_zero_ne_nil (p : Lookahead) (h : Inv p) : live (peek 0 p).2 ≠ [] := by
  rw [peek_zero_live p h]; exact List.cons_ne_nil _ _

theorem cur_eq_head (p : Lookahead) (_ : Inv p) (t : TokenNode) (l : List TokenNode)
    (hl : live p = t :: l) : cur p = t := by
  have hlt : p.pos + 0 < p.buf.length := by
    by_contra hn
    have : live p = [] := by simp [live]; omega
    rw [this] at hl; exact List.noConfusion hl
  simp only [cur, peek_of_lt 0 p hlt, Nat.add_zero]
  simp only [Nat.add_zero] at hlt
  rw [List.getD_eq_getElem _ _ hlt]
  have := List.drop_eq_getElem_cons hlt
  simp only [live] at hl
  rw [this] at hl
  exact (List.cons.inj hl).1

theorem cur_mem (p : Lookahead) (h : Inv p) : cur p ∈ live p ++ p.z.toks ∨ cur p = eofToken :=
  (shift_moves p h).pending_mem (cur p) (by simp)

theorem Good.cur_delimOK {p : Lookahead} (h : Good p) : DelimOK (cur p) := by
  rcases cur_mem p h.1 with h1 | h1
  · exact h.2 _ h1
  · rw [h1]; exact eofToken_delimOK

theorem Moves.cur_eq {p q : Lookahead} (h : Moves p [] q) (hp : Inv p) (hl : live p ≠ []) :
    cur q = cur p ∧ live q ≠ [] := by
  obtain ⟨hq, _, _, new, h1, _⟩ := h
  simp only [List.nil_append] at h1
  obtain ⟨t, l, e⟩ := List.exists_cons_of_ne_nil hl
  rw [e] at h1
  rw [cur_eq_head p hp t l e, cur_eq_head q hq t (l ++ new) (by rw [← h1]; rfl)]
  exact ⟨rfl, by rw [← h1]; exact List.cons_ne_nil _ _⟩

theorem shift_peek_zero (p : Lookahead) (h : Inv p) : shift (peek 0 p).2 = shift p := by
  simp only [shift, peek_zero_idem p h]

theorem skipWhitespace_eq (p : Lookahead) (h : Inv p) :
    skipWhitespace p =
      if (cur p).TokenType = WhitespaceToken then (shift p).2 else (peek 0 p).2 := by
  simp only [skipWhitespace, atToken_eq, shift_peek_zero p h, beq_iff_eq]

theorem skipWhitespace_moves (p : Lookahead) (h : Inv p) :
    ∃ c, Moves p c (skipWhitespace p) ∧ (c = [] ∨ (c = [cur p] ∧ nonError (cur p) = true)) := by
  rw [skipWhitespace_eq p h]
  split
  · rename_i hw
    exact ⟨[cur p], shift_moves p h, Or.inr ⟨rfl, by simp [nonError, hw]⟩⟩
  · exact ⟨[], peek_moves 0 p h, Or.inl rfl⟩

/-! ### The descent functions shift what they return -/

theorem Consumes.cinv {p q : Lookahead} {l : List TokenNode} (h : Consumes p q l) : Inv q := by
  obtain ⟨c, h1, _⟩ := h; exact h1.minv

theorem ConsumesCur.ccinv {p q : Lookahead} {l : List TokenNode} (h : ConsumesCur p q l) :
    Inv q := by
  obtain ⟨c, h1, _⟩ := h; exact h1.minv

theorem Consumes.crefl (p : Lookahead) (h : Inv p) : Consumes p p [] :=
  ⟨[], Moves.mrefl p h, List.Sublist.refl _⟩

theorem Consumes.ctrans {p q r : Lookahead} {l1 l2 : List TokenNode} (h1 : Consumes p q l1)
    (h2 : Consumes q r l2) : Consumes p r (l1 ++ l2) := by
  obtain ⟨c, a1, a2⟩ := h1
  obtain ⟨d, b1, b2⟩ := h2
  exact ⟨c ++ d, a1.mtrans b1, a2.append b2⟩

theorem Consumes.cweaken {p q : Lookahead} {l l2 : List TokenNode} (h : Consumes p q l)
    (hl : List.Sublist l2 l) : Consumes p q l2 := by
  obtain ⟨c, a1, a2⟩ := h
  exact ⟨c, a1, hl.trans a2⟩

theorem ConsumesCur.consumes {p q : Lookahead} {l : List TokenNode} (h : ConsumesCur p q l) :
    Consumes p q l := by
  obtain ⟨c, a1, a2⟩ := h
  exact ⟨_, a1, a2⟩

theorem ConsumesCur.cctrans {p q r : Lookahead} {l1 l2 : List TokenNode}
    (h1 : ConsumesCur p q l1) (h2 : Consumes q r l2) : ConsumesCur p r (l1 ++ l2) := by
  obtain ⟨c, a1, a2⟩ := h1
  obtain ⟨d, b1, b2⟩ := h2
  exact ⟨c ++ d, by simpa using a1.mtrans b1, by simpa using a2.append b2⟩

theorem ConsumesCur.ccweaken {p q : Lookahead} {l l2 : List TokenNode} (h : ConsumesCur p q l)
    (hl : List.Sublist l2 l) : ConsumesCur p q l2 := by
  obtain ⟨c, a1, a2⟩ := h
  exact ⟨c, a1, hl.trans a2⟩

theorem consumes_peek (p : Lookahead) (h : Inv p) : Consumes p (peek 0 p).2 [] :=
  ⟨[], peek_moves 0 p h, List.Sublist.refl _⟩

theorem consumesCur_shift (p : Lookahead) (h : Inv p) : ConsumesCur p (shift p).2 [cur p] :=
  ⟨[], shift_moves p h, List.Sublist.refl _⟩

theorem consumes_skipWhitespace (p : Lookahead) (h : Inv p) :
    Consumes p (skipWhitespace p) [] := by
  obtain ⟨c, h1, _⟩ := skipWhitespace_moves p h
  exact ⟨c, h1, List.nil_sublist _⟩

/-- From the state after `peek(0)`. -/
theorem ConsumesCur.ccof_peek {p q : Lookahead} {l : List TokenNode} (hp : Inv p)
    (h : ConsumesCur (peek 0 p).2 q l) : ConsumesCur p q l := by
  obtain ⟨c, a1, a2⟩ := h
  rw [cur_peek_zero p hp] at a1 a2
  exact ⟨c, by simpa using (peek_moves 0 p hp).mtrans a1, a2⟩

theorem Consumes.cof_peek {p q : Lookahead} {l : List TokenNode} (hp : Inv p)
    (h : Consumes (peek 0 p).2 q l) : Consumes p q l := by
  simpa using (consumes_peek p hp).ctrans h

theorem inv_peek (i : Nat) (p : Lookahead) (h : Inv p) : Inv (peek i p).2 :=
  (peek_moves i p h).minv

theorem inv_shift (p : Lookahead) (h : Inv p) : Inv (shift p).2 := (shift_moves p h).minv

theorem inv_skipWhitespace (p : Lookahead) (h : Inv p) : Inv (skipWhitespace p) :=
  (consumes_skipWhitespace p h).cinv

theorem leavesList_append (a b : List Node) :
    leavesList (a ++ b) = leavesList a ++ leavesList b := by
  induction a with
  | nil => simp [leavesList]
  | cons x xs ih => simp [leavesList, ih]

theorem leavesList_singleton (a : Node) : leavesList [a] = a.leaves := by
  simp [leavesList]

theorem blockLoop_consumes (sc : Lookahead → Res Node) (hsc : ScOK sc) (o : TokenNode)
    (f : Nat) (nodes : List Node) (p : Lookahead) (r : Node) (q : Lookahead) (hp : Inv p)
    (h : blockLoop sc o f nodes p = .ok (r, q)) :
    ∃ ns cl, r = Node.Block o (nodes ++ ns) cl ∧
      Consumes p q (leavesList ns ++ cl.toList) := by
  induction f generalizing nodes p with
  | zero => simp [blockLoop] at h
  | succ f ih =>
    rw [blockLoop, atAny_eq _ _ hp (by simp)] at h
    dsimp only at h
    split at h
    · rw [atToken_eq, peek_zero_idem p hp] at h
      dsimp only at h
      split at h
      · simp only [Except.ok.injEq, Prod.mk.injEq] at h
        refine ⟨[], some (cur (peek 0 p).2), by rw [← h.1]; simp, ?_⟩
        rw [← h.2]
        simpa [leavesList] using (consumes_peek p hp).ctrans
          (consumesCur_shift _ (inv_peek 0 p hp)).consumes
      · simp only [Except.ok.injEq, Prod.mk.injEq] at h
        refine ⟨[], none, by rw [← h.1]; simp, ?_⟩
        rw [← h.2]
        simpa [leavesList] using consumes_peek p hp
    · split at h
      · exact absurd h (by simp)
      · rename_i c q1 hc
        have h1 := (hsc _ _ _ (inv_peek 0 p hp) hc).consumes
        obtain ⟨ns, cl, e, h2⟩ := ih _ _ (inv_skipWhitespace _ h1.cinv) h
        refine ⟨c :: ns, cl, by rw [e]; simp, ?_⟩
        have := (Consumes.cof_peek hp h1).ctrans ((consumes_skipWhitespace _ h1.cinv).ctrans h2)
        simpa [leavesList] using this

theorem parseBlock_consumes (sc : Lookahead → Res Node) (hsc : ScOK sc) (f : Nat)
    (p : Lookahead) (r : Option Node) (q : Lookahead) (hp : Inv p)
    (h : parseBlock sc f p = .ok (r, q)) :
    (r = none ∧ q = (peek 0 p).2) ∨ (∃ n, r = some n ∧ ConsumesCur p q n.leaves) := by
  rw [parseBlock, atAny_eq _ _ hp (by simp)] at h
  dsimp only at h
  split at h
  · simp only [Except.ok.injEq, Prod.mk.injEq] at h
    left; exact ⟨h.1.symm, h.2.symm⟩
  · split at h
    · exact absurd h (by simp)
    · rename_i n q1 hb
      simp only [Except.ok.injEq, Prod.mk.injEq] at h
      right
      refine ⟨n, h.1.symm, ?_⟩
      rw [← h.2]
      rw [shift_peek_zero p hp] at hb
      have h0 := consumesCur_shift p hp
      obtain ⟨ns, cl, e, h2⟩ := blockLoop_consumes sc hsc _ _ _ _ _ _
        (inv_skipWhitespace _ h0.ccinv) hb
      have := h0.cctrans ((consumes_skipWhitespace _ h0.ccinv).ctrans h2)
      rw [e]
      simpa [Node.leaves] using this

theorem parseArgument_consumes (sc : Lookahead → Res Node) (hsc : ScOK sc)
    (f : Nat) (vals : List Node) (p : Lookahead) (r : Node) (q : Lookahead) (hp : Inv p)
    (h : parseArgument sc f vals p = .ok (r, q)) :
    ∃ vs, r = Node.Argument (vals ++ vs) ∧ Consumes p q (leavesList vs) ∧
      (cur q).TokenType ∈ [CommaToken, RightParenthesisToken, ErrorToken] := by
  induction f generalizing vals p with
  | zero => simp [parseArgument] at h
  | succ f ih =>
    rw [parseArgument, atAny_eq _ _ hp (by simp)] at h
    dsimp only at h
    split at h
    · rename_i hc
      simp only [Except.ok.injEq, Prod.mk.injEq] at h
      refine ⟨[], by rw [← h.1]; simp, ?_, ?_⟩
      · rw [← h.2]; simpa [leavesList] using consumes_peek p hp
      · rw [← h.2, cur_peek_zero p hp]; simpa using hc
    · split at h
      · exact absurd h (by simp)
      · rename_i c q1 hc
        have h1 := (hsc _ _ _ (inv_peek 0 p hp) hc).consumes
        obtain ⟨vs, e, h2, h3⟩ := ih _ _ (inv_skipWhitespace _ h1.cinv) h
        refine ⟨c :: vs, by rw [e]; simp, ?_, h3⟩
        have := (Consumes.cof_peek hp h1).ctrans ((consumes_skipWhitespace _ h1.cinv).ctrans h2)
        simpa [leavesList] using this

theorem functionLoop_consumes (sc : Lookahead → Res Node) (hsc : ScOK sc) (func : TokenNode)
    (f : Nat) (args : List Node) (p : Lookahead) (r : Option Node) (q : Lookahead)
    (hp : Inv p) (h : functionLoop sc func f args p = .ok (r, q)) :
    ∃ c, Moves p c q ∧ ∀ n, r = some n →
      ∃ as, n = Node.Function func (args ++ as) ∧ List.Sublist (leavesList as) c := by
  induction f generalizing args p with
  | zero => simp [functionLoop] at h
  | succ f ih =>
    rw [functionLoop, atAny_eq _ _ hp (by simp)] at h
    dsimp only at h
    split at h
    · rw [atToken_eq, peek_zero_idem p hp] at h
      dsimp only at h
      split at h
      · simp only [Except.ok.injEq, Prod.mk.injEq] at h
        refine ⟨[], ?_, ?_⟩
        · rw [← h.2]; exact peek_moves 0 p hp
        · intro n hn; rw [← h.1] at hn; exact absurd hn (by simp)
      · simp only [Except.ok.injEq, Prod.mk.injEq] at h
        refine ⟨[cur p], ?_, ?_⟩
        · rw [← h.2, shift_peek_zero p hp]; exact shift_moves p hp
        · intro n hn
          rw [← h.1] at hn
          simp only [Option.some.injEq] at hn
          exact ⟨[], by rw [← hn]; simp, by simp [leavesList]⟩
    · rw [atToken_eq, peek_zero_idem p hp] at h
      dsimp only at h
      split at h
      · rw [shift_peek_zero p hp] at h
        have h0 := shift_moves p hp
        obtain ⟨d, b1, _⟩ := consumes_skipWhitespace _ h0.minv
        obtain ⟨c, a1, a2⟩ := ih _ _ (inv_skipWhitespace _ h0.minv) h
        refine ⟨_, h0.mtrans (b1.mtrans a1), ?_⟩
        intro n hn
        obtain ⟨as, e1, e2⟩ := a2 n hn
        exact ⟨as, e1, e2.trans ((List.sublist_append_right d c).trans
          (List.sublist_append_right _ _))⟩
      · split at h
        · exact absurd h (by simp)
        · rename_i a q1 ha
          obtain ⟨vs, e, ⟨d, b1, b2⟩, _⟩ := parseArgument_consumes sc hsc _ _ _ _ _
            (inv_peek 0 p hp) ha
          obtain ⟨c, a1, a2⟩ := ih _ _ b1.minv h
          refine ⟨_, (peek_moves 0 p hp).mtrans (b1.mtrans a1), ?_⟩
          intro n hn
          obtain ⟨as, e1, e2⟩ := a2 n hn
          refine ⟨a :: as, by rw [e1]; simp, ?_⟩
          rw [e]
          simpa [leavesList, Node.leaves] using b2.append e2

theorem parseFunctionWith_consumes (sc : Lookahead → Res Node) (hsc : ScOK sc) (f : Nat)
    (p : Lookahead) (r : Option Node) (q : Lookahead) (hp : Inv p)
    (h : parseFunctionWith sc f p = .ok (r, q)) :
    ((cur p).TokenType ≠ FunctionToken ∧ r = none ∧ q = (peek 0 p).2) ∨
    ((cur p).TokenType = FunctionToken ∧
      ∃ c, Moves p (cur p :: c) q ∧ ∀ n, r = some n → List.Sublist n.leaves (cur p :: c)) := by
  rw [parseFunctionWith, atToken_eq] at h
  dsimp only at h
  split at h
  · rename_i hc
    simp only [Except.ok.injEq, Prod.mk.injEq] at h
    left; exact ⟨by simpa using hc, h.1.symm, h.2.symm⟩
  · rename_i hc
    right
    refine ⟨by simpa using hc, ?_⟩
    rw [shift_peek_zero p hp] at h
    have h0 := shift_moves p hp
    obtain ⟨d, b1, _⟩ := consumes_skipWhitespace _ h0.minv
    obtain ⟨c, a1, a2⟩ := functionLoop_consumes sc hsc _ _ _ _ _ _
      (inv_skipWhitespace _ h0.minv) h
    refine ⟨d ++ c, by simpa using h0.mtrans (b1.mtrans a1), ?_⟩
    intro n hn
    obtain ⟨as, e1, e2⟩ := a2 n hn
    rw [e1]
    simp only [Node.leaves, List.nil_append]
    exact (e2.trans (List.sublist_append_right d c)).cons₂ _

theorem shiftComponent_consumes (f : Nat) : ScOK (shiftComponent f) := by
  induction f with
  | zero => intro p r q _ h; simp [shiftComponent] at h
  | succ f ih =>
    intro p r q hp h
    rw [shiftComponent] at h
    split at h
    · exact absurd h (by simp)
    · rename_i cn q1 hb
      simp only [Except.ok.injEq, Prod.mk.injEq] at h
      rcases parseBlock_consumes _ ih _ _ _ _ hp hb with ⟨e, _⟩ | ⟨n, e, h1⟩
      · exact absurd e (by simp)
      · simp only [Option.some.injEq] at e
        rw [← h.1, ← h.2, e]; exact h1
    · rename_i q1 hb
      have eq1 : q1 = (peek 0 p).2 := by
        rcases parseBlock_consumes _ ih _ _ _ _ hp hb with ⟨_, e⟩ | ⟨n, e, _⟩
        · exact e
        · exact absurd e (by simp)
      subst eq1
      have hp1 := inv_peek 0 p hp
      split at h
      · exact absurd h (by simp)
      · rename_i cn q2 hf
        simp only [Except.ok.injEq, Prod.mk.injEq] at h
        rcases parseFunctionWith_consumes _ ih _ _ _ _ hp1 hf with ⟨_, e, _⟩ | ⟨_, c, a1, a2⟩
        · exact absurd e (by simp)
        · rw [← h.1, ← h.2]
          exact ConsumesCur.ccof_peek hp ⟨c, a1, a2 cn rfl⟩
      · rename_i q2 hf
        simp only [Except.ok.injEq, Prod.mk.injEq] at h
        rw [← h.1, ← h.2]
        rcases parseFunctionWith_consumes _ ih _ _ _ _ hp1 hf with ⟨_, _, e⟩ | ⟨_, c, a1, _⟩
        · rw [e, peek_zero_idem p hp, shift_peek_zero p hp]
          simpa [Node.leaves] using consumesCur_shift p hp
        · apply ConsumesCur.ccof_peek hp
          have h2 := shift_moves q2 a1.minv
          refine ⟨c ++ [cur q2], by simpa using a1.mtrans h2, ?_⟩
          simp only [Node.leaves, shift_fst]
          exact (List.sublist_append_right c [cur q2]).trans (List.sublist_cons_self _ _)

theorem parseFunction_consumes (f : Nat) (p : Lookahead) (r : Option Node) (q : Lookahead)
    (hp : Inv p) (h : parseFunction f p = .ok (r, q)) :
    ((cur p).TokenType ≠ FunctionToken ∧ r = none ∧ q = (peek 0 p).2) ∨
    ((cur p).TokenType = FunctionToken ∧
      ∃ c, Moves p (cur p :: c) q ∧ ∀ n, r = some n → List.Sublist n.leaves (cur p :: c)) :=
  parseFunctionWith_consumes _ (shiftComponent_consumes f) f p r q hp h

theorem dataFirstIs_state (cs : List Nat) (p : Lookahead) (b : Bool) (q : Lookahead)
    (hp : Inv p) (hcs : cs ≠ []) (h : dataFirstIs cs p = .ok (b, q)) : q = (peek 0 p).2 := by
  induction cs generalizing p with
  | nil => exact absurd rfl hcs
  | cons c cs ih =>
    rw [dataFirstIs, data_eq] at h
    dsimp only at h
    split at h
    · exact absurd h (by simp)
    · split at h
      · simp only [Except.ok.injEq, Prod.mk.injEq] at h
        exact h.2.symm
      · by_cases hn : cs = []
        · subst hn
          simp only [dataFirstIs, Except.ok.injEq, Prod.mk.injEq] at h
          exact h.2.symm
        · have := ih _ (inv_peek 0 p hp) hn h
          rw [this, peek_zero_idem p hp]

theorem delimIs_state (cs : List Nat) (p : Lookahead) (b : Bool) (q : Lookahead)
    (hp : Inv p) (hcs : cs ≠ []) (h : delimIs cs p = .ok (b, q)) : q = (peek 0 p).2 := by
  rw [delimIs, atToken_eq] at h
  dsimp only at h
  split at h
  · have := dataFirstIs_state cs _ b q (inv_peek 0 p hp) hcs h
    rw [this, peek_zero_idem p hp]
  · simp only [Except.ok.injEq, Prod.mk.injEq] at h
    exact h.2.symm

theorem atImportant_state [BytesLib]
    (p : Lookahead) (hp : Inv p) : (atImportant p).2 = (peek 0 p).2 := by
  rw [atImportant, atToken_eq]
  dsimp only
  split
  · rw [data_eq, peek_zero_idem p hp]
  · rfl

theorem skipWhile_consumes (tt : TokenType) (f : Nat) (p q : Lookahead) (hp : Inv p)
    (h : skipWhile tt f p = .ok q) : Consumes p q [] := by
  induction f generalizing p with
  | zero => simp [skipWhile] at h
  | succ f ih =>
    rw [skipWhile, atAny_eq _ _ hp (by simp)] at h
    dsimp only at h
    split at h
    · rw [shift_peek_zero p hp] at h
      have h0 := (consumesCur_shift p hp).consumes
      exact (h0.ctrans (ih _ h0.cinv h)).cweaken (List.nil_sublist _)
    · simp only [Except.ok.injEq] at h
      rw [← h]; exact consumes_peek p hp

theorem atRuleLoop_consumes (f : Nat) (nodes : List Node) (p : Lookahead) (r : List Node)
    (q : Lookahead) (hp : Inv p) (h : atRuleLoop f nodes p = .ok (r, q)) :
    ∃ ns, r = nodes ++ ns ∧ Consumes p q (leavesList ns) := by
  induction f generalizing nodes p with
  | zero => simp [atRuleLoop] at h
  | succ f ih =>
    rw [atRuleLoop, atAny_eq _ _ hp (by simp)] at h
    dsimp only at h
    split at h
    · simp only [Except.ok.injEq, Prod.mk.injEq] at h
      refine ⟨[], by rw [← h.1]; simp, ?_⟩
      rw [← h.2]; simpa [leavesList] using consumes_peek p hp
    · split at h
      · exact absurd h (by simp)
      · rename_i c q1 hc
        have h1 := (shiftComponent_consumes f _ _ _ (inv_peek 0 p hp) hc).consumes
        obtain ⟨ns, e, h2⟩ := ih _ _ (inv_skipWhitespace _ h1.cinv) h
        refine ⟨c :: ns, by rw [e]; simp, ?_⟩
        have := (Consumes.cof_peek hp h1).ctrans ((consumes_skipWhitespace _ h1.cinv).ctrans h2)
        simpa [leavesList] using this

theorem parseAtRule_consumes (f : Nat) (p : Parser2) (r : Option Node) (q : Parser2)
    (hp : Inv p.toLookahead) (h : parseAtRule f p = .ok (r, q)) :
    (r = none ∧ q = { p with toLookahead := (peek 0 p.toLookahead).2 }) ∨
    (∃ n, r = some n ∧ (cur p.toLookahead).TokenType = AtKeywordToken ∧
      ConsumesCur p.toLookahead q.toLookahead n.leaves) := by
  rw [parseAtRule, atToken_eq] at h
  dsimp only at h
  split at h
  · simp only [Except.ok.injEq, Prod.mk.injEq] at h
    left; exact ⟨h.1.symm, h.2.symm⟩
  · rename_i hc
    split at h
    · exact absurd h (by simp)
    · rename_i nodes q1 hl
      simp only [Except.ok.injEq, Prod.mk.injEq] at h
      right
      refine ⟨_, h.1.symm, by simpa using hc, ?_⟩
      rw [shift_peek_zero p.toLookahead hp] at hl
      have h0 := consumesCur_shift p.toLookahead hp
      obtain ⟨ns, e, h2⟩ := atRuleLoop_consumes _ _ _ _ _ (inv_skipWhitespace _ h0.ccinv) hl
      have h3 := h0.cctrans ((consumes_skipWhitespace _ h0.ccinv).ctrans h2)
      have h4 : Consumes q1 q.toLookahead [] := by
        rw [← h.2]
        dsimp only
        rw [atToken_eq]
        dsimp only
        split
        · rw [shift_peek_zero q1 h2.cinv]
          exact (consumesCur_shift q1 h2.cinv).consumes.cweaken (List.nil_sublist _)
        · exact consumes_peek q1 h2.cinv
      have h5 := h3.cctrans h4
      rw [shift_peek_zero p.toLookahead hp, e]
      simpa [Node.leaves, leavesList] using h5

theorem declarationLoop_consumes [BytesLib]
    (f : Nat) (vals : List Node) (imp : Bool) (p : Lookahead)
    (r : List Node × Bool) (q : Lookahead) (hp : Inv p)
    (h : declarationLoop f vals imp p = .ok (r, q)) :
    ∃ vs, r.1 = vals ++ vs ∧ Consumes p q (leavesList vs) := by
  induction f generalizing vals imp p with
  | zero => simp [declarationLoop] at h
  | succ f ih =>
    rw [declarationLoop, atAny_eq _ _ hp (by simp)] at h
    dsimp only at h
    have hp1 := inv_peek 0 p hp
    split at h
    · simp only [Except.ok.injEq, Prod.mk.injEq] at h
      refine ⟨[], by rw [← h.1]; simp, ?_⟩
      rw [← h.2]; simpa [leavesList] using consumes_peek p hp
    · split at h
      · exact absurd h (by simp)
      · rename_i q1 hd
        have e1 := delimIs_state _ _ _ _ hp1 (by simp) hd
        rw [peek_zero_idem p hp] at e1
        subst e1
        rw [shift_peek_zero p hp] at h
        have h0 := (consumesCur_shift p hp).consumes
        have h1 := consumes_skipWhitespace _ h0.cinv
        have e2 := atImportant_state _ h1.cinv
        have h2 := consumes_peek _ h1.cinv
        rw [← e2] at h2
        split at h
        · have h3 := (consumesCur_shift _ h2.cinv).consumes
          have h4 := consumes_skipWhitespace _ h3.cinv
          obtain ⟨vs, e, h5⟩ := ih _ _ _ h4.cinv h
          refine ⟨vs, e, ?_⟩
          exact (h0.ctrans (h1.ctrans (h2.ctrans (h3.ctrans (h4.ctrans h5))))).cweaken (by simp)
        · have h4 := consumes_skipWhitespace _ h2.cinv
          obtain ⟨vs, e, h5⟩ := ih _ _ _ h4.cinv h
          refine ⟨Node.Token (cur p) :: vs, by rw [e]; simp, ?_⟩
          have := h0.ctrans (h1.ctrans (h2.ctrans (h4.ctrans h5)))
          simpa [leavesList, Node.leaves] using this
      · rename_i q1 hd
        have e1 := delimIs_state _ _ _ _ hp1 (by simp) hd
        rw [peek_zero_idem p hp] at e1
        subst e1
        split at h
        · exact absurd h (by simp)
        · rename_i cn q2 hf
          have h1 : Consumes (peek 0 p).2 q2 cn.leaves := by
            rcases parseFunction_consumes _ _ _ _ hp1 hf with ⟨_, e, _⟩ | ⟨_, c, a1, a2⟩
            · exact absurd e (by simp)
            · exact ⟨_, a1, a2 cn rfl⟩
          have h4 := consumes_skipWhitespace _ h1.cinv
          obtain ⟨vs, e, h5⟩ := ih _ _ _ h4.cinv h
          refine ⟨cn :: vs, by rw [e]; simp, ?_⟩
          have := (Consumes.cof_peek hp h1).ctrans (h4.ctrans h5)
          simpa [leavesList] using this
        · rename_i q2 hf
          have h1 : Consumes (peek 0 p).2 q2 [] := by
            rcases parseFunction_consumes _ _ _ _ hp1 hf with ⟨_, _, e⟩ | ⟨_, c, a1, _⟩
            · rw [e]; exact consumes_peek _ hp1
            · exact ⟨_, a1, List.nil_sublist _⟩
          have h3 := (consumesCur_shift _ h1.cinv).consumes
          have h4 := consumes_skipWhitespace _ h3.cinv
          obtain ⟨vs, e, h5⟩ := ih _ _ _ h4.cinv h
          refine ⟨Node.Token (cur q2) :: vs, by rw [e]; simp, ?_⟩
          have := (Consumes.cof_peek hp h1).ctrans (h3.ctrans (h4.ctrans h5))
          simpa [leavesList, Node.leaves] using this

theorem parseDeclaration_consumes [BytesLib]
    (f : Nat) (p : Lookahead) (r : Option Node) (q : Lookahead)
    (hp : Inv p) (h : parseDeclaration f p = .ok (r, q)) :
    ((cur p).TokenType ≠ IdentToken ∧ r = none ∧ q = (peek 0 p).2) ∨
    ((cur p).TokenType = IdentToken ∧
      ∃ c, Moves p (cur p :: c) q ∧ ∀ n, r = some n → List.Sublist n.leaves (cur p :: c)) := by
  rw [parseDeclaration, atToken_eq] at h
  dsimp only at h
  split at h
  · rename_i hc
    simp only [Except.ok.injEq, Prod.mk.injEq] at h
    left; exact ⟨by simpa using hc, h.1.symm, h.2.symm⟩
  · rename_i hc
    right
    refine ⟨by simpa using hc, ?_⟩
    rw [shift_peek_zero p hp, atToken_eq] at h
    dsimp only at h
    have h0 := consumesCur_shift p hp
    have h1 := consumes_skipWhitespace _ h0.ccinv
    have h2 := consumes_peek _ h1.cinv
    split at h
    · simp only [Except.ok.injEq, Prod.mk.injEq] at h
      obtain ⟨c, a1, _⟩ := h0.cctrans (h1.ctrans h2)
      refine ⟨c, by rw [← h.2]; exact a1, ?_⟩
      intro n hn; rw [← h.1] at hn; exact absurd hn (by simp)
    · rw [shift_peek_zero _ h1.cinv] at h
      have h3 := (consumesCur_shift _ h1.cinv).consumes
      have h4 := consumes_skipWhitespace _ h3.cinv
      split at h
      · exact absurd h (by simp)
      · rename_i vals imp q1 hl
        obtain ⟨vs, e, h5⟩ := declarationLoop_consumes _ _ _ _ _ _ h4.cinv hl
        split at h
        · exact absurd h (by simp)
        · rename_i q2 hs
          simp only [Except.ok.injEq, Prod.mk.injEq] at h
          have h6 := skipWhile_consumes _ _ _ _ h5.cinv hs
          obtain ⟨c, a1, a2⟩ := h0.cctrans (h1.ctrans (h3.ctrans (h4.ctrans (h5.ctrans h6))))
          refine ⟨c, by rw [← h.2]; exact a1, ?_⟩
          intro n hn
          rw [← h.1] at hn
          simp only [Option.some.injEq] at hn
          rw [← hn]
          dsimp only at e
          simp only [List.nil_append] at e
          rw [e]
          simp only [Node.leaves, shift_fst]
          refine List.Sublist.trans ?_ a2
          simp

theorem bracketLoop_consumes (f : Nat) (elems : List TokenNode) (p : Lookahead)
    (r : List TokenNode) (q : Lookahead) (hp : Inv p)
    (h : bracketLoop f elems p = .ok (r, q)) :
    ∃ es, r = elems ++ es ∧ Consumes p q es := by
  induction f generalizing elems p with
  | zero => simp [bracketLoop] at h
  | succ f ih =>
    rw [bracketLoop, atAny_eq _ _ hp (by simp)] at h
    dsimp only at h
    split at h
    · rw [atToken_eq, peek_zero_idem p hp] at h
      dsimp only at h
      split at h
      · simp only [Except.ok.injEq, Prod.mk.injEq] at h
        refine ⟨[cur p], by rw [← h.1, shift_peek_zero p hp]; rfl, ?_⟩
        rw [← h.2, shift_peek_zero p hp]
        exact (consumesCur_shift p hp).consumes
      · simp only [Except.ok.injEq, Prod.mk.injEq] at h
        refine ⟨[], by rw [← h.1]; simp, ?_⟩
        rw [← h.2]; exact consumes_peek p hp
    · rw [shift_peek_zero p hp] at h
      have h0 := (consumesCur_shift p hp).consumes
      have h1 := consumes_skipWhitespace _ h0.cinv
      obtain ⟨es, e, h2⟩ := ih _ _ h1.cinv h
      refine ⟨cur p :: es, by rw [e]; simp, ?_⟩
      simpa using h0.ctrans (h1.ctrans h2)

theorem selectorLoop_consumes (f : Nat) (elems : List TokenNode) (ws : Option TokenNode)
    (p : Lookahead) (r : List TokenNode) (q : Lookahead) (hp : Inv p)
    (h : selectorLoop f elems ws p = .ok (r, q)) :
    ∃ es c, r = elems ++ es ∧ Moves p c q ∧ List.Sublist es (ws.toList ++ c) ∧
      ((cur p).TokenType ∉ [CommaToken, LeftBraceToken, ErrorToken] → c ≠ []) := by
  induction f generalizing elems ws p with
  | zero => simp [selectorLoop] at h
  | succ f ih =>
    unfold selectorLoop at h
    rw [atAny_eq _ _ hp (by simp)] at h
    dsimp only at h
    have hp1 := inv_peek 0 p hp
    split at h
    · rename_i hc
      simp only [Except.ok.injEq, Prod.mk.injEq] at h
      refine ⟨[], [], by rw [← h.1]; simp, by rw [← h.2]; exact peek_moves 0 p hp,
        List.nil_sublist _, ?_⟩
      intro hn; exact absurd (by simpa using hc) hn
    · -- the body of the loop shifts the current token first
      have key : ∀ (elems2 : List TokenNode) (q2 : Lookahead) (es2 : List TokenNode)
          (c2 : List TokenNode), elems2 = elems ++ es2 → Moves p (cur p :: c2) q2 →
          List.Sublist es2 (ws.toList ++ cur p :: c2) →
          (let w := atToken WhitespaceToken q2
           if w.1 = true then selectorLoop f elems2 (some (shift w.2).1) (shift w.2).2
           else selectorLoop f elems2 none w.2) = .ok (r, q) →
          ∃ es c, r = elems ++ es ∧ Moves p c q ∧ List.Sublist es (ws.toList ++ c) ∧
            ((cur p).TokenType ∉ [CommaToken, LeftBraceToken, ErrorToken] → c ≠ []) := by
        intro elems2 q2 es2 c2 e1 m1 s1 hh
        rw [atToken_eq] at hh
        dsimp only at hh
        have hq2 := m1.minv
        split at hh
        · rw [shift_peek_zero q2 hq2] at hh
          have m2 := shift_moves q2 hq2
          obtain ⟨es, c, e, m3, s3, _⟩ := ih _ _ _ m2.minv hh
          refine ⟨es2 ++ es, (cur p :: c2) ++ ([cur q2] ++ c), by rw [e, e1]; simp,
            m1.mtrans (m2.mtrans m3), ?_, fun _ => by simp⟩
          rw [← List.append_assoc]
          exact s1.append (by simpa using s3)
        · obtain ⟨es, c, e, m3, s3, _⟩ := ih _ _ _ (inv_peek 0 q2 hq2) hh
          refine ⟨es2 ++ es, (cur p :: c2) ++ c, by rw [e, e1]; simp,
            by simpa using m1.mtrans ((peek_moves 0 q2 hq2).mtrans m3), ?_, fun _ => by simp⟩
          rw [← List.append_assoc]
          exact s1.append (by simpa using s3)
      split at h
      · exact absurd h (by simp)
      · rename_i elems2 q2 hb
        split at hb
        · exact absurd hb (by simp)
        · rename_i q1 hd
          have e1 := delimIs_state _ _ _ _ hp1 (by simp) hd
          rw [peek_zero_idem p hp] at e1
          subst e1
          rw [shift_peek_zero p hp] at hb
          simp only [Except.ok.injEq, Prod.mk.injEq] at hb
          have h0 := shift_moves p hp
          obtain ⟨d, b1, _⟩ := consumes_skipWhitespace _ h0.minv
          refine key elems2 q2 [cur p] d (by rw [← hb.1]; rfl)
            (by rw [← hb.2]; exact h0.mtrans b1) ?_ h
          exact (List.Sublist.refl _).trans
            ((List.sublist_append_left [cur p] d).trans (List.sublist_append_right _ _))
        · rename_i q1 hd
          have e1 := delimIs_state _ _ _ _ hp1 (by simp) hd
          rw [peek_zero_idem p hp] at e1
          subst e1
          rw [atToken_eq, peek_zero_idem p hp] at hb
          dsimp only at hb
          split at hb
          · rename_i hlb
            -- an attribute selector: the loop shifts the bracket first
            have hcur : (cur p).TokenType ∉ [RightBracketToken, ErrorToken] := by
              rw [cur_peek_zero p hp] at hlb
              have : (cur p).TokenType = LeftBracketToken := by simpa using hlb
              rw [this]; decide
            cases f with
            | zero => simp [bracketLoop] at hb
            | succ g =>
              rw [bracketLoop, atAny_eq _ _ hp1 (by simp), cur_peek_zero p hp] at hb
              dsimp only at hb
              rw [if_neg (by simpa using hcur), peek_zero_idem p hp, shift_peek_zero p hp] at hb
              have h0 := shift_moves p hp
              obtain ⟨d, b1, _⟩ := consumes_skipWhitespace _ h0.minv
              obtain ⟨es, e, c, a1, a2⟩ := bracketLoop_consumes _ _ _ _ _ b1.minv hb
              refine key elems2 q2 (cur p :: es) (d ++ c) (by rw [e]; simp)
                (by simpa using h0.mtrans (b1.mtrans a1)) ?_ h
              refine List.Sublist.trans ?_ (List.sublist_append_right _ _)
              exact (a2.trans (List.sublist_append_right d c)).cons₂ _
          · rw [shift_peek_zero p hp] at hb
            simp only [Except.ok.injEq, Prod.mk.injEq] at hb
            refine key elems2 q2 (ws.toList ++ [cur p]) [] ?_
              (by rw [← hb.2]; exact shift_moves p hp) (by simp) h
            rw [← hb.1]
            cases ws <;> simp

theorem parseSelector_consumes (f : Nat) (p : Lookahead) (r : Option SelectorNode)
    (q : Lookahead) (hp : Inv p) (h : parseSelector f p = .ok (r, q)) :
    ∃ c, Moves p c q ∧ (∀ n, r = some n → List.Sublist n.Elems c) ∧
      ((cur p).TokenType ∉ [CommaToken, LeftBraceToken, ErrorToken] → c ≠ []) := by
  rw [parseSelector] at h
  split at h
  · exact absurd h (by simp)
  · rename_i elems q1 hl
    obtain ⟨es, c, e, m, s, hne⟩ := selectorLoop_consumes _ _ _ _ _ _ hp hl
    have hq : q1 = q := by
      split at h <;> simp only [Except.ok.injEq, Prod.mk.injEq] at h <;> exact h.2
    subst hq
    refine ⟨c, m, ?_, hne⟩
    intro n hn
    split at h
    · simp only [Except.ok.injEq, Prod.mk.injEq] at h
      rw [← h.1] at hn; exact absurd hn (by simp)
    · simp only [Except.ok.injEq, Prod.mk.injEq] at h
      rw [← h.1] at hn
      simp only [Option.some.injEq] at hn
      rw [← hn, e]
      simpa using s

theorem scanLeftBrace_moves (f i : Nat) (p : Lookahead) (b : Bool) (q : Lookahead)
    (hp : Inv p) (h : scanLeftBrace f i p = .ok (b, q)) : Moves p [] q := by
  induction f generalizing i p with
  | zero => simp [scanLeftBrace] at h
  | succ f ih =>
    rw [scanLeftBrace] at h
    dsimp only at h
    have m1 := peek_moves i p hp
    have m2 := peek_moves i _ m1.minv
    have m3 := peek_moves i _ m2.minv
    split at h
    · split at h
      · simp only [Except.ok.injEq, Prod.mk.injEq] at h
        rw [← h.2]; simpa using m1.mtrans m2
      · split at h
        · simp only [Except.ok.injEq, Prod.mk.injEq] at h
          rw [← h.2]; simpa using m1.mtrans (m2.mtrans m3)
        · simpa using m1.mtrans (m2.mtrans (m3.mtrans (ih _ _ m3.minv h)))
    · simp only [Except.ok.injEq, Prod.mk.injEq] at h
      rw [← h.2]; exact m1

theorem selectorsLoop_consumes (f : Nat) (sels : List SelectorNode) (p : Lookahead)
    (r : List SelectorNode) (q : Lookahead) (hp : Inv p)
    (h : selectorsLoop f sels p = .ok (r, q)) :
    ∃ ss, r = sels ++ ss ∧ Consumes p q (ss.map (fun s => s.Elems)).flatten := by
  induction f generalizing sels p with
  | zero => simp [selectorsLoop] at h
  | succ f ih =>
    rw [selectorsLoop, atAny_eq _ _ hp (by simp)] at h
    dsimp only at h
    have hp1 := inv_peek 0 p hp
    split at h
    · simp only [Except.ok.injEq, Prod.mk.injEq] at h
      refine ⟨[], by rw [← h.1]; simp, ?_⟩
      rw [← h.2]; simpa using consumes_peek p hp
    · rw [atToken_eq, peek_zero_idem p hp] at h
      dsimp only at h
      split at h
      · rw [shift_peek_zero p hp] at h
        have h0 := (consumesCur_shift p hp).consumes
        have h1 := consumes_skipWhitespace _ h0.cinv
        obtain ⟨ss, e, h2⟩ := ih _ _ h1.cinv h
        exact ⟨ss, e, (h0.ctrans (h1.ctrans h2)).cweaken (by simp)⟩
      · split at h
        · exact absurd h (by simp)
        · rename_i cn q1 hs
          obtain ⟨c, m, s, _⟩ := parseSelector_consumes _ _ _ _ hp1 hs
          have h1 := consumes_skipWhitespace _ m.minv
          obtain ⟨ss, e, h2⟩ := ih _ _ h1.cinv h
          refine ⟨cn :: ss, by rw [e]; simp, ?_⟩
          have h3 : Consumes (peek 0 p).2 q1 cn.Elems := ⟨c, m, s cn rfl⟩
          simpa using (Consumes.cof_peek hp h3).ctrans (h1.ctrans h2)
        · rename_i q1 hs
          obtain ⟨c, m, s, _⟩ := parseSelector_consumes _ _ _ _ hp1 hs
          have h1 := consumes_skipWhitespace _ m.minv
          obtain ⟨ss, e, h2⟩ := ih _ _ h1.cinv h
          refine ⟨ss, e, ?_⟩
          have h3 : Consumes (peek 0 p).2 q1 [] := ⟨c, m, List.nil_sublist _⟩
          simpa using (Consumes.cof_peek hp h3).ctrans (h1.ctrans h2)

theorem parseRuleset_consumes (f : Nat) (p : Parser2) (r : Option Node) (q : Parser2)
    (hp : Inv p.toLookahead) (h : parseRuleset f p = .ok (r, q)) :
    ∃ c, Moves p.toLookahead c q.toLookahead ∧
      (∀ n, r = some n → List.Sublist n.leaves c ∧ c ≠ []) := by
  rw [parseRuleset] at h
  split at h
  · exact absurd h (by simp)
  · rename_i q1 hs
    simp only [Except.ok.injEq, Prod.mk.injEq] at h
    refine ⟨[], by rw [← h.2]; exact scanLeftBrace_moves _ _ _ _ _ hp hs, ?_⟩
    intro n hn; rw [← h.1] at hn; exact absurd hn (by simp)
  · rename_i q1 hs
    have m1 := scanLeftBrace_moves _ _ _ _ _ hp hs
    split at h
    · exact absurd h (by simp)
    · rename_i sels q2 hl
      obtain ⟨ss, e, c, m2, s2⟩ := selectorsLoop_consumes _ _ _ _ _ m1.minv hl
      rw [atToken_eq] at h
      dsimp only at h
      split at h
      · simp only [Except.ok.injEq, Prod.mk.injEq] at h
        refine ⟨c, by rw [← h.2]; simpa using m1.mtrans (m2.mtrans (peek_moves 0 _ m2.minv)), ?_⟩
        intro n hn; rw [← h.1] at hn; exact absurd hn (by simp)
      · simp only [Except.ok.injEq, Prod.mk.injEq] at h
        rw [shift_peek_zero _ m2.minv] at h
        refine ⟨c ++ [cur q2], by rw [← h.2]; simpa using m1.mtrans (m2.mtrans
          (shift_moves _ m2.minv)), ?_⟩
        intro n hn
        rw [← h.1] at hn
        simp only [Option.some.injEq] at hn
        refine ⟨?_, by simp⟩
        rw [← hn, e]
        simp only [Node.leaves, leavesList, List.append_nil, List.nil_append]
        exact s2.trans (List.sublist_append_left _ _)

theorem Moves.mmu_lt {p q : Lookahead} {c : List TokenNode} (h : Moves p c q) (hp : Inv p)
    (hl : live p ≠ []) (hc : c ≠ []) (hn : (cur p).TokenType ≠ ErrorToken) : mu q < mu p := by
  have h1 := h.mmu_le
  obtain ⟨_, _, _, new, e, _⟩ := h
  obtain ⟨t, l, el⟩ := List.exists_cons_of_ne_nil hl
  obtain ⟨t2, c2, ec⟩ := List.exists_cons_of_ne_nil hc
  rw [el, ec] at e
  simp only [List.cons_append, List.cons.injEq] at e
  have ht : cur p = t2 := by rw [cur_eq_head p hp t l el]; exact e.1
  have : nonError t2 = true := by rw [← ht]; simpa [nonError] using hn
  rw [ec, List.filter_cons_of_pos this, List.length_cons] at h1
  omega

/-- What the branches of `Next` after the error test do, from the state after `peek(0)`. -/
theorem next_post_of_moves (p : Parser2) (gt : GrammarType) (n : Node) (q : Parser2)
    (c : List TokenNode) (hp : Inv p.toLookahead)
    (hcur : (cur p.toLookahead).TokenType ≠ ErrorToken) (hgt : gt ≠ ErrorGrammar)
    (hc : c ≠ []) (m : Moves (peek 0 p.toLookahead).2 c q.toLookahead)
    (s : List.Sublist n.leaves c) : NextPost p gt n q := by
  right
  have m0 := peek_moves 0 p.toLookahead hp
  refine ⟨hgt, ?_, c, by simpa using m0.mtrans m, s⟩
  have h1 := m.mmu_lt m0.minv (live_peek_zero_ne_nil _ hp) hc
    (by rw [cur_peek_zero _ hp]; exact hcur)
  have h2 := m0.mmu_le
  omega

theorem nextEnd_moves (fuel : Nat) (state : ParserState) (p : Parser2) (l : Lookahead)
    (gt : GrammarType) (n : Node) (q : Parser2) (hl : Inv l)
    (h : nextEnd fuel state p l = .ok (gt, n, q)) :
    gt ≠ ErrorGrammar ∧ ∃ c, c ≠ [] ∧ Moves l c q.toLookahead ∧ List.Sublist n.leaves c := by
  unfold nextEnd at h
  dsimp only at h
  split at h
  · exact absurd h (by simp)
  · rename_i q2 hs
    have h0 := shift_moves l hl
    obtain ⟨d, m1, _⟩ := skipWhile_consumes _ _ _ _ h0.minv hs
    split at h <;>
    · simp only [Except.ok.injEq, Prod.mk.injEq] at h
      refine ⟨by rw [← h.1]; decide, cur l :: d, by simp, ?_, ?_⟩
      · rw [← h.2.2]; exact h0.mtrans m1
      · rw [← h.2.1]; simp [Node.leaves]

theorem nextRule_moves [BytesLib]
    (fuel : Nat) (p : Parser2) (gt : GrammarType) (n : Node) (q : Parser2)
    (hp : Inv p.toLookahead) (h : nextRule fuel p = .ok (gt, n, q)) :
    gt ≠ ErrorGrammar ∧ ∃ c, c ≠ [] ∧ Moves p.toLookahead c q.toLookahead ∧
      List.Sublist n.leaves c := by
  unfold nextRule at h
  rw [atAny_eq _ _ hp (by simp)] at h
  dsimp only at h
  have m0 := peek_moves 0 p.toLookahead hp
  split at h
  · simp only [Except.ok.injEq, Prod.mk.injEq] at h
    rw [shift_peek_zero _ hp] at h
    refine ⟨by rw [← h.1]; decide, [cur p.toLookahead], by simp, ?_, ?_⟩
    · rw [← h.2.2]; exact shift_moves _ hp
    · rw [← h.2.1]; simp [Node.leaves]
  · split at h
    · exact absurd h (by simp)
    · rename_i cn p1 h1
      simp only [Except.ok.injEq, Prod.mk.injEq] at h
      rcases parseAtRule_consumes _ _ _ _ m0.minv h1 with ⟨e, _⟩ | ⟨n1, e, _, c, a1, a2⟩
      · exact absurd e (by simp)
      · simp only [Option.some.injEq] at e
        dsimp only at a1 a2
        refine ⟨by rw [← h.1]; decide, cur (peek 0 p.toLookahead).2 :: c,
          List.cons_ne_nil _ c, ?_, ?_⟩
        · rw [← h.2.2]; simpa using m0.mtrans a1
        · rw [← h.2.1, e]; exact a2
    · rename_i p1 h1
      have e1 : p1 = { p with toLookahead := (peek 0 p.toLookahead).2 } := by
        rcases parseAtRule_consumes _ _ _ _ m0.minv h1 with ⟨_, e⟩ | ⟨n1, e, _⟩
        · rw [e]; dsimp only; rw [peek_zero_idem _ hp]
        · exact absurd e (by simp)
      subst e1
      split at h
      · exact absurd h (by simp)
      · rename_i cn p2 h2
        simp only [Except.ok.injEq, Prod.mk.injEq] at h
        obtain ⟨c, a1, a2⟩ := parseRuleset_consumes _ _ _ _ m0.minv h2
        refine ⟨by rw [← h.1]; decide, c, (a2 cn rfl).2, ?_, ?_⟩
        · rw [← h.2.2]; simpa using m0.mtrans a1
        · rw [← h.2.1]; exact (a2 cn rfl).1
      · rename_i p2 h2
        obtain ⟨c, a1, _⟩ := parseRuleset_consumes _ _ _ _ m0.minv h2
        have a1 : Moves p.toLookahead c p2.toLookahead := by simpa using m0.mtrans a1
        split at h
        · exact absurd h (by simp)
        · rename_i cn q3 h3
          simp only [Except.ok.injEq, Prod.mk.injEq] at h
          rcases parseDeclaration_consumes _ _ _ _ a1.minv h3 with ⟨_, e, _⟩ | ⟨_, d, b1, b2⟩
          · exact absurd e (by simp)
          · refine ⟨by rw [← h.1]; decide, c ++ (cur p2.toLookahead :: d), by simp, ?_, ?_⟩
            · rw [← h.2.2]; exact a1.mtrans b1
            · rw [← h.2.1]; exact (b2 cn rfl).trans (List.sublist_append_right _ _)
        · rename_i q3 h3
          simp only [Except.ok.injEq, Prod.mk.injEq] at h
          have b1 : ∃ d, Moves p2.toLookahead d q3 := by
            rcases parseDeclaration_consumes _ _ _ _ a1.minv h3 with ⟨_, _, e⟩ | ⟨_, d, b1, _⟩
            · exact ⟨[], by rw [e]; exact peek_moves 0 _ a1.minv⟩
            · exact ⟨_, b1⟩
          obtain ⟨d, b1⟩ := b1
          refine ⟨by rw [← h.1]; decide, c ++ (d ++ [cur q3]), by simp, ?_, ?_⟩
          · rw [← h.2.2]; exact a1.mtrans (b1.mtrans (shift_moves _ b1.minv))
          · rw [← h.2.1]
            simp only [Node.leaves, shift_fst]
            exact (List.sublist_append_right d [cur q3]).trans (List.sublist_append_right c _)

theorem next_post [BytesLib] (fuel : Nat) (p : Parser2) (gt : GrammarType) (n : Node) (q : Parser2)
    (hp : Inv p.toLookahead) (h : Parser2.Next fuel p = .ok (gt, n, q)) : NextPost p gt n q := by
  unfold Parser2.Next at h
  rw [atToken_eq] at h
  dsimp only at h
  have hp1 := inv_peek 0 _ hp
  by_cases hc : ((cur p.toLookahead).TokenType == ErrorToken) = true
  · rw [if_pos hc] at h
    simp only [Except.ok.injEq, Prod.mk.injEq] at h
    left
    exact ⟨h.1.symm, h.2.1.symm, h.2.2.symm, by simpa using hc⟩
  · rw [if_neg hc] at h
    have hcur : (cur p.toLookahead).TokenType ≠ ErrorToken := by simpa using hc
    obtain ⟨d, m1, _⟩ := consumes_skipWhitespace _ hp1
    generalize skipWhitespace (peek 0 p.toLookahead).2 = q0 at h m1
    cases hstate : Parser2.State p with
    | error a => rw [hstate] at h; exact absurd h (by simp)
    | ok state =>
      rw [hstate] at h
      dsimp only at h
      rw [atToken_eq] at h
      dsimp only at h
      have m2 := m1.mtrans (peek_moves 0 _ m1.minv)
      generalize (peek 0 q0).2 = q1 at h m2
      generalize ((cur q0).TokenType == RightBraceToken) = b1 at h
      by_cases hb1 : (b1 && (decide (state = AtRuleState) || decide (state = RulesetState)))
          = true
      · rw [if_pos hb1] at h
        obtain ⟨hg, c, hc1, a1, a2⟩ := nextEnd_moves _ _ _ _ _ _ _ m2.minv h
        refine next_post_of_moves p gt n q _ hp hcur hg ?_ (m2.mtrans a1)
          (a2.trans (List.sublist_append_right _ _))
        simp [hc1]
      · rw [if_neg hb1] at h
        rw [atToken_eq] at h
        dsimp only at h
        have m3 := m2.mtrans (peek_moves 0 _ m2.minv)
        generalize (peek 0 q1).2 = q2 at h m3
        generalize ((cur q1).TokenType == SemicolonToken) = b2 at h
        by_cases hb2 : (b2 && decide (state = AtRuleState)) = true
        · rw [if_pos hb2] at h
          obtain ⟨hg, c, hc1, a1, a2⟩ := nextEnd_moves _ _ _ _ _ _ _ m3.minv h
          refine next_post_of_moves p gt n q _ hp hcur hg ?_ (m3.mtrans a1)
            (a2.trans (List.sublist_append_right _ _))
          simp [hc1]
        · rw [if_neg hb2] at h
          obtain ⟨hg, c, hc1, a1, a2⟩ := nextRule_moves _ { p with toLookahead := q2 } _ _ _
            m3.minv h
          refine next_post_of_moves p gt n q _ hp hcur hg ?_ (m3.mtrans a1)
            (a2.trans (List.sublist_append_right _ _))
          simp [hc1]

/-! ### The descent functions return -/

theorem mu_peek_le (i : Nat) (p : Lookahead) (h : Inv p) : mu (peek i p).2 ≤ mu p := by
  have := (peek_moves i p h).mmu_le
  omega

theorem mu_shift_lt (p : Lookahead) (h : Inv p) (hc : (cur p).TokenType ≠ ErrorToken) :
    mu (shift p).2 < mu p := by
  have := (shift_moves p h).mmu_le
  have hn : nonError (cur p) = true := by simpa [nonError] using hc
  rw [List.filter_cons_of_pos hn] at this
  simp only [List.filter_nil, List.length_cons, List.length_nil] at this
  omega

theorem mu_shift_le (p : Lookahead) (h : Inv p) : mu (shift p).2 ≤ mu p := by
  have := (shift_moves p h).mmu_le
  omega

theorem mu_skipWhitespace_le (p : Lookahead) (h : Inv p) : mu (skipWhitespace p) ≤ mu p := by
  obtain ⟨c, m, _⟩ := skipWhitespace_moves p h
  have := m.mmu_le
  omega

theorem Consumes.cmu_le {p q : Lookahead} {l : List TokenNode} (h : Consumes p q l) :
    mu q ≤ mu p := by
  obtain ⟨c, m, _⟩ := h
  have := m.mmu_le
  omega

theorem ConsumesCur.ccmu_lt {p q : Lookahead} {l : List TokenNode} (h : ConsumesCur p q l)
    (hc : (cur p).TokenType ≠ ErrorToken) : mu q < mu p := by
  obtain ⟨c, m, _⟩ := h
  have := m.mmu_le
  have hn : nonError (cur p) = true := by simpa [nonError] using hc
  rw [List.filter_cons_of_pos hn, List.length_cons] at this
  omega

theorem good_peek (i : Nat) (p : Lookahead) (h : Good p) : Good (peek i p).2 :=
  (peek_moves i p h.1).mgood h

theorem good_shift (p : Lookahead) (h : Good p) : Good (shift p).2 :=
  (shift_moves p h.1).mgood h

theorem good_skipWhitespace (p : Lookahead) (h : Good p) : Good (skipWhitespace p) := by
  obtain ⟨c, m, _⟩ := skipWhitespace_moves p h.1
  exact m.mgood h

theorem Consumes.cgood {p q : Lookahead} {l : List TokenNode} (h : Consumes p q l)
    (hp : Good p) : Good q := by
  obtain ⟨c, m, _⟩ := h
  exact m.mgood hp

theorem dataFirstIs_total (cs : List Nat) (p : Lookahead) (hp : Inv p)
    (hd : (cur p).Data ≠ []) : ∃ b q, dataFirstIs cs p = .ok (b, q) := by
  induction cs generalizing p with
  | nil => exact ⟨false, p, rfl⟩
  | cons c cs ih =>
    rw [dataFirstIs, data_eq]
    dsimp only
    split
    · rename_i he; exact absurd he hd
    · split
      · exact ⟨_, _, rfl⟩
      · exact ih _ (inv_peek 0 p hp) (by rw [cur_peek_zero p hp]; exact hd)

theorem delimIs_total (cs : List Nat) (p : Lookahead) (hp : Good p) (hcs : cs ≠ []) :
    ∃ b, delimIs cs p = .ok (b, (peek 0 p).2) := by
  have h : ∃ b q, delimIs cs p = .ok (b, q) := by
    rw [delimIs, atToken_eq]
    dsimp only
    split
    · rename_i hc
      apply dataFirstIs_total cs _ (inv_peek 0 p hp.1)
      rw [cur_peek_zero p hp.1]
      exact hp.cur_delimOK (by simpa using hc)
    · exact ⟨_, _, rfl⟩
  obtain ⟨b, q, e⟩ := h
  have := delimIs_state cs p b q hp.1 hcs e
  rw [this] at e
  exact ⟨b, e⟩

theorem skipWhile_total (tt : TokenType) (htt : tt ≠ ErrorToken) (f : Nat) (p : Lookahead)
    (hp : Inv p) (hf : mu p < f) : ∃ q, skipWhile tt f p = .ok q := by
  induction f generalizing p with
  | zero => omega
  | succ f ih =>
    rw [skipWhile, atAny_eq _ _ hp (by simp)]
    dsimp only
    split
    · rename_i hc
      rw [shift_peek_zero p hp]
      have hne : (cur p).TokenType ≠ ErrorToken := by
        simp only [List.mem_cons, List.mem_singleton, List.not_mem_nil, or_false,
          decide_eq_true_eq] at hc
        rcases hc with h | h
        · rw [h]; exact htt
        · rw [h]; decide
      have := mu_shift_lt p hp hne
      exact ih _ (inv_shift p hp) (by omega)
    · exact ⟨_, rfl⟩

theorem mu_pos_of_cur (p : Lookahead) (h : Inv p) (hc : (cur p).TokenType ≠ ErrorToken) :
    0 < mu p := by
  have := mu_shift_lt p h hc
  omega

theorem blockLoop_total (sc : Lookahead → Res Node) (hok : ScOK sc) (F : Nat)
    (hsc : ScTotal sc F) (o : TokenNode) (g : Nat) (nodes : List Node) (p : Lookahead)
    (hp : Good p) (hg : mu p < g) (hF : 2 * mu p < F) :
    ∃ r q, blockLoop sc o g nodes p = .ok (r, q) := by
  induction g generalizing nodes p with
  | zero => omega
  | succ g ih =>
    rw [blockLoop, atAny_eq _ _ hp.1 (by simp)]
    dsimp only
    split
    · rw [atToken_eq]
      dsimp only
      split <;> exact ⟨_, _, rfl⟩
    · rename_i hc
      have hne : (cur p).TokenType ≠ ErrorToken := by
        intro he; apply hc; rw [he]; decide
      have hp1 := good_peek 0 p hp
      have hm1 := mu_peek_le 0 p hp.1
      obtain ⟨c, q1, e⟩ := hsc _ hp1 (by omega)
      rw [e]
      dsimp only
      have h1 := hok _ _ _ hp1.1 e
      have h2 := h1.ccmu_lt (by rw [cur_peek_zero p hp.1]; exact hne)
      have h3 := mu_skipWhitespace_le q1 h1.ccinv
      exact ih _ _ (good_skipWhitespace _ (h1.consumes.cgood hp1)) (by omega) (by omega)

theorem parseArgument_total (sc : Lookahead → Res Node) (hok : ScOK sc) (F : Nat)
    (hsc : ScTotal sc F) (g : Nat) (vals : List Node) (p : Lookahead)
    (hp : Good p) (hg : mu p < g) (hF : 2 * mu p < F) :
    ∃ r q, parseArgument sc g vals p = .ok (r, q) := by
  induction g generalizing vals p with
  | zero => omega
  | succ g ih =>
    rw [parseArgument, atAny_eq _ _ hp.1 (by simp)]
    dsimp only
    split
    · exact ⟨_, _, rfl⟩
    · rename_i hc
      have hne : (cur p).TokenType ≠ ErrorToken := by
        intro he; apply hc; rw [he]; decide
      have hp1 := good_peek 0 p hp
      have hm1 := mu_peek_le 0 p hp.1
      obtain ⟨c, q1, e⟩ := hsc _ hp1 (by omega)
      rw [e]
      dsimp only
      have h1 := hok _ _ _ hp1.1 e
      have h2 := h1.ccmu_lt (by rw [cur_peek_zero p hp.1]; exact hne)
      have h3 := mu_skipWhitespace_le q1 h1.ccinv
      exact ih _ _ (good_skipWhitespace _ (h1.consumes.cgood hp1)) (by omega) (by omega)

theorem functionLoop_total (sc : Lookahead → Res Node) (hok : ScOK sc) (F : Nat)
    (hsc : ScTotal sc F) (func : TokenNode) (g : Nat) (args : List Node) (p : Lookahead)
    (hp : Good p) (hg : 2 * mu p < g) (hF : 2 * mu p < F) :
    ∃ r q, functionLoop sc func g args p = .ok (r, q) := by
  induction g generalizing args p with
  | zero => omega
  | succ g ih =>
    rw [functionLoop, atAny_eq _ _ hp.1 (by simp)]
    dsimp only
    split
    · rw [atToken_eq]
      dsimp only
      split <;> exact ⟨_, _, rfl⟩
    · rename_i hc
      have hne : (cur p).TokenType ≠ ErrorToken := by
        intro he; apply hc; rw [he]; decide
      have hpos := mu_pos_of_cur p hp.1 hne
      rw [atToken_eq, peek_zero_idem p hp.1]
      dsimp only
      have hp1 := good_peek 0 p hp
      have hm1 := mu_peek_le 0 p hp.1
      split
      · rw [shift_peek_zero p hp.1]
        have h1 := mu_shift_lt p hp.1 hne
        have h2 := mu_skipWhitespace_le _ (inv_shift p hp.1)
        exact ih _ _ (good_skipWhitespace _ (good_shift p hp)) (by omega) (by omega)
      · rename_i hcomma
        rw [cur_peek_zero p hp.1] at hcomma
        obtain ⟨a, q1, e⟩ := parseArgument_total sc hok F hsc g [] _ hp1 (by omega) (by omega)
        rw [e]
        dsimp only
        obtain ⟨vs, _, h1, h2⟩ := parseArgument_consumes sc hok _ _ _ _ _ hp1.1 e
        -- the argument is not empty: the current token does not end an argument
        have hlt : mu q1 < mu p := by
          cases g with
          | zero => omega
          | succ g2 =>
            rw [parseArgument, atAny_eq _ _ hp1.1 (by simp), cur_peek_zero p hp.1] at e
            dsimp only at e
            have hstop : ¬ decide ((cur p).TokenType ∈
                [CommaToken, RightParenthesisToken, ErrorToken]) = true := by
              simp only [List.mem_cons, List.mem_singleton, List.not_mem_nil, or_false,
                decide_eq_true_eq, not_or] at hc ⊢
              exact ⟨by simpa using hcomma, hc.1, hc.2⟩
            rw [if_neg hstop, peek_zero_idem p hp.1] at e
            split at e
            · exact absurd e (by simp)
            · rename_i c q2 hc2
              have b1 := hok _ _ _ hp1.1 hc2
              have b2 := b1.ccmu_lt (by rw [cur_peek_zero p hp.1]; exact hne)
              have b3 := mu_skipWhitespace_le q2 b1.ccinv
              obtain ⟨_, _, b4, _⟩ := parseArgument_consumes sc hok _ _ _ _ _
                (inv_skipWhitespace _ b1.ccinv) e
              have b5 := b4.cmu_le
              omega
        exact ih _ _ (h1.cgood hp1) (by omega) (by omega)

theorem parseFunctionWith_total (sc : Lookahead → Res Node) (hok : ScOK sc) (F : Nat)
    (hsc : ScTotal sc F) (g : Nat) (p : Lookahead)
    (hp : Good p) (hg : 2 * mu p < g + 2) (hF : 2 * mu p < F + 2) :
    ∃ r q, parseFunctionWith sc g p = .ok (r, q) := by
  rw [parseFunctionWith, atToken_eq]
  dsimp only
  split
  · exact ⟨_, _, rfl⟩
  · rename_i hc
    have hne : (cur p).TokenType ≠ ErrorToken := by
      intro he; apply hc; rw [he]; decide
    rw [shift_peek_zero p hp.1]
    have h1 := mu_shift_lt p hp.1 hne
    have h2 := mu_skipWhitespace_le _ (inv_shift p hp.1)
    exact functionLoop_total sc hok F hsc _ g [] _ (good_skipWhitespace _ (good_shift p hp))
      (by omega) (by omega)

theorem parseBlock_total (sc : Lookahead → Res Node) (hok : ScOK sc) (F : Nat)
    (hsc : ScTotal sc F) (g : Nat) (p : Lookahead)
    (hp : Good p) (hg : mu p < g + 1) (hF : 2 * mu p < F + 2) :
    ∃ r q, parseBlock sc g p = .ok (r, q) := by
  rw [parseBlock, atAny_eq _ _ hp.1 (by simp)]
  dsimp only
  split
  · exact ⟨_, _, rfl⟩
  · rename_i hc
    have hne : (cur p).TokenType ≠ ErrorToken := by
      intro he; apply hc; rw [he]; decide
    rw [shift_peek_zero p hp.1]
    have h1 := mu_shift_lt p hp.1 hne
    have h2 := mu_skipWhitespace_le _ (inv_shift p hp.1)
    obtain ⟨r, q, e⟩ := blockLoop_total sc hok F hsc (cur p) g [] _
      (good_skipWhitespace _ (good_shift p hp)) (by omega) (by omega)
    rw [shift_fst, e]
    exact ⟨_, _, rfl⟩

theorem shiftComponent_total (f : Nat) : ScTotal (shiftComponent f) f := by
  induction f with
  | zero => intro p _ h; omega
  | succ f ih =>
    intro p hp hf
    rw [shiftComponent]
    have hok := shiftComponent_consumes f
    obtain ⟨r, q, e⟩ := parseBlock_total _ hok f ih f p hp (by omega) (by omega)
    rw [e]
    cases r with
    | some cn => exact ⟨_, _, rfl⟩
    | none =>
      dsimp only
      have eq1 : q = (peek 0 p).2 := by
        rcases parseBlock_consumes _ hok _ _ _ _ hp.1 e with ⟨_, e⟩ | ⟨n, e, _⟩
        · exact e
        · exact absurd e (by simp)
      subst eq1
      have hm1 := mu_peek_le 0 p hp.1
      obtain ⟨r2, q2, e2⟩ := parseFunctionWith_total _ hok f ih f _ (good_peek 0 p hp)
        (by omega) (by omega)
      rw [e2]
      cases r2 <;> exact ⟨_, _, rfl⟩

theorem parseFunction_total (f : Nat) (p : Lookahead) (hp : Good p) (hf : 2 * mu p < f + 2) :
    ∃ r q, parseFunction f p = .ok (r, q) :=
  parseFunctionWith_total _ (shiftComponent_consumes f) f (shiftComponent_total f) f p hp hf hf

theorem atRuleLoop_total (f : Nat) (nodes : List Node) (p : Lookahead) (hp : Good p)
    (hf : 2 * mu p + 1 < f) : ∃ r q, atRuleLoop f nodes p = .ok (r, q) := by
  induction f generalizing nodes p with
  | zero => omega
  | succ f ih =>
    rw [atRuleLoop, atAny_eq _ _ hp.1 (by simp)]
    dsimp only
    split
    · exact ⟨_, _, rfl⟩
    · rename_i hc
      have hne : (cur p).TokenType ≠ ErrorToken := by
        intro he; apply hc; rw [he]; decide
      have hp1 := good_peek 0 p hp
      have hm1 := mu_peek_le 0 p hp.1
      obtain ⟨c, q1, e⟩ := shiftComponent_total f _ hp1 (by omega)
      rw [e]
      dsimp only
      have h1 := shiftComponent_consumes f _ _ _ hp1.1 e
      have h2 := h1.ccmu_lt (by rw [cur_peek_zero p hp.1]; exact hne)
      have h3 := mu_skipWhitespace_le q1 h1.ccinv
      exact ih _ _ (good_skipWhitespace _ (h1.consumes.cgood hp1)) (by omega)

theorem parseAtRule_total (f : Nat) (p : Parser2) (hp : Good p.toLookahead)
    (hf : 2 * mu p.toLookahead + 1 < f) : ∃ r q, parseAtRule f p = .ok (r, q) := by
  rw [parseAtRule, atToken_eq]
  dsimp only
  split
  · exact ⟨_, _, rfl⟩
  · rw [shift_peek_zero _ hp.1]
    have h1 := mu_shift_le _ hp.1
    have h2 := mu_skipWhitespace_le _ (inv_shift _ hp.1)
    obtain ⟨r, q, e⟩ := atRuleLoop_total f [] _ (good_skipWhitespace _ (good_shift _ hp))
      (by omega)
    rw [e]
    exact ⟨_, _, rfl⟩

theorem declarationLoop_total [BytesLib] (f : Nat) (vals : List Node) (imp : Bool) (p : Lookahead)
    (hp : Good p) (hf : 2 * mu p < f) : ∃ r q, declarationLoop f vals imp p = .ok (r, q) := by
  induction f generalizing vals imp p with
  | zero => omega
  | succ f ih =>
    rw [declarationLoop, atAny_eq _ _ hp.1 (by simp)]
    dsimp only
    split
    · exact ⟨_, _, rfl⟩
    · rename_i hc
      have hne : (cur p).TokenType ≠ ErrorToken := by
        intro he; apply hc; rw [he]; decide
      have hp1 := good_peek 0 p hp
      have hm1 := mu_peek_le 0 p hp.1
      obtain ⟨b, e⟩ := delimIs_total [33] _ hp1 (by simp)
      rw [e, peek_zero_idem p hp.1]
      have hs := mu_shift_lt p hp.1 hne
      cases b with
      | true =>
        dsimp only
        rw [shift_peek_zero p hp.1]
        have g1 := good_skipWhitespace _ (good_shift p hp)
        have h1 := mu_skipWhitespace_le _ (inv_shift p hp.1)
        have e2 := atImportant_state _ g1.1
        have g2 := good_peek 0 _ g1
        have h2 := mu_peek_le 0 _ g1.1
        rw [← e2] at g2 h2
        split
        · have h3 := mu_shift_le _ g2.1
          have h4 := mu_skipWhitespace_le _ (inv_shift _ g2.1)
          exact ih _ _ _ (good_skipWhitespace _ (good_shift _ g2)) (by omega)
        · have h4 := mu_skipWhitespace_le _ g2.1
          exact ih _ _ _ (good_skipWhitespace _ g2) (by omega)
      | false =>
        dsimp only
        obtain ⟨r, q2, e3⟩ := parseFunction_total f _ hp1 (by omega)
        rw [e3]
        have hcons : ∃ c, Moves (peek 0 p).2 c q2 ∧
            (r ≠ none → c ≠ []) := by
          rcases parseFunction_consumes _ _ _ _ hp1.1 e3 with ⟨_, e4, e5⟩ | ⟨_, c, a1, _⟩
          · exact ⟨[], by rw [e5]; exact peek_moves 0 _ hp1.1, fun h => absurd e4 h⟩
          · exact ⟨_, a1, fun _ => List.cons_ne_nil _ _⟩
        obtain ⟨c, m, hcne⟩ := hcons
        have hcur : (cur (peek 0 p).2).TokenType ≠ ErrorToken := by
          rw [cur_peek_zero p hp.1]; exact hne
        cases r with
        | some cn =>
          dsimp only
          have h2 := m.mmu_lt hp1.1 (live_peek_zero_ne_nil p hp.1) (hcne (by simp)) hcur
          have h4 := mu_skipWhitespace_le _ m.minv
          exact ih _ _ _ (good_skipWhitespace _ (m.mgood hp1)) (by omega)
        | none =>
          dsimp only
          have m2 := m.mtrans (shift_moves _ m.minv)
          have h2 := m2.mmu_lt hp1.1 (live_peek_zero_ne_nil p hp.1) (by simp) hcur
          have h4 := mu_skipWhitespace_le _ m2.minv
          exact ih _ _ _ (good_skipWhitespace _ (m2.mgood hp1)) (by omega)

theorem parseDeclaration_total [BytesLib]
    (f : Nat) (p : Lookahead) (hp : Good p) (hf : 2 * mu p < f) :
    ∃ r q, parseDeclaration f p = .ok (r, q) := by
  rw [parseDeclaration, atToken_eq]
  dsimp only
  split
  · exact ⟨_, _, rfl⟩
  · rw [shift_peek_zero p hp.1, atToken_eq]
    dsimp only
    have g1 := good_skipWhitespace _ (good_shift p hp)
    have h0 := mu_shift_le p hp.1
    have h1 := mu_skipWhitespace_le _ (inv_shift p hp.1)
    split
    · exact ⟨_, _, rfl⟩
    · rw [shift_peek_zero _ g1.1]
      have h2 := mu_shift_le _ g1.1
      have g2 := good_skipWhitespace _ (good_shift _ g1)
      have h3 := mu_skipWhitespace_le _ (inv_shift _ g1.1)
      obtain ⟨r, q, e⟩ := declarationLoop_total f [] false _ g2 (by omega)
      rw [e]
      obtain ⟨vs, _, h4⟩ := declarationLoop_consumes _ _ _ _ _ _ g2.1 e
      have h5 := h4.cmu_le
      obtain ⟨q2, e2⟩ := skipWhile_total SemicolonToken (by decide) f q h4.cinv (by omega)
      obtain ⟨vals, imp⟩ := r
      dsimp only
      rw [e2]
      exact ⟨_, _, rfl⟩

theorem bracketLoop_total (f : Nat) (elems : List TokenNode) (p : Lookahead) (hp : Inv p)
    (hf : mu p < f) : ∃ r q, bracketLoop f elems p = .ok (r, q) := by
  induction f generalizing elems p with
  | zero => omega
  | succ f ih =>
    rw [bracketLoop, atAny_eq _ _ hp (by simp)]
    dsimp only
    split
    · rw [atToken_eq]
      dsimp only
      split <;> exact ⟨_, _, rfl⟩
    · rename_i hc
      have hne : (cur p).TokenType ≠ ErrorToken := by
        intro he; apply hc; rw [he]; decide
      rw [shift_peek_zero p hp]
      have h1 := mu_shift_lt p hp hne
      have h2 := mu_skipWhitespace_le _ (inv_shift p hp)
      exact ih _ _ (inv_skipWhitespace _ (inv_shift p hp)) (by omega)

theorem selectorLoop_total (f : Nat) (elems : List TokenNode) (ws : Option TokenNode)
    (p : Lookahead) (hp : Good p) (hf : 2 * mu p < f) :
    ∃ r q, selectorLoop f elems ws p = .ok (r, q) := by
  induction f generalizing elems ws p with
  | zero => omega
  | succ f ih =>
    unfold selectorLoop
    rw [atAny_eq _ _ hp.1 (by simp)]
    dsimp only
    split
    · exact ⟨_, _, rfl⟩
    · rename_i hc
      have hne : (cur p).TokenType ≠ ErrorToken := by
        intro he; apply hc; rw [he]; decide
      have hp1 := good_peek 0 p hp
      have hm1 := mu_peek_le 0 p hp.1
      have hs := mu_shift_lt p hp.1 hne
      -- after the body, which has shifted the current token
      have key : ∀ (elems2 : List TokenNode) (q2 : Lookahead), Good q2 → mu q2 < mu p →
          ∃ r q, (let w := atToken WhitespaceToken q2
           if w.1 = true then selectorLoop f elems2 (some (shift w.2).1) (shift w.2).2
           else selectorLoop f elems2 none w.2) = .ok (r, q) := by
        intro elems2 q2 g2 hlt
        rw [atToken_eq]
        dsimp only
        split
        · rw [shift_peek_zero q2 g2.1]
          have := mu_shift_le q2 g2.1
          exact ih _ _ _ (good_shift q2 g2) (by omega)
        · have := mu_peek_le 0 q2 g2.1
          exact ih _ _ _ (good_peek 0 q2 g2) (by omega)
      obtain ⟨b, e⟩ := delimIs_total [62, 43, 126] _ hp1 (by simp)
      rw [e, peek_zero_idem p hp.1]
      cases b with
      | true =>
        dsimp only
        rw [shift_peek_zero p hp.1]
        have h1 := mu_skipWhitespace_le _ (inv_shift p hp.1)
        exact key _ _ (good_skipWhitespace _ (good_shift p hp)) (by omega)
      | false =>
        dsimp only
        rw [atToken_eq, peek_zero_idem p hp.1, cur_peek_zero p hp.1]
        dsimp only
        by_cases hlb : ((cur p).TokenType == LeftBracketToken) = true
        · rw [if_pos hlb]
          obtain ⟨r, q, e2⟩ := bracketLoop_total f elems _ hp1.1 (by omega)
          rw [e2]
          dsimp only
          obtain ⟨es, _, h1⟩ := bracketLoop_consumes _ _ _ _ _ hp1.1 e2
          -- the loop has shifted the bracket
          have hlt : mu q < mu p := by
            have hcur : (cur p).TokenType ∉ [RightBracketToken, ErrorToken] := by
              have : (cur p).TokenType = LeftBracketToken := by simpa using hlb
              rw [this]; decide
            cases f with
            | zero => simp [bracketLoop] at e2
            | succ g =>
              rw [bracketLoop, atAny_eq _ _ hp1.1 (by simp), cur_peek_zero p hp.1] at e2
              dsimp only at e2
              rw [if_neg (by simpa using hcur), peek_zero_idem p hp.1,
                shift_peek_zero p hp.1] at e2
              have b3 := mu_skipWhitespace_le _ (inv_shift p hp.1)
              obtain ⟨_, _, b4⟩ := bracketLoop_consumes _ _ _ _ _
                (inv_skipWhitespace _ (inv_shift p hp.1)) e2
              have b5 := b4.cmu_le
              omega
          exact key _ _ (h1.cgood hp1) hlt
        · rw [if_neg hlb, shift_peek_zero p hp.1]
          exact key _ _ (good_shift p hp) hs

theorem parseSelector_total (f : Nat) (p : Lookahead) (hp : Good p) (hf : 2 * mu p < f) :
    ∃ r q, parseSelector f p = .ok (r, q) := by
  obtain ⟨r, q, e⟩ := selectorLoop_total f [] none p hp hf
  rw [parseSelector, e]
  dsimp only
  split <;> exact ⟨_, _, rfl⟩

theorem selectorsLoop_total (f : Nat) (sels : List SelectorNode) (p : Lookahead)
    (hp : Good p) (hf : 2 * mu p + 1 < f) : ∃ r q, selectorsLoop f sels p = .ok (r, q) := by
  induction f generalizing sels p with
  | zero => omega
  | succ f ih =>
    rw [selectorsLoop, atAny_eq _ _ hp.1 (by simp)]
    dsimp only
    split
    · exact ⟨_, _, rfl⟩
    · rename_i hc
      have hne : (cur p).TokenType ≠ ErrorToken := by
        intro he; apply hc; rw [he]; decide
      have hp1 := good_peek 0 p hp
      have hm1 := mu_peek_le 0 p hp.1
      rw [atToken_eq, peek_zero_idem p hp.1]
      dsimp only
      split
      · rw [shift_peek_zero p hp.1]
        have h1 := mu_shift_lt p hp.1 hne
        have h2 := mu_skipWhitespace_le _ (inv_shift p hp.1)
        exact ih _ _ (good_skipWhitespace _ (good_shift p hp)) (by omega)
      · rename_i hcomma
        rw [cur_peek_zero p hp.1] at hcomma
        obtain ⟨r, q, e⟩ := parseSelector_total f _ hp1 (by omega)
        rw [e]
        obtain ⟨c, m, _, hne2⟩ := parseSelector_consumes _ _ _ _ hp1.1 e
        have hcne : c ≠ [] := by
          apply hne2
          rw [cur_peek_zero p hp.1]
          simp only [List.mem_cons, List.mem_singleton, List.not_mem_nil, or_false,
            decide_eq_true_eq, not_or] at hc ⊢
          exact ⟨by simpa using hcomma, hc.1, hc.2⟩
        have h2 := m.mmu_lt hp1.1 (live_peek_zero_ne_nil p hp.1) hcne
          (by rw [cur_peek_zero p hp.1]; exact hne)
        have h4 := mu_skipWhitespace_le _ m.minv
        cases r <;> exact ih _ _ (good_skipWhitespace _ (m.mgood hp1)) (by omega)

theorem peek_far (i : Nat) (p : Lookahead) (h : Inv p) (hi : ¬ i < (peek i p).2.bufCap) :
    (peek i p).1 = tooFarToken := by
  obtain ⟨h1, h2, h3⟩ := h
  unfold peek at hi ⊢
  by_cases hge : p.pos + i ≥ p.buf.length
  · rw [if_pos hge] at hi ⊢
    by_cases hc : p.pos + i ≥ p.bufCap
    · rw [if_pos hc] at hi ⊢
      dsimp only at hi ⊢
      by_cases hfar : i ≥ (regrow p).bufCap
      · rw [if_pos hfar]
      · rw [if_neg hfar] at hi
        exact absurd (by simpa [fillTo] using hfar) hi
    · rw [if_neg hc] at hi
      exact absurd (by simp [fillTo]; omega) hi
  · rw [if_neg hge] at hi
    exact absurd (by dsimp only; omega) hi

theorem peek_token (i : Nat) (p : Lookahead) (h : Inv p)
    (hne : (peek i p).1.TokenType ≠ ErrorToken) :
    i < (live (peek i p).2).length ∧ (live (peek i p).2).getD i eofToken = (peek i p).1 := by
  have hi : i < (peek i p).2.bufCap := by
    by_contra hn
    rw [peek_far i p h hn] at hne
    exact hne rfl
  obtain ⟨new, a1, a2, a3, a4, a5, _⟩ := peek_spec i p h
  obtain ⟨b1, b2⟩ := a5 hi
  refine ⟨by simp [live]; omega, ?_⟩
  rw [b2]
  simp only [live]
  rw [List.getD_eq_getElem _ _ b1, List.getD_eq_getElem _ _ (by simp; omega)]
  simp

theorem count_take_le (i : Nat) (l : List TokenNode) (hi : i ≤ l.length)
    (h : ∀ t ∈ l.take i, nonError t = true) : i ≤ (l.filter nonError).length := by
  have h1 : (l.take i).filter nonError = l.take i := List.filter_eq_self.2 h
  have h2 : List.Sublist ((l.take i).filter nonError) (l.filter nonError) :=
    List.Sublist.filter _ (List.take_sublist i l)
  have h3 := h2.length_le
  rw [h1, List.length_take] at h3
  omega

theorem scanLeftBrace_total (f i : Nat) (p : Lookahead) (hp : Inv p)
    (hi : i ≤ (live p).length) (hall : ∀ t ∈ (live p).take i, nonError t = true)
    (hf : mu p < i + f) : ∃ b q, scanLeftBrace f i p = .ok (b, q) := by
  induction f generalizing i p with
  | zero =>
    have := count_take_le i (live p) hi hall
    simp only [mu] at hf
    omega
  | succ f ih =>
    rw [scanLeftBrace]
    dsimp only
    have m1 := peek_moves i p hp
    have m2 := m1.mtrans (peek_moves i _ m1.minv)
    have m3 := m2.mtrans (peek_moves i _ m2.minv)
    simp only [List.append_nil] at m2 m3
    split
    · split
      · exact ⟨_, _, rfl⟩
      · split
        · exact ⟨_, _, rfl⟩
        · rename_i hne
          obtain ⟨t1, t2⟩ := peek_token i _ m2.minv hne
          have hle := m3.mmu_le
          have hinv := m3.minv
          obtain ⟨_, _, _, new, e, _⟩ := m3
          simp only [List.nil_append] at e
          apply ih
          · exact hinv
          · omega
          · intro t ht
            rw [List.take_succ] at ht
            rcases List.mem_append.1 ht with ht | ht
            · rw [← e, List.take_append_of_le_length hi] at ht
              exact hall t ht
            · rw [List.getElem?_eq_getElem t1] at ht
              simp only [Option.toList, List.mem_singleton] at ht
              rw [List.getD_eq_getElem _ _ t1] at t2
              rw [ht, t2]
              simpa [nonError] using hne
          · simp only [List.filter_nil, List.length_nil] at hle
            omega
    · exact ⟨_, _, rfl⟩

theorem parseRuleset_total (f : Nat) (p : Parser2) (hp : Good p.toLookahead)
    (hf : 2 * mu p.toLookahead + 1 < f) : ∃ r q, parseRuleset f p = .ok (r, q) := by
  obtain ⟨b, q, e⟩ := scanLeftBrace_total f 0 p.toLookahead hp.1 (Nat.zero_le _)
    (by simp) (by omega)
  rw [parseRuleset, e]
  have m1 := scanLeftBrace_moves _ _ _ _ _ hp.1 e
  have h1 := m1.mmu_le
  cases b with
  | false => exact ⟨_, _, rfl⟩
  | true =>
    dsimp only
    obtain ⟨sels, q2, e2⟩ := selectorsLoop_total f [] q (m1.mgood hp) (by omega)
    rw [e2]
    dsimp only
    split <;> exact ⟨_, _, rfl⟩

theorem nextEnd_total (fuel : Nat) (state : ParserState) (p : Parser2) (l : Lookahead)
    (hl : Inv l) (hf : mu l < fuel) : ∃ r, nextEnd fuel state p l = .ok r := by
  unfold nextEnd
  dsimp only
  have h1 := mu_shift_le l hl
  obtain ⟨q, e⟩ := skipWhile_total SemicolonToken (by decide) fuel _ (inv_shift l hl) (by omega)
  rw [e]
  dsimp only
  split <;> exact ⟨_, rfl⟩

theorem nextRule_total [BytesLib] (fuel : Nat) (p : Parser2) (hp : Good p.toLookahead)
    (hf : 2 * mu p.toLookahead + 1 < fuel) : ∃ r, nextRule fuel p = .ok r := by
  unfold nextRule
  rw [atAny_eq _ _ hp.1 (by simp)]
  dsimp only
  have g0 := good_peek 0 _ hp
  have h0 := mu_peek_le 0 _ hp.1
  split
  · exact ⟨_, rfl⟩
  · obtain ⟨r1, p1, e1⟩ := parseAtRule_total fuel { p with toLookahead := (peek 0 p.toLookahead).2 }
      g0 (by dsimp only; omega)
    rw [e1]
    cases r1 with
    | some cn => exact ⟨_, rfl⟩
    | none =>
      dsimp only
      have eq1 : p1 = { p with toLookahead := (peek 0 (peek 0 p.toLookahead).2).2 } := by
        rcases parseAtRule_consumes _ _ _ _ g0.1 e1 with ⟨_, e⟩ | ⟨n1, e, _⟩
        · exact e
        · exact absurd e (by simp)
      rw [peek_zero_idem _ hp.1] at eq1
      subst eq1
      obtain ⟨r2, p2, e2⟩ := parseRuleset_total fuel
        { p with toLookahead := (peek 0 p.toLookahead).2 } g0 (by dsimp only; omega)
      rw [e2]
      cases r2 with
      | some cn => exact ⟨_, rfl⟩
      | none =>
        dsimp only
        obtain ⟨c, m, _⟩ := parseRuleset_consumes _ _ _ _ g0.1 e2
        dsimp only at m
        have h2 := m.mmu_le
        obtain ⟨r3, q3, e3⟩ := parseDeclaration_total fuel p2.toLookahead (m.mgood g0) (by omega)
        rw [e3]
        cases r3 <;> exact ⟨_, rfl⟩

theorem next_total [BytesLib] (fuel : Nat) (p : Parser2) (hp : Good p.toLookahead)
    (hs : p.state ≠ []) (hf : 2 * mu p.toLookahead + 1 < fuel) :
    ∃ r, Parser2.Next fuel p = .ok r := by
  unfold Parser2.Next
  rw [atToken_eq]
  dsimp only
  have g0 := good_peek 0 _ hp
  have h0 := mu_peek_le 0 _ hp.1
  by_cases hc : ((cur p.toLookahead).TokenType == ErrorToken) = true
  · rw [if_pos hc]; exact ⟨_, rfl⟩
  · rw [if_neg hc]
    have g1 := good_skipWhitespace _ g0
    have h1 := mu_skipWhitespace_le _ g0.1
    generalize skipWhitespace (peek 0 p.toLookahead).2 = q0 at g1 h1
    have hstate : ∃ state, Parser2.State p = .ok state := by
      unfold Parser2.State
      cases hl : p.state.getLast? with
      | none => rw [List.getLast?_eq_none_iff] at hl; exact absurd hl hs
      | some s => exact ⟨s, rfl⟩
    obtain ⟨state, hstate⟩ := hstate
    rw [hstate]
    dsimp only
    rw [atToken_eq]
    dsimp only
    have g2 := good_peek 0 _ g1
    have h2 := mu_peek_le 0 _ g1.1
    generalize (peek 0 q0).2 = q1 at g2 h2
    generalize ((cur q0).TokenType == RightBraceToken) = b1
    by_cases hb1 : (b1 && (decide (state = AtRuleState) || decide (state = RulesetState)))
        = true
    · rw [if_pos hb1]
      exact nextEnd_total _ _ _ _ g2.1 (by omega)
    · rw [if_neg hb1, atToken_eq]
      dsimp only
      have g3 := good_peek 0 _ g2
      have h3 := mu_peek_le 0 _ g2.1
      generalize (peek 0 q1).2 = q2 at g3 h3
      generalize ((cur q1).TokenType == SemicolonToken) = b2
      by_cases hb2 : (b2 && decide (state = AtRuleState)) = true
      · rw [if_pos hb2]
        exact nextEnd_total _ _ _ _ g3.1 (by omega)
      · rw [if_neg hb2]
        exact nextRule_total _ { p with toLookahead := q2 } g3 (by dsimp only; omega)

/-! ### `Parse`: the leaves of the tree are tokens of the stream, in order -/

theorem parseRecursively_leaves [BytesLib] (inner : Nat) (f : Nat) (gt : GrammarType) (n : Node)
    (p : Parser2) (n2 : Node) (err : Option StreamError) (q : Parser2)
    (hp : Inv p.toLookahead)
    (h : Parser2.parseRecursively inner f gt n p = .ok (n2, err, q)) :
    ∃ c l, Moves p.toLookahead c q.toLookahead ∧ n2.leaves = n.leaves ++ l ∧
      List.Sublist l c ∧ (err = none ∨ err = some p.z.err) := by
  induction f generalizing gt n p n2 err q with
  | zero => simp [Parser2.parseRecursively] at h
  | succ f ih =>
    unfold Parser2.parseRecursively at h
    split at h
    · -- an at-rule
      split at h
      · rename_i at_ nodes rules
        split at h
        · exact absurd h (by simp)
        · rename_i gt1 m q1 hn
          have hpost := next_post _ _ _ _ _ hp hn
          split at h
          · rename_i hg
            simp only [Except.ok.injEq, Prod.mk.injEq] at h
            rcases hpost with ⟨_, _, e, _⟩ | ⟨hne, _⟩
            · refine ⟨[], [], ?_, by rw [← h.1]; simp, List.Sublist.refl _, Or.inr ?_⟩
              · rw [← h.2.2, e]; exact peek_moves 0 _ hp
              · rw [← h.2.1, e]
                have := (peek_moves 0 _ hp).2.2.1
                simp only [TokenStream.Err]
                rw [this]
            · exact absurd hg hne
          · obtain ⟨c1, m1, s1⟩ : ∃ c, Moves p.toLookahead c q1.toLookahead ∧
                List.Sublist m.leaves c := by
              rcases hpost with ⟨e, _⟩ | ⟨_, _, c, a1, a2⟩
              · exact absurd e (by assumption)
              · exact ⟨c, a1, a2⟩
            split at h
            · simp only [Except.ok.injEq, Prod.mk.injEq] at h
              refine ⟨c1, [], by rw [← h.2.2]; exact m1, by rw [← h.1]; simp,
                List.nil_sublist _, Or.inl h.2.1.symm⟩
            · split at h
              · exact absurd h (by simp)
              · rename_i m2 e2 q2 hr
                simp only [Except.ok.injEq, Prod.mk.injEq] at h
                obtain ⟨c2, l2, a1, a2, a3, a4⟩ := ih _ _ _ _ _ _ m1.minv hr
                refine ⟨c1 ++ c2, m.leaves ++ l2, by rw [← h.2.2]; exact m1.mtrans a1, ?_,
                  s1.append a3, ?_⟩
                · rw [← h.1]
                  simp [Node.leaves, leavesList_append, leavesList, a2]
                · rw [← h.2.1]
                  rcases a4 with a4 | a4
                  · exact absurd a4 (by simp)
                  · right; rw [a4, m1.2.2.1]
              · rename_i m2 q2 hr
                obtain ⟨c2, l2, a1, a2, a3, _⟩ := ih _ _ _ _ _ _ m1.minv hr
                obtain ⟨c3, l3, b1, b2, b3, b4⟩ := ih _ _ _ _ _ _ a1.minv h
                refine ⟨c1 ++ (c2 ++ c3), (m.leaves ++ l2) ++ l3, m1.mtrans (a1.mtrans b1), ?_,
                  (s1.append a3).append b3 |>.trans (by simp), ?_⟩
                · rw [b2]
                  simp [Node.leaves, leavesList_append, leavesList, a2]
                · rcases b4 with b4 | b4
                  · exact Or.inl b4
                  · right; rw [b4, a1.2.2.1, m1.2.2.1]
      · exact absurd h (by simp)
    · split at h
      · -- a ruleset
        split at h
        · rename_i sels decls
          split at h
          · exact absurd h (by simp)
          · rename_i gt1 m q1 hn
            have hpost := next_post _ _ _ _ _ hp hn
            split at h
            · rename_i hg
              simp only [Except.ok.injEq, Prod.mk.injEq] at h
              rcases hpost with ⟨_, _, e, _⟩ | ⟨hne, _⟩
              · refine ⟨[], [], ?_, by rw [← h.1]; simp, List.Sublist.refl _, Or.inr ?_⟩
                · rw [← h.2.2, e]; exact peek_moves 0 _ hp
                · rw [← h.2.1, e]
                  have := (peek_moves 0 _ hp).2.2.1
                  simp only [TokenStream.Err]
                  rw [this]
              · exact absurd hg hne
            · obtain ⟨c1, m1, s1⟩ : ∃ c, Moves p.toLookahead c q1.toLookahead ∧
                  List.Sublist m.leaves c := by
                rcases hpost with ⟨e, _⟩ | ⟨_, _, c, a1, a2⟩
                · exact absurd e (by assumption)
                · exact ⟨c, a1, a2⟩
              split at h
              · simp only [Except.ok.injEq, Prod.mk.injEq] at h
                refine ⟨c1, [], by rw [← h.2.2]; exact m1, by rw [← h.1]; simp,
                  List.nil_sublist _, Or.inl h.2.1.symm⟩
              · obtain ⟨lm, hlm⟩ : ∃ lm, lm = m.leaves := ⟨_, rfl⟩
                rw [← hlm] at s1
                split at h
                · obtain ⟨c3, l3, b1, b2, b3, b4⟩ := ih _ _ _ _ _ _ m1.minv h
                  refine ⟨c1 ++ c3, lm ++ l3, m1.mtrans b1, ?_, s1.append b3, ?_⟩
                  · rw [b2, hlm]
                    simp [Node.leaves, leavesList_append, leavesList]
                  · rcases b4 with b4 | b4
                    · exact Or.inl b4
                    · right; rw [b4, m1.2.2.1]
                · obtain ⟨c3, l3, b1, b2, b3, b4⟩ := ih _ _ _ _ _ _ m1.minv h
                  refine ⟨c1 ++ c3, l3, m1.mtrans b1, b2,
                    b3.trans (List.sublist_append_right _ _), ?_⟩
                  rcases b4 with b4 | b4
                  · exact Or.inl b4
                  · right; rw [b4, m1.2.2.1]
        · exact absurd h (by simp)
      · simp only [Except.ok.injEq, Prod.mk.injEq] at h
        exact ⟨[], [], by rw [← h.2.2]; exact Moves.mrefl _ hp, by rw [← h.1]; simp,
          List.Sublist.refl _, Or.inl h.2.1.symm⟩

theorem parseLoop_leaves [BytesLib] (inner : Nat) (f : Nat) (nodes : List Node) (p : Parser2)
    (nodes2 : List Node) (err : StreamError) (q : Parser2) (hp : Inv p.toLookahead)
    (h : parseLoop inner f nodes p = .ok (nodes2, err, q)) :
    ∃ c l, Moves p.toLookahead c q.toLookahead ∧
      leavesList nodes2 = leavesList nodes ++ l ∧ List.Sublist l c ∧ err = p.z.err := by
  induction f generalizing nodes p with
  | zero => simp [parseLoop] at h
  | succ f ih =>
    rw [parseLoop] at h
    split at h
    · exact absurd h (by simp)
    · rename_i gt1 m q1 hn
      have hpost := next_post _ _ _ _ _ hp hn
      split at h
      · rename_i hg
        simp only [Except.ok.injEq, Prod.mk.injEq] at h
        rcases hpost with ⟨_, _, e, _⟩ | ⟨hne, _⟩
        · refine ⟨[], [], ?_, by rw [← h.1]; simp, List.Sublist.refl _, ?_⟩
          · rw [← h.2.2, e]; exact peek_moves 0 _ hp
          · rw [← h.2.1, e]
            have := (peek_moves 0 _ hp).2.2.1
            simp only [TokenStream.Err]
            rw [this]
        · exact absurd hg hne
      · obtain ⟨c1, m1, s1⟩ : ∃ c, Moves p.toLookahead c q1.toLookahead ∧
            List.Sublist m.leaves c := by
          rcases hpost with ⟨e, _⟩ | ⟨_, _, c, a1, a2⟩
          · exact absurd e (by assumption)
          · exact ⟨c, a1, a2⟩
        split at h
        · exact absurd h (by simp)
        · rename_i m2 e2 q2 hr
          simp only [Except.ok.injEq, Prod.mk.injEq] at h
          obtain ⟨c2, l2, a1, a2, a3, a4⟩ := parseRecursively_leaves _ _ _ _ _ _ _ _ m1.minv hr
          refine ⟨c1 ++ c2, m.leaves ++ l2, by rw [← h.2.2]; exact m1.mtrans a1, ?_,
            s1.append a3, ?_⟩
          · rw [← h.1]
            simp [leavesList_append, leavesList, a2]
          · rw [← h.2.1]
            rcases a4 with a4 | a4
            · exact absurd a4 (by simp)
            · simp only [Option.some.injEq] at a4
              rw [a4, m1.2.2.1]
        · rename_i m2 q2 hr
          obtain ⟨c2, l2, a1, a2, a3, _⟩ := parseRecursively_leaves _ _ _ _ _ _ _ _ m1.minv hr
          obtain ⟨c3, l3, b1, b2, b3, b4⟩ := ih _ _ a1.minv h
          refine ⟨c1 ++ (c2 ++ c3), (m.leaves ++ l2) ++ l3, m1.mtrans (a1.mtrans b1), ?_,
            (s1.append a3).append b3 |>.trans (by simp), ?_⟩
          · rw [b2]
            simp [leavesList_append, leavesList, a2]
          · rw [b4, a1.2.2.1, m1.2.2.1]

theorem filter_keep_sublist (l : List TokenNode) :
    List.Sublist (l.filter keep) (l.filter notSpace) := by
  have h : l.filter keep = (l.filter notSpace).filter nonError := by
    rw [List.filter_filter]
    congr 1
    funext t
    simp only [keep, notSpace, nonError, Bool.and_comm]
  rw [h]
  exact List.filter_sublist _

theorem filter_keep_replicate (m : Nat) : (List.replicate m eofToken).filter keep = [] := by
  rw [List.filter_eq_nil_iff]
  intro t ht
  rw [List.eq_of_mem_replicate ht]
  decide

/-- C4 (amended): for every token stream on which `Parse` returns a nil error, the leaf
tokens of the returned tree other than whitespace and error tokens form, in order, a
subsequence of the input token sequence with whitespace and comment tokens removed. -/
theorem parse_leaves_subsequence [BytesLib] (z : TokenStream) (fuel : Nat) (tree : Node)
    (h : Parser2.Parse fuel (NewParser2 z) = .ok (tree, none)) :
    List.Sublist (tree.leaves.filter keep) (z.toks.filter notSpace) := by
  unfold Parser2.Parse at h
  split at h
  · exact absurd h (by simp)
  · rename_i nodes err q hl
    obtain ⟨c, l, m, e, s, _⟩ := parseLoop_leaves _ _ _ _ _ _ _ (newParser2_inv z) hl
    have ht : tree = Node.Stylesheet nodes := by
      split at h <;> simp only [Except.ok.injEq, Prod.mk.injEq] at h <;> exact h.1.symm
    obtain ⟨k, hk⟩ := m.msublist
    have h1 : List.Sublist l (z.toks ++ List.replicate k eofToken) := by
      refine List.Sublist.trans (s.trans (List.sublist_append_left c
        (live q.toLookahead ++ q.z.toks))) ?_
      simpa [live, NewParser2] using hk
    have h2 := h1.filter keep
    rw [List.filter_append, filter_keep_replicate, List.append_nil] at h2
    rw [ht]
    simp only [Node.leaves, e, leavesList, List.nil_append]
    exact h2.trans (filter_keep_sublist _)

section
attribute [local instance] asciiLib

/-- C4 as stated fails: on `a { color: red !important; }` the parse succeeds and the leaves
of the tree are `a`, `color`, `red`, which is not the input without its whitespace. -/
theorem parse_leaves_not_all_tokens :
    ∃ tree, Parser2.Parse 40 (NewParser2 importantStream) = .ok (tree, none) ∧
      tree.leaves = [⟨IdentToken, [97]⟩, ⟨IdentToken, [99, 111, 108, 111, 114]⟩,
        ⟨IdentToken, [114, 101, 100]⟩] ∧
      tree.leaves ≠ importantStream.toks.filter notSpace :=
  ⟨_, rfl, rfl, by decide⟩

end

section
attribute [local instance] asciiLib

/-- The amended C4 at `a { color: red !important; }`. -/
theorem parse_leaves_subsequence_witness :
    ∃ tree, Parser2.Parse 40 (NewParser2 importantStream) = .ok (tree, none) ∧
      List.Sublist (tree.leaves.filter keep) (importantStream.toks.filter notSpace) :=
  ⟨_, rfl, parse_leaves_subsequence importantStream 40 _ rfl⟩

end

/-! ### The run of `Next` calls behind `Parse` -/

theorem stateStep_ok (p : Parser2) (gt : GrammarType) (q : Parser2) (h : StateStep p gt q)
    (hp : StateOK p) : StateOK q := by
  obtain ⟨rest, e⟩ := hp
  rcases h with ⟨_, s⟩ | ⟨_, s⟩ | ⟨_, l, s⟩ | ⟨_, l, s⟩ | ⟨_, s⟩
  · exact ⟨rest ++ [AtRuleState], by rw [s, e]; rfl⟩
  · exact ⟨rest ++ [RulesetState], by rw [s, e]; rfl⟩
  · rw [e] at l s
    cases rest with
    | nil => simp at l
    | cons a rest => exact ⟨(a :: rest).dropLast, by rw [s]; simp [List.dropLast]⟩
  · rw [e] at l s
    cases rest with
    | nil => simp at l
    | cons a rest => exact ⟨(a :: rest).dropLast, by rw [s]; simp [List.dropLast]⟩
  · exact ⟨rest, by rw [s, e]⟩

theorem StateOK.ne_nil {p : Parser2} (h : StateOK p) : p.state ≠ [] := by
  obtain ⟨rest, e⟩ := h
  rw [e]; exact List.cons_ne_nil _ _

theorem parseAtRule_kind (f : Nat) (p : Parser2) (n : Node) (q : Parser2)
    (h : parseAtRule f p = .ok (some n, q)) : NodeKind AtRuleGrammar n := by
  unfold parseAtRule at h
  dsimp only at h
  split at h
  · simp at h
  · split at h
    · exact absurd h (by simp)
    · simp only [Except.ok.injEq, Prod.mk.injEq, Option.some.injEq] at h
      exact ⟨_, _, _, h.1.symm⟩

theorem parseRuleset_kind (f : Nat) (p : Parser2) (n : Node) (q : Parser2)
    (h : parseRuleset f p = .ok (some n, q)) : NodeKind RulesetGrammar n := by
  unfold parseRuleset at h
  split at h
  · exact absurd h (by simp)
  · simp at h
  · split at h
    · exact absurd h (by simp)
    · dsimp only at h
      split at h
      · simp at h
      · simp only [Except.ok.injEq, Prod.mk.injEq, Option.some.injEq] at h
        exact ⟨_, _, h.1.symm⟩

theorem parseDeclaration_kind [BytesLib] (f : Nat) (p : Lookahead) (n : Node) (q : Lookahead)
    (h : parseDeclaration f p = .ok (some n, q)) : NodeKind DeclarationGrammar n := by
  unfold parseDeclaration at h
  dsimp only at h
  split at h
  · simp at h
  · split at h
    · simp at h
    · split at h
      · exact absurd h (by simp)
      · split at h
        · exact absurd h (by simp)
        · simp only [Except.ok.injEq, Prod.mk.injEq, Option.some.injEq] at h
          exact ⟨_, _, _, h.1.symm⟩

theorem nextEnd_kind (fuel : Nat) (state : ParserState) (p : Parser2) (l : Lookahead)
    (gt : GrammarType) (n : Node) (q : Parser2)
    (h : nextEnd fuel state p l = .ok (gt, n, q)) : NodeKind gt n := by
  unfold nextEnd at h
  dsimp only at h
  split at h
  · exact absurd h (by simp)
  · split at h <;>
    · simp only [Except.ok.injEq, Prod.mk.injEq] at h
      rw [← h.1, ← h.2.1]
      exact ⟨_, rfl⟩

theorem nextRule_kind [BytesLib]
    (fuel : Nat) (p : Parser2) (gt : GrammarType) (n : Node) (q : Parser2)
    (h : nextRule fuel p = .ok (gt, n, q)) : NodeKind gt n := by
  unfold nextRule at h
  dsimp only at h
  split at h
  · simp only [Except.ok.injEq, Prod.mk.injEq] at h
    rw [← h.1, ← h.2.1]
    exact ⟨_, rfl⟩
  · split at h
    · exact absurd h (by simp)
    · rename_i cn p1 h1
      simp only [Except.ok.injEq, Prod.mk.injEq] at h
      rw [← h.1, ← h.2.1]
      exact parseAtRule_kind _ _ _ _ h1
    · split at h
      · exact absurd h (by simp)
      · rename_i cn p2 h2
        simp only [Except.ok.injEq, Prod.mk.injEq] at h
        rw [← h.1, ← h.2.1]
        exact parseRuleset_kind _ _ _ _ h2
      · split at h
        · exact absurd h (by simp)
        · rename_i cn q3 h3
          simp only [Except.ok.injEq, Prod.mk.injEq] at h
          rw [← h.1, ← h.2.1]
          exact parseDeclaration_kind _ _ _ _ h3
        · simp only [Except.ok.injEq, Prod.mk.injEq] at h
          rw [← h.1, ← h.2.1]
          exact ⟨_, rfl⟩

theorem next_kind [BytesLib] (fuel : Nat) (p : Parser2) (gt : GrammarType) (n : Node) (q : Parser2)
    (h : Parser2.Next fuel p = .ok (gt, n, q)) : NodeKind gt n := by
  unfold Parser2.Next at h
  generalize atToken ErrorToken p.toLookahead = e at h
  dsimp only at h
  by_cases he : e.1 = true
  · rw [if_pos he] at h
    simp only [Except.ok.injEq, Prod.mk.injEq] at h
    rw [← h.1, ← h.2.1]
    rfl
  · rw [if_neg he] at h
    generalize skipWhitespace e.2 = q0 at h
    cases hstate : Parser2.State p with
    | error a => rw [hstate] at h; exact absurd h (by simp)
    | ok state =>
      rw [hstate] at h
      dsimp only at h
      generalize atToken RightBraceToken q0 = a at h
      by_cases hc : (a.1 && (decide (state = AtRuleState) || decide (state = RulesetState))) = true
      · rw [if_pos hc] at h
        exact nextEnd_kind _ _ _ _ _ _ _ h
      · rw [if_neg hc] at h
        generalize atToken SemicolonToken a.2 = b at h
        by_cases hd : (b.1 && decide (state = AtRuleState)) = true
        · rw [if_pos hd] at h
          exact nextEnd_kind _ _ _ _ _ _ _ h
        · rw [if_neg hd] at h
          exact nextRule_kind _ _ _ _ _ h

theorem run_append [BytesLib] {inner : Nat} {p q r : Parser2} {es1 es2 : List (GrammarType × Node)}
    {b : Bool} (h1 : Run inner p es1 false q) (h2 : Run inner q es2 b r) :
    Run inner p (es1 ++ es2) b r := by
  generalize hb : false = b1 at h1
  induction h1 with
  | stop p => simpa using h2
  | error p n q h => exact absurd hb (by simp)
  | step p gt n p1 es b q h hgt _ ih =>
    exact Run.step p gt n p1 _ _ _ h hgt (ih h2 hb)

theorem run_events [BytesLib] {inner : Nat} {p q : Parser2} {es : List (GrammarType × Node)}
    (h : Run inner p es true q) (k : Nat) (hk : es.length < k) :
    Parser2.events inner k p = some (es, q) := by
  generalize hb : true = b1 at h
  induction h generalizing k with
  | stop p => exact absurd hb (by simp)
  | error p n q h =>
    cases k with
    | zero => simp at hk
    | succ k => simp [Parser2.events, h]
  | step p gt n p1 es b q h hgt _ ih =>
    cases k with
    | zero => simp at hk
    | succ k =>
      simp only [List.length_cons, Nat.add_lt_add_iff_right] at hk
      simp [Parser2.events, h, hgt, ih k hk hb]

theorem events_run [BytesLib]
    {inner : Nat} (k : Nat) {p q : Parser2} {es : List (GrammarType × Node)}
    (h : Parser2.events inner k p = some (es, q)) : Run inner p es true q := by
  induction k generalizing p es q with
  | zero => simp [Parser2.events] at h
  | succ k ih =>
    unfold Parser2.events at h
    split at h
    · exact absurd h (by simp)
    · rename_i gt n p1 hn
      split at h
      · rename_i hg
        simp only [Option.some.injEq, Prod.mk.injEq] at h
        rw [← h.1, ← h.2]
        rw [hg] at hn
        exact Run.error p n p1 hn
      · rename_i hg
        split at h
        · exact absurd h (by simp)
        · rename_i es1 q2 he
          simp only [Option.some.injEq, Prod.mk.injEq] at h
          rw [← h.1, ← h.2]
          exact Run.step p gt n p1 es1 true q2 hn hg (ih he)

theorem run_unique [BytesLib] {inner : Nat} {p q q2 : Parser2} {es es2 : List (GrammarType × Node)}
    (h1 : Run inner p es true q) (h2 : Run inner p es2 true q2) : es = es2 ∧ q = q2 := by
  have a := run_events h1 (es.length + es2.length + 1) (by omega)
  have b := run_events h2 (es.length + es2.length + 1) (by omega)
  rw [a] at b
  simp only [Option.some.injEq, Prod.mk.injEq] at b
  exact b

/-! ### `Parse` and the reconstruction of the nesting from the events -/

theorem reconstruct_start (top : Node) (st : List Node) (gt : GrammarType) (n : Node)
    (es : List (GrammarType × Node)) (h : isStart gt = true) :
    reconstruct top st ((gt, n) :: es) = reconstruct n (top :: st) es := by
  simp [reconstruct, h]

theorem reconstruct_end (top parent : Node) (st : List Node) (gt : GrammarType) (n : Node)
    (es : List (GrammarType × Node)) (h1 : isStart gt = false) (h2 : isEnd gt = true) :
    reconstruct top (parent :: st) ((gt, n) :: es) = reconstruct (attach parent top) st es := by
  simp [reconstruct, h1, h2]

theorem reconstruct_leaf (top : Node) (st : List Node) (gt : GrammarType) (n : Node)
    (es : List (GrammarType × Node)) (h1 : isStart gt = false) (h2 : isEnd gt = false) :
    reconstruct top st ((gt, n) :: es) = reconstruct (attach top n) st es := by
  simp [reconstruct, h1, h2]

theorem nestedFrom_start (ks : List GrammarType) (gt : GrammarType) (es : List GrammarType)
    (h : isStart gt = true) : nestedFrom ks (gt :: es) = nestedFrom (gt :: ks) es := by
  cases gt <;> simp [isStart] at h <;> simp [nestedFrom]

theorem nestedFrom_leaf (ks : List GrammarType) (gt : GrammarType) (es : List GrammarType)
    (h1 : isStart gt = false) (h2 : isEnd gt = false) :
    nestedFrom ks (gt :: es) = nestedFrom ks es := by
  cases gt <;> simp [isStart] at h1 <;> simp [isEnd] at h2 <;>
  · cases ks with
    | nil => rfl
    | cons g ks => cases g <;> rfl

theorem flat_start (ks : List GrammarType) (gt : GrammarType) (es : List GrammarType)
    (h : isStart gt = true) (hf : Flat ks (gt :: es)) :
    Flat (gt :: ks) es ∧ ks.head? ≠ some RulesetGrammar := by
  obtain ⟨h1, h2⟩ := hf
  rw [nestedFrom_start ks gt es h] at h1
  simp only [rulesetsFlat, h, if_true, Bool.and_eq_true, bne_iff_ne, ne_eq] at h2
  exact ⟨⟨h1, h2.2⟩, h2.1⟩

theorem flat_leaf (ks : List GrammarType) (gt : GrammarType) (es : List GrammarType)
    (h1 : isStart gt = false) (h2 : isEnd gt = false) (hf : Flat ks (gt :: es)) :
    Flat ks es := by
  obtain ⟨a, b⟩ := hf
  rw [nestedFrom_leaf ks gt es h1 h2] at a
  simp only [rulesetsFlat, h1, h2, Bool.false_eq_true, if_false] at b
  exact ⟨a, b⟩

theorem flat_end (k : GrammarType) (ks : List GrammarType) (gt : GrammarType)
    (es : List GrammarType) (h2 : isEnd gt = true) (hf : Flat (k :: ks) (gt :: es))
    (hk : isStart k = true) :
    Flat ks es ∧ ((k = AtRuleGrammar ∧ gt = EndAtRuleGrammar) ∨
      (k = RulesetGrammar ∧ gt = EndRulesetGrammar)) := by
  obtain ⟨a, b⟩ := hf
  cases gt <;> simp [isEnd] at h2 <;> cases k <;> simp [isStart] at hk <;>
    simp [nestedFrom] at a <;> simp [rulesetsFlat, isStart, isEnd] at b <;>
    exact ⟨⟨a, b⟩, by simp⟩

theorem flat_nil_end (gt : GrammarType) (es : List GrammarType) (h2 : isEnd gt = true)
    (hf : Flat [] (gt :: es)) : False := by
  obtain ⟨a, _⟩ := hf
  cases gt <;> simp [isEnd] at h2 <;> simp [nestedFrom] at a

theorem parseRecursively_run [BytesLib] (inner : Nat) (f : Nat) (gt : GrammarType) (n : Node)
    (p : Parser2) (n2 : Node) (err : Option StreamError) (q : Parser2)
    (h : Parser2.parseRecursively inner f gt n p = .ok (n2, err, q)) :
    ∃ es, Run inner p es err.isSome q ∧
      (isStart gt = false → es = [] ∧ n2 = n ∧ err = none) ∧
      (isStart gt = true →
        (err = none → ∀ parent st ks es2, Flat (gt :: ks) ((es ++ es2).map Prod.fst) →
          reconstruct n (parent :: st) (es ++ es2) = reconstruct (attach parent n2) st es2 ∧
            Flat ks (es2.map Prod.fst)) ∧
        (err ≠ none → ∀ parent st ks, Flat (gt :: ks) (es.map Prod.fst) →
          reconstruct n (parent :: st) es = closeAll n2 (parent :: st))) := by
  induction f generalizing gt n p n2 err q with
  | zero => simp [Parser2.parseRecursively] at h
  | succ f ih =>
    unfold Parser2.parseRecursively at h
    split at h
    · -- an at-rule
      rename_i hgt
      subst hgt
      split at h
      · rename_i at_ nodes rules
        split at h
        · exact absurd h (by simp)
        · rename_i gt1 m q1 hn
          split at h
          · rename_i hg
            subst hg
            simp only [Except.ok.injEq, Prod.mk.injEq] at h
            obtain ⟨e1, e2, e3⟩ := h
            subst e1 e2 e3
            refine ⟨[], Run.error _ _ _ hn, by simp [isStart], fun _ => ⟨by simp, ?_⟩⟩
            intro _ parent st ks _
            rfl
          · rename_i hg
            split at h
            · rename_i hend
              subst hend
              simp only [Except.ok.injEq, Prod.mk.injEq] at h
              obtain ⟨e1, e2, e3⟩ := h
              subst e1 e2 e3
              refine ⟨[(EndAtRuleGrammar, m)], Run.step _ _ _ _ _ _ _ hn hg (Run.stop _),
                by simp [isStart], fun _ => ⟨?_, by simp⟩⟩
              intro _ parent st ks es2 hf
              refine ⟨reconstruct_end _ _ _ _ _ _ (by rfl) (by rfl), ?_⟩
              exact (flat_end _ _ _ _ (by rfl) hf (by rfl)).1
            · rename_i hend
              split at h
              · exact absurd h (by simp)
              · -- the child ends with an error
                rename_i m2 e2 q2 hr
                simp only [Except.ok.injEq, Prod.mk.injEq] at h
                obtain ⟨e1, e3, e4⟩ := h
                subst e1 e3 e4
                obtain ⟨esc, r1, l1, s1⟩ := ih _ _ _ _ _ _ hr
                refine ⟨(gt1, m) :: esc, Run.step _ _ _ _ _ _ _ hn hg r1, by simp [isStart],
                  fun _ => ⟨by simp, ?_⟩⟩
                intro _ parent st ks hf
                have hs : isStart gt1 = true := by
                  by_contra hns
                  have := (l1 (by simpa using hns)).2.2
                  exact absurd this (by simp)
                simp only [List.map_cons] at hf
                obtain ⟨hf1, _⟩ := flat_start _ _ _ hs hf
                rw [reconstruct_start _ _ _ _ _ hs, (s1 hs).2 (by simp) _ _ _ hf1]
                rfl
              · -- the child returns, the loop goes on
                rename_i m2 q2 hr
                obtain ⟨esc, r1, l1, s1⟩ := ih _ _ _ _ _ _ hr
                obtain ⟨esk, r2, _, s2⟩ := ih _ _ _ _ _ _ h
                have s2 := s2 (by rfl)
                refine ⟨(gt1, m) :: (esc ++ esk), Run.step _ _ _ _ _ _ _ hn hg
                  (run_append r1 r2), by simp [isStart], fun _ => ⟨?_, ?_⟩⟩
                · intro herr parent st ks es2 hf
                  simp only [List.cons_append, List.map_cons, List.append_assoc] at hf ⊢
                  by_cases hs : isStart gt1 = true
                  · obtain ⟨hf1, _⟩ := flat_start _ _ _ hs hf
                    obtain ⟨a1, a2⟩ := (s1 hs).1 rfl (Node.AtRule at_ nodes rules)
                      (parent :: st) _ (esk ++ es2) hf1
                    rw [reconstruct_start _ _ _ _ _ hs, a1]
                    exact s2.1 herr parent st ks es2 a2
                  · have hs : isStart gt1 = false := by simpa using hs
                    obtain ⟨b1, b2, _⟩ := l1 hs
                    subst b1 b2
                    have he : isEnd gt1 = false := by
                      cases gt1 <;> simp [isStart] at hs <;> simp [isEnd] <;>
                        first
                          | exact absurd rfl hend
                          | (exfalso; exact absurd hf.1 (by simp [nestedFrom]))
                    have hf1 := flat_leaf _ _ _ hs he hf
                    rw [reconstruct_leaf _ _ _ _ _ hs he]
                    exact s2.1 herr parent st ks es2 (by simpa using hf1)
                · intro herr parent st ks hf
                  simp only [List.cons_append, List.map_cons, List.map_append] at hf ⊢
                  by_cases hs : isStart gt1 = true
                  · obtain ⟨hf1, _⟩ := flat_start _ _ _ hs hf
                    obtain ⟨a1, a2⟩ := (s1 hs).1 rfl (Node.AtRule at_ nodes rules)
                      (parent :: st) _ esk (by simpa using hf1)
                    rw [reconstruct_start _ _ _ _ _ hs, a1]
                    exact s2.2 herr parent st ks a2
                  · have hs : isStart gt1 = false := by simpa using hs
                    obtain ⟨b1, b2, _⟩ := l1 hs
                    subst b1 b2
                    have he : isEnd gt1 = false := by
                      cases gt1 <;> simp [isStart] at hs <;> simp [isEnd] <;>
                        first
                          | exact absurd rfl hend
                          | (exfalso; exact absurd hf.1 (by simp [nestedFrom]))
                    have hf1 := flat_leaf _ _ _ hs he hf
                    simp only [List.nil_append] at hf1 ⊢
                    rw [reconstruct_leaf _ _ _ _ _ hs he]
                    exact s2.2 herr parent st ks hf1
      · exact absurd h (by simp)
    · rename_i hgt
      split at h
      · -- a ruleset
        rename_i hgt2
        subst hgt2
        split at h
        · rename_i sels decls
          split at h
          · exact absurd h (by simp)
          · rename_i gt1 m q1 hn
            split at h
            · rename_i hg
              subst hg
              simp only [Except.ok.injEq, Prod.mk.injEq] at h
              obtain ⟨e1, e2, e3⟩ := h
              subst e1 e2 e3
              refine ⟨[], Run.error _ _ _ hn, by simp [isStart], fun _ => ⟨by simp, ?_⟩⟩
              intro _ parent st ks _
              rfl
            · rename_i hg
              split at h
              · rename_i hend
                subst hend
                simp only [Except.ok.injEq, Prod.mk.injEq] at h
                obtain ⟨e1, e2, e3⟩ := h
                subst e1 e2 e3
                refine ⟨[(EndRulesetGrammar, m)], Run.step _ _ _ _ _ _ _ hn hg (Run.stop _),
                  by simp [isStart], fun _ => ⟨?_, by simp⟩⟩
                intro _ parent st ks es2 hf
                refine ⟨reconstruct_end _ _ _ _ _ _ (by rfl) (by rfl), ?_⟩
                exact (flat_end _ _ _ _ (by rfl) hf (by rfl)).1
              · rename_i hend
                -- the loop goes on with the ruleset as `attach` updates it
                have key : ∀ (n3 : Node), n3 = attach (Node.Ruleset sels decls) m →
                    Parser2.parseRecursively inner f RulesetGrammar n3 q1 = .ok (n2, err, q) →
                    ∃ es, Run inner p es err.isSome q ∧
                      (isStart RulesetGrammar = false →
                        es = [] ∧ n2 = Node.Ruleset sels decls ∧ err = none) ∧
                      (isStart RulesetGrammar = true →
                        (err = none → ∀ parent st ks es2,
                          Flat (RulesetGrammar :: ks) ((es ++ es2).map Prod.fst) →
                          reconstruct (Node.Ruleset sels decls) (parent :: st) (es ++ es2)
                            = reconstruct (attach parent n2) st es2 ∧
                            Flat ks (es2.map Prod.fst)) ∧
                        (err ≠ none → ∀ parent st ks,
                          Flat (RulesetGrammar :: ks) (es.map Prod.fst) →
                          reconstruct (Node.Ruleset sels decls) (parent :: st) es
                            = closeAll n2 (parent :: st))) := by
                  intro n3 hn3 h3
                  obtain ⟨esk, r2, _, s2⟩ := ih _ _ _ _ _ _ h3
                  have s2 := s2 (by rfl)
                  have hleaf : ∀ ks rest, Flat (RulesetGrammar :: ks) (gt1 :: rest) →
                      isStart gt1 = false ∧ isEnd gt1 = false := by
                    intro ks rest hf
                    cases gt1 with
                    | ErrorGrammar => exact absurd rfl hg
                    | AtRuleGrammar =>
                      exfalso
                      have := hf.2
                      simp [rulesetsFlat, isStart] at this
                    | EndAtRuleGrammar =>
                      exfalso
                      have := hf.1
                      simp [nestedFrom] at this
                    | RulesetGrammar =>
                      exfalso
                      have := hf.2
                      simp [rulesetsFlat, isStart] at this
                    | EndRulesetGrammar => exact absurd rfl hend
                    | DeclarationGrammar => exact ⟨rfl, rfl⟩
                    | TokenGrammar => exact ⟨rfl, rfl⟩
                  refine ⟨(gt1, m) :: esk, Run.step _ _ _ _ _ _ _ hn hg r2, by simp [isStart],
                    fun _ => ⟨?_, ?_⟩⟩
                  · intro herr parent st ks es2 hf
                    simp only [List.cons_append, List.map_cons] at hf ⊢
                    obtain ⟨hs, he⟩ := hleaf _ _ hf
                    rw [reconstruct_leaf _ _ _ _ _ hs he, ← hn3]
                    exact s2.1 herr parent st ks es2 (flat_leaf _ _ _ hs he hf)
                  · intro herr parent st ks hf
                    simp only [List.map_cons] at hf ⊢
                    obtain ⟨hs, he⟩ := hleaf _ _ hf
                    rw [reconstruct_leaf _ _ _ _ _ hs he, ← hn3]
                    exact s2.2 herr parent st ks (flat_leaf _ _ _ hs he hf)
                split at h
                · exact key _ rfl h
                · rename_i hnd
                  refine key _ ?_ h
                  cases m <;> first | rfl | exact absurd rfl (hnd _ _ _)
        · exact absurd h (by simp)
      · rename_i hgt2
        simp only [Except.ok.injEq, Prod.mk.injEq] at h
        obtain ⟨e1, e2, e3⟩ := h
        subst e1 e2 e3
        refine ⟨[], Run.stop _, fun _ => ⟨rfl, rfl, rfl⟩, fun hs => ?_⟩
        cases gt <;> simp [isStart] at hs
        · exact absurd rfl hgt
        · exact absurd rfl hgt2

theorem parseLoop_run [BytesLib] (inner : Nat) (f : Nat) (nodes : List Node) (p : Parser2)
    (nodes2 : List Node) (err : StreamError) (q : Parser2)
    (h : parseLoop inner f nodes p = .ok (nodes2, err, q)) :
    ∃ es, Run inner p es true q ∧
      (Flat [] (es.map Prod.fst) →
        reconstruct (Node.Stylesheet nodes) [] es = Node.Stylesheet nodes2) := by
  induction f generalizing nodes p with
  | zero => simp [parseLoop] at h
  | succ f ih =>
    rw [parseLoop] at h
    split at h
    · exact absurd h (by simp)
    · rename_i gt1 m q1 hn
      split at h
      · rename_i hg
        subst hg
        simp only [Except.ok.injEq, Prod.mk.injEq] at h
        obtain ⟨e1, _, e3⟩ := h
        subst e1 e3
        exact ⟨[], Run.error _ _ _ hn, fun _ => rfl⟩
      · rename_i hg
        split at h
        · exact absurd h (by simp)
        · -- the child ends with an error
          rename_i m2 e2 q2 hr
          simp only [Except.ok.injEq, Prod.mk.injEq] at h
          obtain ⟨e1, _, e4⟩ := h
          subst e1 e4
          obtain ⟨esc, r1, l1, s1⟩ := parseRecursively_run _ _ _ _ _ _ _ _ hr
          refine ⟨(gt1, m) :: esc, Run.step _ _ _ _ _ _ _ hn hg r1, ?_⟩
          intro hf
          have hs : isStart gt1 = true := by
            by_contra hns
            have := (l1 (by simpa using hns)).2.2
            exact absurd this (by simp)
          simp only [List.map_cons] at hf
          obtain ⟨hf1, _⟩ := flat_start _ _ _ hs hf
          rw [reconstruct_start _ _ _ _ _ hs, (s1 hs).2 (by simp) _ _ _ hf1]
          rfl
        · rename_i m2 q2 hr
          obtain ⟨esc, r1, l1, s1⟩ := parseRecursively_run _ _ _ _ _ _ _ _ hr
          obtain ⟨esk, r2, s2⟩ := ih _ _ h
          refine ⟨(gt1, m) :: (esc ++ esk), Run.step _ _ _ _ _ _ _ hn hg (run_append r1 r2), ?_⟩
          intro hf
          simp only [List.map_cons, List.map_append] at hf
          by_cases hs : isStart gt1 = true
          · obtain ⟨hf1, _⟩ := flat_start _ _ _ hs hf
            obtain ⟨a1, a2⟩ := (s1 hs).1 rfl (Node.Stylesheet nodes) [] [] esk
              (by simpa using hf1)
            rw [reconstruct_start _ _ _ _ _ hs, a1]
            exact s2 a2
          · have hs : isStart gt1 = false := by simpa using hs
            obtain ⟨b1, b2, _⟩ := l1 hs
            subst b1 b2
            have he : isEnd gt1 = false := by
              by_contra hne
              exact flat_nil_end _ _ (by simpa using hne) hf
            have hf1 := flat_leaf _ _ _ hs he hf
            simp only [List.nil_append] at hf1 ⊢
            rw [reconstruct_leaf _ _ _ _ _ hs he]
            exact s2 hf1

/-- C3 (amended): for every token stream whose events bring no start event (`AtRule`,
`Ruleset`) between a `Ruleset` event and its `EndRuleset`, the tree returned by `Parse`
equals the tree obtained by running `Next` to the first Error event and reconstructing the
nesting from the events: the events between an `AtRule` and its `EndAtRule` become its rules,
of the events between a `Ruleset` and its `EndRuleset` the declarations become its
declarations (a ruleset node holds nothing else), the other events become children of the
root, and no terminator token of an End event becomes a child. -/
theorem parse_eq_reconstruct [BytesLib] (z : TokenStream) (fuel k : Nat) (tree : Node)
    (e : Option StreamError) (es : List (GrammarType × Node)) (q : Parser2)
    (h : Parser2.Parse fuel (NewParser2 z) = .ok (tree, e))
    (he : Parser2.events fuel k (NewParser2 z) = some (es, q))
    (hflat : rulesetsFlat [] (es.map Prod.fst) = true) :
    tree = reconstruct (Node.Stylesheet []) [] es := by
  unfold Parser2.Parse at h
  split at h
  · exact absurd h (by simp)
  · rename_i nodes err q2 hl
    have ht : tree = Node.Stylesheet nodes := by
      split at h <;> simp only [Except.ok.injEq, Prod.mk.injEq] at h <;> exact h.1.symm
    obtain ⟨es2, r, s⟩ := parseLoop_run _ _ _ _ _ _ _ hl
    obtain ⟨e1, _⟩ := run_unique (events_run k he) r
    subst e1
    rw [ht]
    refine (s ⟨?_, hflat⟩).symm
    exact events_nested_aux fuel k (NewParser2 z) [] es q rfl
      (fun g hg => absurd hg (List.not_mem_nil g)) he

section
attribute [local instance] asciiLib

/-- The amended C3 at `@media screen { a{b:c} }`. -/
theorem parse_eq_reconstruct_witness :
    ∃ tree es q, Parser2.Parse 30 (NewParser2 mediaStream) = .ok (tree, none) ∧
      Parser2.events 30 10 (NewParser2 mediaStream) = some (es, q) ∧
      rulesetsFlat [] (es.map Prod.fst) = true ∧
      tree = reconstruct (Node.Stylesheet []) [] es :=
  ⟨_, _, _, rfl, rfl, rfl, parse_eq_reconstruct mediaStream 30 10 _ none _ _ rfl rfl rfl⟩

end

section
attribute [local instance] asciiLib

/-- C3 as stated fails: on `a{b{c:d}}` the events are Ruleset, Ruleset, Declaration,
EndRuleset, EndRuleset; `Parse` leaves the loop of the outer ruleset at the first
`EndRuleset`, so that the declaration `c:d` lands in the outer ruleset and the terminator
token of the second `EndRuleset` becomes a child of the root stylesheet, where the
reconstruction has the outer ruleset as the only child of the root. -/
theorem parse_not_reconstruction :
    ∃ tree es q, Parser2.Parse 30 (NewParser2 nestedStream) = .ok (tree, none) ∧
      Parser2.events 30 10 (NewParser2 nestedStream) = some (es, q) ∧
      es.map Prod.fst = [RulesetGrammar, RulesetGrammar, DeclarationGrammar,
        EndRulesetGrammar, EndRulesetGrammar] ∧
      tree = Node.Stylesheet [Node.Ruleset [⟨[⟨IdentToken, [97]⟩]⟩]
          [Node.Declaration ⟨IdentToken, [99]⟩ [Node.Token ⟨IdentToken, [100]⟩] false],
        Node.Token ⟨RightBraceToken, [125]⟩] ∧
      reconstruct (Node.Stylesheet []) [] es
        = Node.Stylesheet [Node.Ruleset [⟨[⟨IdentToken, [97]⟩]⟩] []] ∧
      tree ≠ reconstruct (Node.Stylesheet []) [] es :=
  ⟨_, _, _, rfl, rfl, rfl, rfl, rfl, by
    intro h
    have h2 := congrArg (fun t => match t with
      | Node.Stylesheet ns => ns.length
      | _ => 0) h
    exact absurd h2 (by decide)⟩

end

/-! ### `Parse` returns -/

theorem run_stateOK [BytesLib]
    {inner : Nat} {p q : Parser2} {es : List (GrammarType × Node)} {b : Bool}
    (h : Run inner p es b q) (hp : StateOK p) : StateOK q := by
  induction h with
  | stop p => exact hp
  | error p n q h => exact stateStep_ok _ _ _ (next_state _ _ _ _ _ h) hp
  | step p gt n p1 es b q h _ _ ih => exact ih (stateStep_ok _ _ _ (next_state _ _ _ _ _ h) hp)

theorem next_good [BytesLib] (fuel : Nat) (p : Parser2) (gt : GrammarType) (n : Node) (q : Parser2)
    (hp : Good p.toLookahead) (h : Parser2.Next fuel p = .ok (gt, n, q)) :
    Good q.toLookahead ∧ mu q.toLookahead ≤ mu p.toLookahead ∧
      (gt ≠ ErrorGrammar → mu q.toLookahead < mu p.toLookahead) := by
  rcases next_post _ _ _ _ _ hp.1 h with ⟨e, _, e2, _⟩ | ⟨hne, hlt, c, m, _⟩
  · rw [e2]
    exact ⟨good_peek 0 _ hp, mu_peek_le 0 _ hp.1, fun h => absurd e h⟩
  · exact ⟨m.mgood hp, by omega, fun _ => hlt⟩

theorem parseRecursively_total [BytesLib] (inner : Nat) (f : Nat) (gt : GrammarType) (n : Node)
    (p : Parser2) (hk : NodeKind gt n) (hp : Good p.toLookahead) (hs : StateOK p)
    (hi : ∀ p2 : Parser2, mu p2.toLookahead ≤ mu p.toLookahead →
      2 * mu p2.toLookahead + 1 < inner)
    (hf : mu p.toLookahead < f) :
    ∃ r, Parser2.parseRecursively inner f gt n p = .ok r := by
  induction f generalizing gt n p with
  | zero => omega
  | succ f ih =>
    unfold Parser2.parseRecursively
    by_cases hgt : gt = AtRuleGrammar
    · rw [if_pos hgt]
      subst hgt
      obtain ⟨a, ns, rs, e⟩ := hk
      subst e
      dsimp only
      obtain ⟨⟨gt1, m, q1⟩, hn⟩ := next_total inner p hp hs.ne_nil (hi p (le_refl _))
      rw [hn]
      dsimp only
      obtain ⟨g1, h1, h2⟩ := next_good _ _ _ _ _ hp hn
      have s1 := stateStep_ok _ _ _ (next_state _ _ _ _ _ hn) hs
      by_cases hg : gt1 = ErrorGrammar
      · rw [if_pos hg]; exact ⟨_, rfl⟩
      · rw [if_neg hg]
        have h2 := h2 hg
        by_cases hend : gt1 = EndAtRuleGrammar
        · rw [if_pos hend]; exact ⟨_, rfl⟩
        · rw [if_neg hend]
          obtain ⟨⟨m2, errc, q2⟩, hr⟩ := ih gt1 m q1 (next_kind _ _ _ _ _ hn) g1 s1
            (fun p2 hp2 => hi p2 (by omega)) (by omega)
          rw [hr]
          obtain ⟨c, l, mv, _, _, _⟩ := parseRecursively_leaves _ _ _ _ _ _ _ _ g1.1 hr
          obtain ⟨esc, r1, _⟩ := parseRecursively_run _ _ _ _ _ _ _ _ hr
          have h3 := mv.mmu_le
          cases errc with
          | some e => exact ⟨_, rfl⟩
          | none =>
            dsimp only
            exact ih _ _ q2 ⟨_, _, _, rfl⟩ (mv.mgood g1) (run_stateOK r1 s1)
              (fun p2 hp2 => hi p2 (by omega)) (by omega)
    · rw [if_neg hgt]
      by_cases hgt2 : gt = RulesetGrammar
      · rw [if_pos hgt2]
        subst hgt2
        obtain ⟨ss, ds, e⟩ := hk
        subst e
        dsimp only
        obtain ⟨⟨gt1, m, q1⟩, hn⟩ := next_total inner p hp hs.ne_nil (hi p (le_refl _))
        rw [hn]
        dsimp only
        obtain ⟨g1, h1, h2⟩ := next_good _ _ _ _ _ hp hn
        have s1 := stateStep_ok _ _ _ (next_state _ _ _ _ _ hn) hs
        by_cases hg : gt1 = ErrorGrammar
        · rw [if_pos hg]; exact ⟨_, rfl⟩
        · rw [if_neg hg]
          have h2 := h2 hg
          by_cases hend : gt1 = EndRulesetGrammar
          · rw [if_pos hend]; exact ⟨_, rfl⟩
          · rw [if_neg hend]
            split
            · exact ih _ _ q1 ⟨_, _, rfl⟩ g1 s1 (fun p2 hp2 => hi p2 (by omega)) (by omega)
            · exact ih _ _ q1 ⟨_, _, rfl⟩ g1 s1 (fun p2 hp2 => hi p2 (by omega)) (by omega)
      · rw [if_neg hgt2]; exact ⟨_, rfl⟩

theorem parseLoop_total [BytesLib] (inner : Nat) (f : Nat) (nodes : List Node) (p : Parser2)
    (hp : Good p.toLookahead) (hs : StateOK p)
    (hi : ∀ p2 : Parser2, mu p2.toLookahead ≤ mu p.toLookahead →
      2 * mu p2.toLookahead + 1 < inner)
    (hf : mu p.toLookahead < f) :
    ∃ r, parseLoop inner f nodes p = .ok r := by
  induction f generalizing nodes p with
  | zero => omega
  | succ f ih =>
    rw [parseLoop]
    obtain ⟨⟨gt1, m, q1⟩, hn⟩ := next_total inner p hp hs.ne_nil (hi p (le_refl _))
    rw [hn]
    dsimp only
    obtain ⟨g1, h1, h2⟩ := next_good _ _ _ _ _ hp hn
    have s1 := stateStep_ok _ _ _ (next_state _ _ _ _ _ hn) hs
    by_cases hg : gt1 = ErrorGrammar
    · rw [if_pos hg]; exact ⟨_, rfl⟩
    · rw [if_neg hg]
      have h2 := h2 hg
      have hin := hi q1 (by omega)
      obtain ⟨⟨m2, errc, q2⟩, hr⟩ := parseRecursively_total inner inner gt1 m q1
        (next_kind _ _ _ _ _ hn) g1 s1 (fun p2 hp2 => hi p2 (by omega)) (by omega)
      rw [hr]
      obtain ⟨c, l, mv, _, _, _⟩ := parseRecursively_leaves _ _ _ _ _ _ _ _ g1.1 hr
      obtain ⟨esc, r1, _⟩ := parseRecursively_run _ _ _ _ _ _ _ _ hr
      have h3 := mv.mmu_le
      cases errc with
      | some e => exact ⟨_, rfl⟩
      | none =>
        dsimp only
        exact ih _ q2 (mv.mgood g1) (run_stateOK r1 s1) (fun p2 hp2 => hi p2 (by omega))
          (by omega)

/-- C5: for every token stream whose delimiter tokens carry their byte, `Parse` with enough
fuel returns a `Stylesheet` node; its loop ends at the parser state right after the first
Error event of the `Next` calls (`es` are the events before it); and the error returned is
nil when the terminal error of the stream is end-of-input (`io.EOF`), and is that terminal
error unchanged otherwise. -/
theorem parse_returns_stylesheet [BytesLib] (z : TokenStream) (fuel : Nat)
    (hz : ∀ t ∈ z.toks, DelimOK t) (hf : 2 * z.toks.length + 1 < fuel) :
    ∃ nodes es q, parseLoop fuel fuel [] (NewParser2 z) = .ok (nodes, z.err, q) ∧
      Parser2.events fuel (es.length + 1) (NewParser2 z) = some (es, q) ∧
      Parser2.Parse fuel (NewParser2 z)
        = .ok (Node.Stylesheet nodes, if z.err = StreamError.EOF then none else some z.err) := by
  have hmu : mu (NewParser2 z).toLookahead = z.toks.length := by
    simp [mu, live, NewParser2]
  have hg : Good (NewParser2 z).toLookahead :=
    ⟨newParser2_inv z, fun t ht => hz t (by simpa [live, NewParser2] using ht)⟩
  obtain ⟨⟨nodes, err, q⟩, hl⟩ := parseLoop_total fuel fuel [] (NewParser2 z) hg ⟨[], rfl⟩
    (fun p2 hp2 => by omega) (by omega)
  obtain ⟨_, _, _, _, _, herr⟩ := parseLoop_leaves _ _ _ _ _ _ _ hg.1 hl
  have herr : err = z.err := herr
  subst herr
  obtain ⟨es, r, _⟩ := parseLoop_run _ _ _ _ _ _ _ hl
  refine ⟨nodes, es, q, hl, run_events r _ (Nat.lt_succ_self _), ?_⟩
  unfold Parser2.Parse
  rw [hl]
  dsimp only
  by_cases he : z.err = StreamError.EOF
  · simp [he]
  · simp [he]

section
attribute [local instance] asciiLib

/-- C5 on `a { color: red !important; }`, whose terminal error is end-of-input. -/
theorem parse_returns_stylesheet_witness :
    (∀ t ∈ importantStream.toks, DelimOK t) ∧ 2 * importantStream.toks.length + 1 < 40 ∧
    ∃ nodes es q, parseLoop 40 40 [] (NewParser2 importantStream)
        = .ok (nodes, importantStream.err, q) ∧
      Parser2.events 40 (es.length + 1) (NewParser2 importantStream) = some (es, q) ∧
      Parser2.Parse 40 (NewParser2 importantStream)
        = .ok (Node.Stylesheet nodes,
            if importantStream.err = StreamError.EOF then none else some importantStream.err) :=
  ⟨by simp [importantStream, DelimOK], by decide,
    parse_returns_stylesheet importantStream 40 (by simp [importantStream, DelimOK])
      (by decide)⟩

end

/-! ### The forward scan of `parseRuleset` -/

theorem peek_cap_gt (i : Nat) (p : Lookahead) (h : Inv p) (hi : i ≤ (live p).length) :
    i < (peek i p).2.bufCap := by
  obtain ⟨h1, h2, h3⟩ := h
  have hl : (live p).length = p.buf.length - p.pos := by simp [live]
  unfold peek
  by_cases hge : p.pos + i ≥ p.buf.length
  · rw [if_pos hge]
    by_cases hc : p.pos + i ≥ p.bufCap
    · rw [if_pos hc]
      dsimp only
      have hcap : i < (regrow p).bufCap := by
        rw [regrow_bufCap]
        split <;> omega
      rw [if_neg (by omega)]
      simpa [fillTo] using hcap
    · rw [if_neg hc]
      simp [fillTo]; omega
  · rw [if_neg hge]
    dsimp only
    omega

theorem peek_near_token (i : Nat) (p : Lookahead) (h : Inv p) (hi : i ≤ (live p).length) :
    i < (live (peek i p).2).length ∧ (live (peek i p).2).getD i eofToken = (peek i p).1 := by
  have hc := peek_cap_gt i p h hi
  obtain ⟨new, a1, a2, a3, a4, a5, _⟩ := peek_spec i p h
  obtain ⟨b1, b2⟩ := a5 hc
  refine ⟨by simp [live]; omega, ?_⟩
  rw [b2]
  simp only [live]
  rw [List.getD_eq_getElem _ _ b1, List.getD_eq_getElem _ _ (by simp; omega)]
  simp

theorem scanLeftBrace_spec (f i : Nat) (p : Lookahead) (b : Bool) (q : Lookahead)
    (hp : Inv p) (hi : i ≤ (live p).length)
    (hall : ∀ j, j < i → scanStop ((live p).getD j eofToken) = false)
    (h : scanLeftBrace f i p = .ok (b, q)) :
    ∃ k, k < (live q).length ∧
      (∀ j, j < k → scanStop ((live q).getD j eofToken) = false) ∧
      scanStop ((live q).getD k eofToken) = true ∧
      (b = true ↔ ((live q).getD k eofToken).TokenType = LeftBraceToken) := by
  induction f generalizing i p with
  | zero => simp [scanLeftBrace] at h
  | succ f ih =>
    rw [scanLeftBrace] at h
    dsimp only at h
    have m1 := peek_moves i p hp
    obtain ⟨t1, t2⟩ := peek_near_token i p hp hi
    have hlt : (peek i p).2.pos + i < (peek i p).2.buf.length := by
      have : (live (peek i p).2).length = (peek i p).2.buf.length - (peek i p).2.pos := by
        simp [live]
      omega
    have hget : (peek i p).2.buf.getD ((peek i p).2.pos + i) eofToken = (peek i p).1 := by
      rw [← t2]
      simp only [live]
      rw [List.getD_eq_getElem _ _ hlt, List.getD_eq_getElem _ _ (by simp; omega)]
      simp
    have hsame : peek i (peek i p).2 = peek i p := by
      rw [peek_of_lt i _ hlt, hget]
    rw [hsame, hsame] at h
    have hpre : ∀ j, j < i → scanStop ((live (peek i p).2).getD j eofToken) = false := by
      intro j hj
      obtain ⟨_, _, _, new, e, _⟩ := m1
      simp only [List.nil_append] at e
      rw [← e, List.getD_append _ _ _ _ (by omega)]
      exact hall j hj
    by_cases hlb : (peek i p).1.TokenType = LeftBraceToken
    · rw [if_neg (by simpa using hlb)] at h
      simp only [Except.ok.injEq, Prod.mk.injEq] at h
      obtain ⟨hb, hq⟩ := h
      subst hq
      refine ⟨i, t1, hpre, ?_, ?_⟩
      · rw [t2]; simp [scanStop, hlb]
      · rw [t2]; simp [← hb, hlb]
    · rw [if_pos (by simpa using hlb)] at h
      by_cases hsc : (peek i p).1.TokenType = SemicolonToken
      · rw [if_pos hsc] at h
        simp only [Except.ok.injEq, Prod.mk.injEq] at h
        obtain ⟨hb, hq⟩ := h
        subst hq
        refine ⟨i, t1, hpre, ?_, ?_⟩
        · rw [t2]; simp [scanStop, hsc]
        · rw [t2]; simp [← hb, hlb]
      · rw [if_neg hsc] at h
        by_cases he : (peek i p).1.TokenType = ErrorToken
        · rw [if_pos he] at h
          simp only [Except.ok.injEq, Prod.mk.injEq] at h
          obtain ⟨hb, hq⟩ := h
          subst hq
          refine ⟨i, t1, hpre, ?_, ?_⟩
          · rw [t2]; simp [scanStop, he]
          · rw [t2]; simp [← hb, hlb]
        · rw [if_neg he] at h
          refine ih (i + 1) _ m1.minv (by omega) ?_ h
          intro j hj
          by_cases hji : j < i
          · exact hpre j hji
          · have : j = i := by omega
            subst this
            rw [t2]; simp [scanStop, hlb, hsc, he]

/-- C10 (amended): however long the prelude is, the forward scan of `parseRuleset` returns
(with enough fuel), only reads from the stream (`Moves p [] q`: the pending tokens of `q` are
those of `p` followed by tokens read from the stream, none is synthetic), and its answer is
decided by the first pending token that is `{`, `;` or an error token, at whatever offset `k`
it lies: the scan finds a ruleset if and only if that token is `{`. -/
theorem scan_decided_by_first_stop (f : Nat) (p : Lookahead) (hp : Inv p) (hf : mu p < f) :
    ∃ b q k, scanLeftBrace f 0 p = .ok (b, q) ∧ Moves p [] q ∧ k < (live q).length ∧
      (∀ j, j < k → scanStop ((live q).getD j eofToken) = false) ∧
      scanStop ((live q).getD k eofToken) = true ∧
      (b = true ↔ ((live q).getD k eofToken).TokenType = LeftBraceToken) := by
  obtain ⟨b, q, h⟩ := scanLeftBrace_total f 0 p hp (Nat.zero_le _)
    (fun t ht => by simp at ht) (by omega)
  obtain ⟨k, h1, h2, h3, h4⟩ := scanLeftBrace_spec f 0 p b q hp (Nat.zero_le _)
    (fun j hj => absurd hj (Nat.not_lt_zero j)) h
  exact ⟨b, q, k, h, scanLeftBrace_moves f 0 p b q hp h, h1, h2, h3, h4⟩

/-- The amended C10 on `a,a,a,a,a,a,a,a,a,a{}`, where the `{` lies at offset 19. -/
theorem scan_decided_by_first_stop_witness :
    mu (NewParser2 longPreludeStream).toLookahead < 40 ∧
    ∃ b q k, scanLeftBrace 40 0 (NewParser2 longPreludeStream).toLookahead = .ok (b, q) ∧
      Moves (NewParser2 longPreludeStream).toLookahead [] q ∧ k < (live q).length ∧
      (∀ j, j < k → scanStop ((live q).getD j eofToken) = false) ∧
      scanStop ((live q).getD k eofToken) = true ∧
      (b = true ↔ ((live q).getD k eofToken).TokenType = LeftBraceToken) :=
  ⟨by decide, scan_decided_by_first_stop 40 (NewParser2 longPreludeStream).toLookahead
    (newParser2_inv longPreludeStream) (by decide)⟩

section
attribute [local instance] asciiLib

/-- C10 as stated fails: in `a,a,a,a,a,a,a,a,a,a{}` nineteen tokens, none of them `;` or an
error token, come before the first `{`, more than the capacity 16 of the buffer of
`NewParser2`; the forward scan reaches the `{` all the same (the capacity has then doubled
to 32) and `Next` produces the Ruleset with its ten selectors. -/
theorem long_prelude_yields_ruleset :
    (longPreludeStream.toks.takeWhile (fun t => t.TokenType != LeftBraceToken)).length = 19 ∧
    (∀ t ∈ longPreludeStream.toks.takeWhile (fun t => t.TokenType != LeftBraceToken),
      scanStop t = false) ∧
    (NewParser2 longPreludeStream).bufCap = 16 ∧
    (scanLeftBrace 40 0 (NewParser2 longPreludeStream).toLookahead).map
      (fun r => (r.1, r.2.bufCap)) = .ok (true, 32) ∧
    (Parser2.Next 40 (NewParser2 longPreludeStream)).map (fun r => (r.1, r.2.1))
      = .ok (RulesetGrammar,
          Node.Ruleset (List.replicate 10 ⟨[⟨IdentToken, [97]⟩]⟩) []) :=
  ⟨by decide, by decide, rfl, rfl, rfl⟩

end

/-! ### `!important` after a comment -/

section
attribute [local instance] asciiLib

/-- C6 fails on `b:f(;) x x x x ! /**/ important;`: the token after the `!` that is not
whitespace is the identifier `important`, yet `parseDeclaration` (also when reached through
`Next`) keeps both the `!` and the identifier in `Vals` and leaves `Important` false. The
whitespace before the comment is the sixteenth token read, so that the buffer is full and
wholly consumed when the whitespace after the comment is read: `read` then finds no
whitespace at the end of the buffer and delivers a second whitespace token, and
`skipWhitespace` skips one. Without the comment (`b:f(;) x x x x ! important;`) the same
declaration has `Important` true and neither token in `Vals`. -/
theorem important_after_comment_missed :
    ∃ n, (parseDeclaration 40 (NewParser2 gapStream).toLookahead).map Prod.fst
        = .ok (some n) ∧
      (Parser2.Next 40 (NewParser2 gapStream)).map (fun r => (r.1, r.2.1))
        = .ok (DeclarationGrammar, n) ∧
      n = Node.Declaration ⟨IdentToken, [98]⟩
          [Node.Function ⟨FunctionToken, [102, 40]⟩
              [Node.Argument [Node.Token ⟨SemicolonToken, [59]⟩]],
            Node.Token ⟨IdentToken, [120]⟩, Node.Token ⟨IdentToken, [120]⟩,
            Node.Token ⟨IdentToken, [120]⟩, Node.Token ⟨IdentToken, [120]⟩,
            Node.Token ⟨DelimToken, [33]⟩,
            Node.Token ⟨IdentToken, [105, 109, 112, 111, 114, 116, 97, 110, 116]⟩] false ∧
      (parseDeclaration 40 (NewParser2 noGapStream).toLookahead).map Prod.fst
        = .ok (some (Node.Declaration ⟨IdentToken, [98]⟩
            [Node.Function ⟨FunctionToken, [102, 40]⟩
                [Node.Argument [Node.Token ⟨SemicolonToken, [59]⟩]],
              Node.Token ⟨IdentToken, [120]⟩, Node.Token ⟨IdentToken, [120]⟩,
              Node.Token ⟨IdentToken, [120]⟩, Node.Token ⟨IdentToken, [120]⟩] true)) :=
  ⟨Node.Declaration ⟨IdentToken, [98]⟩
      [Node.Function ⟨FunctionToken, [102, 40]⟩
          [Node.Argument [Node.Token ⟨SemicolonToken, [59]⟩]],
        Node.Token ⟨IdentToken, [120]⟩, Node.Token ⟨IdentToken, [120]⟩,
        Node.Token ⟨IdentToken, [120]⟩, Node.Token ⟨IdentToken, [120]⟩,
        Node.Token ⟨DelimToken, [33]⟩,
        Node.Token ⟨IdentToken, [105, 109, 112, 111, 114, 116, 97, 110, 116]⟩] false,
    rfl, rfl, rfl, rfl⟩

end

/-! ### The `Important` flag of `parseDeclaration` -/

theorem Shifts.strans {p q r : Lookahead} {c d : List TokenNode} (h1 : Shifts p c q)
    (h2 : Shifts q d r) : Shifts p (c ++ d) r := by
  refine ⟨h1.1.mtrans h2.1, ?_⟩
  have a := h1.2
  have b := h2.2
  cases c with
  | nil =>
    simp only [List.nil_append, List.head?_cons, Option.some.injEq] at a
    rw [List.nil_append, b, a]
  | cons t c => simpa using a

theorem shifts_peek (p : Lookahead) (h : Inv p) : Shifts p [] (peek 0 p).2 :=
  ⟨peek_moves 0 p h, by simp [cur_peek_zero p h]⟩

theorem shifts_shift (p : Lookahead) (h : Inv p) : Shifts p [cur p] (shift p).2 :=
  ⟨shift_moves p h, by simp⟩

theorem shifts_skipWhitespace (p : Lookahead) (h : Inv p) :
    ∃ c, Shifts p c (skipWhitespace p) ∧
      ((c = [] ∧ (cur p).TokenType ≠ WhitespaceToken) ∨
        (c = [cur p] ∧ (cur p).TokenType = WhitespaceToken)) := by
  rw [skipWhitespace_eq p h]
  by_cases hw : (cur p).TokenType = WhitespaceToken
  · rw [if_pos hw]
    exact ⟨[cur p], shifts_shift p h, Or.inr ⟨rfl, hw⟩⟩
  · rw [if_neg hw]
    exact ⟨[], shifts_peek p h, Or.inl ⟨rfl, hw⟩⟩

theorem Shifts.cur_of_nil {p q : Lookahead} (h : Shifts p [] q) : cur q = cur p := by
  simpa using h.2

theorem delimIs_bang (p : Lookahead) (b : Bool) (q : Lookahead) (hp : Inv p)
    (h : delimIs [33] p = .ok (b, q)) : b = isBang (cur p) := by
  rw [delimIs, atToken_eq] at h
  dsimp only at h
  by_cases hd : (cur p).TokenType = DelimToken
  · rw [if_pos (by simpa using hd)] at h
    rw [dataFirstIs, data_eq, cur_peek_zero p hp] at h
    dsimp only at h
    cases hdat : (cur p).Data with
    | nil => rw [hdat] at h; exact absurd h (by simp)
    | cons x xs =>
      rw [hdat] at h
      dsimp only at h
      by_cases hx : x = 33
      · rw [if_pos hx] at h
        simp only [Except.ok.injEq, Prod.mk.injEq] at h
        rw [← h.1]; simp [isBang, hd, hdat, hx]
      · rw [if_neg hx] at h
        simp only [dataFirstIs, Except.ok.injEq, Prod.mk.injEq] at h
        rw [← h.1]; simp [isBang, hd, hdat, hx]
  · rw [if_neg (by simpa using hd)] at h
    simp only [Except.ok.injEq, Prod.mk.injEq] at h
    rw [← h.1]; simp [isBang, hd]

theorem atImportant_fst [BytesLib] (p : Lookahead) (hp : Inv p) :
    (atImportant p).1 = isImportant (cur p) := by
  rw [atImportant, atToken_eq]
  dsimp only
  by_cases hi : (cur p).TokenType = IdentToken
  · rw [if_pos (by simpa using hi), data_eq, cur_peek_zero p hp]
    simp [isImportant, hi]
  · rw [if_neg (by simpa using hi)]
    simp [isImportant, hi]

theorem isBang_of_type (t : TokenNode) (h : t.TokenType ≠ DelimToken) : isBang t = false := by
  simp [isBang, h]

theorem isImportant_of_type [BytesLib] (t : TokenNode) (h : t.TokenType ≠ IdentToken) :
    isImportant t = false := by
  simp [isImportant, h]

theorem bangImportant_append_right [BytesLib] (a b : List TokenNode) (h : bangImportant b = true) :
    bangImportant (a ++ b) = true := by
  induction a with
  | nil => exact h
  | cons t a ih => simp [bangImportant, ih]

theorem importantAtHead_append [BytesLib] (a s : List TokenNode)
    (hs : ∀ t ∈ s, isImportant t = false) :
    importantAtHead (a ++ s) = importantAtHead a := by
  cases a with
  | nil =>
    cases s with
    | nil => rfl
    | cons u r => simp [importantAtHead, hs u (by simp)]
  | cons x a => rfl

theorem followedByImportant_append [BytesLib] (a s : List TokenNode)
    (hs : ∀ t ∈ s, isImportant t = false) :
    followedByImportant (a ++ s) = followedByImportant a := by
  cases a with
  | nil =>
    cases s with
    | nil => rfl
    | cons u r =>
      have h1 := hs u (by simp)
      have h2 : importantAtHead r = false := by
        cases r with
        | nil => rfl
        | cons v r2 => simp [importantAtHead, hs v (by simp)]
      simp [followedByImportant, h1, h2]
  | cons x a =>
    simp only [List.cons_append, followedByImportant, importantAtHead_append a s hs]

theorem bangImportant_append_left [BytesLib] (a s : List TokenNode)
    (hs : ∀ t ∈ s, isBang t = false ∧ isImportant t = false) :
    bangImportant (a ++ s) = bangImportant a := by
  induction a with
  | nil =>
    induction s with
    | nil => rfl
    | cons u r ih =>
      simp only [List.nil_append] at ih ⊢
      simp [bangImportant, (hs u (by simp)).1, ih (fun t ht => hs t (by simp [ht]))]
  | cons t a ih =>
    have e := followedByImportant_append a s (fun t ht => (hs t ht).2)
    rw [List.cons_append, bangImportant, bangImportant, ih, e]

theorem bangImportant_space [BytesLib] (w r : List TokenNode)
    (hw : ∀ t ∈ w, isBang t = false) : bangImportant (w ++ r) = bangImportant r := by
  induction w with
  | nil => rfl
  | cons t w ih =>
    simp [bangImportant, hw t (by simp), ih (fun u hu => hw u (by simp [hu]))]

theorem importantAtHead_of_head [BytesLib] (X : List TokenNode) (t0 u : TokenNode)
    (hh : (X ++ [t0]).head? = some u) (hu : isImportant u = false) :
    importantAtHead X = false := by
  cases X with
  | nil => rfl
  | cons t r =>
    simp only [List.cons_append, List.head?_cons, Option.some.injEq] at hh
    simp [importantAtHead, hh, hu]

theorem followedByImportant_of_head [BytesLib] (X : List TokenNode) (t0 u : TokenNode)
    (hh : (X ++ [t0]).head? = some u) (hu : isImportant u = false)
    (hw : u.TokenType ≠ WhitespaceToken) : followedByImportant X = false := by
  cases X with
  | nil => rfl
  | cons t r =>
    simp only [List.cons_append, List.head?_cons, Option.some.injEq] at hh
    simp [followedByImportant, hh, hu, hw]

theorem skipWhile_tokens (tt : TokenType) (f : Nat) (p q : Lookahead) (hp : Inv p)
    (h : skipWhile tt f p = .ok q) :
    ∃ c, Moves p c q ∧ ∀ t ∈ c, t.TokenType = tt ∨ t.TokenType = WhitespaceToken := by
  induction f generalizing p with
  | zero => simp [skipWhile] at h
  | succ f ih =>
    rw [skipWhile, atAny_eq _ _ hp (by simp)] at h
    dsimp only at h
    split at h
    · rename_i hc
      rw [shift_peek_zero p hp] at h
      obtain ⟨c, m, hall⟩ := ih _ (inv_shift p hp) h
      refine ⟨cur p :: c, (shift_moves p hp).mtrans m, ?_⟩
      intro t ht
      rcases List.mem_cons.1 ht with e | e
      · rw [e]; simpa using hc
      · exact hall t e
    · simp only [Except.ok.injEq] at h
      rw [← h]
      exact ⟨[], peek_moves 0 p hp, by simp⟩

theorem space_not_bang (w : List TokenNode) (x : TokenNode)
    (hw : (w = [] ∧ x.TokenType ≠ WhitespaceToken) ∨ (w = [x] ∧ x.TokenType = WhitespaceToken)) :
    ∀ t ∈ w, isBang t = false := by
  intro t ht
  rcases hw with ⟨e, _⟩ | ⟨e, h⟩
  · rw [e] at ht; exact absurd ht (List.not_mem_nil t)
  · rw [e] at ht
    rw [List.mem_singleton.1 ht]
    exact isBang_of_type x (by rw [h]; decide)

theorem space_not_function (w : List TokenNode) (x : TokenNode)
    (hw : (w = [] ∧ x.TokenType ≠ WhitespaceToken) ∨ (w = [x] ∧ x.TokenType = WhitespaceToken)) :
    ∀ t ∈ w, t.TokenType ≠ FunctionToken := by
  intro t ht
  rcases hw with ⟨e, _⟩ | ⟨e, h⟩
  · rw [e] at ht; exact absurd ht (List.not_mem_nil t)
  · rw [e] at ht
    rw [List.mem_singleton.1 ht, h]; decide

theorem declarationLoop_important [BytesLib]
    (f : Nat) (vals : List Node) (imp : Bool) (p : Lookahead)
    (r : List Node × Bool) (q : Lookahead) (hp : Inv p)
    (h : declarationLoop f vals imp p = .ok (r, q)) :
    ∃ c, Shifts p c q ∧ (imp = true → r.2 = true) ∧
      (r.2 = true → imp = true ∨ bangImportant c = true) ∧
      ((∀ t ∈ c, t.TokenType ≠ FunctionToken) → bangImportant c = true → r.2 = true) := by
  induction f generalizing vals imp p with
  | zero => simp [declarationLoop] at h
  | succ f ih =>
    rw [declarationLoop, atAny_eq _ _ hp (by simp)] at h
    dsimp only at h
    have hp1 := inv_peek 0 p hp
    split at h
    · simp only [Except.ok.injEq, Prod.mk.injEq] at h
      refine ⟨[], ?_, ?_, ?_, ?_⟩
      · rw [← h.2]; exact shifts_peek p hp
      · intro hi; rw [← h.1]; exact hi
      · intro hi; rw [← h.1] at hi; exact Or.inl hi
      · intro _ hb; exact absurd hb (by simp [bangImportant])
    · split at h
      · exact absurd h (by simp)
      · rename_i q1 hd
        have hbang : isBang (cur p) = true := by
          have := delimIs_bang _ _ _ hp1 hd
          rw [cur_peek_zero p hp] at this
          exact this.symm
        have e1 := delimIs_state _ _ _ _ hp1 (by simp) hd
        rw [peek_zero_idem p hp] at e1
        subst e1
        rw [shift_peek_zero p hp] at h
        have a0 := shifts_shift p hp
        have i1 := inv_shift p hp
        obtain ⟨w1, a1, hw1⟩ := shifts_skipWhitespace _ i1
        have i2 := inv_skipWhitespace _ i1
        have e2 := atImportant_state _ i2
        have e3 := atImportant_fst _ i2
        have a2 := shifts_peek _ i2
        rw [← e2] at a2
        generalize hs2 : skipWhitespace (shift p).2 = s2 at h a1 i2 e2 e3 a2
        generalize hi2 : atImportant s2 = i at h e2 e3 a2
        have ii : Inv i.2 := a2.1.minv
        have ci : cur i.2 = cur s2 := a2.cur_of_nil
        by_cases himp : i.1 = true
        · rw [if_pos himp] at h
          have a3 := shifts_shift _ ii
          obtain ⟨w2, a4, hw2⟩ := shifts_skipWhitespace _ (inv_shift _ ii)
          obtain ⟨c, a5, b1, b2, b3⟩ := ih _ _ _ (inv_skipWhitespace _ (inv_shift _ ii)) h
          have hr : r.2 = true := b1 rfl
          have hall := a0.strans (a1.strans (a2.strans (a3.strans (a4.strans a5))))
          refine ⟨_, hall, fun _ => hr, fun _ => Or.inr ?_, fun _ _ => hr⟩
          have hci : isImportant (cur i.2) = true := by rw [ci, ← e3]; exact himp
          rcases hw1 with ⟨e, _⟩ | ⟨e, hws⟩
          · subst e
            simp [bangImportant, followedByImportant, hbang, hci]
          · subst e
            simp [bangImportant, followedByImportant, importantAtHead, hbang, hci, hws]
        · rw [if_neg himp] at h
          obtain ⟨w2, a4, hw2⟩ := shifts_skipWhitespace _ ii
          obtain ⟨c, a5, b1, b2, b3⟩ := ih _ _ _ (inv_skipWhitespace _ ii) h
          have hall := a0.strans (a1.strans (a2.strans (a4.strans a5)))
          have hni : isImportant (cur i.2) = false := by
            rw [ci, ← e3]; simpa using himp
          have hX := (a4.strans a5).2
          have hnb2 := space_not_bang w2 _ hw2
          have hnb1 := space_not_bang w1 _ hw1
          have hfollow : followedByImportant (w1 ++ ([] ++ (w2 ++ c))) = false := by
            rcases hw1 with ⟨e, hnw⟩ | ⟨e, hws⟩
            · subst e
              have hc1 : cur s2 = cur (shift p).2 := a1.cur_of_nil
              simp only [List.nil_append]
              exact followedByImportant_of_head _ _ _ hX hni (by rw [ci, hc1]; exact hnw)
            · subst e
              have h3 := importantAtHead_of_head _ _ _ hX hni
              simp only [List.nil_append, List.singleton_append, followedByImportant, h3,
                isImportant_of_type _ (by rw [hws]; decide : (cur (shift p).2).TokenType ≠ IdentToken)]
              simp
          have hbi : bangImportant ([cur p] ++ (w1 ++ ([] ++ (w2 ++ c)))) = bangImportant c := by
            rw [List.singleton_append, bangImportant, hfollow, Bool.and_false, Bool.false_or,
              bangImportant_space w1 _ hnb1, List.nil_append, bangImportant_space w2 _ hnb2]
          refine ⟨_, hall, b1, ?_, ?_⟩
          · intro hr; rw [hbi]; exact b2 hr
          · intro hnf hb
            rw [hbi] at hb
            exact b3 (fun t ht => hnf t (by simp [ht])) hb
      · rename_i q1 hd
        have hbang : isBang (cur p) = false := by
          have := delimIs_bang _ _ _ hp1 hd
          rw [cur_peek_zero p hp] at this
          exact this.symm
        have e1 := delimIs_state _ _ _ _ hp1 (by simp) hd
        rw [peek_zero_idem p hp] at e1
        subst e1
        split at h
        · exact absurd h (by simp)
        · rename_i cn q2 hf
          rcases parseFunction_consumes _ _ _ _ hp1 hf with ⟨_, e, _⟩ | ⟨hfn, c1, m1, _⟩
          · exact absurd e (by simp)
          · rw [cur_peek_zero p hp] at hfn m1
            have a1 : Shifts (peek 0 p).2 (cur p :: c1) q2 :=
              ⟨m1, by simp [cur_peek_zero p hp]⟩
            obtain ⟨w2, a4, hw2⟩ := shifts_skipWhitespace _ m1.minv
            obtain ⟨c, a5, b1, b2, b3⟩ := ih _ _ _ (inv_skipWhitespace _ m1.minv) h
            have hall := (shifts_peek p hp).strans (a1.strans (a4.strans a5))
            refine ⟨_, hall, b1, ?_, ?_⟩
            · intro hr
              rcases b2 hr with hi | hb
              · exact Or.inl hi
              · right
                rw [List.nil_append, ← List.append_assoc]
                exact bangImportant_append_right _ _ hb
            · intro hnf _
              exact absurd hfn (hnf (cur p) (by simp))
        · rename_i q2 hf
          rcases parseFunction_consumes _ _ _ _ hp1 hf with ⟨_, _, e⟩ | ⟨hfn, c1, m1, _⟩
          · rw [peek_zero_idem p hp] at e
            subst e
            rw [shift_peek_zero p hp] at h
            have a0 := shifts_shift p hp
            obtain ⟨w2, a4, hw2⟩ := shifts_skipWhitespace _ (inv_shift p hp)
            obtain ⟨c, a5, b1, b2, b3⟩ :=
              ih _ _ _ (inv_skipWhitespace _ (inv_shift p hp)) h
            have hall := a0.strans (a4.strans a5)
            have hnb2 := space_not_bang w2 _ hw2
            have hbi : bangImportant ([cur p] ++ (w2 ++ c)) = bangImportant c := by
              rw [List.singleton_append, bangImportant, hbang, Bool.false_and, Bool.false_or,
                bangImportant_space w2 _ hnb2]
            refine ⟨_, hall, b1, ?_, ?_⟩
            · intro hr; rw [hbi]; exact b2 hr
            · intro hnf hb
              rw [hbi] at hb
              exact b3 (fun t ht => hnf t (by simp [ht])) hb
          · rw [cur_peek_zero p hp] at hfn m1
            have a1 : Shifts (peek 0 p).2 (cur p :: c1) q2 :=
              ⟨m1, by simp [cur_peek_zero p hp]⟩
            have a3 := shifts_shift _ m1.minv
            obtain ⟨w2, a4, hw2⟩ := shifts_skipWhitespace _ (inv_shift _ m1.minv)
            obtain ⟨c, a5, b1, b2, b3⟩ :=
              ih _ _ _ (inv_skipWhitespace _ (inv_shift _ m1.minv)) h
            have hall := (shifts_peek p hp).strans (a1.strans (a3.strans (a4.strans a5)))
            refine ⟨_, hall, b1, ?_, ?_⟩
            · intro hr
              rcases b2 hr with hi | hb
              · exact Or.inl hi
              · right
                rw [List.nil_append, ← List.append_assoc, ← List.append_assoc]
                exact bangImportant_append_right _ _ hb
            · intro hnf _
              exact absurd hfn (hnf (cur p) (by simp))

/-- C7 (amended): for every declaration that `parseDeclaration` produces there is the sequence
`c` of the tokens it has shifted (from the property to the last `;` skipped) such that
`Important` true implies that some `!` delimiter of `c` is followed, directly or after one
whitespace token, by an identifier equal to "important" ignoring case; and when `c` holds no
function token, `Important` is true if and only if there is such a `!` in `c`, wherever in
the value run it stands. -/
theorem important_iff_bang_important [BytesLib] (fuel : Nat) (p : Lookahead) (ident : TokenNode)
    (vals : List Node) (imp : Bool) (q : Lookahead) (hp : Inv p)
    (h : parseDeclaration fuel p = .ok (some (Node.Declaration ident vals imp), q)) :
    ∃ c, Moves p c q ∧ (imp = true → bangImportant c = true) ∧
      ((∀ t ∈ c, t.TokenType ≠ FunctionToken) → (imp = true ↔ bangImportant c = true)) := by
  rw [parseDeclaration, atToken_eq] at h
  dsimp only at h
  split at h
  · simp only [Except.ok.injEq, Prod.mk.injEq] at h
    exact absurd h.1 (by simp)
  · rename_i hc
    have hid : (cur p).TokenType = IdentToken := by simpa using hc
    rw [shift_peek_zero p hp, atToken_eq] at h
    dsimp only at h
    have a0 := shifts_shift p hp
    obtain ⟨w0, a1, hw0⟩ := shifts_skipWhitespace _ (inv_shift p hp)
    have i1 := inv_skipWhitespace _ (inv_shift p hp)
    split at h
    · simp only [Except.ok.injEq, Prod.mk.injEq] at h
      exact absurd h.1 (by simp)
    · rename_i hcol
      have hcolon : (cur (skipWhitespace (shift p).2)).TokenType = ColonToken := by
        simpa using hcol
      rw [shift_peek_zero _ i1] at h
      have a3 := shifts_shift _ i1
      obtain ⟨w1, a4, hw1⟩ := shifts_skipWhitespace _ (inv_shift _ i1)
      have i2 := inv_skipWhitespace _ (inv_shift _ i1)
      split at h
      · exact absurd h (by simp)
      · rename_i vals1 imp1 q1 hl
        obtain ⟨c, a5, _, b2, b3⟩ := declarationLoop_important _ _ _ _ _ _ i2 hl
        dsimp only at b2 b3
        split at h
        · exact absurd h (by simp)
        · rename_i q2 hs
          simp only [Except.ok.injEq, Prod.mk.injEq, Option.some.injEq,
            Node.Declaration.injEq] at h
          obtain ⟨⟨_, _, himp⟩, hq⟩ := h
          subst himp hq
          obtain ⟨cs, m6, hcs⟩ := skipWhile_tokens _ _ _ _ a5.1.minv hs
          have hall := (a0.strans (a1.strans (a3.strans (a4.strans a5)))).1.mtrans m6
          have hnb0 := space_not_bang w0 _ hw0
          have hnb1 := space_not_bang w1 _ hw1
          have htail : ∀ t ∈ cs, isBang t = false ∧ isImportant t = false := by
            intro t ht
            rcases hcs t ht with e | e
            · exact ⟨isBang_of_type t (by rw [e]; decide),
                isImportant_of_type t (by rw [e]; decide)⟩
            · exact ⟨isBang_of_type t (by rw [e]; decide),
                isImportant_of_type t (by rw [e]; decide)⟩
          have hbi : bangImportant
              ([cur p] ++ (w0 ++ ([cur (skipWhitespace (shift p).2)] ++ (w1 ++ c))) ++ cs)
              = bangImportant c := by
            rw [bangImportant_append_left _ _ htail,
              bangImportant_space [cur p] _ (by
                intro t ht
                rw [List.mem_singleton.1 ht]
                exact isBang_of_type _ (by rw [hid]; decide)),
              bangImportant_space w0 _ hnb0,
              bangImportant_space [cur (skipWhitespace (shift p).2)] _ (by
                intro t ht
                rw [List.mem_singleton.1 ht]
                exact isBang_of_type _ (by rw [hcolon]; decide)),
              bangImportant_space w1 _ hnb1]
          refine ⟨_, hall, ?_, ?_⟩
          · intro hi
            rw [hbi]
            rcases b2 hi with hfalse | hb
            · exact absurd hfalse (by simp)
            · exact hb
          · intro hnf
            rw [hbi]
            constructor
            · intro hi
              rcases b2 hi with hfalse | hb
              · exact absurd hfalse (by simp)
              · exact hb
            · exact b3 (fun t ht => hnf t (by simp [ht]))

section
attribute [local instance] asciiLib

/-- The amended C7 on `color: red ! important;`. -/
theorem important_iff_bang_important_witness :
    ∃ q, parseDeclaration 40 (NewParser2 declStream).toLookahead
        = .ok (some (Node.Declaration ⟨IdentToken, [99, 111, 108, 111, 114]⟩
            [Node.Token ⟨IdentToken, [114, 101, 100]⟩] true), q) ∧
      ∃ c, Moves (NewParser2 declStream).toLookahead c q ∧
        (true = true → bangImportant c = true) ∧
        ((∀ t ∈ c, t.TokenType ≠ FunctionToken) → (true = true ↔ bangImportant c = true)) :=
  ⟨_, rfl, important_iff_bang_important 40 (NewParser2 declStream).toLookahead _ _ _ _
    (newParser2_inv declStream) rfl⟩

end

section
attribute [local instance] asciiLib

/-- C7 as stated fails: on `b:c !IMPORTANT d;` the declaration has `Important` true (and
values `c`, `d`), although its value token sequence `c`, `!`, `IMPORTANT`, `d` (whitespace
ignored, up to the `;`) ends with the identifier `d`, not with `!` and "important". -/
theorem important_not_at_end :
    (parseDeclaration 40 (NewParser2 midImportantStream).toLookahead).map Prod.fst
      = .ok (some (Node.Declaration ⟨IdentToken, [98]⟩
          [Node.Token ⟨IdentToken, [99]⟩, Node.Token ⟨IdentToken, [100]⟩] true)) ∧
    (midImportantStream.toks.drop 2).takeWhile (fun t => t.TokenType != SemicolonToken)
      = [⟨IdentToken, [99]⟩, ⟨WhitespaceToken, [32]⟩, ⟨DelimToken, [33]⟩,
          ⟨IdentToken, [73, 77, 80, 79, 82, 84, 65, 78, 84]⟩, ⟨WhitespaceToken, [32]⟩,
          ⟨IdentToken, [100]⟩] ∧
    endsWithImportant
      ((midImportantStream.toks.drop 2).takeWhile (fun t => t.TokenType != SemicolonToken))
      = false :=
  ⟨rfl, by decide, by decide⟩

end

/-! ### The Close token of a block -/

theorem blockLoop_close (sc : Lookahead → Res Node) (hsc : ScOK sc) (o : TokenNode)
    (f : Nat) (nodes : List Node) (p : Lookahead) (r : Node) (q : Lookahead) (hp : Inv p)
    (h : blockLoop sc o f nodes p = .ok (r, q)) :
    ∃ ns cl, r = Node.Block o ns cl ∧ (∀ t, cl = some t → isCloser t = true) ∧
      (cl = none → (cur q).TokenType = ErrorToken) := by
  induction f generalizing nodes p with
  | zero => simp [blockLoop] at h
  | succ f ih =>
    rw [blockLoop, atAny_eq _ _ hp (by simp)] at h
    dsimp only at h
    split at h
    · rename_i hc
      rw [atToken_eq, peek_zero_idem p hp] at h
      dsimp only at h
      split at h
      · rename_i hne
        simp only [Except.ok.injEq, Prod.mk.injEq] at h
        refine ⟨nodes, some (cur (peek 0 p).2), by rw [← h.1]; simp, ?_, by simp⟩
        intro t ht
        simp only [Option.some.injEq] at ht
        rw [← ht, cur_peek_zero p hp]
        simp only [decide_eq_true_eq, List.mem_cons, List.mem_singleton,
          List.not_mem_nil, or_false] at hc
        simp only [Bool.not_eq_true', beq_eq_false_iff_ne, ne_eq] at hne
        rw [cur_peek_zero p hp] at hne
        simp only [isCloser, Bool.or_eq_true, beq_iff_eq]
        rcases hc with e | e | e | e
        · exact Or.inl (Or.inl e)
        · exact Or.inl (Or.inr e)
        · exact Or.inr e
        · exact absurd e hne
      · rename_i he
        simp only [Except.ok.injEq, Prod.mk.injEq] at h
        refine ⟨nodes, none, h.1.symm, by simp, fun _ => ?_⟩
        rw [← h.2, cur_peek_zero p hp]
        rw [cur_peek_zero p hp] at he
        simpa using he
    · split at h
      · exact absurd h (by simp)
      · rename_i c q1 hc
        have h1 := (hsc _ _ _ (inv_peek 0 p hp) hc).consumes
        exact ih _ _ (inv_skipWhitespace _ h1.cinv) h

theorem block_shape (sc : Lookahead → Res Node) (hsc : ScOK sc) (fuel : Nat)
    (p : Lookahead) (n : Node) (q : Lookahead) (hp : Inv p)
    (h : parseBlock sc fuel p = .ok (some n, q)) :
    ∃ o ns cl, n = Node.Block o ns cl ∧ isOpener o = true ∧
      (∀ t, cl = some t → isCloser t = true) ∧
      (cl = none → (cur q).TokenType = ErrorToken) := by
  rw [parseBlock, atAny_eq _ _ hp (by simp)] at h
  dsimp only at h
  split at h
  · simp only [Except.ok.injEq, Prod.mk.injEq] at h
    exact absurd h.1 (by simp)
  · rename_i hc
    split at h
    · exact absurd h (by simp)
    · rename_i m q1 hb
      simp only [Except.ok.injEq, Prod.mk.injEq, Option.some.injEq] at h
      rw [shift_peek_zero p hp] at hb
      obtain ⟨ns, cl, e, h1, h2⟩ := blockLoop_close sc hsc _ _ _ _ _ _
        (inv_skipWhitespace _ (inv_shift p hp)) hb
      refine ⟨_, ns, cl, by rw [← h.1, e], ?_, h1, by rw [← h.2]; exact h2⟩
      simp only [shift_fst]
      simp only [Bool.not_eq_true, Bool.not_eq_false', decide_eq_true_eq, List.mem_cons,
        List.mem_singleton, List.not_mem_nil, or_false] at hc
      simp only [isOpener, Bool.or_eq_true, beq_iff_eq]
      rcases hc with e | e | e
      · exact Or.inl (Or.inl e)
      · exact Or.inl (Or.inr e)
      · exact Or.inr e

/-- C15 (amended): for every Block node that `parseBlock` produces, the Open token is `(`,
`{` or `[`, and the Close token, when present, is one of `)`, `}` and `]` (the first of them
that ends the loop of the block, whichever the Open token is); when it is absent the parser
stands at an error token. -/
theorem block_close_is_some_closer (sc : Lookahead → Res Node) (hsc : ScOK sc) (fuel : Nat)
    (p : Lookahead) (n : Node) (q : Lookahead) (hp : Inv p)
    (h : parseBlock sc fuel p = .ok (some n, q)) :
    ∃ o ns cl, n = Node.Block o ns cl ∧ isOpener o = true ∧
      (∀ t, cl = some t → isCloser t = true) ∧
      (cl = none → (cur q).TokenType = ErrorToken) :=
  block_shape sc hsc fuel p n q hp h

/-- The amended C15 on `(a)`. -/
theorem block_close_is_some_closer_witness :
    ∃ n q, parseBlock (shiftComponent 10) 10 (NewParser2 parenStream).toLookahead
        = .ok (some n, q) ∧
      ∃ o ns cl, n = Node.Block o ns cl ∧ isOpener o = true ∧
        (∀ t, cl = some t → isCloser t = true) ∧
        (cl = none → (cur q).TokenType = ErrorToken) :=
  ⟨_, _, rfl, block_close_is_some_closer (shiftComponent 10) (shiftComponent_consumes 10) 10
    (NewParser2 parenStream).toLookahead _ _ (newParser2_inv parenStream) rfl⟩

/-- C15 as stated fails: on `(a]` the block that `parseBlock` produces has the Open token
`(` and the Close token `]`, which is not the closer `)` that matches `(`. -/
theorem block_close_mismatch :
    (parseBlock (shiftComponent 10) 10 (NewParser2 mismatchStream).toLookahead).map Prod.fst
      = .ok (some (Node.Block ⟨LeftParenthesisToken, [40]⟩ [Node.Token ⟨IdentToken, [97]⟩]
          (some ⟨RightBracketToken, [93]⟩))) ∧
    matchingCloser LeftParenthesisToken ≠ some RightBracketToken :=
  ⟨rfl, by decide⟩

/-! ### Unclosed blocks come last -/

theorem listBlocksLast_append (a b : List Node) :
    listBlocksLast (a ++ b) = (listBlocksLast a && listBlocksLast b) := by
  induction a with
  | nil => simp [listBlocksLast]
  | cons n a ih => simp [listBlocksLast, ih, Bool.and_assoc]

theorem unclosedLast_of_all (ns : List Node)
    (h : ns.all (fun n => !n.unclosed) = true) : unclosedLast ns = true := by
  simp only [unclosedLast, List.all_eq_true] at h ⊢
  intro n hn
  exact h n (List.mem_of_mem_dropLast hn)

theorem seqOK_nil (p : Lookahead) : SeqOK [] p :=
  ⟨rfl, rfl, fun _ => rfl⟩

theorem cur_skipWhitespace_error (p : Lookahead) (hp : Inv p)
    (h : (cur p).TokenType = ErrorToken) : (cur (skipWhitespace p)).TokenType = ErrorToken := by
  rw [skipWhitespace_eq p hp, if_neg (by rw [h]; decide), cur_peek_zero p hp]
  exact h

theorem seqOK_step (sc : Lookahead → Res Node) (hsc : ScOK sc) (hb : ScBlocks sc)
    (nodes : List Node) (p : Lookahead) (c : Node) (q : Lookahead) (hp : Inv p)
    (hs : SeqOK nodes p) (hne : (cur p).TokenType ≠ ErrorToken)
    (h : sc (peek 0 p).2 = .ok (c, q)) : SeqOK (nodes ++ [c]) (skipWhitespace q) := by
  obtain ⟨s1, _, s3⟩ := hs
  obtain ⟨b1, b2⟩ := hb _ _ _ (inv_peek 0 p hp) h
  have hq := (hsc _ _ _ (inv_peek 0 p hp) h).ccinv
  have hall := s3 hne
  refine ⟨?_, ?_, ?_⟩
  · rw [listBlocksLast_append, s1]; simp [listBlocksLast, b1]
  · simp only [unclosedLast, List.dropLast_concat]; exact hall
  · intro hcur
    have hc : c.unclosed = false := by
      by_contra hcon
      have := cur_skipWhitespace_error q hq (b2 (by simpa using hcon))
      exact hcur this
    simp only [List.all_append, hall, List.all_cons, hc, List.all_nil]
    rfl

theorem blockLoop_blocks (sc : Lookahead → Res Node) (hsc : ScOK sc) (hb : ScBlocks sc)
    (o : TokenNode) (f : Nat) (nodes : List Node) (p : Lookahead) (r : Node) (q : Lookahead)
    (hp : Inv p) (hs : SeqOK nodes p) (h : blockLoop sc o f nodes p = .ok (r, q)) :
    r.blocksLast = true := by
  induction f generalizing nodes p with
  | zero => simp [blockLoop] at h
  | succ f ih =>
    rw [blockLoop, atAny_eq _ _ hp (by simp)] at h
    dsimp only at h
    split at h
    · rw [atToken_eq, peek_zero_idem p hp] at h
      dsimp only at h
      split at h <;>
      · simp only [Except.ok.injEq, Prod.mk.injEq] at h
        rw [← h.1]
        simp [Node.blocksLast, hs.1, hs.2.1]
    · rename_i hc
      split at h
      · exact absurd h (by simp)
      · rename_i c q1 hsc1
        have hne : (cur p).TokenType ≠ ErrorToken := by
          intro e; rw [e] at hc; exact hc (by decide)
        have h1 := (hsc _ _ _ (inv_peek 0 p hp) hsc1).consumes
        exact ih _ _ (inv_skipWhitespace _ h1.cinv)
          (seqOK_step sc hsc hb nodes p c q1 hp hs hne hsc1) h

theorem parseArgument_blocks (sc : Lookahead → Res Node) (hsc : ScOK sc) (hb : ScBlocks sc)
    (f : Nat) (vals : List Node) (p : Lookahead) (r : Node) (q : Lookahead)
    (hp : Inv p) (hs : SeqOK vals p) (h : parseArgument sc f vals p = .ok (r, q)) :
    r.blocksLast = true := by
  induction f generalizing vals p with
  | zero => simp [parseArgument] at h
  | succ f ih =>
    rw [parseArgument, atAny_eq _ _ hp (by simp)] at h
    dsimp only at h
    split at h
    · simp only [Except.ok.injEq, Prod.mk.injEq] at h
      rw [← h.1]
      simp [Node.blocksLast, hs.1, hs.2.1]
    · rename_i hc
      split at h
      · exact absurd h (by simp)
      · rename_i c q1 hsc1
        have hne : (cur p).TokenType ≠ ErrorToken := by
          intro e; rw [e] at hc; exact hc (by decide)
        have h1 := (hsc _ _ _ (inv_peek 0 p hp) hsc1).consumes
        exact ih _ _ (inv_skipWhitespace _ h1.cinv)
          (seqOK_step sc hsc hb vals p c q1 hp hs hne hsc1) h

theorem functionLoop_blocks (sc : Lookahead → Res Node) (hsc : ScOK sc) (hb : ScBlocks sc)
    (func : TokenNode) (f : Nat) (args : List Node) (p : Lookahead) (r : Option Node)
    (q : Lookahead) (hp : Inv p) (ha : listBlocksLast args = true)
    (h : functionLoop sc func f args p = .ok (r, q)) :
    ∀ n, r = some n → n.blocksLast = true ∧ n.unclosed = false := by
  induction f generalizing args p with
  | zero => simp [functionLoop] at h
  | succ f ih =>
    rw [functionLoop, atAny_eq _ _ hp (by simp)] at h
    dsimp only at h
    have hp1 := inv_peek 0 p hp
    split at h
    · rw [atToken_eq] at h
      dsimp only at h
      split at h
      · simp only [Except.ok.injEq, Prod.mk.injEq] at h
        intro n hn; rw [← h.1] at hn; exact absurd hn (by simp)
      · simp only [Except.ok.injEq, Prod.mk.injEq] at h
        intro n hn
        rw [← h.1] at hn
        simp only [Option.some.injEq] at hn
        rw [← hn]
        exact ⟨by simp [Node.blocksLast, ha], rfl⟩
    · rw [atToken_eq, peek_zero_idem p hp] at h
      dsimp only at h
      split at h
      · rw [shift_peek_zero p hp] at h
        exact ih _ _ (inv_skipWhitespace _ (inv_shift p hp)) ha h
      · split at h
        · exact absurd h (by simp)
        · rename_i a q1 hpa
          have hbl := parseArgument_blocks sc hsc hb f [] _ a q1 hp1 (seqOK_nil _) hpa
          obtain ⟨vs, _, hcons, _⟩ := parseArgument_consumes sc hsc f [] _ a q1 hp1 hpa
          refine ih _ _ hcons.cinv ?_ h
          rw [listBlocksLast_append, ha]; simp [listBlocksLast, hbl]

theorem shiftComponent_blocks (f : Nat) : ScBlocks (shiftComponent f) := by
  induction f with
  | zero => intro p r q _ h; simp [shiftComponent] at h
  | succ f ih =>
    intro p r q hp h
    have hsc := shiftComponent_consumes f
    rw [shiftComponent] at h
    split at h
    · exact absurd h (by simp)
    · rename_i cn q1 hb
      simp only [Except.ok.injEq, Prod.mk.injEq] at h
      rw [← h.1, ← h.2]
      obtain ⟨o, ns, cl, e, _, _, hnone⟩ :=
        block_shape (shiftComponent f) hsc f p cn q1 hp hb
      refine ⟨?_, ?_⟩
      · rw [parseBlock, atAny_eq _ _ hp (by simp)] at hb
        dsimp only at hb
        split at hb
        · simp only [Except.ok.injEq, Prod.mk.injEq] at hb
          exact absurd hb.1 (by simp)
        · split at hb
          · exact absurd hb (by simp)
          · rename_i m q2 hbl
            simp only [Except.ok.injEq, Prod.mk.injEq, Option.some.injEq] at hb
            rw [← hb.1]
            rw [shift_peek_zero p hp] at hbl
            exact blockLoop_blocks (shiftComponent f) hsc ih _ _ _ _ _ _
              (inv_skipWhitespace _ (inv_shift p hp)) (seqOK_nil _) hbl
      · intro hu
        rw [e] at hu
        cases cl with
        | none => exact hnone rfl
        | some t => simp [Node.unclosed] at hu
    · rename_i q1 hb
      have e1 : q1 = (peek 0 p).2 := by
        rcases parseBlock_consumes _ hsc f p none q1 hp hb with ⟨_, e⟩ | ⟨n, e, _⟩
        · exact e
        · exact absurd e (by simp)
      subst e1
      have hp1 := inv_peek 0 p hp
      split at h
      · exact absurd h (by simp)
      · rename_i cn q2 hfn
        simp only [Except.ok.injEq, Prod.mk.injEq] at h
        rw [← h.1, ← h.2]
        rw [parseFunctionWith, atToken_eq] at hfn
        dsimp only at hfn
        split at hfn
        · simp only [Except.ok.injEq, Prod.mk.injEq] at hfn
          exact absurd hfn.1 (by simp)
        · rw [shift_peek_zero _ hp1] at hfn
          have := functionLoop_blocks (shiftComponent f) hsc ih _ f [] _ _ _
            (inv_skipWhitespace _ (inv_shift _ hp1)) rfl hfn cn rfl
          exact ⟨this.1, fun hu => absurd hu (by rw [this.2]; simp)⟩
      · simp only [Except.ok.injEq, Prod.mk.injEq] at h
        rw [← h.1]
        exact ⟨rfl, fun hu => absurd hu (by simp [Node.unclosed])⟩

/-! ### Properties of the nodes that `Parse` assembles -/

theorem next_inv [BytesLib] (fuel : Nat) (p : Parser2) (gt : GrammarType) (n : Node) (q : Parser2)
    (hp : Inv p.toLookahead) (h : Parser2.Next fuel p = .ok (gt, n, q)) :
    Inv q.toLookahead := by
  rcases next_post _ _ _ _ _ hp h with ⟨_, _, e, _⟩ | ⟨_, _, c, m, _⟩
  · rw [e]; exact inv_peek 0 _ hp
  · exact m.minv

theorem parseRecursively_inv [BytesLib] (inner : Nat) (f : Nat) (gt : GrammarType) (n : Node)
    (p : Parser2) (n2 : Node) (err : Option StreamError) (q : Parser2)
    (hp : Inv p.toLookahead)
    (h : Parser2.parseRecursively inner f gt n p = .ok (n2, err, q)) :
    Inv q.toLookahead := by
  obtain ⟨_, _, m, _⟩ := parseRecursively_leaves _ _ _ _ _ _ _ _ hp h
  exact m.minv

theorem parseRecursively_preserves [BytesLib] (P : Node → Prop)
    (hat : ∀ a ns rs m, P (Node.AtRule a ns rs) → P m → P (Node.AtRule a ns (rs ++ [m])))
    (hrs : ∀ ss ds m, P (Node.Ruleset ss ds) → P m → P (Node.Ruleset ss (ds ++ [m])))
    (inner : Nat)
    (hnext : ∀ p gt n q, Inv p.toLookahead → Parser2.Next inner p = .ok (gt, n, q) → P n)
    (f : Nat) (gt : GrammarType) (n : Node) (p : Parser2) (n2 : Node)
    (err : Option StreamError) (q : Parser2) (hp : Inv p.toLookahead) (hn : P n)
    (h : Parser2.parseRecursively inner f gt n p = .ok (n2, err, q)) : P n2 := by
  induction f generalizing gt n p n2 err q with
  | zero => simp [Parser2.parseRecursively] at h
  | succ f ih =>
    unfold Parser2.parseRecursively at h
    split at h
    · split at h
      · rename_i at_ nodes rules
        split at h
        · exact absurd h (by simp)
        · rename_i gt1 m q1 hnx
          have hm := hnext _ _ _ _ hp hnx
          have hq1 := next_inv _ _ _ _ _ hp hnx
          split at h
          · simp only [Except.ok.injEq, Prod.mk.injEq] at h
            rw [← h.1]; exact hn
          · split at h
            · simp only [Except.ok.injEq, Prod.mk.injEq] at h
              rw [← h.1]; exact hn
            · split at h
              · exact absurd h (by simp)
              · rename_i m2 e2 q2 hr
                simp only [Except.ok.injEq, Prod.mk.injEq] at h
                rw [← h.1]
                exact hat _ _ _ _ hn (ih _ _ _ _ _ _ hq1 hm hr)
              · rename_i m2 q2 hr
                have hm2 := ih _ _ _ _ _ _ hq1 hm hr
                exact ih _ _ _ _ _ _ (parseRecursively_inv _ _ _ _ _ _ _ _ hq1 hr)
                  (hat _ _ _ _ hn hm2) h
      · exact absurd h (by simp)
    · split at h
      · split at h
        · rename_i sels decls
          split at h
          · exact absurd h (by simp)
          · rename_i gt1 m q1 hnx
            have hm := hnext _ _ _ _ hp hnx
            have hq1 := next_inv _ _ _ _ _ hp hnx
            split at h
            · simp only [Except.ok.injEq, Prod.mk.injEq] at h
              rw [← h.1]; exact hn
            · split at h
              · simp only [Except.ok.injEq, Prod.mk.injEq] at h
                rw [← h.1]; exact hn
              · split at h
                · exact ih _ _ _ _ _ _ hq1 (hrs _ _ _ hn hm) h
                · exact ih _ _ _ _ _ _ hq1 hn h
        · exact absurd h (by simp)
      · simp only [Except.ok.injEq, Prod.mk.injEq] at h
        rw [← h.1]; exact hn

theorem parseLoop_preserves [BytesLib] (P : Node → Prop)
    (hat : ∀ a ns rs m, P (Node.AtRule a ns rs) → P m → P (Node.AtRule a ns (rs ++ [m])))
    (hrs : ∀ ss ds m, P (Node.Ruleset ss ds) → P m → P (Node.Ruleset ss (ds ++ [m])))
    (inner : Nat)
    (hnext : ∀ p gt n q, Inv p.toLookahead → Parser2.Next inner p = .ok (gt, n, q) → P n)
    (f : Nat) (nodes : List Node) (p : Parser2) (r : List Node) (err : StreamError)
    (q : Parser2) (hp : Inv p.toLookahead) (hn : ∀ n ∈ nodes, P n)
    (h : parseLoop inner f nodes p = .ok (r, err, q)) : ∀ n ∈ r, P n := by
  induction f generalizing nodes p with
  | zero => simp [parseLoop] at h
  | succ f ih =>
    rw [parseLoop] at h
    split at h
    · exact absurd h (by simp)
    · rename_i gt1 m q1 hnx
      have hm := hnext _ _ _ _ hp hnx
      have hq1 := next_inv _ _ _ _ _ hp hnx
      split at h
      · simp only [Except.ok.injEq, Prod.mk.injEq] at h
        rw [← h.1]; exact hn
      · split at h
        · exact absurd h (by simp)
        · rename_i m2 e2 q2 hr
          simp only [Except.ok.injEq, Prod.mk.injEq] at h
          have hm2 := parseRecursively_preserves P hat hrs inner hnext _ _ _ _ _ _ _ hq1 hm hr
          rw [← h.1]
          intro n hmem
          rcases List.mem_append.1 hmem with e | e
          · exact hn n e
          · rw [List.mem_singleton.1 e]; exact hm2
        · rename_i m2 q2 hr
          have hm2 := parseRecursively_preserves P hat hrs inner hnext _ _ _ _ _ _ _ hq1 hm hr
          refine ih _ _ (parseRecursively_inv _ _ _ _ _ _ _ _ hq1 hr) ?_ h
          intro n hmem
          rcases List.mem_append.1 hmem with e | e
          · exact hn n e
          · rw [List.mem_singleton.1 e]; exact hm2

theorem atRuleLoop_blocks (f : Nat) (nodes : List Node) (p : Lookahead) (r : List Node)
    (q : Lookahead) (hp : Inv p) (hs : SeqOK nodes p)
    (h : atRuleLoop f nodes p = .ok (r, q)) :
    listBlocksLast r = true ∧ unclosedLast r = true := by
  induction f generalizing nodes p with
  | zero => simp [atRuleLoop] at h
  | succ f ih =>
    rw [atRuleLoop, atAny_eq _ _ hp (by simp)] at h
    dsimp only at h
    split at h
    · simp only [Except.ok.injEq, Prod.mk.injEq] at h
      rw [← h.1]; exact ⟨hs.1, hs.2.1⟩
    · rename_i hc
      split at h
      · exact absurd h (by simp)
      · rename_i c q1 hsc1
        have hne : (cur p).TokenType ≠ ErrorToken := by
          intro e; rw [e] at hc; exact hc (by decide)
        have hsc := shiftComponent_consumes f
        have h1 := (hsc _ _ _ (inv_peek 0 p hp) hsc1).consumes
        exact ih _ _ (inv_skipWhitespace _ h1.cinv)
          (seqOK_step _ hsc (shiftComponent_blocks f) nodes p c q1 hp hs hne hsc1) h

theorem parseAtRule_blocks (f : Nat) (p : Parser2) (n : Node) (q : Parser2)
    (hp : Inv p.toLookahead) (h : parseAtRule f p = .ok (some n, q)) :
    n.blocksLast = true := by
  rw [parseAtRule, atToken_eq] at h
  dsimp only at h
  split at h
  · simp only [Except.ok.injEq, Prod.mk.injEq] at h
    exact absurd h.1 (by simp)
  · split at h
    · exact absurd h (by simp)
    · rename_i nodes q1 hl
      simp only [Except.ok.injEq, Prod.mk.injEq, Option.some.injEq] at h
      rw [shift_peek_zero p.toLookahead hp] at hl
      obtain ⟨a, b⟩ := atRuleLoop_blocks _ _ _ _ _
        (inv_skipWhitespace _ (inv_shift _ hp)) (seqOK_nil _) hl
      rw [← h.1]
      simp [Node.blocksLast, a, b, listBlocksLast]

theorem parseFunction_blocks (f : Nat) (p : Lookahead) (n : Node) (q : Lookahead)
    (hp : Inv p) (h : parseFunction f p = .ok (some n, q)) : n.blocksLast = true := by
  rw [parseFunction, parseFunctionWith, atToken_eq] at h
  dsimp only at h
  split at h
  · simp only [Except.ok.injEq, Prod.mk.injEq] at h
    exact absurd h.1 (by simp)
  · rw [shift_peek_zero _ hp] at h
    exact (functionLoop_blocks (shiftComponent f) (shiftComponent_consumes f)
      (shiftComponent_blocks f) _ f [] _ _ _
      (inv_skipWhitespace _ (inv_shift _ hp)) rfl h n rfl).1

theorem declarationLoop_blocks [BytesLib] (f : Nat) (vals : List Node) (imp : Bool) (p : Lookahead)
    (r : List Node × Bool) (q : Lookahead) (hp : Inv p) (hv : listBlocksLast vals = true)
    (h : declarationLoop f vals imp p = .ok (r, q)) : listBlocksLast r.1 = true := by
  induction f generalizing vals imp p with
  | zero => simp [declarationLoop] at h
  | succ f ih =>
    rw [declarationLoop, atAny_eq _ _ hp (by simp)] at h
    dsimp only at h
    have hp1 := inv_peek 0 p hp
    split at h
    · simp only [Except.ok.injEq, Prod.mk.injEq] at h
      rw [← h.1]; exact hv
    · split at h
      · exact absurd h (by simp)
      · rename_i q1 hd
        have e1 := delimIs_state _ _ _ _ hp1 (by simp) hd
        rw [peek_zero_idem p hp] at e1
        subst e1
        rw [shift_peek_zero p hp] at h
        have i1 := inv_skipWhitespace _ (inv_shift p hp)
        have e2 := atImportant_state _ i1
        have i2 : Inv (atImportant (skipWhitespace (shift p).2)).2 := by
          rw [e2]; exact inv_peek 0 _ i1
        split at h
        · exact ih _ _ _ (inv_skipWhitespace _ (inv_shift _ i2)) hv h
        · refine ih _ _ _ (inv_skipWhitespace _ i2) ?_ h
          rw [listBlocksLast_append, hv]; rfl
      · rename_i q1 hd
        have e1 := delimIs_state _ _ _ _ hp1 (by simp) hd
        rw [peek_zero_idem p hp] at e1
        subst e1
        split at h
        · exact absurd h (by simp)
        · rename_i cn q2 hf
          have hq2 : Inv q2 := by
            rcases parseFunction_consumes _ _ _ _ hp1 hf with ⟨_, e, _⟩ | ⟨_, c, a1, _⟩
            · exact absurd e (by simp)
            · exact a1.minv
          refine ih _ _ _ (inv_skipWhitespace _ hq2) ?_ h
          rw [listBlocksLast_append, hv]
          simp [listBlocksLast, parseFunction_blocks _ _ _ _ hp1 hf]
        · rename_i q2 hf
          have hq2 : Inv q2 := by
            rcases parseFunction_consumes _ _ _ _ hp1 hf with ⟨_, _, e⟩ | ⟨_, c, a1, _⟩
            · rw [e]; exact inv_peek 0 _ hp1
            · exact a1.minv
          refine ih _ _ _ (inv_skipWhitespace _ (inv_shift _ hq2)) ?_ h
          rw [listBlocksLast_append, hv]; rfl

theorem parseDeclaration_blocks [BytesLib] (f : Nat) (p : Lookahead) (n : Node) (q : Lookahead)
    (hp : Inv p) (h : parseDeclaration f p = .ok (some n, q)) : n.blocksLast = true := by
  rw [parseDeclaration, atToken_eq] at h
  dsimp only at h
  split at h
  · simp only [Except.ok.injEq, Prod.mk.injEq] at h
    exact absurd h.1 (by simp)
  · rw [shift_peek_zero p hp, atToken_eq] at h
    dsimp only at h
    have i1 := inv_skipWhitespace _ (inv_shift p hp)
    split at h
    · simp only [Except.ok.injEq, Prod.mk.injEq] at h
      exact absurd h.1 (by simp)
    · rw [shift_peek_zero _ i1] at h
      split at h
      · exact absurd h (by simp)
      · rename_i vals imp q1 hl
        have := declarationLoop_blocks _ [] _ _ _ _
          (inv_skipWhitespace _ (inv_shift _ i1)) rfl hl
        split at h
        · exact absurd h (by simp)
        · simp only [Except.ok.injEq, Prod.mk.injEq, Option.some.injEq] at h
          rw [← h.1]
          simpa [Node.blocksLast] using this

theorem nextRule_blocks [BytesLib]
    (fuel : Nat) (p : Parser2) (gt : GrammarType) (n : Node) (q : Parser2)
    (hp : Inv p.toLookahead) (h : nextRule fuel p = .ok (gt, n, q)) :
    n.blocksLast = true := by
  unfold nextRule at h
  rw [atAny_eq _ _ hp (by simp)] at h
  dsimp only at h
  have m0 := peek_moves 0 p.toLookahead hp
  split at h
  · simp only [Except.ok.injEq, Prod.mk.injEq] at h
    rw [← h.2.1]; rfl
  · split at h
    · exact absurd h (by simp)
    · rename_i cn p1 h1
      simp only [Except.ok.injEq, Prod.mk.injEq] at h
      rw [← h.2.1]
      exact parseAtRule_blocks _ _ _ _ m0.minv h1
    · rename_i p1 h1
      have e1 : p1 = { p with toLookahead := (peek 0 p.toLookahead).2 } := by
        rcases parseAtRule_consumes _ _ _ _ m0.minv h1 with ⟨_, e⟩ | ⟨n1, e, _⟩
        · rw [e]; dsimp only; rw [peek_zero_idem _ hp]
        · exact absurd e (by simp)
      subst e1
      split at h
      · exact absurd h (by simp)
      · rename_i cn p2 h2
        simp only [Except.ok.injEq, Prod.mk.injEq] at h
        rw [← h.2.1]
        obtain ⟨ss, ds, e⟩ := parseRuleset_kind _ _ _ _ h2
        have hds : ds = [] := by
          unfold parseRuleset at h2
          split at h2
          · exact absurd h2 (by simp)
          · simp at h2
          · split at h2
            · exact absurd h2 (by simp)
            · dsimp only at h2
              split at h2
              · simp at h2
              · simp only [Except.ok.injEq, Prod.mk.injEq, Option.some.injEq] at h2
                rw [e] at h2
                simp only [Node.Ruleset.injEq] at h2
                exact h2.1.2.symm
        rw [e, hds]; rfl
      · rename_i p2 h2
        obtain ⟨c, a1, _⟩ := parseRuleset_consumes _ _ _ _ m0.minv h2
        split at h
        · exact absurd h (by simp)
        · rename_i cn q3 h3
          simp only [Except.ok.injEq, Prod.mk.injEq] at h
          rw [← h.2.1]
          exact parseDeclaration_blocks _ _ _ _ a1.minv h3
        · simp only [Except.ok.injEq, Prod.mk.injEq] at h
          rw [← h.2.1]; rfl

theorem next_blocks [BytesLib]
    (fuel : Nat) (p : Parser2) (gt : GrammarType) (n : Node) (q : Parser2)
    (hp : Inv p.toLookahead) (h : Parser2.Next fuel p = .ok (gt, n, q)) :
    n.blocksLast = true := by
  unfold Parser2.Next at h
  rw [atToken_eq] at h
  dsimp only at h
  have hp1 := inv_peek 0 _ hp
  by_cases hc : ((cur p.toLookahead).TokenType == ErrorToken) = true
  · rw [if_pos hc] at h
    simp only [Except.ok.injEq, Prod.mk.injEq] at h
    rw [← h.2.1]; rfl
  · rw [if_neg hc] at h
    have i1 := inv_skipWhitespace _ hp1
    generalize skipWhitespace (peek 0 p.toLookahead).2 = q0 at h i1
    cases hstate : Parser2.State p with
    | error a => rw [hstate] at h; exact absurd h (by simp)
    | ok state =>
      rw [hstate] at h
      dsimp only at h
      rw [atToken_eq] at h
      dsimp only at h
      have i2 := inv_peek 0 _ i1
      generalize (peek 0 q0).2 = q1 at h i2
      generalize ((cur q0).TokenType == RightBraceToken) = b1 at h
      by_cases hb1 : (b1 && (decide (state = AtRuleState) || decide (state = RulesetState)))
          = true
      · rw [if_pos hb1] at h
        obtain ⟨t, e⟩ : ∃ t, n = Node.Token t := by
          have := nextEnd_kind _ _ _ _ _ _ _ h
          unfold nextEnd at h
          dsimp only at h
          split at h
          · exact absurd h (by simp)
          · split at h <;>
            · simp only [Except.ok.injEq, Prod.mk.injEq] at h
              exact ⟨_, h.2.1.symm⟩
        rw [e]; rfl
      · rw [if_neg hb1] at h
        rw [atToken_eq] at h
        dsimp only at h
        have i3 := inv_peek 0 _ i2
        generalize (peek 0 q1).2 = q2 at h i3
        generalize ((cur q1).TokenType == SemicolonToken) = b2 at h
        by_cases hb2 : (b2 && decide (state = AtRuleState)) = true
        · rw [if_pos hb2] at h
          obtain ⟨t, e⟩ : ∃ t, n = Node.Token t := by
            unfold nextEnd at h
            dsimp only at h
            split at h
            · exact absurd h (by simp)
            · split at h <;>
              · simp only [Except.ok.injEq, Prod.mk.injEq] at h
                exact ⟨_, h.2.1.symm⟩
          rw [e]; rfl
        · rw [if_neg hb2] at h
          exact nextRule_blocks _ { p with toLookahead := q2 } _ _ _ i3 h

/-- C16: in the tree that `Parse` returns, for every token stream (whether or not its error
token is sticky), every Block node without its Close token is the last element of the
sequence it was appended to: an at-rule prelude, the values of an Argument, or the nodes of
the enclosing Block. -/
theorem unclosed_block_is_last [BytesLib] (z : TokenStream) (fuel : Nat) (tree : Node)
    (e : Option StreamError) (h : Parser2.Parse fuel (NewParser2 z) = .ok (tree, e)) :
    tree.blocksLast = true := by
  unfold Parser2.Parse at h
  split at h
  · exact absurd h (by simp)
  · rename_i nodes err q hl
    have hall := parseLoop_preserves (fun n => n.blocksLast = true)
      (fun a ns rs m h1 h2 => by
        simp only [Node.blocksLast, Bool.and_eq_true, listBlocksLast_append] at h1 ⊢
        exact ⟨h1.1, h1.2, by simp [listBlocksLast, h2]⟩)
      (fun ss ds m h1 h2 => by
        simp only [Node.blocksLast, listBlocksLast_append, Bool.and_eq_true] at h1 ⊢
        exact ⟨h1, by simp [listBlocksLast, h2]⟩)
      fuel (fun p gt n q hp hn => next_blocks _ _ _ _ _ hp hn)
      fuel [] _ _ _ _ (newParser2_inv z) (fun n hn => absurd hn (List.not_mem_nil n)) hl
    have hlist : listBlocksLast nodes = true := by
      clear hl h
      induction nodes with
      | nil => rfl
      | cons n ns ih =>
        simp only [listBlocksLast, Bool.and_eq_true]
        exact ⟨hall n (by simp), ih (fun m hm => hall m (by simp [hm]))⟩
    have ht : tree = Node.Stylesheet nodes := by
      split at h <;> simp only [Except.ok.injEq, Prod.mk.injEq] at h <;> exact h.1.symm
    rw [ht]
    simpa [Node.blocksLast] using hlist

section
attribute [local instance] asciiLib

/-- C16 on `@media (a { b`, where neither block is closed: each is the last node of its
sequence. -/
theorem unclosed_block_is_last_witness :
    ∃ tree, Parser2.Parse 30 (NewParser2 unclosedStream) = .ok (tree, none) ∧
      tree = Node.Stylesheet [Node.AtRule ⟨AtKeywordToken, [64, 109, 101, 100, 105, 97]⟩
        [Node.Block ⟨LeftParenthesisToken, [40]⟩ [Node.Token ⟨IdentToken, [97]⟩,
          Node.Block ⟨LeftBraceToken, [123]⟩ [Node.Token ⟨IdentToken, [98]⟩] none] none] []] ∧
      tree.blocksLast = true :=
  ⟨_, rfl, rfl, unclosed_block_is_last unclosedStream 30 _ none rfl⟩

end

/-! ### At-rules in statement form -/

theorem next_at_semicolon [BytesLib] (fuel : Nat) (q : Parser2) (st : List ParserState)
    (hq : Inv q.toLookahead) (hs : q.state = st ++ [AtRuleState])
    (hsemi : (cur q.toLookahead).TokenType = SemicolonToken)
    (hf : mu q.toLookahead < fuel) :
    ∃ q2, Parser2.Next fuel q
        = .ok (EndAtRuleGrammar, Node.Token (cur q.toLookahead), q2) ∧ q2.state = st := by
  have hq1 := inv_peek 0 _ hq
  have e0 : skipWhitespace (peek 0 q.toLookahead).2 = (peek 0 q.toLookahead).2 := by
    rw [skipWhitespace_eq _ hq1, cur_peek_zero _ hq, if_neg (by rw [hsemi]; decide),
      peek_zero_idem _ hq]
  have hstate : Parser2.State q = .ok AtRuleState := by
    simp [Parser2.State, hs]
  have hm1 := mu_peek_le 0 _ hq
  have hm2 := mu_shift_le _ hq
  obtain ⟨q3, hq3⟩ := skipWhile_total SemicolonToken (by decide) fuel (shift q.toLookahead).2
    (inv_shift _ hq) (by omega)
  refine ⟨{ toLookahead := q3, state := st }, ?_, rfl⟩
  unfold Parser2.Next
  rw [atToken_eq]
  dsimp only
  rw [if_neg (by rw [hsemi]; decide), e0, hstate]
  dsimp only
  rw [atToken_eq]
  dsimp only
  rw [cur_peek_zero _ hq, peek_zero_idem _ hq, hsemi]
  rw [if_neg (by decide), atToken_eq]
  dsimp only
  rw [cur_peek_zero _ hq, peek_zero_idem _ hq, hsemi, if_pos (by decide)]
  unfold nextEnd
  dsimp only
  rw [shift_peek_zero _ hq, hq3]
  dsimp only
  rw [if_pos rfl, hs]
  simp

theorem atrule_event_then_close [BytesLib] (fuel : Nat) (p : Parser2) (n : Node) (q : Parser2)
    (hp : Inv p.toLookahead) (hf : mu p.toLookahead < fuel)
    (h : Parser2.Next fuel p = .ok (AtRuleGrammar, n, q))
    (hsemi : (cur q.toLookahead).TokenType = SemicolonToken) :
    q.state = p.state ++ [AtRuleState] ∧
      ∃ q2, Parser2.Next fuel q
          = .ok (EndAtRuleGrammar, Node.Token (cur q.toLookahead), q2) ∧
        q2.state = p.state := by
  have hs : q.state = p.state ++ [AtRuleState] := by
    rcases next_state _ _ _ _ _ h with ⟨_, e⟩ | ⟨e, _⟩ | ⟨e, _⟩ | ⟨e, _⟩ | ⟨e, _⟩
    · exact e
    · exact absurd e (by decide)
    · exact absurd e (by decide)
    · exact absurd e (by decide)
    · rcases e with e | e | e <;> exact absurd e (by decide)
  have hmu : mu q.toLookahead < fuel := by
    rcases next_post _ _ _ _ _ hp h with ⟨e, _⟩ | ⟨_, hlt, _⟩
    · exact absurd e (by decide)
    · omega
  exact ⟨hs, next_at_semicolon fuel q p.state (next_inv _ _ _ _ _ hp h) hs hsemi hmu⟩

/-! ### Function tokens at top level -/

theorem kind_not_function (gt : GrammarType) (n : Node) (h : NodeKind gt n) :
    n.isFunction = false := by
  cases gt <;> simp only [NodeKind] at h
  · rw [h]; rfl
  · obtain ⟨_, _, _, e⟩ := h; rw [e]; rfl
  · obtain ⟨_, e⟩ := h; rw [e]; rfl
  · obtain ⟨_, _, e⟩ := h; rw [e]; rfl
  · obtain ⟨_, e⟩ := h; rw [e]; rfl
  · obtain ⟨_, _, _, e⟩ := h; rw [e]; rfl
  · obtain ⟨_, e⟩ := h; rw [e]; rfl

theorem events_carry_no_function [BytesLib] (fuel : Nat) :
    (∀ p gt n q, Parser2.Next fuel p = .ok (gt, n, q) →
      n.isFunction = false ∧ (gt = TokenGrammar → ∃ t, n = Node.Token t)) ∧
    (∀ z tree e, Parser2.Parse fuel (NewParser2 z) = .ok (tree, e) →
      ∃ nodes, tree = Node.Stylesheet nodes ∧ ∀ n ∈ nodes, n.isFunction = false) := by
  refine ⟨fun p gt n q h => ?_, fun z tree e h => ?_⟩
  · have hk := next_kind _ _ _ _ _ h
    refine ⟨kind_not_function gt n hk, fun hg => ?_⟩
    rw [hg] at hk
    exact hk
  · unfold Parser2.Parse at h
    split at h
    · exact absurd h (by simp)
    · rename_i nodes err q hl
      have hall := parseLoop_preserves (fun n => n.isFunction = false)
        (fun a ns rs m _ _ => rfl) (fun ss ds m _ _ => rfl)
        fuel (fun p gt n q _ hn => kind_not_function gt n (next_kind _ _ _ _ _ hn))
        fuel [] _ _ _ _ (newParser2_inv z) (fun n hn => absurd hn (List.not_mem_nil n)) hl
      have ht : tree = Node.Stylesheet nodes := by
        split at h <;> simp only [Except.ok.injEq, Prod.mk.injEq] at h <;> exact h.1.symm
      exact ⟨nodes, ht, hall⟩

section
attribute [local instance] asciiLib

/-- C13 as stated fails: for `func(1, 2)` the tree that `Parse` returns is a Stylesheet with
five Token children, `func(`, `1`, `,`, `2` and `)`; it holds no Function node. -/
theorem top_level_function_not_a_node :
    Parser2.Parse 30 (NewParser2 funcStream)
      = .ok (Node.Stylesheet [Node.Token ⟨FunctionToken, [102, 117, 110, 99, 40]⟩,
          Node.Token ⟨NumberToken, [49]⟩, Node.Token ⟨CommaToken, [44]⟩,
          Node.Token ⟨NumberToken, [50]⟩, Node.Token ⟨RightParenthesisToken, [41]⟩], none) ∧
    (Node.Stylesheet [Node.Token ⟨FunctionToken, [102, 117, 110, 99, 40]⟩,
        Node.Token ⟨NumberToken, [49]⟩, Node.Token ⟨CommaToken, [44]⟩,
        Node.Token ⟨NumberToken, [50]⟩,
        Node.Token ⟨RightParenthesisToken, [41]⟩]).leaves.length = 5 :=
  ⟨rfl, rfl⟩

end

/-! ### A ruleset nested in an at-rule -/

theorem parse_tree_of_events [BytesLib] (z : TokenStream) (fuel k : Nat) (tree : Node)
    (e : Option StreamError) (es : List (GrammarType × Node)) (q : Parser2)
    (h : Parser2.Parse fuel (NewParser2 z) = .ok (tree, e))
    (he : Parser2.events fuel k (NewParser2 z) = some (es, q))
    (hflat : rulesetsFlat [] (es.map Prod.fst) = true) :
    tree = reconstruct (Node.Stylesheet []) [] es := by
  unfold Parser2.Parse at h
  split at h
  · exact absurd h (by simp)
  · rename_i nodes err q2 hl
    have ht : tree = Node.Stylesheet nodes := by
      split at h <;> simp only [Except.ok.injEq, Prod.mk.injEq] at h <;> exact h.1.symm
    obtain ⟨es2, r, s⟩ := parseLoop_run _ _ _ _ _ _ _ hl
    obtain ⟨e1, _⟩ := run_unique (events_run k he) r
    subst e1
    rw [ht]
    refine (s ⟨?_, hflat⟩).symm
    exact events_nested_aux fuel k (NewParser2 z) [] es q rfl
      (fun g hg => absurd hg (List.not_mem_nil g)) he

theorem reconstruct_decls (ss : List SelectorNode) (ds0 ds : List Node) (st : List Node)
    (es : List (GrammarType × Node))
    (hds : ∀ d ∈ ds, ∃ p v i, d = Node.Declaration p v i) :
    reconstruct (Node.Ruleset ss ds0) st (ds.map (fun d => (DeclarationGrammar, d)) ++ es)
      = reconstruct (Node.Ruleset ss (ds0 ++ ds)) st es := by
  induction ds generalizing ds0 with
  | nil => simp
  | cons d ds ih =>
    obtain ⟨p, v, i, e⟩ := hds d (by simp)
    simp only [List.map_cons, List.cons_append]
    rw [reconstruct_leaf _ _ _ _ _ (by decide) (by decide), e]
    simp only [attach]
    rw [← e, ih _ (fun x hx => hds x (by simp [hx]))]
    simp

theorem rulesetsFlat_decls (st : List GrammarType) (n : Nat) (es : List GrammarType) :
    rulesetsFlat st (List.replicate n DeclarationGrammar ++ es) = rulesetsFlat st es := by
  induction n with
  | zero => rfl
  | succ n ih =>
    simp only [List.replicate_succ, List.cons_append, rulesetsFlat, isStart, isEnd]
    simpa using ih

/-- Whenever the events of a stream are an AtRule event, a Ruleset event, Declaration
events, the EndRuleset event and the EndAtRule event, `Parse` returns a Stylesheet with
exactly one child, the at-rule, whose Rules are exactly the one ruleset, with the
declarations of the Declaration events as its Decls, in order. -/
theorem nested_ruleset_in_atrule [BytesLib] (z : TokenStream) (fuel k : Nat) (tree : Node)
    (e : Option StreamError) (q : Parser2) (a : TokenNode) (ns : List Node)
    (ss : List SelectorNode) (ds : List Node) (t1 t2 : Node)
    (h : Parser2.Parse fuel (NewParser2 z) = .ok (tree, e))
    (he : Parser2.events fuel k (NewParser2 z)
      = some ([(AtRuleGrammar, Node.AtRule a ns []), (RulesetGrammar, Node.Ruleset ss [])] ++
          ds.map (fun d => (DeclarationGrammar, d)) ++
          [(EndRulesetGrammar, t1), (EndAtRuleGrammar, t2)], q))
    (hds : ∀ d ∈ ds, ∃ p v i, d = Node.Declaration p v i) :
    tree = Node.Stylesheet [Node.AtRule a ns [Node.Ruleset ss ds]] := by
  have hflat : rulesetsFlat [] (([(AtRuleGrammar, Node.AtRule a ns []),
      (RulesetGrammar, Node.Ruleset ss [])] ++ ds.map (fun d => (DeclarationGrammar, d)) ++
      [(EndRulesetGrammar, t1), (EndAtRuleGrammar, t2)]).map Prod.fst) = true := by
    have hm : (ds.map (fun d => (DeclarationGrammar, d))).map Prod.fst
        = List.replicate ds.length DeclarationGrammar := by
      clear he hds
      induction ds with
      | nil => rfl
      | cons d ds ih => simp [List.replicate_succ, ih]
    simp only [List.map_append, hm, List.map_cons, List.map_nil, List.cons_append,
      List.nil_append]
    simp only [rulesetsFlat, isStart, isEnd]
    simp only [beq_self_eq_true, Bool.or_true, Bool.true_or, if_true, List.head?_nil,
      List.head?_cons]
    rw [rulesetsFlat_decls]
    decide
  rw [parse_tree_of_events z fuel k tree e _ q h he hflat]
  simp only [List.cons_append, List.nil_append, List.append_assoc]
  rw [reconstruct_start _ _ _ _ _ (by decide), reconstruct_start _ _ _ _ _ (by decide),
    reconstruct_decls ss [] ds _ _ hds,
    reconstruct_end _ _ _ _ _ _ (by decide) (by decide),
    reconstruct_end _ _ _ _ _ _ (by decide) (by decide)]
  simp [reconstruct, closeAll, attach]

section
attribute [local instance] asciiLib

/-- The stream `@media screen { a{b:c} }`: the tree is a Stylesheet with the at-rule `@media`,
prelude [screen], as its only child; its Rules are the one ruleset with the selector [a] and
the declaration b:[c]. -/
theorem nested_ruleset_in_atrule_witness :
    ∃ tree q, Parser2.Parse 30 (NewParser2 mediaStream) = .ok (tree, none) ∧
      Parser2.events 30 10 (NewParser2 mediaStream)
        = some ([(AtRuleGrammar, Node.AtRule ⟨AtKeywordToken, [64, 109, 101, 100, 105, 97]⟩
              [Node.Token ⟨IdentToken, [115, 99, 114, 101, 101, 110]⟩] []),
            (RulesetGrammar, Node.Ruleset [⟨[⟨IdentToken, [97]⟩]⟩] [])] ++
          [Node.Declaration ⟨IdentToken, [98]⟩ [Node.Token ⟨IdentToken, [99]⟩] false].map
            (fun d => (DeclarationGrammar, d)) ++
          [(EndRulesetGrammar, Node.Token ⟨RightBraceToken, [125]⟩),
            (EndAtRuleGrammar, Node.Token ⟨RightBraceToken, [125]⟩)], q) ∧
      tree = Node.Stylesheet [Node.AtRule ⟨AtKeywordToken, [64, 109, 101, 100, 105, 97]⟩
        [Node.Token ⟨IdentToken, [115, 99, 114, 101, 101, 110]⟩]
        [Node.Ruleset [⟨[⟨IdentToken, [97]⟩]⟩]
          [Node.Declaration ⟨IdentToken, [98]⟩ [Node.Token ⟨IdentToken, [99]⟩] false]]] :=
  ⟨_, _, rfl, rfl,
    nested_ruleset_in_atrule mediaStream 30 10 _ none _ _ _ _ _ _ _ rfl rfl
      (fun d hd => by
        rw [List.mem_singleton.1 hd]
        exact ⟨_, _, _, rfl⟩)⟩

end

/-! ### Rulesets with an unclosed attribute selector; whitespace before an attribute
selector -/

section
attribute [local instance] asciiLib

/-- C11 fails on `a[b{c}`: scanning from the current position, the `{` comes before any `;`
and before any error token (the scan answers true), yet `parseRuleset` returns nil and pushes
no state: the loop over the attribute selector `[...]` in `parseSelector` stops at `]` or at
an error token only, shifts the `{` and everything after it, and the check `p.at(ErrorToken)`
after the selectors makes `parseRuleset` return nil with every token consumed. `Next` then
returns a Token event with the error token, and the tree of `Parse` holds nothing of the
input. -/
theorem unclosed_attribute_loses_ruleset :
    (scanLeftBrace 30 0 (NewParser2 attrStream).toLookahead).map Prod.fst = .ok true ∧
    (parseRuleset 30 (NewParser2 attrStream)).map
        (fun r => (r.1, r.2.state, live r.2.toLookahead, r.2.z.toks))
      = .ok (none, [StylesheetState], [⟨ErrorToken, []⟩], []) ∧
    (Parser2.Next 30 (NewParser2 attrStream)).map (fun r => (r.1, r.2.1))
      = .ok (TokenGrammar, Node.Token ⟨ErrorToken, []⟩) ∧
    Parser2.Parse 30 (NewParser2 attrStream)
      = .ok (Node.Stylesheet [Node.Token ⟨ErrorToken, []⟩], none) :=
  ⟨rfl, rfl, rfl, rfl⟩

end

/-- C17 fails on `a [b]{}`: the whitespace token lies between the element `a` and the
attribute selector `[b]`, neither of which is a combinator, yet `parseSelector` does not
append it: the elements are `a`, `[`, `b`, `]`, as for `a[b]`. The branch of the attribute
selector does not append the whitespace kept in `ws`, which the branch of the other elements
does: for `a b{}` the elements are `a`, the whitespace token, `b`. -/
theorem whitespace_before_attribute_dropped :
    (parseSelector 30 (NewParser2 spaceBracketStream).toLookahead).map Prod.fst
      = .ok (some ⟨[⟨IdentToken, [97]⟩, ⟨LeftBracketToken, [91]⟩, ⟨IdentToken, [98]⟩,
          ⟨RightBracketToken, [93]⟩]⟩) ∧
    (parseSelector 30 (NewParser2 spaceIdentStream).toLookahead).map Prod.fst
      = .ok (some ⟨[⟨IdentToken, [97]⟩, ⟨WhitespaceToken, [32]⟩, ⟨IdentToken, [98]⟩]⟩) :=
  ⟨rfl, rfl⟩

/-! ### Rulesets without a final `;`, and whitespace across a compaction -/

section
attribute [local instance] asciiLib

/-- C28 fails on `a{p:v}b{q:w}`: in the state Ruleset `Next` tries `parseRuleset` before
`parseDeclaration`, and the scan of `parseRuleset` stops at `;` and at the error token but
not at `}`: it finds the `{` of the second ruleset, so that `p:v}b` becomes the selector of a
ruleset, with the tokens `:` and `}` of the first ruleset in it. `Parse` returns a Stylesheet
with the single Ruleset `a` whose only declaration is `q:w`. With a `;` after each
declaration the same stylesheet gives the two rulesets. -/
theorem rulesets_without_semicolon_merge :
    Parser2.Parse 40 (NewParser2 twoRulesetsStream)
      = .ok (Node.Stylesheet [Node.Ruleset [⟨[⟨IdentToken, [97]⟩]⟩]
          [Node.Declaration ⟨IdentToken, [113]⟩ [Node.Token ⟨IdentToken, [119]⟩] false]],
          none) ∧
    (Parser2.events 40 20 (NewParser2 twoRulesetsStream)).map (fun r => r.1)
      = some [(RulesetGrammar, Node.Ruleset [⟨[⟨IdentToken, [97]⟩]⟩] []),
          (RulesetGrammar, Node.Ruleset [⟨[⟨IdentToken, [112]⟩, ⟨ColonToken, [58]⟩,
            ⟨IdentToken, [118]⟩, ⟨RightBraceToken, [125]⟩, ⟨IdentToken, [98]⟩]⟩] []),
          (DeclarationGrammar,
            Node.Declaration ⟨IdentToken, [113]⟩ [Node.Token ⟨IdentToken, [119]⟩] false),
          (EndRulesetGrammar, Node.Token ⟨RightBraceToken, [125]⟩)] ∧
    Parser2.Parse 40 (NewParser2 twoRulesetsSemiStream)
      = .ok (Node.Stylesheet [Node.Ruleset [⟨[⟨IdentToken, [97]⟩]⟩]
          [Node.Declaration ⟨IdentToken, [112]⟩ [Node.Token ⟨IdentToken, [118]⟩] false],
          Node.Ruleset [⟨[⟨IdentToken, [98]⟩]⟩]
          [Node.Declaration ⟨IdentToken, [113]⟩ [Node.Token ⟨IdentToken, [119]⟩] false]],
          none) :=
  ⟨rfl, rfl, rfl⟩

end

/-- C29 fails on `a,a,a,a,a,a,a,a /**/ y`: seventeen `shift` calls from the new parser
return the fifteen tokens of `a,a,a,a,a,a,a,a` and then two whitespace tokens. After fifteen
`shift` calls the buffer of capacity 16 holds fifteen tokens, all consumed; the first
whitespace token fills the last slot, and the `peek` of the next `shift` moves the empty live
part to the front, so that `read` finds no last token in the buffer and keeps the whitespace
token after the comment. `skipWhitespace` from there shifts the first whitespace token and
leaves the parser at the second. -/
theorem shift_returns_adjacent_whitespace :
    (runOps (List.replicate 17 BufOp.shift) (NewParser2 commaPadStream).toLookahead).1
      = (List.replicate 7 [⟨IdentToken, [97]⟩, ⟨CommaToken, [44]⟩]).flatten ++
        [⟨IdentToken, [97]⟩, ⟨WhitespaceToken, [32]⟩, ⟨WhitespaceToken, [32]⟩] ∧
    commaPadState.pos = 15 ∧ commaPadState.buf.length = 15 ∧ commaPadState.bufCap = 16 ∧
    (peek 0 commaPadState).1 = ⟨WhitespaceToken, [32]⟩ ∧
    (peek 0 (skipWhitespace commaPadState)).1 = ⟨WhitespaceToken, [32]⟩ := by
  decide

/-! ### Termination -/

theorem readToks_length_le (lw : Bool) (l : List TokenNode) :
    (readToks lw l).2.length ≤ l.length := by
  induction l with
  | nil => simp [readToks]
  | cons t ts ih =>
    rw [readToks]
    split
    · exact Nat.le_succ_of_le ih
    · simp

/-- C26: for a token stream `z` whose delimiter tokens carry a byte, and fuel above twice the
number of its tokens plus one, (1) `Parse` returns; (2) every `Next` call returns, and when
its event is not Error less is left to consume than before: the measure `mu` counts the
buffered tokens that are not error tokens and the unread tokens; (3) each loop of the descent
functions returns: the loops over the prelude of an at-rule, a selector, an attribute
selector, the values of a declaration, the values of an argument, the arguments of a
function, the nodes of a block, and `skipWhile`; (4) `read` leaves no more tokens unread than
there were, and on the exhausted stream it returns the end token, which is an error token. -/
theorem parse_terminates [BytesLib] (z : TokenStream) (fuel : Nat)
    (hz : ∀ t ∈ z.toks, DelimOK t) (hf : 2 * z.toks.length + 1 < fuel) :
    (∃ r, Parser2.Parse fuel (NewParser2 z) = .ok r) ∧
    (∀ p : Parser2, Good p.toLookahead → p.state ≠ [] → 2 * mu p.toLookahead + 1 < fuel →
      ∃ gt n q, Parser2.Next fuel p = .ok (gt, n, q) ∧
        (gt ≠ ErrorGrammar → mu q.toLookahead < mu p.toLookahead)) ∧
    (∀ p : Lookahead, Good p → 2 * mu p + 1 < fuel →
      (∀ nodes, ∃ r q, atRuleLoop fuel nodes p = .ok (r, q)) ∧
      (∀ elems ws, ∃ r q, selectorLoop fuel elems ws p = .ok (r, q)) ∧
      (∀ elems, ∃ r q, bracketLoop fuel elems p = .ok (r, q)) ∧
      (∀ vals imp, ∃ r q, declarationLoop fuel vals imp p = .ok (r, q)) ∧
      (∀ vals, ∃ r q, parseArgument (shiftComponent fuel) fuel vals p = .ok (r, q)) ∧
      (∀ func args, ∃ r q, functionLoop (shiftComponent fuel) func fuel args p = .ok (r, q)) ∧
      (∀ o nodes, ∃ r q, blockLoop (shiftComponent fuel) o fuel nodes p = .ok (r, q)) ∧
      (∀ tt, tt ≠ ErrorToken → ∃ q, skipWhile tt fuel p = .ok q)) ∧
    (∀ lw l, (readToks lw l).2.length ≤ l.length) ∧
    (∀ lw, (readToks lw []).1.TokenType = ErrorToken) := by
  refine ⟨?_, fun p hp hs hfp => ?_, fun p hp hfp => ?_, readToks_length_le, fun _ => rfl⟩
  · have hmu : mu (NewParser2 z).toLookahead = z.toks.length := by
      simp [mu, live, NewParser2]
    have hg : Good (NewParser2 z).toLookahead :=
      ⟨newParser2_inv z, fun t ht => hz t (by simpa [live, NewParser2] using ht)⟩
    obtain ⟨⟨nodes, err, q⟩, hl⟩ := parseLoop_total fuel fuel [] (NewParser2 z) hg ⟨[], rfl⟩
      (fun p2 hp2 => by omega) (by omega)
    unfold Parser2.Parse
    rw [hl]
    dsimp only
    by_cases he : err ≠ StreamError.EOF
    · rw [if_pos he]; exact ⟨_, rfl⟩
    · rw [if_neg he]; exact ⟨_, rfl⟩
  · obtain ⟨⟨gt, n, q⟩, h⟩ := next_total fuel p hp hs hfp
    exact ⟨gt, n, q, h, (next_good fuel p gt n q hp h).2.2⟩
  · have hsc := shiftComponent_total fuel
    have hok := shiftComponent_consumes fuel
    exact ⟨fun nodes => atRuleLoop_total fuel nodes p hp hfp,
      fun elems ws => selectorLoop_total fuel elems ws p hp (by omega),
      fun elems => bracketLoop_total fuel elems p hp.1 (by omega),
      fun vals imp => declarationLoop_total fuel vals imp p hp (by omega),
      fun vals => parseArgument_total _ hok fuel hsc fuel vals p hp (by omega) (by omega),
      fun func args => functionLoop_total _ hok fuel hsc func fuel args p hp (by omega)
        (by omega),
      fun o nodes => blockLoop_total _ hok fuel hsc o fuel nodes p hp (by omega) (by omega),
      fun tt htt => skipWhile_total tt htt fuel p hp.1 (by omega)⟩

section
attribute [local instance] asciiLib

/-- C26 on `a { color: red !important; }`. -/
theorem parse_terminates_witness :
    (∀ t ∈ importantStream.toks, DelimOK t) ∧ 2 * importantStream.toks.length + 1 < 40 ∧
      ∃ r, Parser2.Parse 40 (NewParser2 importantStream) = .ok r :=
  ⟨by simp [importantStream, DelimOK], by decide,
    (parse_terminates importantStream 40 (by simp [importantStream, DelimOK])
      (by decide)).1⟩

end

/-! ### Two rulesets nested in an at-rule -/

section
attribute [local instance] asciiLib

/-- C14 holds on `@media screen { a{b:c} }` and fails in general, on
`@media screen{a{b:c}d{e:f}}`: for the first stream `Parse` returns the Stylesheet with the
at-rule `@media`, prelude [screen], whose Rules are the one ruleset with the selector [a] and
the declaration b:[c]. For the second, the ruleset `d{e:f}` nested in the at-rule is not in
the Rules of the at-rule and its declaration is not in its Decls: in the state Ruleset `Next`
tries `parseRuleset` before `parseDeclaration`, the scan of `parseRuleset` runs over the `}`
of the first ruleset to the `{` of the second, and `b:c}d` becomes the selector of a Ruleset
event; the Rules of the at-rule are the ruleset `a` with the declaration e:[f] and a `}`
token. With a `;` after each declaration the Rules are the two rulesets. -/
theorem nested_rulesets_merge :
    Parser2.Parse 30 (NewParser2 mediaStream)
      = .ok (Node.Stylesheet [Node.AtRule ⟨AtKeywordToken, [64, 109, 101, 100, 105, 97]⟩
          [Node.Token ⟨IdentToken, [115, 99, 114, 101, 101, 110]⟩]
          [Node.Ruleset [⟨[⟨IdentToken, [97]⟩]⟩]
            [Node.Declaration ⟨IdentToken, [98]⟩ [Node.Token ⟨IdentToken, [99]⟩] false]]],
          none) ∧
    Parser2.Parse 40 (NewParser2 mediaTwoStream)
      = .ok (Node.Stylesheet [Node.AtRule ⟨AtKeywordToken, [64, 109, 101, 100, 105, 97]⟩
          [Node.Token ⟨IdentToken, [115, 99, 114, 101, 101, 110]⟩]
          [Node.Ruleset [⟨[⟨IdentToken, [97]⟩]⟩]
            [Node.Declaration ⟨IdentToken, [101]⟩ [Node.Token ⟨IdentToken, [102]⟩] false],
            Node.Token ⟨RightBraceToken, [125]⟩]],
          none) ∧
    (Parser2.events 40 20 (NewParser2 mediaTwoStream)).map (fun r => r.1)
      = some [(AtRuleGrammar, Node.AtRule ⟨AtKeywordToken, [64, 109, 101, 100, 105, 97]⟩
            [Node.Token ⟨IdentToken, [115, 99, 114, 101, 101, 110]⟩] []),
          (RulesetGrammar, Node.Ruleset [⟨[⟨IdentToken, [97]⟩]⟩] []),
          (RulesetGrammar, Node.Ruleset [⟨[⟨IdentToken, [98]⟩, ⟨ColonToken, [58]⟩,
            ⟨IdentToken, [99]⟩, ⟨RightBraceToken, [125]⟩, ⟨IdentToken, [100]⟩]⟩] []),
          (DeclarationGrammar,
            Node.Declaration ⟨IdentToken, [101]⟩ [Node.Token ⟨IdentToken, [102]⟩] false),
          (EndRulesetGrammar, Node.Token ⟨RightBraceToken, [125]⟩),
          (EndRulesetGrammar, Node.Token ⟨RightBraceToken, [125]⟩)] ∧
    Parser2.Parse 40 (NewParser2 mediaTwoSemiStream)
      = .ok (Node.Stylesheet [Node.AtRule ⟨AtKeywordToken, [64, 109, 101, 100, 105, 97]⟩
          [Node.Token ⟨IdentToken, [115, 99, 114, 101, 101, 110]⟩]
          [Node.Ruleset [⟨[⟨IdentToken, [97]⟩]⟩]
            [Node.Declaration ⟨IdentToken, [98]⟩ [Node.Token ⟨IdentToken, [99]⟩] false],
            Node.Ruleset [⟨[⟨IdentToken, [100]⟩]⟩]
            [Node.Declaration ⟨IdentToken, [101]⟩ [Node.Token ⟨IdentToken, [102]⟩] false]]],
          none) :=
  ⟨rfl, rfl, rfl, rfl⟩

end

/-! ### `Next` at a token that starts neither an at-rule nor a declaration -/

theorem next_to_nextRule [BytesLib] (fuel : Nat) (p : Parser2) (hp : Inv p.toLookahead)
    (hs : p.state ≠ [])
    (h1 : (cur p.toLookahead).TokenType ≠ ErrorToken)
    (h2 : (cur p.toLookahead).TokenType ≠ WhitespaceToken)
    (h3 : (cur p.toLookahead).TokenType ≠ RightBraceToken)
    (h4 : (cur p.toLookahead).TokenType ≠ SemicolonToken) :
    Parser2.Next fuel p = nextRule fuel { p with toLookahead := (peek 0 p.toLookahead).2 } := by
  have hq1 := inv_peek 0 _ hp
  have e0 : skipWhitespace (peek 0 p.toLookahead).2 = (peek 0 p.toLookahead).2 := by
    rw [skipWhitespace_eq _ hq1, cur_peek_zero _ hp, if_neg h2, peek_zero_idem _ hp]
  obtain ⟨s, hst⟩ : ∃ s, Parser2.State p = .ok s := by
    unfold Parser2.State
    cases h : p.state.getLast? with
    | none => exact absurd (List.getLast?_eq_none_iff.1 h) hs
    | some s => exact ⟨s, rfl⟩
  unfold Parser2.Next
  rw [atToken_eq]
  dsimp only
  rw [if_neg (by simpa using h1), e0, hst]
  dsimp only
  rw [atToken_eq]
  dsimp only
  rw [cur_peek_zero _ hp, peek_zero_idem _ hp]
  rw [if_neg (by simp [h3]), atToken_eq]
  dsimp only
  rw [cur_peek_zero _ hp, peek_zero_idem _ hp, if_neg (by simp [h4])]

theorem next_at_function [BytesLib] (fuel : Nat) (p : Parser2) (hp : Inv p.toLookahead)
    (hs : p.state ≠ []) (hfn : (cur p.toLookahead).TokenType = FunctionToken)
    (hf : mu p.toLookahead < fuel) :
    ∃ q k, Moves p.toLookahead [] q ∧ k < (live q).length ∧
      (∀ j, j < k → scanStop ((live q).getD j eofToken) = false) ∧
      scanStop ((live q).getD k eofToken) = true ∧
      (((live q).getD k eofToken).TokenType ≠ LeftBraceToken →
        Parser2.Next fuel p
          = .ok (TokenGrammar, Node.Token (cur p.toLookahead),
              { p with toLookahead := (shift q).2 })) := by
  have hq1 := inv_peek 0 _ hp
  have hmu := mu_peek_le 0 _ hp
  obtain ⟨b, q, k, hscan, hm, hk, hpre, hstop, hb⟩ :=
    scan_decided_by_first_stop fuel (peek 0 p.toLookahead).2 hq1 (by omega)
  have hm2 : Moves p.toLookahead [] q := by
    have := (peek_moves 0 _ hp).mtrans hm
    simpa using this
  refine ⟨q, k, hm2, hk, hpre, hstop, fun hnb => ?_⟩
  have hbf : b = false := by
    cases b with
    | false => rfl
    | true => exact absurd (hb.1 rfl) hnb
  subst hbf
  have hcq : cur q = cur p.toLookahead := by
    rw [(hm.cur_eq hq1 (live_peek_zero_ne_nil _ hp)).1, cur_peek_zero _ hp]
  rw [next_to_nextRule fuel p hp hs (by rw [hfn]; decide) (by rw [hfn]; decide)
    (by rw [hfn]; decide) (by rw [hfn]; decide)]
  unfold nextRule
  dsimp only
  rw [atAny_eq _ _ hq1 (by simp), cur_peek_zero _ hp, peek_zero_idem _ hp]
  dsimp only
  rw [if_neg (by rw [hfn]; decide)]
  unfold parseAtRule
  dsimp only
  rw [atToken_eq]
  dsimp only
  rw [cur_peek_zero _ hp, peek_zero_idem _ hp, hfn]
  simp only [show (FunctionToken == AtKeywordToken) = false from rfl, Bool.not_false,
    if_true]
  unfold parseRuleset
  dsimp only
  rw [hscan]
  dsimp only
  unfold parseDeclaration
  rw [atToken_eq]
  dsimp only
  rw [hcq, hfn]
  simp only [show (FunctionToken == IdentToken) = false from rfl, Bool.not_false, if_true]
  rw [shift_peek_zero _ hm.minv, shift_fst, hcq]

/-- C13 (amended): `Next` is called at a function-open token, with fuel above the measure of
what is left. The forward scan of `parseRuleset` reaches the first pending token that is
`{`, `;` or an error token (at the offset `k` of the pending tokens of `q`); when that token
is not `{`, `Next` returns a Token event whose node is the plain Token node of the
function-open token, and the parser has shifted that token only. Moreover no event of `Next`
carries a Function node (the node of a Token event is a plain Token node), and in the tree
that `Parse` returns no child of the root Stylesheet is a Function node. -/
theorem top_level_function_is_token [BytesLib] (fuel : Nat) (p : Parser2)
    (hp : Inv p.toLookahead) (hs : p.state ≠ [])
    (hfn : (cur p.toLookahead).TokenType = FunctionToken) (hf : mu p.toLookahead < fuel) :
    (∃ q k, Moves p.toLookahead [] q ∧ k < (live q).length ∧
      (∀ j, j < k → scanStop ((live q).getD j eofToken) = false) ∧
      scanStop ((live q).getD k eofToken) = true ∧
      (((live q).getD k eofToken).TokenType ≠ LeftBraceToken →
        Parser2.Next fuel p
          = .ok (TokenGrammar, Node.Token (cur p.toLookahead),
              { p with toLookahead := (shift q).2 }))) ∧
    (∀ p gt n q, Parser2.Next fuel p = .ok (gt, n, q) →
      n.isFunction = false ∧ (gt = TokenGrammar → ∃ t, n = Node.Token t)) ∧
    (∀ z tree e, Parser2.Parse fuel (NewParser2 z) = .ok (tree, e) →
      ∃ nodes, tree = Node.Stylesheet nodes ∧ ∀ n ∈ nodes, n.isFunction = false) :=
  ⟨next_at_function fuel p hp hs hfn hf, (events_carry_no_function fuel).1,
    (events_carry_no_function fuel).2⟩

section
attribute [local instance] asciiLib

/-- The amended C13 on `func(1, 2)`: the first stop of the scan is the end of the input, the
first event is a Token event with the token `func(`, and the tree of `Parse` is a Stylesheet
none of whose children is a Function node. -/
theorem top_level_function_is_token_witness :
    (NewParser2 funcStream).state ≠ [] ∧
    (cur (NewParser2 funcStream).toLookahead).TokenType = FunctionToken ∧
    mu (NewParser2 funcStream).toLookahead < 30 ∧
    (∃ q k, Moves (NewParser2 funcStream).toLookahead [] q ∧ k < (live q).length ∧
      (∀ j, j < k → scanStop ((live q).getD j eofToken) = false) ∧
      scanStop ((live q).getD k eofToken) = true ∧
      (((live q).getD k eofToken).TokenType ≠ LeftBraceToken →
        Parser2.Next 30 (NewParser2 funcStream)
          = .ok (TokenGrammar, Node.Token (cur (NewParser2 funcStream).toLookahead),
              { NewParser2 funcStream with toLookahead := (shift q).2 }))) ∧
    (∃ q, Parser2.Next 30 (NewParser2 funcStream)
        = .ok (TokenGrammar, Node.Token ⟨FunctionToken, [102, 117, 110, 99, 40]⟩, q)) ∧
    ∃ tree nodes, Parser2.Parse 30 (NewParser2 funcStream) = .ok (tree, none) ∧
      tree = Node.Stylesheet nodes ∧ ∀ n ∈ nodes, n.isFunction = false :=
  ⟨by decide, rfl, by decide,
    (top_level_function_is_token 30 (NewParser2 funcStream) (newParser2_inv funcStream)
      (by decide) rfl (by decide)).1,
    ⟨_, rfl⟩,
    ⟨_, [Node.Token ⟨FunctionToken, [102, 117, 110, 99, 40]⟩,
          Node.Token ⟨NumberToken, [49]⟩, Node.Token ⟨CommaToken, [44]⟩,
          Node.Token ⟨NumberToken, [50]⟩, Node.Token ⟨RightParenthesisToken, [41]⟩],
      rfl, rfl, by decide⟩⟩

end

/-! ### The prelude of an at-rule in statement form -/

theorem Moves.mahead {p q : Lookahead} {c : List TokenNode} (h : Moves p c q) :
    ∃ m, c.filter notSpace ++ ahead q = ahead p ++ List.replicate m eofToken := by
  obtain ⟨_, _, _, new, h1, h2⟩ := h
  obtain ⟨m, _, s2, _⟩ := h2.sublist
  refine ⟨m, ?_⟩
  have e : (c ++ live q).filter notSpace = (live p ++ new).filter notSpace := by rw [h1]
  simp only [List.filter_append] at e s2
  simp only [ahead, List.filter_append]
  rw [← List.append_assoc, e, List.append_assoc, s2, List.append_assoc]

theorem cur_of_ahead (p : Lookahead) (hp : Inv p) (t : TokenNode) (l : List TokenNode)
    (h : ahead p = t :: l) (hn : notSpace (cur p) = true) : cur p = t := by
  obtain ⟨m, e⟩ := (peek_moves 0 p hp).mahead
  have hl := peek_zero_live p hp
  simp only [List.filter_nil, List.nil_append] at e
  rw [h] at e
  simp only [ahead, hl, List.cons_append, List.filter_cons_of_pos hn] at e
  exact (List.cons.inj e).1

theorem shiftComponent_plain (g : Nat) (p : Lookahead) (hp : Inv p)
    (h1 : (cur p).TokenType ≠ LeftParenthesisToken) (h2 : (cur p).TokenType ≠ LeftBraceToken)
    (h3 : (cur p).TokenType ≠ LeftBracketToken) (h4 : (cur p).TokenType ≠ FunctionToken) :
    shiftComponent (g + 1) p = .ok (Node.Token (cur p), (shift p).2) := by
  have hq1 := inv_peek 0 _ hp
  rw [shiftComponent]
  unfold parseBlock
  rw [atAny_eq _ _ hp (by simp)]
  have hno : decide ((cur p).TokenType ∈
      [LeftParenthesisToken, LeftBraceToken, LeftBracketToken]) = false := by
    simp [h1, h2, h3]
  rw [hno]
  simp only [Bool.not_false, if_true]
  unfold parseFunctionWith
  rw [atToken_eq, cur_peek_zero _ hp, peek_zero_idem _ hp]
  have hnf : ((cur p).TokenType == FunctionToken) = false := by simpa using h4
  rw [hnf]
  simp only [Bool.not_false, if_true]
  rw [shift_peek_zero _ hp, shift_fst]

theorem next_at_atkeyword [BytesLib] (fuel : Nat) (p : Parser2) (hp : Good p.toLookahead)
    (hs : p.state ≠ []) (hat : (cur p.toLookahead).TokenType = AtKeywordToken)
    (hf : 2 * mu p.toLookahead + 1 < fuel) :
    ∃ nodes q, atRuleLoop fuel [] (skipWhitespace (shift p.toLookahead).2) = .ok (nodes, q) ∧
      Parser2.Next fuel p
        = .ok (AtRuleGrammar, Node.AtRule (cur p.toLookahead) nodes [],
            { toLookahead := if ((cur q).TokenType == LeftBraceToken) = true
                then (shift (peek 0 q).2).2 else (peek 0 q).2,
              state := p.state ++ [AtRuleState] }) := by
  have hi := hp.1
  have hq1 := inv_peek 0 _ hi
  have hg := good_skipWhitespace _ (good_shift _ hp)
  have hmu : mu (skipWhitespace (shift p.toLookahead).2) ≤ mu p.toLookahead := by
    have := mu_shift_le _ hi
    have := mu_skipWhitespace_le _ (inv_shift _ hi)
    omega
  obtain ⟨nodes, q, hl⟩ := atRuleLoop_total fuel [] _ hg (by omega)
  refine ⟨nodes, q, hl, ?_⟩
  rw [next_to_nextRule fuel p hi hs (by rw [hat]; decide) (by rw [hat]; decide)
    (by rw [hat]; decide) (by rw [hat]; decide)]
  unfold nextRule
  dsimp only
  rw [atAny_eq _ _ hq1 (by simp), cur_peek_zero _ hi, peek_zero_idem _ hi]
  dsimp only
  rw [if_neg (by rw [hat]; decide)]
  unfold parseAtRule
  dsimp only
  rw [atToken_eq]
  dsimp only
  rw [cur_peek_zero _ hi, peek_zero_idem _ hi, hat]
  simp only [show (AtKeywordToken == AtKeywordToken) = true from rfl, Bool.not_true,
    Bool.false_eq_true, if_false]
  rw [shift_peek_zero _ hi, hl]
  dsimp only
  rw [atToken_eq, shift_fst]

/-! ### An identifier that is `important` only after `bytes.ToLower` of a non-ASCII capital -/

section
attribute [local instance] dottedLib

/-- On `b:c !İmportant;`, with a `ToLower` that lowers `İ` (U+0130) to `i` as the library
does, `parseDeclaration` sets `Important`, and neither the `!` nor the identifier is among
the values. -/
theorem important_with_dotted_capital :
    BytesLib.ToLower [196, 176, 109, 112, 111, 114, 116, 97, 110, 116] = importantBytes ∧
    (parseDeclaration 30 (NewParser2 dottedImportantStream).toLookahead).map (fun r => r.1)
      = .ok (some (Node.Declaration ⟨IdentToken, [98]⟩ [Node.Token ⟨IdentToken, [99]⟩]
          true)) :=
  ⟨rfl, rfl⟩

end

/-! ### The components of a prelude -/

theorem prefix_of_moves_nil {p q : Lookahead} {c l : List TokenNode} (h : Moves p c q)
    (hc : c.filter notSpace = []) (hl : l <+: ahead p) : l <+: ahead q := by
  obtain ⟨m, e⟩ := h.mahead
  rw [hc, List.nil_append] at e
  rw [e]
  exact hl.trans (List.prefix_append _ _)

theorem prefix_of_moves_cons {p q : Lookahead} {c l : List TokenNode} {t : TokenNode}
    (h : Moves p c q) (hc : c.filter notSpace = [t]) (hl : (t :: l) <+: ahead p) :
    l <+: ahead q := by
  obtain ⟨m, e⟩ := h.mahead
  rw [hc] at e
  obtain ⟨tail, ht⟩ := hl
  rw [← ht] at e
  simp only [List.singleton_append, List.cons_append, List.cons.injEq, true_and] at e
  exact ⟨tail ++ List.replicate m eofToken, by simpa using e.symm⟩

theorem prefix_peek (p : Lookahead) (hp : Inv p) {l : List TokenNode} (hl : l <+: ahead p) :
    l <+: ahead (peek 0 p).2 :=
  prefix_of_moves_nil (peek_moves 0 p hp) rfl hl

theorem prefix_skipWhitespace (p : Lookahead) (hp : Inv p) {l : List TokenNode}
    (hl : l <+: ahead p) : l <+: ahead (skipWhitespace p) := by
  obtain ⟨c, ⟨hm, _⟩, hc⟩ := shifts_skipWhitespace p hp
  refine prefix_of_moves_nil hm ?_ hl
  rcases hc with ⟨hc, _⟩ | ⟨hc, hw⟩
  · rw [hc]; rfl
  · rw [hc, List.filter_cons_of_neg (by simp [notSpace, hw])]; rfl

theorem prefix_shift (p : Lookahead) (hp : Inv p) {l : List TokenNode}
    (hl : (cur p :: l) <+: ahead p) (hn : notSpace (cur p) = true) :
    l <+: ahead (shift p).2 :=
  prefix_of_moves_cons (shift_moves p hp) (by rw [List.filter_cons_of_pos hn]; rfl) hl

theorem prefix_shift_space (p : Lookahead) (hp : Inv p) {l : List TokenNode}
    (hl : l <+: ahead p) (hn : ¬ notSpace (cur p) = true) : l <+: ahead (shift p).2 :=
  prefix_of_moves_nil (shift_moves p hp) (by rw [List.filter_cons_of_neg hn]; rfl) hl

theorem cur_of_prefix (p : Lookahead) (hp : Inv p) {t : TokenNode} {l : List TokenNode}
    (hl : (t :: l) <+: ahead p) (hn : notSpace (cur p) = true) : cur p = t := by
  obtain ⟨tail, ht⟩ := hl
  exact cur_of_ahead p hp t (l ++ tail) (by rw [← ht]; rfl) hn

theorem space_facts (t : TokenNode) (h : ¬ notSpace t = true) :
    scanStop t = false ∧ blockStop t = false ∧ funcStop t = false ∧
      t.TokenType ≠ CommaToken ∧ isOpener t = false ∧ t.TokenType ≠ FunctionToken ∧
      t.TokenType ≠ ErrorToken := by
  have hw : t.TokenType = WhitespaceToken ∨ t.TokenType = CommentToken := by
    by_contra hn
    push_neg at hn
    exact h (by simp [notSpace, hn.1, hn.2])
  rcases hw with hw | hw <;>
    simp [scanStop, blockStop, funcStop, isOpener, isCloser, hw]

theorem blockStop_eq (t : TokenNode) :
    decide (t.TokenType ∈
      [RightBraceToken, RightParenthesisToken, RightBracketToken, ErrorToken]) = blockStop t := by
  cases h : t.TokenType <;> simp [blockStop, isCloser, h]

theorem funcStop_eq (t : TokenNode) :
    decide (t.TokenType ∈ [RightParenthesisToken, ErrorToken]) = funcStop t := by
  cases h : t.TokenType <;> simp [funcStop, h]

theorem argStop_eq (t : TokenNode) :
    decide (t.TokenType ∈ [CommaToken, RightParenthesisToken, ErrorToken])
      = (t.TokenType == CommaToken || funcStop t) := by
  cases h : t.TokenType <;> simp [funcStop, h]

theorem scanStop_eq (t : TokenNode) :
    decide (t.TokenType ∈ [SemicolonToken, LeftBraceToken, ErrorToken]) = scanStop t := by
  cases h : t.TokenType <;> simp [scanStop, h]

theorem shiftComponent_space (F : Nat) (p : Lookahead) (hp : Inv p)
    (hn : ¬ notSpace (cur p) = true) (r : Node) (q : Lookahead)
    (h : shiftComponent F p = .ok (r, q)) : q = (shift p).2 := by
  obtain ⟨_, _, _, _, ho, hf, _⟩ := space_facts _ hn
  simp only [isOpener, Bool.or_eq_false_iff, beq_eq_false_iff_ne, ne_eq] at ho
  cases F with
  | zero => simp [shiftComponent] at h
  | succ F =>
    rw [shiftComponent_plain F p hp ho.1.1 ho.1.2 ho.2 hf] at h
    simp only [Except.ok.injEq, Prod.mk.injEq] at h
    exact h.2.symm

theorem blockLoop_comps (F : Nat) (o : TokenNode) (g : Nat) :
    ∀ (cs : List (List TokenNode)) (nodes : List Node) (p : Lookahead) (c : TokenNode)
      (rest : List TokenNode) (n : Node) (q : Lookahead), GoodComps blockStop cs → Inv p →
      (cs.flatten ++ c :: rest) <+: ahead p → isCloser c = true →
      blockLoop (shiftComponent F) o g nodes p = .ok (n, q) → Inv q ∧ rest <+: ahead q := by
  induction g with
  | zero => intro _ _ _ _ _ _ _ _ _ _ _ h; simp [blockLoop] at h
  | succ g ih =>
    intro cs nodes p c rest n q hcs hp hl hc h
    have hq1 := inv_peek 0 p hp
    rw [blockLoop, atAny_eq _ _ hp (by simp), blockStop_eq] at h
    dsimp only at h
    by_cases hn : notSpace (cur p) = true
    · cases cs with
      | nil =>
        simp only [List.flatten_nil, List.nil_append] at hl
        have hcur := cur_of_prefix p hp hl hn
        have hst : blockStop (cur p) = true := by rw [hcur]; simp [blockStop, hc]
        have hne : ((cur p).TokenType == ErrorToken) = false := by
          rw [hcur]
          simp only [isCloser, Bool.or_eq_true, beq_iff_eq] at hc
          rcases hc with (hc | hc) | hc <;> rw [hc] <;> rfl
        rw [hst, if_pos rfl, atToken_eq, cur_peek_zero _ hp, peek_zero_idem _ hp, hne] at h
        simp only [Bool.not_false, if_true, Except.ok.injEq, Prod.mk.injEq] at h
        rw [shift_peek_zero _ hp] at h
        rw [← h.2]
        exact ⟨inv_shift p hp, prefix_shift p hp (by rw [hcur]; exact hl) hn⟩
      | cons comp cs2 =>
        obtain ⟨t, l, hcomp, hstop, _, hok⟩ := hcs comp (List.mem_cons_self _ _)
        have hl2 : (comp ++ (cs2.flatten ++ c :: rest)) <+: ahead p := by
          simpa using hl
        have hcur : cur p = t := by
          rw [hcomp] at hl2
          exact cur_of_prefix p hp hl2 hn
        rw [hcur, hstop] at h
        simp only [Bool.false_eq_true, if_false] at h
        cases hsc : shiftComponent F (peek 0 p).2 with
        | error a => rw [hsc] at h; exact absurd h (by simp)
        | ok v =>
          obtain ⟨r1, q1⟩ := v
          rw [hsc] at h
          dsimp only at h
          obtain ⟨i1, p1⟩ := hok F _ _ _ _ hq1 (prefix_peek p hp hl2)
            (by rw [cur_peek_zero p hp]; exact hn) hsc
          exact ih cs2 _ _ c rest n q (fun x hx => hcs x (List.mem_cons_of_mem _ hx))
            (inv_skipWhitespace _ i1) (prefix_skipWhitespace _ i1 p1) hc h
    · have hsf := space_facts _ hn
      rw [hsf.2.1] at h
      simp only [Bool.false_eq_true, if_false] at h
      cases hsc : shiftComponent F (peek 0 p).2 with
      | error a => rw [hsc] at h; exact absurd h (by simp)
      | ok v =>
        obtain ⟨r1, q1⟩ := v
        rw [hsc] at h
        dsimp only at h
        have hq := shiftComponent_space F _ hq1 (by rw [cur_peek_zero p hp]; exact hn) _ _ hsc
        rw [shift_peek_zero p hp] at hq
        subst hq
        exact ih cs _ _ c rest n q hcs (inv_skipWhitespace _ (inv_shift p hp))
          (prefix_skipWhitespace _ (inv_shift p hp) (prefix_shift_space p hp hl hn)) hc h

theorem parseArgument_comps (F : Nat) (g : Nat) :
    ∀ (cs : List (List TokenNode)) (vals : List Node) (p : Lookahead) (c : TokenNode)
      (rest : List TokenNode) (a : Node) (q : Lookahead), GoodComps funcStop cs → Inv p →
      (cs.flatten ++ c :: rest) <+: ahead p → c.TokenType = RightParenthesisToken →
      parseArgument (shiftComponent F) g vals p = .ok (a, q) →
      Inv q ∧ ∃ cs2, GoodComps funcStop cs2 ∧ (cs2.flatten ++ c :: rest) <+: ahead q := by
  induction g with
  | zero => intro _ _ _ _ _ _ _ _ _ _ _ h; simp [parseArgument] at h
  | succ g ih =>
    intro cs vals p c rest a q hcs hp hl hc h
    have hq1 := inv_peek 0 p hp
    rw [parseArgument, atAny_eq _ _ hp (by simp), argStop_eq] at h
    dsimp only at h
    by_cases hn : notSpace (cur p) = true
    · cases cs with
      | nil =>
        have hl0 : (c :: rest) <+: ahead p := by simpa using hl
        have hcur := cur_of_prefix p hp hl0 hn
        have hst : ((cur p).TokenType == CommaToken || funcStop (cur p)) = true := by
          rw [hcur]; simp [funcStop, hc]
        rw [hst, if_pos rfl] at h
        simp only [Except.ok.injEq, Prod.mk.injEq] at h
        rw [← h.2]
        exact ⟨hq1, [], hcs, prefix_peek p hp hl⟩
      | cons comp cs2 =>
        obtain ⟨t, l, hcomp, hstop, _, hok⟩ := hcs comp (List.mem_cons_self _ _)
        have hl2 : (comp ++ (cs2.flatten ++ c :: rest)) <+: ahead p := by
          simpa using hl
        have hcur : cur p = t := by
          rw [hcomp] at hl2
          exact cur_of_prefix p hp hl2 hn
        by_cases hcomma : t.TokenType = CommaToken
        · have hst : ((cur p).TokenType == CommaToken || funcStop (cur p)) = true := by
            rw [hcur]; simp [hcomma]
          rw [hst, if_pos rfl] at h
          simp only [Except.ok.injEq, Prod.mk.injEq] at h
          rw [← h.2]
          exact ⟨hq1, comp :: cs2, hcs, prefix_peek p hp hl⟩
        · have hst : ((cur p).TokenType == CommaToken || funcStop (cur p)) = false := by
            rw [hcur, hstop]; simpa using hcomma
          rw [hst] at h
          simp only [Bool.false_eq_true, if_false] at h
          cases hsc : shiftComponent F (peek 0 p).2 with
          | error e => rw [hsc] at h; exact absurd h (by simp)
          | ok v =>
            obtain ⟨r1, q1⟩ := v
            rw [hsc] at h
            dsimp only at h
            obtain ⟨i1, p1⟩ := hok F _ _ _ _ hq1 (prefix_peek p hp hl2)
              (by rw [cur_peek_zero p hp]; exact hn) hsc
            exact ih cs2 _ _ c rest a q (fun x hx => hcs x (List.mem_cons_of_mem _ hx))
              (inv_skipWhitespace _ i1) (prefix_skipWhitespace _ i1 p1) hc h
    · have hsf := space_facts _ hn
      have hst : ((cur p).TokenType == CommaToken || funcStop (cur p)) = false := by
        rw [hsf.2.2.1]; simpa using hsf.2.2.2.1
      rw [hst] at h
      simp only [Bool.false_eq_true, if_false] at h
      cases hsc : shiftComponent F (peek 0 p).2 with
      | error e => rw [hsc] at h; exact absurd h (by simp)
      | ok v =>
        obtain ⟨r1, q1⟩ := v
        rw [hsc] at h
        dsimp only at h
        have hq := shiftComponent_space F _ hq1 (by rw [cur_peek_zero p hp]; exact hn) _ _ hsc
        rw [shift_peek_zero p hp] at hq
        subst hq
        exact ih cs _ _ c rest a q hcs (inv_skipWhitespace _ (inv_shift p hp))
          (prefix_skipWhitespace _ (inv_shift p hp) (prefix_shift_space p hp hl hn)) hc h

theorem functionLoop_comps (F : Nat) (func : TokenNode) (g : Nat) :
    ∀ (cs : List (List TokenNode)) (args : List Node) (p : Lookahead) (c : TokenNode)
      (rest : List TokenNode) (r : Option Node) (q : Lookahead), GoodComps funcStop cs →
      Inv p → (cs.flatten ++ c :: rest) <+: ahead p → c.TokenType = RightParenthesisToken →
      functionLoop (shiftComponent F) func g args p = .ok (r, q) →
      (∃ n, r = some n) ∧ Inv q ∧ rest <+: ahead q := by
  induction g with
  | zero => intro _ _ _ _ _ _ _ _ _ _ _ h; simp [functionLoop] at h
  | succ g ih =>
    intro cs args p c rest r q hcs hp hl hc h
    have hq1 := inv_peek 0 p hp
    rw [functionLoop, atAny_eq _ _ hp (by simp), funcStop_eq] at h
    dsimp only at h
    have harg : ∀ (hns : funcStop (cur p) = false)
        (hnc : ((cur p).TokenType == CommaToken) = false),
        (∃ n, r = some n) ∧ Inv q ∧ rest <+: ahead q := by
      intro hns hnc
      rw [hns] at h
      simp only [Bool.false_eq_true, if_false] at h
      rw [atToken_eq, cur_peek_zero _ hp, peek_zero_idem _ hp, hnc] at h
      simp only [Bool.false_eq_true, if_false] at h
      cases hpa : parseArgument (shiftComponent F) g [] (peek 0 p).2 with
      | error e => rw [hpa] at h; exact absurd h (by simp)
      | ok v =>
        obtain ⟨a, q1⟩ := v
        rw [hpa] at h
        dsimp only at h
        obtain ⟨i1, cs2, g2, p2⟩ := parseArgument_comps F g cs [] _ c rest a q1 hcs hq1
          (prefix_peek p hp hl) hc hpa
        exact ih cs2 _ _ c rest r q g2 i1 p2 hc h
    by_cases hn : notSpace (cur p) = true
    · cases cs with
      | nil =>
        have hl0 : (c :: rest) <+: ahead p := by simpa using hl
        have hcur := cur_of_prefix p hp hl0 hn
        have hst : funcStop (cur p) = true := by rw [hcur]; simp [funcStop, hc]
        have hne : ((cur p).TokenType == ErrorToken) = false := by rw [hcur, hc]; rfl
        rw [hst, if_pos rfl, atToken_eq, cur_peek_zero _ hp, peek_zero_idem _ hp, hne] at h
        simp only [Bool.false_eq_true, if_false, Except.ok.injEq, Prod.mk.injEq] at h
        rw [shift_peek_zero _ hp] at h
        rw [← h.2]
        exact ⟨⟨_, h.1.symm⟩, inv_shift p hp, prefix_shift p hp (by rw [hcur]; exact hl0) hn⟩
      | cons comp cs2 =>
        obtain ⟨t, l, hcomp, hstop, hcm, hok⟩ := hcs comp (List.mem_cons_self _ _)
        have hl2 : (comp ++ (cs2.flatten ++ c :: rest)) <+: ahead p := by
          simpa using hl
        have hcur : cur p = t := by
          rw [hcomp] at hl2
          exact cur_of_prefix p hp hl2 hn
        by_cases hcomma : t.TokenType = CommaToken
        · have hle := hcm hcomma
          subst hle
          rw [hcur, hstop] at h
          simp only [Bool.false_eq_true, if_false] at h
          rw [atToken_eq, cur_peek_zero _ hp, peek_zero_idem _ hp, hcur, hcomma] at h
          simp only [beq_self_eq_true, if_true] at h
          rw [shift_peek_zero _ hp] at h
          have hl3 : (cur p :: (cs2.flatten ++ c :: rest)) <+: ahead p := by
            rw [hcur]; rw [hcomp] at hl2; simpa using hl2
          exact ih cs2 _ _ c rest r q (fun x hx => hcs x (List.mem_cons_of_mem _ hx))
            (inv_skipWhitespace _ (inv_shift p hp))
            (prefix_skipWhitespace _ (inv_shift p hp) (prefix_shift p hp hl3 hn)) hc h
        · exact harg (by rw [hcur]; exact hstop) (by rw [hcur]; simpa using hcomma)
    · have hsf := space_facts _ hn
      exact harg hsf.2.2.1 (by simpa using hsf.2.2.2.1)

theorem atRuleLoop_comps (f : Nat) :
    ∀ (cs : List (List TokenNode)) (nodes : List Node) (p : Lookahead) (s : TokenNode)
      (rest : List TokenNode) (r : List Node) (q : Lookahead), GoodComps scanStop cs → Inv p →
      (cs.flatten ++ s :: rest) <+: ahead p → s.TokenType = SemicolonToken →
      atRuleLoop f nodes p = .ok (r, q) → Inv q ∧ cur q = s := by
  induction f with
  | zero => intro _ _ _ _ _ _ _ _ _ _ _ h; simp [atRuleLoop] at h
  | succ f ih =>
    intro cs nodes p s rest r q hcs hp hl hs h
    have hq1 := inv_peek 0 p hp
    rw [atRuleLoop, atAny_eq _ _ hp (by simp), scanStop_eq] at h
    dsimp only at h
    by_cases hn : notSpace (cur p) = true
    · cases cs with
      | nil =>
        have hl0 : (s :: rest) <+: ahead p := by simpa using hl
        have hcur := cur_of_prefix p hp hl0 hn
        have hst : scanStop (cur p) = true := by rw [hcur]; simp [scanStop, hs]
        rw [hst, if_pos rfl] at h
        simp only [Except.ok.injEq, Prod.mk.injEq] at h
        rw [← h.2]
        exact ⟨hq1, by rw [cur_peek_zero p hp, hcur]⟩
      | cons comp cs2 =>
        obtain ⟨t, l, hcomp, hstop, _, hok⟩ := hcs comp (List.mem_cons_self _ _)
        have hl2 : (comp ++ (cs2.flatten ++ s :: rest)) <+: ahead p := by
          simpa using hl
        have hcur : cur p = t := by
          rw [hcomp] at hl2
          exact cur_of_prefix p hp hl2 hn
        rw [hcur, hstop] at h
        simp only [Bool.false_eq_true, if_false] at h
        cases hsc : shiftComponent f (peek 0 p).2 with
        | error a => rw [hsc] at h; exact absurd h (by simp)
        | ok v =>
          obtain ⟨r1, q1⟩ := v
          rw [hsc] at h
          dsimp only at h
          obtain ⟨i1, p1⟩ := hok f _ _ _ _ hq1 (prefix_peek p hp hl2)
            (by rw [cur_peek_zero p hp]; exact hn) hsc
          exact ih cs2 _ _ s rest r q (fun x hx => hcs x (List.mem_cons_of_mem _ hx))
            (inv_skipWhitespace _ i1) (prefix_skipWhitespace _ i1 p1) hs h
    · have hsf := space_facts _ hn
      rw [hsf.1] at h
      simp only [Bool.false_eq_true, if_false] at h
      cases hsc : shiftComponent f (peek 0 p).2 with
      | error a => rw [hsc] at h; exact absurd h (by simp)
      | ok v =>
        obtain ⟨r1, q1⟩ := v
        rw [hsc] at h
        dsimp only at h
        have hq := shiftComponent_space f _ hq1 (by rw [cur_peek_zero p hp]; exact hn) _ _ hsc
        rw [shift_peek_zero p hp] at hq
        subst hq
        exact ih cs _ _ s rest r q hcs (inv_skipWhitespace _ (inv_shift p hp))
          (prefix_skipWhitespace _ (inv_shift p hp) (prefix_shift_space p hp hl hn)) hs h

theorem compOK_token (F : Nat) (t : TokenNode) (ho : isOpener t = false)
    (hf : t.TokenType ≠ FunctionToken) : CompOK F [t] := by
  intro p rest r q hp hl hn h
  have hl2 : (t :: rest) <+: ahead p := by simpa using hl
  have hcur := cur_of_prefix p hp hl2 hn
  simp only [isOpener, Bool.or_eq_false_iff, beq_eq_false_iff_ne, ne_eq] at ho
  cases F with
  | zero => simp [shiftComponent] at h
  | succ F =>
    rw [shiftComponent_plain F p hp (by rw [hcur]; exact ho.1.1) (by rw [hcur]; exact ho.1.2)
      (by rw [hcur]; exact ho.2) (by rw [hcur]; exact hf)] at h
    simp only [Except.ok.injEq, Prod.mk.injEq] at h
    rw [← h.2]
    exact ⟨inv_shift p hp, prefix_shift p hp (by rw [hcur]; exact hl2) hn⟩

theorem compOK_block (F : Nat) (o : TokenNode) (cs : List (List TokenNode)) (c : TokenNode)
    (ho : isOpener o = true) (hcs : GoodComps blockStop cs) (hc : isCloser c = true) :
    CompOK F (o :: (cs.flatten ++ [c])) := by
  intro p rest r q hp hl hn h
  have hl2 : (o :: (cs.flatten ++ c :: rest)) <+: ahead p := by simpa using hl
  have hcur := cur_of_prefix p hp hl2 hn
  have hop : decide ((cur p).TokenType ∈
      [LeftParenthesisToken, LeftBraceToken, LeftBracketToken]) = true := by
    rw [hcur]
    simp only [isOpener, Bool.or_eq_true, beq_iff_eq] at ho
    rcases ho with (ho | ho) | ho <;> rw [ho] <;> rfl
  cases F with
  | zero => simp [shiftComponent] at h
  | succ F =>
    rw [shiftComponent] at h
    unfold parseBlock at h
    rw [atAny_eq _ _ hp (by simp), hop] at h
    simp only [Bool.not_true, Bool.false_eq_true, if_false] at h
    rw [shift_peek_zero p hp] at h
    cases hb : blockLoop (shiftComponent F) (shift p).1 F [] (skipWhitespace (shift p).2) with
    | error a => rw [hb] at h; exact absurd h (by simp)
    | ok v =>
      obtain ⟨n, q1⟩ := v
      rw [hb] at h
      simp only [Except.ok.injEq, Prod.mk.injEq] at h
      rw [← h.2]
      exact blockLoop_comps F _ F cs [] _ c rest n q1 hcs
        (inv_skipWhitespace _ (inv_shift p hp))
        (prefix_skipWhitespace _ (inv_shift p hp)
          (prefix_shift p hp (by rw [hcur]; exact hl2) hn)) hc hb

theorem compOK_function (F : Nat) (f : TokenNode) (cs : List (List TokenNode)) (c : TokenNode)
    (hf : f.TokenType = FunctionToken) (hcs : GoodComps funcStop cs)
    (hc : c.TokenType = RightParenthesisToken) : CompOK F (f :: (cs.flatten ++ [c])) := by
  intro p rest r q hp hl hn h
  have hl2 : (f :: (cs.flatten ++ c :: rest)) <+: ahead p := by simpa using hl
  have hcur := cur_of_prefix p hp hl2 hn
  have hop : decide ((cur p).TokenType ∈
      [LeftParenthesisToken, LeftBraceToken, LeftBracketToken]) = false := by
    rw [hcur, hf]; rfl
  cases F with
  | zero => simp [shiftComponent] at h
  | succ F =>
    rw [shiftComponent] at h
    unfold parseBlock at h
    rw [atAny_eq _ _ hp (by simp), hop] at h
    simp only [Bool.not_false, if_true] at h
    unfold parseFunctionWith at h
    rw [atToken_eq, cur_peek_zero _ hp, peek_zero_idem _ hp, hcur, hf] at h
    simp only [beq_self_eq_true, Bool.not_true, Bool.false_eq_true, if_false] at h
    rw [shift_peek_zero p hp] at h
    cases hb : functionLoop (shiftComponent F) (shift p).1 F []
        (skipWhitespace (shift p).2) with
    | error a => rw [hb] at h; exact absurd h (by simp)
    | ok v =>
      obtain ⟨n, q1⟩ := v
      rw [hb] at h
      obtain ⟨⟨m, hm⟩, i1, p1⟩ := functionLoop_comps F _ F cs [] _ c rest n q1 hcs
        (inv_skipWhitespace _ (inv_shift p hp))
        (prefix_skipWhitespace _ (inv_shift p hp)
          (prefix_shift p hp (by rw [hcur]; exact hl2) hn)) hc hb
      subst hm
      simp only [Except.ok.injEq, Prod.mk.injEq] at h
      rw [← h.2]
      exact ⟨i1, p1⟩

theorem components_good {stop : TokenNode → Bool} {l : List TokenNode}
    (h : Components stop l) : ∃ cs, cs.flatten = l ∧ GoodComps stop cs := by
  induction h with
  | nil stop => exact ⟨[], rfl, fun _ hx => absurd hx (List.not_mem_nil _)⟩
  | token stop t rest hs ho hf _ ih =>
    obtain ⟨cs, e, g⟩ := ih
    refine ⟨[t] :: cs, by simp [e], fun comp hcomp => ?_⟩
    rcases List.mem_cons.1 hcomp with rfl | hm
    · exact ⟨t, [], rfl, hs, fun _ => rfl, fun F => compOK_token F t ho hf⟩
    · exact g comp hm
  | block stop o body c rest hs ho _ hc _ ihb ih =>
    obtain ⟨cs, e, g⟩ := ih
    obtain ⟨cb, eb, gb⟩ := ihb
    refine ⟨(o :: (cb.flatten ++ [c])) :: cs, by simp [e, eb], fun comp hcomp => ?_⟩
    rcases List.mem_cons.1 hcomp with rfl | hm
    · refine ⟨o, cb.flatten ++ [c], rfl, hs, fun hcm => ?_, fun F =>
        compOK_block F o cb c ho gb hc⟩
      simp only [isOpener, Bool.or_eq_true, beq_iff_eq] at ho
      rcases ho with (ho | ho) | ho <;> rw [ho] at hcm <;> exact absurd hcm (by decide)
    · exact g comp hm
  | function stop f args c rest hs hf _ hc _ iha ih =>
    obtain ⟨cs, e, g⟩ := ih
    obtain ⟨ca, ea, ga⟩ := iha
    refine ⟨(f :: (ca.flatten ++ [c])) :: cs, by simp [e, ea], fun comp hcomp => ?_⟩
    rcases List.mem_cons.1 hcomp with rfl | hm
    · refine ⟨f, ca.flatten ++ [c], rfl, hs, fun hcm => ?_, fun F =>
        compOK_function F f ca c hf ga hc⟩
      rw [hf] at hcm
      exact absurd hcm (by decide)
    · exact g comp hm

theorem atRuleLoop_components (f : Nat) (pre : List TokenNode) (nodes : List Node)
    (p : Lookahead) (s : TokenNode) (rest : List TokenNode) (r : List Node) (q : Lookahead)
    (hpre : Components scanStop pre) (hp : Inv p) (hl : (pre ++ s :: rest) <+: ahead p)
    (hs : s.TokenType = SemicolonToken) (h : atRuleLoop f nodes p = .ok (r, q)) :
    Inv q ∧ cur q = s := by
  obtain ⟨cs, e, g⟩ := components_good hpre
  rw [← e] at hl
  exact atRuleLoop_comps f cs nodes p s rest r q g hp hl hs h

/-- C12: `Next` is called at an at-keyword token, with fuel above twice the measure of what is
left plus one. It returns an AtRule event whose node is the at-rule of that token, and pushes
`AtRuleState`. When the tokens still to come, whitespace and comments apart, are the
at-keyword, a sequence `pre` of components none of which begins with `;`, `{` or an error
token, and a `;`, the parser stands at this `;` after the event: the `;` is not consumed.
And whenever the parser stands at a `;` after the event, the `Next` call that follows
returns an EndAtRule event whose node is that `;` token, and the stack of states is again
what it was before the at-rule. -/
theorem atrule_statement_form_closes [BytesLib] (fuel : Nat) (p : Parser2)
    (hp : Good p.toLookahead) (hs : p.state ≠ [])
    (hat : (cur p.toLookahead).TokenType = AtKeywordToken)
    (hf : 2 * mu p.toLookahead + 1 < fuel) :
    ∃ nodes q,
      Parser2.Next fuel p
        = .ok (AtRuleGrammar, Node.AtRule (cur p.toLookahead) nodes [], q) ∧
      q.state = p.state ++ [AtRuleState] ∧
      (∀ pre semi rest, ahead p.toLookahead = cur p.toLookahead :: (pre ++ semi :: rest) →
        Components scanStop pre → semi.TokenType = SemicolonToken →
        cur q.toLookahead = semi) ∧
      ((cur q.toLookahead).TokenType = SemicolonToken →
        ∃ q2, Parser2.Next fuel q
            = .ok (EndAtRuleGrammar, Node.Token (cur q.toLookahead), q2) ∧
          q2.state = p.state) := by
  have hi := hp.1
  obtain ⟨nodes, q, hl, hn⟩ := next_at_atkeyword fuel p hp hs hat hf
  refine ⟨nodes, _, hn, rfl, fun pre semi rest ha hpre hsemi => ?_, fun hsemi => ?_⟩
  · have hns : notSpace (cur p.toLookahead) = true := by
      simp [notSpace, hat]
    have hpf : (cur p.toLookahead :: (pre ++ semi :: rest)) <+: ahead p.toLookahead := by
      rw [ha]
    obtain ⟨hq2, hc2⟩ := atRuleLoop_components fuel pre [] _ semi rest nodes q hpre
      (inv_skipWhitespace _ (inv_shift _ hi))
      (prefix_skipWhitespace _ (inv_shift _ hi) (prefix_shift _ hi hpf hns)) hsemi hl
    have hnb : ¬ ((cur q).TokenType == LeftBraceToken) = true := by
      rw [hc2, hsemi]; decide
    dsimp only
    rw [if_neg hnb, cur_peek_zero _ hq2, hc2]
  · exact (atrule_event_then_close fuel p _ _ hi (by omega) hn hsemi).2

section
attribute [local instance] asciiLib

/-- C12 on `@import f(x, y) (a [b]);`: the tokens to come are the at-keyword, the components
of the prelude (a function with two arguments and a block that holds a block) and the `;`;
the AtRule event leaves the `;` in place and the next event is the EndAtRule event with the
`;` token, after which the stack of states is that of the new parser. -/
theorem atrule_statement_form_closes_witness :
    (NewParser2 importComponentsStream).state ≠ [] ∧
    (cur (NewParser2 importComponentsStream).toLookahead).TokenType = AtKeywordToken ∧
    2 * mu (NewParser2 importComponentsStream).toLookahead + 1 < 40 ∧
    ahead (NewParser2 importComponentsStream).toLookahead
      = cur (NewParser2 importComponentsStream).toLookahead ::
          ([⟨FunctionToken, [102, 40]⟩, ⟨IdentToken, [120]⟩, ⟨CommaToken, [44]⟩,
            ⟨IdentToken, [121]⟩, ⟨RightParenthesisToken, [41]⟩,
            ⟨LeftParenthesisToken, [40]⟩, ⟨IdentToken, [97]⟩, ⟨LeftBracketToken, [91]⟩,
            ⟨IdentToken, [98]⟩, ⟨RightBracketToken, [93]⟩, ⟨RightParenthesisToken, [41]⟩] ++
            ⟨SemicolonToken, [59]⟩ :: []) ∧
    Components scanStop [⟨FunctionToken, [102, 40]⟩, ⟨IdentToken, [120]⟩, ⟨CommaToken, [44]⟩,
      ⟨IdentToken, [121]⟩, ⟨RightParenthesisToken, [41]⟩,
      ⟨LeftParenthesisToken, [40]⟩, ⟨IdentToken, [97]⟩, ⟨LeftBracketToken, [91]⟩,
      ⟨IdentToken, [98]⟩, ⟨RightBracketToken, [93]⟩, ⟨RightParenthesisToken, [41]⟩] ∧
    (∃ nodes q,
      Parser2.Next 40 (NewParser2 importComponentsStream)
        = .ok (AtRuleGrammar,
            Node.AtRule (cur (NewParser2 importComponentsStream).toLookahead) nodes [], q) ∧
      q.state = (NewParser2 importComponentsStream).state ++ [AtRuleState] ∧
      (∀ pre semi rest,
        ahead (NewParser2 importComponentsStream).toLookahead
          = cur (NewParser2 importComponentsStream).toLookahead :: (pre ++ semi :: rest) →
        Components scanStop pre → semi.TokenType = SemicolonToken →
        cur q.toLookahead = semi) ∧
      ((cur q.toLookahead).TokenType = SemicolonToken →
        ∃ q2, Parser2.Next 40 q
            = .ok (EndAtRuleGrammar, Node.Token (cur q.toLookahead), q2) ∧
          q2.state = (NewParser2 importComponentsStream).state)) ∧
    ∃ q q2, Parser2.Next 40 (NewParser2 importComponentsStream)
        = .ok (AtRuleGrammar, Node.AtRule ⟨AtKeywordToken, [64, 105, 109, 112, 111, 114, 116]⟩
            [Node.Function ⟨FunctionToken, [102, 40]⟩
              [Node.Argument [Node.Token ⟨IdentToken, [120]⟩],
                Node.Argument [Node.Token ⟨IdentToken, [121]⟩]],
             Node.Block ⟨LeftParenthesisToken, [40]⟩
              [Node.Token ⟨IdentToken, [97]⟩,
                Node.Block ⟨LeftBracketToken, [91]⟩ [Node.Token ⟨IdentToken, [98]⟩]
                  (some ⟨RightBracketToken, [93]⟩)]
              (some ⟨RightParenthesisToken, [41]⟩)] [], q) ∧
      cur q.toLookahead = ⟨SemicolonToken, [59]⟩ ∧
      q.state = [StylesheetState, AtRuleState] ∧
      Parser2.Next 40 q
        = .ok (EndAtRuleGrammar, Node.Token ⟨SemicolonToken, [59]⟩, q2) ∧
      q2.state = [StylesheetState] :=
  ⟨by decide, rfl, by decide, rfl,
    Components.function scanStop ⟨FunctionToken, [102, 40]⟩
      [⟨IdentToken, [120]⟩, ⟨CommaToken, [44]⟩, ⟨IdentToken, [121]⟩]
      ⟨RightParenthesisToken, [41]⟩ _ rfl rfl
      (Components.token funcStop _ _ rfl rfl (by decide)
        (Components.token funcStop _ _ rfl rfl (by decide)
          (Components.token funcStop _ _ rfl rfl (by decide) (Components.nil funcStop))))
      rfl
      (Components.block scanStop ⟨LeftParenthesisToken, [40]⟩
        [⟨IdentToken, [97]⟩, ⟨LeftBracketToken, [91]⟩, ⟨IdentToken, [98]⟩,
          ⟨RightBracketToken, [93]⟩]
        ⟨RightParenthesisToken, [41]⟩ [] rfl rfl
        (Components.token blockStop _ _ rfl rfl (by decide)
          (Components.block blockStop ⟨LeftBracketToken, [91]⟩ [⟨IdentToken, [98]⟩]
            ⟨RightBracketToken, [93]⟩ [] rfl rfl
            (Components.token blockStop _ _ rfl rfl (by decide) (Components.nil blockStop))
            rfl (Components.nil blockStop)))
        rfl (Components.nil scanStop)),
    atrule_statement_form_closes 40 (NewParser2 importComponentsStream)
      ⟨newParser2_inv importComponentsStream,
        by simp [importComponentsStream, NewParser2, live, DelimOK]⟩
      (by decide) rfl (by decide),
    ⟨_, _, rfl, rfl, rfl, rfl, rfl⟩⟩

end

end css

namespace js
open TokenType GrammarType

/-! ### The monad of the parser methods and the primitive methods -/

theorem bind_eq {α β : Type} (m : M α) (f : α → M β) (p : Parser) :
    (m >>= f) p = match m p with
      | .error e => .error e
      | .ok (a, q) => f a q := rfl

theorem pure_eq {α : Type} (a : α) (p : Parser) : (pure a : M α) p = .ok (a, p) := rfl

theorem Returns.rpure {α : Type} {a : α} {p : Parser} {Q : α → Parser → Prop} (h : Q a p) :
    Returns (pure a) p Q := ⟨a, p, rfl, h⟩

theorem Returns.rbind {α β : Type} {m : M α} {f : α → M β} {p : Parser}
    {Q : α → Parser → Prop} {R : β → Parser → Prop} (h : Returns m p Q)
    (hf : ∀ a q, Q a q → Returns (f a) q R) : Returns (m >>= f) p R := by
  obtain ⟨a, q, e, hq⟩ := h
  obtain ⟨b, r, e2, hr⟩ := hf a q hq
  exact ⟨b, r, by rw [bind_eq, e]; exact e2, hr⟩

theorem Returns.rmono {α : Type} {m : M α} {p : Parser} {Q R : α → Parser → Prop}
    (h : Returns m p Q) (hQ : ∀ a q, Q a q → R a q) : Returns m p R := by
  obtain ⟨a, q, e, hq⟩ := h
  exact ⟨a, q, e, hQ a q hq⟩

theorem returns_getTt {β : Type} (f : TokenType → M β) (p : Parser)
    (R : β → Parser → Prop) (h : Returns (f p.tt) p R) : Returns (getTt >>= f) p R := h

theorem returns_getData {β : Type} (f : List Nat → M β) (p : Parser)
    (R : β → Parser → Prop) (h : Returns (f p.data) p R) : Returns (getData >>= f) p R := h

theorem returns_getPLT {β : Type} (f : Bool → M β) (p : Parser)
    (R : β → Parser → Prop) (h : Returns (f p.prevLineTerminator) p R) :
    Returns (getPrevLineTerminator >>= f) p R := h

theorem meas_pos {p : Parser} (h : p.tt ≠ ErrorToken) : 0 < meas p := by
  simp [meas, h]

theorem meas_error {p : Parser} (h : p.tt = ErrorToken) : meas p = 0 := by
  simp [meas, h]

theorem tt_of_meas_zero {p : Parser} (h : meas p = 0) : p.tt = ErrorToken := by
  by_contra hn
  have := meas_pos hn
  omega

theorem Step.srefl {p : Parser} (h : WF p) : Step p p := ⟨h, le_refl _, fun _ => rfl⟩

theorem Step.sthen {p q r : Parser} (h1 : Step p q) (h2 : Step q r) : Step p r := by
  refine ⟨h2.1, le_trans h2.2.1 h1.2.1, fun he => ?_⟩
  have e1 := h1.2.2 he
  have e2 := h2.2.2 (by rw [e1]; exact he)
  rw [e2, e1]

theorem Prog.then_step {p q r : Parser} (h1 : Prog p q) (h2 : Step q r) : Prog p r :=
  ⟨h1.1.sthen h2, fun hne => lt_of_le_of_lt h2.2.1 (h1.2 hne)⟩

theorem Step.then_prog {p q r : Parser} (h1 : Step p q) (h2 : Prog q r) : Prog p r := by
  refine ⟨h1.sthen h2.1, fun hne => ?_⟩
  by_cases hq : q.tt = ErrorToken
  · have := meas_error hq
    have := h2.1.2.1
    have := meas_pos hne
    omega
  · have := h2.2 hq
    have := h1.2.1
    omega

theorem Step.tt_error {p q : Parser} (h : Step p q) (hp : p.tt = ErrorToken) :
    q.tt = ErrorToken := by
  have := h.2.1
  rw [meas_error hp] at this
  exact tt_of_meas_zero (by omega)

theorem nextLoop_facts (n : Nat) (p : Parser) :
    (nextLoop n p).err = p.err ∧ (nextLoop n p).l.toks.length ≤ p.l.toks.length := by
  induction n generalizing p with
  | zero => exact ⟨rfl, le_refl _⟩
  | succ n ih =>
    rw [nextLoop]
    split
    · dsimp only
      refine ⟨?_, ?_⟩
      · rw [(ih _).1]; split <;> rfl
      · refine le_trans (ih _).2 ?_
        have : ∀ l : Lexer, l.Next.2.toks.length ≤ l.toks.length := by
          intro l
          unfold Lexer.Next
          split
          · exact le_refl _
          · rename_i h; rw [h]; simp
        split <;> exact this _
    · exact ⟨rfl, le_refl _⟩

theorem nextState_error (p : Parser) (h : p.tt = ErrorToken) : nextState p = p := by
  simp [nextState, h]

theorem nextState_prog (p : Parser) (hwf : WF p) : Prog p (nextState p) := by
  by_cases h : p.tt = ErrorToken
  · rw [nextState_error p h]
    exact ⟨Step.srefl hwf, fun hn => absurd h hn⟩
  · have herr : p.err = none := by
      by_contra hn
      exact h (hwf hn)
    have hq : (nextState p).err = none := by
      simp only [nextState, if_neg h]
      rw [(nextLoop_facts _ _).1]
      exact herr
    have hlen : (nextState p).tt ≠ ErrorToken →
        (nextState p).l.toks.length < p.l.toks.length := by
      intro hne
      simp only [nextState, if_neg h] at hne ⊢
      refine lt_of_le_of_lt (nextLoop_facts _ _).2 ?_
      dsimp only
      cases hl : p.l.toks with
      | nil =>
        exfalso
        apply hne
        have e1 : p.l.Next = ((ErrorToken, []), p.l) := by
          unfold Lexer.Next; rw [hl]
        rw [e1]
        dsimp only
        rw [hl]
        simp [nextLoop]
      | cons t ts =>
        have e1 : p.l.Next = (t, { p.l with toks := ts, offset := p.l.offset + t.2.length }) := by
          unfold Lexer.Next; rw [hl]
        rw [e1]
        simp
    have hm : meas (nextState p) < meas p := by
      by_cases hq2 : (nextState p).tt = ErrorToken
      · rw [meas_error hq2]; exact meas_pos h
      · have := hlen hq2
        simp only [meas, if_neg h, if_neg hq2]
        omega
    exact ⟨⟨fun he => absurd hq he, le_of_lt hm, fun he => absurd herr he⟩, fun _ => hm⟩

theorem returns_next (p : Parser) (hwf : WF p) :
    Returns next p (fun _ q => Prog p q ∧ q = nextState p) :=
  ⟨(), nextState p, rfl, nextState_prog p hwf, rfl⟩

theorem failState_prog (rule : String) (expected : List TokenType) (p : Parser)
    (hwf : WF p) :
    Prog p (failState rule expected p) ∧ (failState rule expected p).tt = ErrorToken ∧
      (failState rule expected p).err ≠ none := by
  cases he : p.err with
  | none =>
    have e : failState rule expected p
        = { p with err := some (Error.grammar ((p.l.offset : Int) - (p.data.length : Int))
              expected (if p.tt = ErrorToken then Found.lexer p.l.Err else Found.data p.data)
              rule), tt := ErrorToken, data := [] } := by
      simp [failState, he]
    rw [e]
    refine ⟨⟨⟨fun _ => rfl, by simp [meas], fun h => absurd he h⟩, fun hne => ?_⟩, rfl,
      by simp⟩
    have := meas_pos hne
    simpa [meas] using this
  | some x =>
    have e : failState rule expected p = p := by simp [failState, he]
    rw [e]
    have ht := hwf (by rw [he]; simp)
    exact ⟨⟨Step.srefl hwf, fun hne => absurd ht hne⟩, ht, by rw [he]; simp⟩

theorem returns_fail (rule : String) (expected : List TokenType) (p : Parser)
    (hwf : WF p) :
    Returns (fail rule expected) p (fun _ q => Prog p q ∧ q.tt = ErrorToken) :=
  ⟨(), _, rfl, (failState_prog rule expected p hwf).1, (failState_prog rule expected p hwf).2.1⟩

theorem returns_parseToken (p : Parser) (hwf : WF p) :
    Returns parseToken p (fun a q => Prog p q ∧ a = Node.mk TokenGrammar [] p.tt p.data) :=
  ⟨_, nextState p, rfl, nextState_prog p hwf, rfl⟩

theorem returns_consume (rule : String) (tt : TokenType) (p : Parser) (hwf : WF p) :
    Returns (consume rule tt) p
      (fun b q => Prog p q ∧ (b = true → p.tt = tt) ∧ (b = false → q.tt = ErrorToken)) := by
  by_cases h : p.tt = tt
  · refine ⟨true, nextState p, ?_, nextState_prog p hwf, fun _ => h, fun hb => by simp at hb⟩
    simp [consume, bind_eq, getTt, h, next, pure_eq]
  · refine ⟨false, failState rule [tt] p, ?_, (failState_prog rule [tt] p hwf).1,
      fun hb => by simp at hb, fun _ => (failState_prog rule [tt] p hwf).2.1⟩
    simp [consume, bind_eq, getTt, h, fail, pure_eq]

theorem returns_reLex (env : Env) (henv : EnvOK env) (p : Parser) (hwf : WF p)
    (hne : p.tt ≠ ErrorToken) : Returns (reLex env) p (fun _ q => Step p q) := by
  have herr : p.err = none := by
    by_contra hn
    exact hne (hwf hn)
  refine ⟨(), _, rfl, fun he => absurd herr he, ?_, fun he => absurd herr he⟩
  have := henv.2 p.l
  simp only [meas, if_neg hne]
  split
  · omega
  · omega

/-! ### Calls in a sequence

Each lemma takes the call `m >>= f` at the parser `q`, which comes after the parser `p` at
which the method started, and hands to the rest `f a` what the call has done. -/

theorem returns_getTt_iff {β : Type} (f : TokenType → M β) (p : Parser)
    (R : β → Parser → Prop) : Returns (getTt >>= f) p R ↔ Returns (f p.tt) p R := Iff.rfl

theorem returns_getData_iff {β : Type} (f : List Nat → M β) (p : Parser)
    (R : β → Parser → Prop) : Returns (getData >>= f) p R ↔ Returns (f p.data) p R := Iff.rfl

theorem returns_getPLT_iff {β : Type} (f : Bool → M β) (p : Parser)
    (R : β → Parser → Prop) :
    Returns (getPrevLineTerminator >>= f) p R ↔ Returns (f p.prevLineTerminator) p R :=
  Iff.rfl

theorem call_of_prog {α β : Type} {m : M α} {p q : Parser} {f : α → M β}
    {R : β → Parser → Prop} {Q : α → Parser → Prop}
    (hm : Returns m q (fun a q2 => Prog q q2 ∧ Q a q2)) (hs : Step p q)
    (h : ∀ a q2, Step p q2 → (q.tt ≠ ErrorToken → meas q2 < meas q) → meas q2 ≤ meas q →
      Q a q2 → Returns (f a) q2 R) : Returns (m >>= f) q R :=
  Returns.rbind hm (fun a q2 hq2 => h a q2 (hs.sthen hq2.1.1) hq2.1.2 hq2.1.1.2.1 hq2.2)

theorem call_of_step {α β : Type} {m : M α} {p q : Parser} {f : α → M β}
    {R : β → Parser → Prop} {Q : α → Parser → Prop}
    (hm : Returns m q (fun a q2 => Step q q2 ∧ Q a q2)) (hs : Step p q)
    (h : ∀ a q2, Step p q2 → meas q2 ≤ meas q → Q a q2 → Returns (f a) q2 R) :
    Returns (m >>= f) q R :=
  Returns.rbind hm (fun a q2 hq2 => h a q2 (hs.sthen hq2.1) hq2.1.2.1 hq2.2)

theorem call_next {β : Type} {p q : Parser} {f : Unit → M β} {R : β → Parser → Prop}
    (hs : Step p q)
    (h : ∀ q2, Step p q2 → (q.tt ≠ ErrorToken → meas q2 < meas q) → meas q2 ≤ meas q →
      Returns (f ()) q2 R) : Returns (next >>= f) q R :=
  call_of_prog (Q := fun _ _ => True)
    ((returns_next q hs.1).rmono (fun _ _ hq => ⟨hq.1, trivial⟩)) hs
    (fun _ q2 h1 h2 h3 _ => h q2 h1 h2 h3)

theorem call_parseToken {β : Type} {p q : Parser} {f : Node → M β}
    {R : β → Parser → Prop} (hs : Step p q)
    (h : ∀ a q2, Step p q2 → (q.tt ≠ ErrorToken → meas q2 < meas q) → meas q2 ≤ meas q →
      Returns (f a) q2 R) : Returns (parseToken >>= f) q R :=
  call_of_prog (Q := fun _ _ => True)
    ((returns_parseToken q hs.1).rmono (fun _ _ hq => ⟨hq.1, trivial⟩)) hs
    (fun a q2 h1 h2 h3 _ => h a q2 h1 h2 h3)

theorem call_fail {β : Type} {p q : Parser} {f : Unit → M β} {R : β → Parser → Prop}
    (rule : String) (expected : List TokenType) (hs : Step p q)
    (h : ∀ q2, Step p q2 → q2.tt = ErrorToken → Returns (f ()) q2 R) :
    Returns (fail rule expected >>= f) q R :=
  Returns.rbind (returns_fail rule expected q hs.1)
    (fun _ q2 hq2 => h q2 (hs.sthen hq2.1.1) hq2.2)

theorem call_consume {β : Type} {p q : Parser} {f : Bool → M β} {R : β → Parser → Prop}
    (rule : String) (tt : TokenType) (hs : Step p q)
    (h : ∀ b q2, Step p q2 → (q.tt ≠ ErrorToken → meas q2 < meas q) → meas q2 ≤ meas q →
      (b = false → q2.tt = ErrorToken) → (b = true → q.tt = tt) → Returns (f b) q2 R) :
    Returns (consume rule tt >>= f) q R :=
  call_of_prog (Q := fun b q2 => (b = false → q2.tt = ErrorToken) ∧ (b = true → q.tt = tt))
    ((returns_consume rule tt q hs.1).rmono (fun _ _ hq => ⟨hq.1, hq.2.2, hq.2.1⟩)) hs
    (fun b q2 h1 h2 h3 h4 => h b q2 h1 h2 h3 h4.1 h4.2)

theorem Spec.call {α β : Type} {F B c : Nat} {m : M α} (hm : Spec F B c m) {p q : Parser}
    {f : α → M β} {R : β → Parser → Prop} (hs : Step p q) (hB : 3 * meas q + c ≤ B)
    (hF : meas q < F)
    (h : ∀ a q2, Step p q2 → (q.tt ≠ ErrorToken → meas q2 < meas q) → meas q2 ≤ meas q →
      Returns (f a) q2 R) : Returns (m >>= f) q R :=
  call_of_prog (Q := fun _ _ => True)
    ((hm q hs.1 hB hF).rmono (fun _ _ hq => ⟨hq, trivial⟩)) hs
    (fun a q2 h1 h2 h3 _ => h a q2 h1 h2 h3)

theorem SpecQ.callQ {α β : Type} {F B c : Nat} {m : M α} {Q : α → Parser → Prop}
    (hm : SpecQ F B c m Q) {p q : Parser}
    {f : α → M β} {R : β → Parser → Prop} (hs : Step p q) (hB : 3 * meas q + c ≤ B)
    (hF : meas q < F)
    (h : ∀ a q2, Step p q2 → (q.tt ≠ ErrorToken → meas q2 < meas q) → meas q2 ≤ meas q →
      Q a q2 → Returns (f a) q2 R) : Returns (m >>= f) q R :=
  call_of_prog (hm q hs.1 hB hF) hs h

theorem call_optToken {α β : Type} {p q : Parser} {c : TokenType → Prop} [DecidablePred c]
    {g : Node → α} {a0 : α} {f : α → M β} {R : β → Parser → Prop} (hs : Step p q)
    (h : ∀ a q2, Step p q2 → meas q2 ≤ meas q → (a = a0 ∨ ∃ t, a = g t) →
      Returns (f a) q2 R) :
    Returns ((getTt >>= fun x => if c x then parseToken >>= fun t => pure (g t) else pure a0)
      >>= f) q R := by
  refine call_of_step (Q := fun a _ => a = a0 ∨ ∃ t, a = g t) ?_ hs h
  simp only [returns_getTt_iff]
  by_cases hc : c q.tt
  · rw [if_pos hc]
    refine call_parseToken (Step.srefl hs.1) (fun t q2 hs2 _ _ => ?_)
    exact Returns.rpure ⟨hs2, Or.inr ⟨t, rfl⟩⟩
  · rw [if_neg hc]
    exact Returns.rpure ⟨Step.srefl hs.1, Or.inl rfl⟩

theorem prog_via {p q r : Parser} (hs : Step p q) (hr : Step p r)
    (hlt : q.tt ≠ ErrorToken → meas r < meas q) (hle : meas r ≤ meas q) : Prog p r := by
  refine ⟨hr, fun hne => ?_⟩
  have := meas_pos hne
  have := hs.2.1
  by_cases hq : q.tt = ErrorToken
  · have := meas_error hq
    omega
  · have := hlt hq
    omega

theorem prog_of_error {p q : Parser} (hs : Step p q) (he : q.tt = ErrorToken) : Prog p q :=
  ⟨hs, fun hne => by rw [meas_error he]; exact meas_pos hne⟩

theorem Spec.toQ {α : Type} {F B c : Nat} {m : M α} (hm : Spec F B c m) :
    SpecQ F B c m (fun _ _ => True) :=
  fun p hwf hB hF => (hm p hwf hB hF).rmono (fun _ _ h => ⟨h, trivial⟩)

theorem SpecQ.toSpec {α : Type} {F B c : Nat} {m : M α} {Q : α → Parser → Prop}
    (hm : SpecQ F B c m Q) : Spec F B c m :=
  fun p hwf hB hF => (hm p hwf hB hF).rmono (fun _ _ h => h.1)

theorem ne_error_of_step {p q : Parser} (hs : Step p q) (h : q.tt ≠ ErrorToken) :
    p.tt ≠ ErrorToken := fun hp => h (hs.tt_error hp)

/-! ### Expressions, template literals and binding elements -/

theorem parseExprLoop_spec (F B : Nat) (r : Rec) (hr : RecOK F B r) (f : Nat) :
    ∀ (node : Node) (p : Parser), WF p → 3 * meas p ≤ B → meas p < F → meas p < f →
      Returns (parseExprLoop r f node) p (fun _ q => Step p q) := by
  induction f with
  | zero => intro _ p _ _ _ h; omega
  | succ f ih =>
    intro node p hwf hB hF hf
    unfold parseExprLoop
    simp only [returns_getTt_iff]
    by_cases h : p.tt = CommaToken
    · rw [if_pos h]
      have hne : p.tt ≠ ErrorToken := by rw [h]; decide
      refine call_next (Step.srefl hwf) (fun q hs hlt hle => ?_)
      have := hlt hne
      refine hr.2.1.call hs (by omega) (by omega) (fun n q2 hs2 _ hle2 => ?_)
      exact (ih _ q2 hs2.1 (by omega) (by omega) (by omega)).rmono
        (fun _ q3 hq3 => hs2.sthen hq3)
    · rw [if_neg h]
      exact Returns.rpure (Step.srefl hwf)

theorem parseExpr_spec (F B : Nat) (r : Rec) (hr : RecOK F B r) :
    Spec F B 2 (parseExpr F r) := by
  intro p hwf hB hF
  unfold parseExpr
  refine hr.2.1.call (Step.srefl hwf) hB hF (fun n q hs hlt hle => ?_)
  exact (parseExprLoop_spec F B r hr F _ q hs.1 (by omega) (by omega) (by omega)).rmono
    (fun _ q2 hq2 => ⟨hs.sthen hq2, fun hne => by have := hlt hne; have := hq2.2.1; omega⟩)

theorem parseTemplateLiteral_spec (F B : Nat) (r : Rec) (hr : RecOK F B r)
    (nodes : List Node) : SpecQ F B 0 (parseTemplateLiteral F r nodes) NE := by
  intro p hwf hB hF
  unfold parseTemplateLiteral
  simp only [returns_getTt_iff]
  by_cases h : p.tt = TemplateStartToken ∨ p.tt = TemplateMiddleToken
  · rw [if_pos h]
    have hne : p.tt ≠ ErrorToken := by rcases h with h | h <;> rw [h] <;> decide
    refine call_parseToken (Step.srefl hwf) (fun t q hs hlt hle => ?_)
    have := hlt hne
    refine (parseExpr_spec F B r hr).call hs (by omega) (by omega) (fun e q2 hs2 _ hle2 => ?_)
    simp only [returns_getTt_iff]
    by_cases h2 : q2.tt = TemplateEndToken
    · rw [if_pos h2]
      refine call_parseToken hs2 (fun t2 q3 hs3 _ hle3 => ?_)
      exact Returns.rpure ⟨⟨hs3, fun _ => by omega⟩, Or.inl (by simp)⟩
    · rw [if_neg h2]
      refine call_fail _ _ hs2 (fun q3 hs3 he => ?_)
      exact Returns.rpure ⟨prog_of_error hs3 he, Or.inr he⟩
  · rw [if_neg h]
    refine call_parseToken (Step.srefl hwf) (fun t q hs hlt hle => ?_)
    exact Returns.rpure ⟨⟨hs, hlt⟩, Or.inl (by simp)⟩

theorem parseBindingElement_spec (F B : Nat) (r : Rec) (hr : RecOK F B r) :
    Spec F B 1 (parseBindingElement r) := by
  intro p hwf hB hF
  unfold parseBindingElement
  refine hr.2.2.2.call (Step.srefl hwf) hB hF (fun b q hs hlt hle => ?_)
  simp only [returns_getTt_iff]
  by_cases h : q.tt = EqToken
  · rw [if_pos h]
    have hq : q.tt ≠ ErrorToken := by rw [h]; decide
    have := hlt (ne_error_of_step hs hq)
    refine call_parseToken hs (fun t q2 hs2 _ hle2 => ?_)
    refine hr.2.1.call hs2 (by omega) (by omega) (fun e q3 hs3 _ hle3 => ?_)
    exact Returns.rpure ⟨hs3, fun _ => by omega⟩
  · rw [if_neg h]
    exact Returns.rpure ⟨hs, hlt⟩

/-! ### Parameters, blocks, functions and variable declarations -/

theorem parseFuncParamsLoop_spec (F B : Nat) (r : Rec) (hr : RecOK F B r) (rule : String)
    (f : Nat) :
    ∀ (nodes : List Node) (p : Parser), WF p → 3 * meas p + 1 ≤ B → meas p < F →
      meas p < f → Returns (parseFuncParamsLoop rule r f nodes) p (fun _ q => Step p q) := by
  induction f with
  | zero => intro _ p _ _ _ h; omega
  | succ f ih =>
    intro nodes p hwf hB hF hf
    unfold parseFuncParamsLoop
    simp only [returns_getTt_iff]
    by_cases h1 : p.tt ≠ CloseParenToken
    · rw [if_pos h1]
      simp only [returns_getTt_iff]
      by_cases h2 : p.tt = EllipsisToken
      · rw [if_pos h2]
        have hne : p.tt ≠ ErrorToken := by rw [h2]; decide
        refine call_parseToken (Step.srefl hwf) (fun t q hs hlt hle => ?_)
        have := hlt hne
        refine hr.2.2.2.call hs (by omega) (by omega) (fun b q2 hs2 _ _ => ?_)
        exact Returns.rpure hs2
      · rw [if_neg h2]
        refine (parseBindingElement_spec F B r hr).call (Step.srefl hwf) hB hF
          (fun b q hs hlt hle => ?_)
        simp only [returns_getTt_iff]
        by_cases h3 : q.tt = CommaToken
        · rw [if_pos h3]
          have hq : q.tt ≠ ErrorToken := by rw [h3]; decide
          refine call_next hs (fun q2 hs2 hlt2 hle2 => ?_)
          have := hlt2 hq
          exact (ih _ q2 hs2.1 (by omega) (by omega) (by omega)).rmono
            (fun _ q3 hq3 => hs2.sthen hq3)
        · rw [if_neg h3]
          simp only [returns_getTt_iff]
          by_cases h4 : q.tt = CloseParenToken
          · rw [if_pos h4]
            exact Returns.rpure hs
          · rw [if_neg h4]
            refine call_fail _ _ hs (fun q2 hs2 _ => ?_)
            exact Returns.rpure hs2
    · rw [if_neg h1]
      exact Returns.rpure (Step.srefl hwf)

theorem parseFuncParams_spec (F B : Nat) (r : Rec) (hr : RecOK F B r) (rule : String)
    (nodes : List Node) : Spec F B 0 (parseFuncParams rule F r nodes) := by
  intro p hwf hB hF
  unfold parseFuncParams
  refine call_consume _ _ (Step.srefl hwf) (fun b q hs hlt hle hb ht => ?_)
  cases b with
  | false =>
    simp only [Bool.not_false, if_true]
    exact Returns.rpure (prog_of_error hs (hb rfl))
  | true =>
    simp only [Bool.not_true, Bool.false_eq_true, if_false]
    have hp : p.tt ≠ ErrorToken := by rw [ht rfl]; decide
    have := hlt hp
    refine call_of_step (Q := fun _ _ => True)
      ((parseFuncParamsLoop_spec F B r hr rule F nodes q hs.1 (by omega) (by omega)
        (by omega)).rmono (fun _ _ h => ⟨h, trivial⟩)) hs (fun o q2 hs2 hle2 _ => ?_)
    cases o with
    | none => exact Returns.rpure ⟨hs2, fun _ => by omega⟩
    | some ns =>
      refine call_consume _ _ hs2 (fun b q3 hs3 _ hle3 _ _ => ?_)
      cases b <;> simp only [Bool.not_false, Bool.not_true, Bool.false_eq_true, if_true,
        if_false] <;> exact Returns.rpure ⟨hs3, fun _ => by omega⟩

theorem parseBlockStmtLoop_spec (F B : Nat) (r : Rec) (hr : RecOK F B r) (f : Nat) :
    ∀ (nodes : List Node) (p : Parser), WF p → 3 * meas p + 3 ≤ B → meas p < F →
      meas p < f → Returns (parseBlockStmtLoop r f nodes) p (fun _ q => Step p q) := by
  induction f with
  | zero => intro _ p _ _ _ h; omega
  | succ f ih =>
    intro nodes p hwf hB hF hf
    unfold parseBlockStmtLoop
    simp only [returns_getTt_iff]
    by_cases h1 : p.tt ≠ ErrorToken
    · rw [if_pos h1]
      simp only [returns_getTt_iff]
      by_cases h2 : p.tt = CloseBraceToken
      · rw [if_pos h2]
        refine call_parseToken (Step.srefl hwf) (fun t q hs hlt hle => ?_)
        exact Returns.rpure hs
      · rw [if_neg h2]
        refine hr.1.call (Step.srefl hwf) hB hF (fun st q hs hlt hle => ?_)
        have := hlt h1
        exact (ih _ q hs.1 (by omega) (by omega) (by omega)).rmono
          (fun _ q3 hq3 => hs.sthen hq3)
    · rw [if_neg h1]
      exact Returns.rpure (Step.srefl hwf)

theorem parseBlockStmt_spec (F B : Nat) (r : Rec) (hr : RecOK F B r) (rule : String) :
    Spec F B 0 (parseBlockStmt rule F r) := by
  intro p hwf hB hF
  unfold parseBlockStmt
  simp only [returns_getTt_iff]
  by_cases h1 : p.tt ≠ OpenBraceToken
  · rw [if_pos h1]
    refine call_fail _ _ (Step.srefl hwf) (fun q hs he => ?_)
    exact Returns.rpure (prog_of_error hs he)
  · rw [if_neg h1]
    have hp : p.tt ≠ ErrorToken := by
      have : p.tt = OpenBraceToken := not_not.mp h1
      rw [this]; decide
    refine call_parseToken (Step.srefl hwf) (fun t q hs hlt hle => ?_)
    have := hlt hp
    refine call_of_step (Q := fun _ _ => True)
      ((parseBlockStmtLoop_spec F B r hr F [t] q hs.1 (by omega) (by omega)
        (by omega)).rmono (fun _ _ h => ⟨h, trivial⟩)) hs (fun ns q2 hs2 hle2 _ => ?_)
    exact Returns.rpure ⟨hs2, fun _ => by omega⟩

theorem parseFuncDecl_spec (F B : Nat) (r : Rec) (hr : RecOK F B r) (nodes : List Node) :
    SpecQ F B 0 (parseFuncDecl F r nodes) (fun a _ => a ≠ []) := by
  intro p hwf hB hF
  unfold parseFuncDecl
  refine call_parseToken (Step.srefl hwf) (fun t q hs hlt hle => ?_)
  dsimp only
  refine call_optToken hs (fun ns q2 hs2 hle2 _ => ?_)
  refine call_optToken hs2 (fun ns2 q3 hs3 hle3 _ => ?_)
  refine (parseFuncParams_spec F B r hr _ _).call hs3 (by omega) (by omega)
    (fun ns3 q4 hs4 _ hle4 => ?_)
  refine (parseBlockStmt_spec F B r hr _).call hs4 (by omega) (by omega)
    (fun b q5 hs5 _ hle5 => ?_)
  exact Returns.rpure ⟨⟨hs5, fun hne => by have := hlt hne; omega⟩, by simp⟩

theorem parseVarDeclLoop_spec (F B : Nat) (r : Rec) (hr : RecOK F B r) (f : Nat) :
    ∀ (nodes : List Node) (p : Parser), WF p → 3 * meas p + 1 ≤ B → meas p < F →
      meas p < f → Returns (parseVarDeclLoop r f nodes) p (fun _ q => Step p q) := by
  induction f with
  | zero => intro _ p _ _ _ h; omega
  | succ f ih =>
    intro nodes p hwf hB hF hf
    unfold parseVarDeclLoop
    refine (parseBindingElement_spec F B r hr).call (Step.srefl hwf) hB hF
      (fun b q hs hlt hle => ?_)
    simp only [returns_getTt_iff]
    by_cases h3 : q.tt = CommaToken
    · rw [if_pos h3]
      have hq : q.tt ≠ ErrorToken := by rw [h3]; decide
      refine call_next hs (fun q2 hs2 hlt2 hle2 => ?_)
      have := hlt2 hq
      exact (ih _ q2 hs2.1 (by omega) (by omega) (by omega)).rmono
        (fun _ q3 hq3 => hs2.sthen hq3)
    · rw [if_neg h3]
      exact Returns.rpure hs

theorem parseVarDecl_spec (F B : Nat) (r : Rec) (hr : RecOK F B r) (nodes : List Node) :
    Spec F B 1 (parseVarDecl F r nodes) := by
  intro p hwf hB hF
  unfold parseVarDecl
  refine call_parseToken (Step.srefl hwf) (fun t q hs hlt hle => ?_)
  exact (parseVarDeclLoop_spec F B r hr F _ q hs.1 (by omega) (by omega) (by omega)).rmono
    (fun _ q2 hq2 => ⟨hs.sthen hq2, fun hne => by have := hlt hne; have := hq2.2.1; omega⟩)

/-! ### Methods, classes and object literals -/

theorem parseMethodDef_spec (env : Env) (F B : Nat) (r : Rec) (hr : RecOK F B r) :
    Spec F B 0 (parseMethodDef env F r) := by
  intro p hwf hB hF
  unfold parseMethodDef
  dsimp only
  refine call_optToken (Step.srefl hwf) (fun ns q hs hle _ => ?_)
  refine call_of_step (Q := fun _ _ => True) ?_ hs (fun ns2 q2 hs2 hle2 _ => ?_)
  · simp only [returns_getTt_iff, returns_getData_iff]
    by_cases h1 : q.tt = AsyncToken ∨ q.tt = MulToken
    · rw [if_pos h1]
      refine call_optToken (Step.srefl hs.1) (fun ns3 q3 hs3 _ _ => ?_)
      simp only [returns_getTt_iff]
      by_cases h2 : q3.tt = MulToken
      · rw [if_pos h2]
        refine call_parseToken hs3 (fun t q4 hs4 _ _ => ?_)
        exact Returns.rpure ⟨hs4, trivial⟩
      · rw [if_neg h2]
        exact Returns.rpure ⟨hs3, trivial⟩
    · rw [if_neg h1]
      simp only [returns_getTt_iff, returns_getData_iff]
      by_cases h2 : q.tt = IdentifierToken ∧ (q.data = bytesGet ∨ q.data = bytesSet)
      · rw [if_pos h2]
        refine call_parseToken (Step.srefl hs.1) (fun t q4 hs4 _ _ => ?_)
        exact Returns.rpure ⟨hs4, trivial⟩
      · rw [if_neg h2]
        exact Returns.rpure ⟨Step.srefl hs.1, trivial⟩
  · simp only [returns_getTt_iff]
    by_cases h1 : env.IsIdentifier q2.tt = true ∨ q2.tt = StringToken ∨ q2.tt = NumericToken
    · rw [if_pos h1]
      refine call_parseToken hs2 (fun t q3 hs3 hlt3 hle3 => ?_)
      refine (parseFuncParams_spec F B r hr _ _).call hs3 (by omega) (by omega)
        (fun ns3 q4 hs4 hlt4 hle4 => ?_)
      refine (parseBlockStmt_spec F B r hr _).call hs4 (by omega) (by omega)
        (fun b q5 hs5 _ hle5 => ?_)
      exact Returns.rpure (prog_via hs2 hs5 (fun hne => by have := hlt3 hne; omega)
        (by omega))
    · rw [if_neg h1]
      by_cases h2 : q2.tt = OpenBracketToken
      · rw [if_pos h2]
        have hq2 : q2.tt ≠ ErrorToken := by rw [h2]; decide
        have := meas_pos hq2
        refine call_parseToken hs2 (fun t q3 hs3 hlt3 hle3 => ?_)
        have := hlt3 hq2
        refine hr.2.1.call hs3 (by omega) (by omega) (fun e q4 hs4 _ hle4 => ?_)
        simp only [returns_getTt_iff]
        by_cases h3 : q4.tt ≠ CloseBracketToken
        · rw [if_pos h3]
          refine call_fail _ _ hs4 (fun q5 hs5 he => ?_)
          exact Returns.rpure (prog_of_error hs5 he)
        · rw [if_neg h3]
          refine call_parseToken hs4 (fun t2 q5 hs5 _ hle5 => ?_)
          refine (parseFuncParams_spec F B r hr _ _).call hs5 (by omega) (by omega)
            (fun ns3 q6 hs6 _ hle6 => ?_)
          refine (parseBlockStmt_spec F B r hr _).call hs6 (by omega) (by omega)
            (fun b q7 hs7 _ hle7 => ?_)
          exact Returns.rpure ⟨hs7, fun _ => by omega⟩
      · rw [if_neg h2]
        refine call_fail _ _ hs2 (fun q5 hs5 he => ?_)
        exact Returns.rpure (prog_of_error hs5 he)

theorem parseClassDeclLoop_spec (env : Env) (F B : Nat) (r : Rec) (hr : RecOK F B r)
    (f : Nat) :
    ∀ (nodes : List Node) (p : Parser), WF p → 3 * meas p ≤ B → meas p < F →
      meas p < f → Returns (parseClassDeclLoop env F r f nodes) p
        (fun a q => Step p q ∧ (nodes ≠ [] → a ≠ [])) := by
  induction f with
  | zero => intro _ p _ _ _ h; omega
  | succ f ih =>
    intro nodes p hwf hB hF hf
    unfold parseClassDeclLoop
    simp only [returns_getTt_iff]
    by_cases h1 : p.tt ≠ ErrorToken
    · rw [if_pos h1]
      simp only [returns_getTt_iff]
      by_cases h2 : p.tt = SemicolonToken
      · rw [if_pos h2]
        refine call_next (Step.srefl hwf) (fun q hs hlt hle => ?_)
        have := hlt h1
        exact (ih _ q hs.1 (by omega) (by omega) (by omega)).rmono
          (fun _ q3 hq3 => ⟨hs.sthen hq3.1, hq3.2⟩)
      · rw [if_neg h2]
        simp only [returns_getTt_iff]
        by_cases h3 : p.tt = CloseBraceToken
        · rw [if_pos h3]
          exact Returns.rpure ⟨Step.srefl hwf, id⟩
        · rw [if_neg h3]
          refine (parseMethodDef_spec env F B r hr).call (Step.srefl hwf) (by omega) hF
            (fun m q hs hlt hle => ?_)
          have := hlt h1
          exact (ih _ q hs.1 (by omega) (by omega) (by omega)).rmono
            (fun _ q3 hq3 => ⟨hs.sthen hq3.1, fun _ => hq3.2 (by simp)⟩)
    · rw [if_neg h1]
      exact Returns.rpure ⟨Step.srefl hwf, id⟩

theorem parseClassDecl_spec (env : Env) (F B : Nat) (r : Rec) (hr : RecOK F B r)
    (nodes : List Node) : SpecQ F B 0 (parseClassDecl env F r nodes) NE := by
  intro p hwf hB hF
  unfold parseClassDecl
  refine call_parseToken (Step.srefl hwf) (fun t q hs hlt hle => ?_)
  dsimp only
  refine call_optToken hs (fun ns q2 hs2 hle2 hns => ?_)
  have hne2 : ns ≠ [] := by
    rcases hns with h | ⟨t2, h⟩ <;> rw [h] <;> simp
  refine call_of_step (Q := fun a _ => a ≠ []) ?_ hs2 (fun ns2 q3 hs3 hle3 hne3 => ?_)
  · simp only [returns_getTt_iff]
    by_cases h1 : q2.tt = ExtendsToken
    · rw [if_pos h1]
      have hq2 : q2.tt ≠ ErrorToken := by rw [h1]; decide
      have := hlt (ne_error_of_step hs2 hq2)
      refine call_parseToken (Step.srefl hs2.1) (fun t2 q3 hs3 hlt3 hle3 => ?_)
      refine (hr.2.2.1 []).callQ hs3 (by omega) (by omega) (fun lhs q4 hs4 _ _ _ => ?_)
      exact Returns.rpure ⟨hs4, by simp⟩
    · rw [if_neg h1]
      exact Returns.rpure ⟨Step.srefl hs2.1, hne2⟩
  · refine call_consume _ _ hs3 (fun b q4 hs4 hlt4 hle4 hb ht => ?_)
    cases b with
    | false =>
      simp only [Bool.not_false, if_true]
      exact Returns.rpure ⟨prog_of_error hs4 (hb rfl), Or.inr (hb rfl)⟩
    | true =>
      simp only [Bool.not_true, Bool.false_eq_true, if_false]
      have hq3 : q3.tt ≠ ErrorToken := by rw [ht rfl]; decide
      have := hlt4 hq3
      refine call_of_step
        (parseClassDeclLoop_spec env F B r hr F ns2 q4 hs4.1 (by omega) (by omega)
          (by omega)) hs4 (fun ns3 q5 hs5 hle5 hne5 => ?_)
      refine call_consume _ _ hs5 (fun b q6 hs6 _ hle6 hb6 _ => ?_)
      cases b with
      | false =>
        simp only [Bool.not_false, if_true]
        exact Returns.rpure ⟨prog_of_error hs6 (hb6 rfl), Or.inr (hb6 rfl)⟩
      | true =>
        simp only [Bool.not_true, Bool.false_eq_true, if_false]
        exact Returns.rpure ⟨⟨hs6, fun _ => by omega⟩, Or.inl (hne5 hne3)⟩

/-! ### Object literals -/

theorem propertyLoop_spec (env : Env) (henv : EnvOK env) (f : Nat) :
    ∀ (property : List Node) (p : Parser), WF p → meas p < f →
      Returns (propertyLoop env f property) p
        (fun a q => Step p q ∧ (property.length < a.length → meas q < meas p)) := by
  induction f with
  | zero => intro _ p _ h; omega
  | succ f ih =>
    intro property p hwf hf
    unfold propertyLoop
    simp only [returns_getTt_iff]
    by_cases h1 : p.tt = MulToken ∨ p.tt = AsyncToken ∨ env.IsIdentifier p.tt = true
    · rw [if_pos h1]
      have hne : p.tt ≠ ErrorToken := by
        rcases h1 with h | h | h
        · rw [h]; decide
        · rw [h]; decide
        · intro he
          rw [he, henv.1] at h
          exact absurd h (by decide)
      refine call_parseToken (Step.srefl hwf) (fun t q hs hlt hle => ?_)
      have := hlt hne
      exact (ih _ q hs.1 (by omega)).rmono
        (fun _ q3 hq3 => ⟨hs.sthen hq3.1, fun _ => by have := hq3.1.2.1; omega⟩)
    · rw [if_neg h1]
      exact Returns.rpure ⟨Step.srefl hwf, fun h => absurd h (lt_irrefl _)⟩

theorem propertyTail_spec (F B : Nat) (r : Rec) (hr : RecOK F B r)
    (nodes property : List Node) :
    SpecQ F B 0 (propertyTail F r nodes property) (fun o q => o = none → q.tt = ErrorToken) := by
  intro p hwf hB hF
  unfold propertyTail
  simp only [returns_getTt_iff]
  by_cases h1 : p.tt = ColonToken
  · rw [if_pos h1]
    have hne : p.tt ≠ ErrorToken := by rw [h1]; decide
    refine call_parseToken (Step.srefl hwf) (fun t q hs hlt hle => ?_)
    have := hlt hne
    refine hr.2.1.call hs (by omega) (by omega) (fun e q2 hs2 _ hle2 => ?_)
    exact Returns.rpure ⟨⟨hs2, fun _ => by omega⟩, fun h => by simp at h⟩
  · rw [if_neg h1]
    simp only [returns_getTt_iff]
    by_cases h2 : p.tt = OpenParenToken
    · rw [if_pos h2]
      refine (parseFuncParams_spec F B r hr _ _).call (Step.srefl hwf) (by omega) hF
        (fun ns q hs hlt hle => ?_)
      refine (parseBlockStmt_spec F B r hr _).call hs (by omega) (by omega)
        (fun b q2 hs2 _ hle2 => ?_)
      exact Returns.rpure ⟨⟨hs2, fun hne => by have := hlt hne; omega⟩, fun h => by simp at h⟩
    · rw [if_neg h2]
      refine call_fail _ _ (Step.srefl hwf) (fun q hs he => ?_)
      exact Returns.rpure ⟨prog_of_error hs he, fun _ => he⟩

theorem propertyTail_after (F B : Nat) (r : Rec) (hr : RecOK F B r)
    (nodes property : List Node) (p q : Parser) (hs : Step p q) (hlt : meas q < meas p)
    (hB : 3 * meas p ≤ B) (hF : meas p < F) :
    Returns (propertyTail F r nodes property) q
      (fun o q2 => Prog p q2 ∧ (o = none → q2.tt = ErrorToken)) :=
  (propertyTail_spec F B r hr nodes property q hs.1 (by omega) (by omega)).rmono
    (fun _ q2 h => ⟨⟨hs.sthen h.1.1, fun _ => by have := h.1.1.2.1; omega⟩, h.2⟩)

theorem parseProperty_spec (env : Env) (henv : EnvOK env) (F B : Nat) (r : Rec)
    (hr : RecOK F B r) (nodes : List Node) :
    SpecQ F B 0 (parseProperty env F r nodes) (fun o q => o = none → q.tt = ErrorToken) := by
  intro p hwf hB hF
  unfold parseProperty
  refine call_of_step (propertyLoop_spec env henv F [] p hwf hF) (Step.srefl hwf)
    (fun property q hs hle hlen => ?_)
  simp only [returns_getTt_iff]
  by_cases h1 : (q.tt = EqToken ∨ q.tt = CommaToken ∨ q.tt = CloseBraceToken) ∧
      property.length = 1 ∧ identLike ((property.headD Node.zero).tt) = true
  · rw [if_pos h1]
    have hlt : meas q < meas p := hlen (by rw [h1.2.1]; decide)
    by_cases h2 : q.tt = EqToken
    · rw [if_pos h2]
      refine call_parseToken hs (fun t q2 hs2 _ hle2 => ?_)
      refine hr.2.1.call hs2 (by omega) (by omega) (fun e q3 hs3 _ hle3 => ?_)
      exact Returns.rpure ⟨⟨hs3, fun _ => by omega⟩, fun h => by simp at h⟩
    · rw [if_neg h2]
      exact Returns.rpure ⟨⟨hs, fun _ => hlt⟩, fun h => by simp at h⟩
  · rw [if_neg h1]
    by_cases h2 : (0 < property.length ∧
        env.IsIdentifier ((property.getLastD Node.zero).tt) = true) ∨
        q.tt = StringToken ∨ q.tt = NumericToken ∨ q.tt = OpenBracketToken
    · rw [if_pos h2]
      by_cases h3 : q.tt = StringToken ∨ q.tt = NumericToken
      · rw [if_pos h3]
        have hq : q.tt ≠ ErrorToken := by rcases h3 with h | h <;> rw [h] <;> decide
        refine call_parseToken hs (fun t q2 hs2 hlt2 hle2 => ?_)
        have := hlt2 hq
        exact propertyTail_after F B r hr _ _ p q2 hs2 (by omega) (by omega) hF
      · rw [if_neg h3]
        by_cases h4 : q.tt = OpenBracketToken
        · rw [if_pos h4]
          have hq : q.tt ≠ ErrorToken := by rw [h4]; decide
          refine call_parseToken hs (fun t q2 hs2 hlt2 hle2 => ?_)
          have := hlt2 hq
          refine hr.2.1.call hs2 (by omega) (by omega) (fun e q3 hs3 _ hle3 => ?_)
          simp only [returns_getTt_iff]
          by_cases h5 : q3.tt ≠ CloseBracketToken
          · rw [if_pos h5]
            refine call_fail _ _ hs3 (fun q4 hs4 he => ?_)
            exact Returns.rpure ⟨prog_of_error hs4 he, fun _ => he⟩
          · rw [if_neg h5]
            refine call_parseToken hs3 (fun t2 q4 hs4 _ hle4 => ?_)
            exact propertyTail_after F B r hr _ _ p q4 hs4 (by omega) (by omega) hF
        · rw [if_neg h4]
          have hlen2 : 0 < property.length := by
            rcases h2 with h | h | h | h
            · exact h.1
            · exact absurd (Or.inl h) h3
            · exact absurd (Or.inr h) h3
            · exact absurd h h4
          have hlt : meas q < meas p := hlen (by simpa using hlen2)
          exact propertyTail_after F B r hr _ _ p q hs hlt (by omega) hF
    · rw [if_neg h2]
      refine call_fail _ _ hs (fun q4 hs4 he => ?_)
      exact Returns.rpure ⟨prog_of_error hs4 he, fun _ => he⟩

theorem parseObjectLiteralLoop_spec (env : Env) (henv : EnvOK env) (F B : Nat) (r : Rec)
    (hr : RecOK F B r) (f : Nat) :
    ∀ (nodes : List Node) (p : Parser), WF p → 3 * meas p ≤ B → meas p < F →
      meas p < f → Returns (parseObjectLiteralLoop env F r f nodes) p
        (fun o q => Step p q ∧ (o = none → q.tt = ErrorToken) ∧
          (o ≠ none → q.tt = CloseBraceToken ∨ q.tt = ErrorToken)) := by
  induction f with
  | zero => intro _ p _ _ _ h; omega
  | succ f ih =>
    intro nodes p hwf hB hF hf
    unfold parseObjectLiteralLoop
    simp only [returns_getTt_iff]
    by_cases h1 : p.tt ≠ CloseBraceToken ∧ p.tt ≠ ErrorToken
    · rw [if_pos h1]
      have hne := h1.2
      simp only [returns_getTt_iff]
      by_cases h2 : p.tt = EllipsisToken
      · rw [if_pos h2]
        refine call_parseToken (Step.srefl hwf) (fun t q hs hlt hle => ?_)
        have := hlt hne
        refine hr.2.1.call hs (by omega) (by omega) (fun e q2 hs2 _ hle2 => ?_)
        exact (ih _ q2 hs2.1 (by omega) (by omega) (by omega)).rmono
          (fun _ q3 hq3 => ⟨hs2.sthen hq3.1, hq3.2⟩)
      · rw [if_neg h2]
        simp only [returns_getTt_iff]
        by_cases h3 : p.tt = CommaToken
        · rw [if_pos h3]
          refine call_parseToken (Step.srefl hwf) (fun t q hs hlt hle => ?_)
          have := hlt hne
          exact (ih _ q hs.1 (by omega) (by omega) (by omega)).rmono
            (fun _ q3 hq3 => ⟨hs.sthen hq3.1, hq3.2⟩)
        · rw [if_neg h3]
          refine (parseProperty_spec env henv F B r hr nodes).callQ (Step.srefl hwf)
            (by omega) hF (fun o q hs hlt hle ho => ?_)
          have := hlt hne
          cases o with
          | none =>
            exact Returns.rpure ⟨hs, fun _ => ho rfl, fun h => absurd rfl h⟩
          | some ns =>
            exact (ih _ q hs.1 (by omega) (by omega) (by omega)).rmono
              (fun _ q3 hq3 => ⟨hs.sthen hq3.1, hq3.2⟩)
    · rw [if_neg h1]
      refine Returns.rpure ⟨Step.srefl hwf, fun h => by simp at h, fun _ => ?_⟩
      by_cases hc : p.tt = CloseBraceToken
      · exact Or.inl hc
      · by_cases he : p.tt = ErrorToken
        · exact Or.inr he
        · exact absurd ⟨hc, he⟩ h1

theorem parseObjectLiteral_spec (env : Env) (henv : EnvOK env) (F B : Nat) (r : Rec)
    (hr : RecOK F B r) (nodes : List Node) :
    SpecQ F B 0 (parseObjectLiteral env F r nodes) NE := by
  intro p hwf hB hF
  unfold parseObjectLiteral
  refine call_parseToken (Step.srefl hwf) (fun t q hs hlt hle => ?_)
  by_cases hp : p.tt = ErrorToken
  · -- nothing is left, and the loop stops at once
    have hq := hs.tt_error hp
    have := meas_error hq
    have hF1 : 0 < F := by omega
    refine call_of_step
      (parseObjectLiteralLoop_spec env henv F B r hr F _ q hs.1 (by omega) (by omega)
        (by omega)) hs (fun o q2 hs2 hle2 ho => ?_)
    have hq2 := hs2.tt_error hp
    cases o with
    | none => exact Returns.rpure ⟨prog_of_error hs2 hq2, Or.inr hq2⟩
    | some ns =>
      dsimp only
      simp only [returns_getTt_iff]
      have h2 : ¬ q2.tt = CloseBraceToken := by rw [hq2]; decide
      rw [if_neg h2]
      exact Returns.rpure ⟨prog_of_error hs2 hq2, Or.inr hq2⟩
  · have := hlt hp
    refine call_of_step
      (parseObjectLiteralLoop_spec env henv F B r hr F _ q hs.1 (by omega) (by omega)
        (by omega)) hs (fun o q2 hs2 hle2 ho => ?_)
    cases o with
    | none => exact Returns.rpure ⟨⟨hs2, fun _ => by omega⟩, Or.inr (ho.1 rfl)⟩
    | some ns =>
      dsimp only
      simp only [returns_getTt_iff]
      by_cases h2 : q2.tt = CloseBraceToken
      · rw [if_pos h2]
        refine call_parseToken hs2 (fun t2 q3 hs3 _ hle3 => ?_)
        exact Returns.rpure ⟨⟨hs3, fun _ => by omega⟩, Or.inl (by simp)⟩
      · rw [if_neg h2]
        refine Returns.rpure ⟨⟨hs2, fun _ => by omega⟩, Or.inr ?_⟩
        rcases ho.2 (by simp) with h | h
        · exact absurd h h2
        · exact h

/-! ### Primary expressions -/

theorem arrayLiteralLoop_spec (F B : Nat) (r : Rec) (hr : RecOK F B r) (f : Nat) :
    ∀ (nodes : List Node) (p : Parser), WF p → 3 * meas p + 2 ≤ B → meas p < F →
      meas p < f → Returns (arrayLiteralLoop r f nodes) p (fun _ q => Step p q) := by
  induction f with
  | zero => intro _ p _ _ _ h; omega
  | succ f ih =>
    intro nodes p hwf hB hF hf
    unfold arrayLiteralLoop
    simp only [returns_getTt_iff]
    by_cases h1 : p.tt ≠ CloseBracketToken ∧ p.tt ≠ ErrorToken
    · rw [if_pos h1]
      have hne := h1.2
      simp only [returns_getTt_iff]
      by_cases h2 : p.tt = EllipsisToken ∨ p.tt = CommaToken
      · rw [if_pos h2]
        refine call_parseToken (Step.srefl hwf) (fun t q hs hlt hle => ?_)
        have := hlt hne
        exact (ih _ q hs.1 (by omega) (by omega) (by omega)).rmono
          (fun _ q3 hq3 => hs.sthen hq3)
      · rw [if_neg h2]
        refine hr.2.1.call (Step.srefl hwf) hB hF (fun e q hs hlt hle => ?_)
        have := hlt hne
        exact (ih _ q hs.1 (by omega) (by omega) (by omega)).rmono
          (fun _ q3 hq3 => hs.sthen hq3)
    · rw [if_neg h1]
      exact Returns.rpure (Step.srefl hwf)

theorem parenLoop_spec (F B : Nat) (r : Rec) (hr : RecOK F B r) (f : Nat) :
    ∀ (nodes : List Node) (p : Parser), WF p → 3 * meas p + 2 ≤ B → meas p < F →
      meas p < f → Returns (parenLoop r f nodes) p (fun _ q => Step p q) := by
  induction f with
  | zero => intro _ p _ _ _ h; omega
  | succ f ih =>
    intro nodes p hwf hB hF hf
    unfold parenLoop
    simp only [returns_getTt_iff]
    by_cases h1 : p.tt ≠ CloseParenToken ∧ p.tt ≠ ErrorToken
    · rw [if_pos h1]
      have hne := h1.2
      simp only [returns_getTt_iff]
      by_cases h2 : p.tt = EllipsisToken
      · rw [if_pos h2]
        refine call_parseToken (Step.srefl hwf) (fun t q hs hlt hle => ?_)
        have := hlt hne
        refine hr.2.2.2.call hs (by omega) (by omega) (fun b q2 hs2 _ hle2 => ?_)
        exact (ih _ q2 hs2.1 (by omega) (by omega) (by omega)).rmono
          (fun _ q3 hq3 => hs2.sthen hq3)
      · rw [if_neg h2]
        simp only [returns_getTt_iff]
        by_cases h3 : p.tt = CommaToken
        · rw [if_pos h3]
          refine call_parseToken (Step.srefl hwf) (fun t q hs hlt hle => ?_)
          have := hlt hne
          exact (ih _ q hs.1 (by omega) (by omega) (by omega)).rmono
            (fun _ q3 hq3 => hs.sthen hq3)
        · rw [if_neg h3]
          refine hr.2.1.call (Step.srefl hwf) hB hF (fun e q hs hlt hle => ?_)
          have := hlt hne
          exact (ih _ q hs.1 (by omega) (by omega) (by omega)).rmono
            (fun _ q3 hq3 => hs.sthen hq3)
    · rw [if_neg h1]
      exact Returns.rpure (Step.srefl hwf)

theorem SpecQ.after {α : Type} {F B c : Nat} {m : M α} {Q : α → Parser → Prop}
    (hm : SpecQ F B c m Q) {p q : Parser} (hs : Step p q) (hB : 3 * meas q + c ≤ B)
    (hF : meas q < F) : Returns m q (fun a q2 => Prog p q2 ∧ Q a q2) :=
  (hm q hs.1 hB hF).rmono (fun _ _ h => ⟨hs.then_prog h.1, h.2⟩)

theorem parsePrimaryExpr_spec (env : Env) (henv : EnvOK env) (F B : Nat) (r : Rec)
    (hr : RecOK F B r) (nodes : List Node) :
    SpecQ F B 0 (parsePrimaryExpr env F r nodes) NE := by
  intro p hwf hB hF
  unfold parsePrimaryExpr
  refine call_of_step (Q := fun _ _ => True) ?_ (Step.srefl hwf) (fun _ q hs hle _ => ?_)
  · simp only [returns_getTt_iff]
    by_cases h1 : p.tt = DivToken ∨ p.tt = DivEqToken
    · rw [if_pos h1]
      have hne : p.tt ≠ ErrorToken := by rcases h1 with h | h <;> rw [h] <;> decide
      exact (returns_reLex env henv p hwf hne).rmono (fun _ _ h => ⟨h, trivial⟩)
    · rw [if_neg h1]
      exact Returns.rpure ⟨Step.srefl hwf, trivial⟩
  simp only [returns_getTt_iff]
  by_cases h1 : q.tt ∈ primaryTokens
  · rw [if_pos h1]
    refine call_parseToken hs (fun t q2 hs2 hlt2 hle2 => ?_)
    exact Returns.rpure ⟨prog_via hs hs2 hlt2 hle2, Or.inl (by simp)⟩
  rw [if_neg h1]
  by_cases h2 : q.tt = TemplateToken ∨ q.tt = TemplateStartToken
  · rw [if_pos h2]
    exact (parseTemplateLiteral_spec F B r hr nodes).after hs (by omega) (by omega)
  rw [if_neg h2]
  by_cases h3 : q.tt = OpenBracketToken
  · rw [if_pos h3]
    have hq : q.tt ≠ ErrorToken := by rw [h3]; decide
    refine call_parseToken hs (fun t q2 hs2 hlt2 hle2 => ?_)
    have := hlt2 hq
    refine call_of_step (Q := fun _ _ => True)
      ((arrayLiteralLoop_spec F B r hr F _ q2 hs2.1 (by omega) (by omega) (by omega)).rmono
        (fun _ _ h => ⟨h, trivial⟩)) hs2 (fun ns q3 hs3 hle3 _ => ?_)
    refine call_parseToken hs3 (fun t2 q4 hs4 _ hle4 => ?_)
    exact Returns.rpure ⟨prog_via hs hs4 (fun _ => by omega) (by omega), Or.inl (by simp)⟩
  rw [if_neg h3]
  by_cases h4 : q.tt = OpenBraceToken
  · rw [if_pos h4]
    exact (parseObjectLiteral_spec env henv F B r hr nodes).after hs (by omega) (by omega)
  rw [if_neg h4]
  by_cases h5 : q.tt = OpenParenToken
  · rw [if_pos h5]
    have hq : q.tt ≠ ErrorToken := by rw [h5]; decide
    refine call_parseToken hs (fun t q2 hs2 hlt2 hle2 => ?_)
    have := hlt2 hq
    refine call_of_step (Q := fun _ _ => True)
      ((parenLoop_spec F B r hr F _ q2 hs2.1 (by omega) (by omega) (by omega)).rmono
        (fun _ _ h => ⟨h, trivial⟩)) hs2 (fun ns q3 hs3 hle3 _ => ?_)
    refine call_parseToken hs3 (fun t2 q4 hs4 _ hle4 => ?_)
    exact Returns.rpure ⟨prog_via hs hs4 (fun _ => by omega) (by omega), Or.inl (by simp)⟩
  rw [if_neg h5]
  by_cases h6 : q.tt = ClassToken
  · rw [if_pos h6]
    exact (parseClassDecl_spec env F B r hr nodes).after hs (by omega) (by omega)
  rw [if_neg h6]
  by_cases h7 : q.tt = FunctionToken
  · rw [if_pos h7]
    exact ((parseFuncDecl_spec F B r hr nodes).after hs (by omega) (by omega)).rmono
      (fun _ _ h => ⟨h.1, Or.inl h.2⟩)
  rw [if_neg h7]
  by_cases h8 : q.tt = AsyncToken
  · rw [if_pos h8]
    have hq : q.tt ≠ ErrorToken := by rw [h8]; decide
    refine call_parseToken hs (fun t q2 hs2 hlt2 hle2 => ?_)
    have := hlt2 hq
    simp only [returns_getPLT_iff]
    by_cases h9 : (!q2.prevLineTerminator) = true
    · rw [if_pos h9]
      simp only [returns_getTt_iff]
      by_cases h10 : q2.tt = FunctionToken
      · rw [if_pos h10]
        exact ((parseFuncDecl_spec F B r hr _).after hs2 (by omega) (by omega)).rmono
          (fun _ _ h => ⟨h.1, Or.inl h.2⟩)
      · rw [if_neg h10]
        refine call_fail _ _ hs2 (fun q3 hs3 he => ?_)
        exact Returns.rpure ⟨prog_of_error hs3 he, Or.inr he⟩
    · rw [if_neg h9]
      exact Returns.rpure ⟨prog_via hs hs2 (fun _ => by omega) (by omega), Or.inl (by simp)⟩
  rw [if_neg h8]
  refine call_fail _ _ hs (fun q3 hs3 he => ?_)
  exact Returns.rpure ⟨prog_of_error hs3 he, Or.inr he⟩

/-! ### Left-hand-side expressions -/

theorem argumentsLoop_spec (F B : Nat) (r : Rec) (hr : RecOK F B r) (f : Nat) :
    ∀ (nodes : List Node) (p : Parser), WF p → 3 * meas p + 2 ≤ B → meas p < F →
      meas p < f → Returns (argumentsLoop r f nodes) p (fun _ q => Step p q) := by
  induction f with
  | zero => intro _ p _ _ _ h; omega
  | succ f ih =>
    intro nodes p hwf hB hF hf
    unfold argumentsLoop
    simp only [returns_getTt_iff]
    by_cases h1 : p.tt = ErrorToken ∨ p.tt = CloseParenToken
    · rw [if_pos h1]
      exact Returns.rpure (Step.srefl hwf)
    · rw [if_neg h1]
      have hne : p.tt ≠ ErrorToken := fun h => h1 (Or.inl h)
      simp only [returns_getTt_iff]
      by_cases h2 : p.tt = CommaToken
      · rw [if_pos h2]
        refine call_next (Step.srefl hwf) (fun q hs hlt hle => ?_)
        have := hlt hne
        exact (ih _ q hs.1 (by omega) (by omega) (by omega)).rmono
          (fun _ q3 hq3 => hs.sthen hq3)
      · rw [if_neg h2]
        simp only [returns_getTt_iff]
        by_cases h3 : p.tt = EllipsisToken
        · rw [if_pos h3]
          refine call_parseToken (Step.srefl hwf) (fun t q hs hlt hle => ?_)
          have := hlt hne
          refine hr.2.1.call hs (by omega) (by omega) (fun e q2 hs2 _ hle2 => ?_)
          exact Returns.rpure hs2
        · rw [if_neg h3]
          refine hr.2.1.call (Step.srefl hwf) hB hF (fun e q hs hlt hle => ?_)
          have := hlt hne
          exact (ih _ q hs.1 (by omega) (by omega) (by omega)).rmono
            (fun _ q3 hq3 => hs.sthen hq3)

theorem parseLeftHandSideExprEnd_spec (env : Env) (F B : Nat) (r : Rec) (hr : RecOK F B r)
    (nodes : List Node) : SpecQ F B 0 (parseLeftHandSideExprEnd env F r nodes) NE := by
  intro p hwf hB hF
  unfold parseLeftHandSideExprEnd
  simp only [returns_getTt_iff]
  by_cases h1 : p.tt = OpenParenToken
  · rw [if_pos h1]
    have hne : p.tt ≠ ErrorToken := by rw [h1]; decide
    refine call_parseToken (Step.srefl hwf) (fun t q hs hlt hle => ?_)
    have := hlt hne
    refine call_of_step (Q := fun _ _ => True)
      ((argumentsLoop_spec F B r hr F _ q hs.1 (by omega) (by omega) (by omega)).rmono
        (fun _ _ h => ⟨h, trivial⟩)) hs (fun ns q2 hs2 hle2 _ => ?_)
    refine call_of_step (Q := fun _ _ => True) ?_ hs2 (fun _ q3 hs3 hle3 _ => ?_)
    · simp only [returns_getTt_iff]
      by_cases h2 : q2.tt = CommaToken
      · rw [if_pos h2]
        exact (returns_next q2 hs2.1).rmono (fun _ _ h => ⟨h.1.1, trivial⟩)
      · rw [if_neg h2]
        exact Returns.rpure ⟨Step.srefl hs2.1, trivial⟩
    · simp only [returns_getTt_iff]
      by_cases h3 : q3.tt ≠ CloseParenToken
      · rw [if_pos h3]
        refine call_fail _ _ hs3 (fun q4 hs4 he => ?_)
        exact Returns.rpure ⟨prog_of_error hs4 he, Or.inr he⟩
      · rw [if_neg h3]
        refine call_parseToken hs3 (fun t2 q4 hs4 _ hle4 => ?_)
        exact Returns.rpure ⟨⟨hs4, fun _ => by omega⟩, Or.inl (by simp)⟩
  rw [if_neg h1]
  simp only [returns_getTt_iff]
  by_cases h2 : p.tt = OpenBracketToken
  · rw [if_pos h2]
    have hne : p.tt ≠ ErrorToken := by rw [h2]; decide
    refine call_parseToken (Step.srefl hwf) (fun t q hs hlt hle => ?_)
    have := hlt hne
    refine (parseExpr_spec F B r hr).call hs (by omega) (by omega) (fun e q2 hs2 _ hle2 => ?_)
    simp only [returns_getTt_iff]
    by_cases h3 : q2.tt ≠ CloseBracketToken
    · rw [if_pos h3]
      refine call_fail _ _ hs2 (fun q4 hs4 he => ?_)
      exact Returns.rpure ⟨prog_of_error hs4 he, Or.inr he⟩
    · rw [if_neg h3]
      refine call_parseToken hs2 (fun t2 q4 hs4 _ hle4 => ?_)
      exact Returns.rpure ⟨⟨hs4, fun _ => by omega⟩, Or.inl (by simp)⟩
  rw [if_neg h2]
  simp only [returns_getTt_iff]
  by_cases h3 : p.tt = DotToken
  · rw [if_pos h3]
    have hne : p.tt ≠ ErrorToken := by rw [h3]; decide
    refine call_parseToken (Step.srefl hwf) (fun t q hs hlt hle => ?_)
    have := hlt hne
    simp only [returns_getTt_iff]
    by_cases h4 : (!env.IsIdentifier q.tt) = true
    · rw [if_pos h4]
      refine call_fail _ _ hs (fun q4 hs4 he => ?_)
      exact Returns.rpure ⟨prog_of_error hs4 he, Or.inr he⟩
    · rw [if_neg h4]
      refine call_parseToken hs (fun t2 q4 hs4 _ hle4 => ?_)
      exact Returns.rpure ⟨⟨hs4, fun _ => by omega⟩, Or.inl (by simp)⟩
  rw [if_neg h3]
  simp only [returns_getTt_iff]
  by_cases h4 : p.tt = TemplateToken ∨ p.tt = TemplateStartToken
  · rw [if_pos h4]
    exact parseTemplateLiteral_spec F B r hr nodes p hwf hB hF
  rw [if_neg h4]
  refine call_fail _ _ (Step.srefl hwf) (fun q4 hs4 he => ?_)
  exact Returns.rpure ⟨prog_of_error hs4 he, Or.inr he⟩

theorem NE.mono {nodes : List Node} {p q : Parser} (h : NE nodes p) (hs : Step p q) :
    NE nodes q := by
  rcases h with h | h
  · exact Or.inl h
  · exact Or.inr (hs.tt_error h)

theorem lhsEndLoop_spec (env : Env) (F B : Nat) (r : Rec) (hr : RecOK F B r) (f : Nat) :
    ∀ (nodes : List Node) (p : Parser), WF p → 3 * meas p ≤ B → meas p < F →
      meas p < f → Returns (lhsEndLoop env F r f nodes) p
        (fun a q => Step p q ∧ (NE nodes p → NE a q)) := by
  induction f with
  | zero => intro _ p _ _ _ h; omega
  | succ f ih =>
    intro nodes p hwf hB hF hf
    unfold lhsEndLoop
    simp only [returns_getTt_iff]
    by_cases h1 : p.tt ∈ lhsEndTokens
    · rw [if_pos h1]
      have hne : p.tt ≠ ErrorToken := by
        intro h; rw [h] at h1; exact absurd h1 (by decide)
      refine (parseLeftHandSideExprEnd_spec env F B r hr nodes).callQ (Step.srefl hwf)
        (by omega) hF (fun ns q hs hlt hle hns => ?_)
      have := hlt hne
      exact (ih _ q hs.1 (by omega) (by omega) (by omega)).rmono
        (fun _ q3 hq3 => ⟨hs.sthen hq3.1, fun _ => hq3.2 hns⟩)
    · rw [if_neg h1]
      exact Returns.rpure ⟨Step.srefl hwf, id⟩

theorem optChainLoop_spec (env : Env) (F B : Nat) (r : Rec) (hr : RecOK F B r) (f : Nat) :
    ∀ (nodes : List Node) (p : Parser), WF p → 3 * meas p ≤ B → meas p < F →
      meas p < f → Returns (optChainLoop env F r f nodes) p
        (fun a q => Step p q ∧ (NE nodes p → NE a q)) := by
  induction f with
  | zero => intro _ p _ _ _ h; omega
  | succ f ih =>
    intro nodes p hwf hB hF hf
    unfold optChainLoop
    simp only [returns_getTt_iff]
    by_cases h1 : p.tt = OptChainToken
    · rw [if_pos h1]
      have hne : p.tt ≠ ErrorToken := by rw [h1]; decide
      refine call_parseToken (Step.srefl hwf) (fun t q hs hlt hle => ?_)
      have := hlt hne
      simp only [returns_getTt_iff]
      by_cases h2 : env.IsIdentifier q.tt = true
      · rw [if_pos h2]
        refine call_parseToken hs (fun t2 q2 hs2 _ hle2 => ?_)
        refine call_of_step
          (lhsEndLoop_spec env F B r hr F _ q2 hs2.1 (by omega) (by omega) (by omega))
          hs2 (fun ns q3 hs3 hle3 hns => ?_)
        exact (ih _ q3 hs3.1 (by omega) (by omega) (by omega)).rmono
          (fun _ q4 hq4 => ⟨hs3.sthen hq4.1, fun _ => hq4.2 (hns (Or.inl (by simp)))⟩)
      · rw [if_neg h2]
        by_cases h3 : q.tt = OpenParenToken ∨ q.tt = OpenBracketToken ∨ q.tt = TemplateToken ∨
            q.tt = TemplateStartToken
        · rw [if_pos h3]
          refine (parseLeftHandSideExprEnd_spec env F B r hr _).callQ hs (by omega) (by omega)
            (fun ns q2 hs2 _ hle2 hns2 => ?_)
          refine call_of_step
            (lhsEndLoop_spec env F B r hr F _ q2 hs2.1 (by omega) (by omega) (by omega))
            hs2 (fun ns3 q3 hs3 hle3 hns3 => ?_)
          exact (ih _ q3 hs3.1 (by omega) (by omega) (by omega)).rmono
            (fun _ q4 hq4 => ⟨hs3.sthen hq4.1, fun _ => hq4.2 (hns3 hns2)⟩)
        · rw [if_neg h3]
          refine call_fail _ _ hs (fun q4 hs4 he => ?_)
          exact Returns.rpure ⟨hs4, fun _ => Or.inr he⟩
    · rw [if_neg h1]
      exact Returns.rpure ⟨Step.srefl hwf, id⟩

theorem lhsEnd_spec (env : Env) (F B : Nat) (r : Rec) (hr : RecOK F B r)
    (nodes : List Node) (p : Parser) (hwf : WF p) (hB : 3 * meas p ≤ B) (hF : meas p < F) :
    Returns (lhsEnd env F r nodes) p (fun a q => Step p q ∧ (NE nodes p → NE a q)) := by
  unfold lhsEnd
  refine call_of_step (lhsEndLoop_spec env F B r hr F nodes p hwf hB hF hF) (Step.srefl hwf)
    (fun ns q hs hle hns => ?_)
  exact (optChainLoop_spec env F B r hr F ns q hs.1 (by omega) (by omega) (by omega)).rmono
    (fun _ q2 hq2 => ⟨hs.sthen hq2.1, fun h => hq2.2 (hns h)⟩)

theorem lhsEnd_after (env : Env) (F B : Nat) (r : Rec) (hr : RecOK F B r)
    (nodes : List Node) (p q : Parser) (hs : Step p q) (hlt : p.tt ≠ ErrorToken → meas q < meas p)
    (hB : 3 * meas p ≤ B) (hF : meas p < F) (hns : NE nodes q) :
    Returns (lhsEnd env F r nodes) q (fun a q2 => Prog p q2 ∧ NE a q2) :=
  (lhsEnd_spec env F B r hr nodes q hs.1 (by have := hs.2.1; omega)
    (by have := hs.2.1; omega)).rmono
    (fun _ q2 h => ⟨⟨hs.sthen h.1, fun hne => by have := hlt hne; have := h.1.2.1; omega⟩,
      h.2 hns⟩)

theorem newLoop_spec (f : Nat) :
    ∀ (nodes : List Node) (p : Parser), WF p → meas p < f →
      Returns (newLoop f nodes) p
        (fun a q => Step p q ∧ (a.1 = none → q.tt = ErrorToken) ∧
          (a.1 = some true → a.2 ≠ [] ∧ meas q < meas p)) := by
  induction f with
  | zero => intro _ p _ h; omega
  | succ f ih =>
    intro nodes p hwf hf
    unfold newLoop
    simp only [returns_getTt_iff]
    by_cases h1 : p.tt = NewToken
    · rw [if_pos h1]
      have hne : p.tt ≠ ErrorToken := by rw [h1]; decide
      refine call_parseToken (Step.srefl hwf) (fun t q hs hlt hle => ?_)
      have := hlt hne
      simp only [returns_getTt_iff]
      by_cases h2 : q.tt = DotToken
      · rw [if_pos h2]
        refine call_parseToken hs (fun t2 q2 hs2 _ hle2 => ?_)
        simp only [returns_getTt_iff, returns_getData_iff]
        by_cases h3 : q2.tt ≠ IdentifierToken ∨ q2.data ≠ bytesTarget
        · rw [if_pos h3]
          refine call_fail _ _ hs2 (fun q4 hs4 he => ?_)
          exact Returns.rpure ⟨hs4, fun _ => he, fun h => by simp at h⟩
        · rw [if_neg h3]
          refine call_parseToken hs2 (fun t3 q3 hs3 _ hle3 => ?_)
          exact Returns.rpure ⟨hs3, fun h => by simp at h, fun _ => ⟨by simp, by omega⟩⟩
      · rw [if_neg h2]
        exact (ih _ q hs.1 (by omega)).rmono
          (fun _ q3 hq3 => ⟨hs.sthen hq3.1, hq3.2.1,
            fun h => ⟨(hq3.2.2 h).1, by have := (hq3.2.2 h).2; omega⟩⟩)
    · rw [if_neg h1]
      exact Returns.rpure ⟨Step.srefl hwf, fun h => by simp at h, fun h => by simp at h⟩

theorem parseLeftHandSideExprF_spec (env : Env) (henv : EnvOK env) (F B : Nat) (r : Rec)
    (hr : RecOK F B r) (nodes : List Node) :
    SpecQ F B 0 (parseLeftHandSideExprF env F r nodes) NE := by
  intro p hwf hB hF
  unfold parseLeftHandSideExprF
  refine call_of_step (newLoop_spec F nodes p hwf hF) (Step.srefl hwf)
    (fun a q hs hle ha => ?_)
  obtain ⟨flag, ns⟩ := a
  rcases flag with _ | flag
  · dsimp only
    exact Returns.rpure ⟨prog_of_error hs (ha.1 rfl), Or.inr (ha.1 rfl)⟩
  cases flag with
  | true =>
    dsimp only
    have h2 := ha.2 rfl
    exact lhsEnd_after env F B r hr ns p q hs (fun _ => h2.2) (by omega) hF (Or.inl h2.1)
  | false =>
    dsimp only
    simp only [returns_getTt_iff]
    by_cases h1 : q.tt = SuperToken
    · rw [if_pos h1]
      have hq : q.tt ≠ ErrorToken := by rw [h1]; decide
      refine call_parseToken hs (fun t q2 hs2 hlt2 hle2 => ?_)
      have := hlt2 hq
      refine call_of_step (Q := fun _ _ => True) ?_ hs2 (fun _ q3 hs3 hle3 _ => ?_)
      · simp only [returns_getTt_iff]
        by_cases h2 : q2.tt = TemplateToken ∨ q2.tt = TemplateStartToken
        · rw [if_pos h2]
          exact (returns_fail _ _ q2 hs2.1).rmono (fun _ _ h => ⟨h.1.1, trivial⟩)
        · rw [if_neg h2]
          exact Returns.rpure ⟨Step.srefl hs2.1, trivial⟩
      · refine (parseLeftHandSideExprEnd_spec env F B r hr _).callQ hs3 (by omega) (by omega)
          (fun ns2 q4 hs4 _ hle4 hns4 => ?_)
        exact lhsEnd_after env F B r hr ns2 p q4 hs4 (fun _ => by omega) (by omega) hF hns4
    rw [if_neg h1]
    simp only [returns_getTt_iff]
    by_cases h2 : q.tt = ImportToken
    · rw [if_pos h2]
      have hq : q.tt ≠ ErrorToken := by rw [h2]; decide
      refine call_parseToken hs (fun t q2 hs2 hlt2 hle2 => ?_)
      have := hlt2 hq
      simp only [returns_getTt_iff]
      by_cases h3 : q2.tt ≠ OpenParenToken
      · rw [if_pos h3]
        refine call_fail _ _ hs2 (fun q4 hs4 he => ?_)
        exact Returns.rpure ⟨prog_of_error hs4 he, Or.inr he⟩
      · rw [if_neg h3]
        refine call_next hs2 (fun q3 hs3 _ hle3 => ?_)
        refine (parseExpr_spec F B r hr).call hs3 (by omega) (by omega)
          (fun e q4 hs4 _ hle4 => ?_)
        simp only [returns_getTt_iff]
        by_cases h4 : q4.tt ≠ CloseParenToken
        · rw [if_pos h4]
          refine call_fail _ _ hs4 (fun q5 hs5 he => ?_)
          exact Returns.rpure ⟨prog_of_error hs5 he, Or.inr he⟩
        · rw [if_neg h4]
          refine call_next hs4 (fun q5 hs5 _ hle5 => ?_)
          exact lhsEnd_after env F B r hr _ p q5 hs5 (fun _ => by omega) (by omega) hF
            (Or.inl (by simp))
    rw [if_neg h2]
    refine (parsePrimaryExpr_spec env henv F B r hr ns).callQ hs (by omega) (by omega)
      (fun ns2 q2 hs2 hlt2 hle2 hns2 => ?_)
    refine lhsEnd_after env F B r hr ns2 p q2 hs2 (fun hne => ?_) (by omega) hF hns2
    exact (prog_via hs hs2 hlt2 hle2).2 hne

/-! ### Assignment expressions -/

theorem arrowBody_spec (F B : Nat) (r : Rec) (hr : RecOK F B r) (rule : String)
    (nodes : List Node) : Spec F B 2 (arrowBody rule F r nodes) := by
  intro p hwf hB hF
  unfold arrowBody
  refine call_parseToken (Step.srefl hwf) (fun t q hs hlt hle => ?_)
  simp only [returns_getTt_iff]
  by_cases h1 : q.tt = OpenBraceToken
  · rw [if_pos h1]
    refine (parseBlockStmt_spec F B r hr _).call hs (by omega) (by omega)
      (fun b q2 hs2 _ hle2 => ?_)
    exact Returns.rpure ⟨hs2, fun hne => by have := hlt hne; omega⟩
  · rw [if_neg h1]
    refine hr.2.1.call hs (by omega) (by omega) (fun b q2 hs2 _ hle2 => ?_)
    exact Returns.rpure ⟨hs2, fun hne => by have := hlt hne; omega⟩

theorem arrowBody_after (F B : Nat) (r : Rec) (hr : RecOK F B r) (rule : String)
    (nodes : List Node) {α : Type} (g : List Node → α) (p q : Parser) (hs : Step p q)
    (hB : 3 * meas q + 2 ≤ B) (hF : meas q < F) (hlt : p.tt ≠ ErrorToken → meas q < meas p) :
    Returns (arrowBody rule F r nodes >>= fun ns => pure (g ns)) q
      (fun _ q2 => Prog p q2) := by
  refine (arrowBody_spec F B r hr rule nodes).call hs hB hF (fun ns q2 hs2 _ hle2 => ?_)
  exact Returns.rpure ⟨hs2, fun hne => by have := hlt hne; omega⟩

theorem identLike_ne_error {tt : TokenType} (h : identLike tt = true) : tt ≠ ErrorToken := by
  intro he
  rw [he] at h
  exact absurd h (by decide)

theorem assignLoop_spec (F B : Nat) (r : Rec) (hr : RecOK F B r) (f : Nat) :
    ∀ (nodes : List Node) (p : Parser), WF p → 3 * meas p + 1 ≤ B → meas p < F →
      meas p < f → Returns (assignLoop F r f nodes) p (fun _ q => Prog p q) := by
  induction f with
  | zero => intro _ p _ _ _ h; omega
  | succ f ih =>
    intro nodes p hwf hB hF hf
    unfold assignLoop
    refine call_of_step (Q := fun _ _ => True) ?_ (Step.srefl hwf) (fun ns0 q hs hle _ => ?_)
    · simp only [returns_getTt_iff]
      by_cases h1 : p.tt = IncrToken ∨ p.tt = DecrToken
      · rw [if_pos h1]
        refine call_parseToken (Step.srefl hwf) (fun t q hs _ _ => ?_)
        exact Returns.rpure ⟨hs, trivial⟩
      · rw [if_neg h1]
        exact Returns.rpure ⟨Step.srefl hwf, trivial⟩
    refine (hr.2.2.1 ns0).callQ hs (by omega) (by omega) (fun ns1 q2 hs2 hlt2 hle2 hns1 => ?_)
    refine call_of_step (Q := fun a q3 => NE a q3) ?_ hs2 (fun ns q3 hs3 hle3 hns => ?_)
    · simp only [returns_getTt_iff, returns_getPLT_iff]
      by_cases h1 : (!q2.prevLineTerminator) = true ∧ (q2.tt = IncrToken ∨ q2.tt = DecrToken)
      · rw [if_pos h1]
        refine call_parseToken (Step.srefl hs2.1) (fun t q3 hs3 _ _ => ?_)
        exact Returns.rpure ⟨hs3, Or.inl (by simp)⟩
      · rw [if_neg h1]
        exact Returns.rpure ⟨Step.srefl hs2.1, hns1⟩
    have hfin : ∀ q4, Step p q4 → meas q4 ≤ meas q2 → Prog p q4 := fun q4 hs4 hle4 =>
      prog_via hs hs4 (fun hne => by have := hlt2 hne; omega) (by omega)
    have hprog : q3.tt ≠ ErrorToken → meas q3 < meas p := fun hne => by
      have h3 := meas_pos hne
      have hq : q.tt ≠ ErrorToken := fun h => by
        have := meas_error h
        omega
      have := hlt2 hq
      omega
    simp only [returns_getTt_iff]
    by_cases h1 : q3.tt ∈ binaryTokens
    · rw [if_pos h1]
      have hq3 : q3.tt ≠ ErrorToken := by
        intro h; rw [h] at h1; exact absurd h1 (by decide)
      have := hprog hq3
      refine call_parseToken hs3 (fun t q4 hs4 hlt4 hle4 => ?_)
      exact (ih _ q4 hs4.1 (by omega) (by omega) (by omega)).rmono
        (fun _ q5 hq5 => hfin q5 (hs4.sthen hq5.1) (by have := hq5.1.2.1; omega))
    rw [if_neg h1]
    by_cases h2 : q3.tt ∈ assignTokens
    · rw [if_pos h2]
      have hq3 : q3.tt ≠ ErrorToken := by
        intro h; rw [h] at h2; exact absurd h2 (by decide)
      have := hprog hq3
      refine call_parseToken hs3 (fun t q4 hs4 hlt4 hle4 => ?_)
      refine hr.2.1.call hs4 (by omega) (by omega) (fun e q5 hs5 _ hle5 => ?_)
      exact Returns.rpure (hfin q5 hs5 (by omega))
    rw [if_neg h2]
    by_cases h3 : q3.tt = QuestionToken
    · rw [if_pos h3]
      have hq3 : q3.tt ≠ ErrorToken := by rw [h3]; decide
      have := hprog hq3
      refine call_parseToken hs3 (fun t q4 hs4 hlt4 hle4 => ?_)
      refine hr.2.1.call hs4 (by omega) (by omega) (fun e q5 hs5 _ hle5 => ?_)
      simp only [returns_getTt_iff]
      by_cases h4 : q5.tt ≠ ColonToken
      · rw [if_pos h4]
        refine call_fail _ _ hs5 (fun q6 hs6 he => ?_)
        exact Returns.rpure (prog_of_error hs6 he)
      · rw [if_neg h4]
        refine call_parseToken hs5 (fun t2 q6 hs6 _ hle6 => ?_)
        refine hr.2.1.call hs6 (by omega) (by omega) (fun e2 q7 hs7 _ hle7 => ?_)
        exact Returns.rpure (hfin q7 hs7 (by omega))
    rw [if_neg h3]
    by_cases h4 : q3.tt = ArrowToken
    · rw [if_pos h4]
      have hq3 : q3.tt ≠ ErrorToken := by rw [h4]; decide
      have := hprog hq3
      have hne : ns ≠ [] := by
        rcases hns with h | h
        · exact h
        · exact absurd h hq3
      obtain ⟨last, hl⟩ : ∃ last, ns.getLast? = some last := by
        cases hg : ns.getLast? with
        | none => exact absurd (List.getLast?_eq_none_iff.mp hg) hne
        | some l => exact ⟨l, rfl⟩
      rw [hl]
      dsimp only
      by_cases h5 : identLike last.tt = true
      · rw [if_pos h5]
        exact arrowBody_after F B r hr _ _ _ p q3 hs3 (by omega) (by omega) (fun _ => by omega)
      · rw [if_neg h5]
        by_cases h6 : last.tt ≠ CloseParenToken
        · rw [if_pos h6]
          refine call_fail _ _ hs3 (fun q6 hs6 he => ?_)
          exact Returns.rpure (prog_of_error hs6 he)
        · rw [if_neg h6]
          exact arrowBody_after F B r hr _ _ _ p q3 hs3 (by omega) (by omega)
            (fun _ => by omega)
    rw [if_neg h4]
    exact Returns.rpure (hfin q3 hs3 (by omega))

theorem parseAssignmentExprF_spec (F B : Nat) (r : Rec) (hr : RecOK F B r) :
    Spec F B 1 (parseAssignmentExprF F r) := by
  intro p hwf hB hF
  unfold parseAssignmentExprF
  simp only [returns_getTt_iff]
  by_cases h1 : p.tt = YieldToken
  · rw [if_pos h1]
    have hne : p.tt ≠ ErrorToken := by rw [h1]; decide
    refine call_parseToken (Step.srefl hwf) (fun t q hs hlt hle => ?_)
    have := hlt hne
    simp only [returns_getTt_iff]
    by_cases h2 : q.tt = ArrowToken
    · rw [if_pos h2]
      exact arrowBody_after F B r hr _ _ _ p q hs (by omega) (by omega) (fun _ => by omega)
    · rw [if_neg h2]
      simp only [returns_getPLT_iff]
      by_cases h3 : (!q.prevLineTerminator) = true
      · rw [if_pos h3]
        refine call_optToken hs (fun ns q2 hs2 hle2 _ => ?_)
        refine hr.2.1.call hs2 (by omega) (by omega) (fun e q3 hs3 _ hle3 => ?_)
        exact Returns.rpure ⟨hs3, fun _ => by omega⟩
      · rw [if_neg h3]
        exact Returns.rpure ⟨hs, fun _ => by omega⟩
  rw [if_neg h1]
  simp only [returns_getTt_iff]
  by_cases h2 : p.tt = AsyncToken
  · rw [if_pos h2]
    have hne : p.tt ≠ ErrorToken := by rw [h2]; decide
    refine call_parseToken (Step.srefl hwf) (fun t q hs hlt hle => ?_)
    have := hlt hne
    simp only [returns_getPLT_iff]
    by_cases h3 : q.prevLineTerminator = true
    · rw [if_pos h3]
      refine call_fail _ _ hs (fun q6 hs6 he => ?_)
      exact Returns.rpure (prog_of_error hs6 he)
    rw [if_neg h3]
    simp only [returns_getTt_iff]
    by_cases h4 : q.tt = FunctionToken
    · rw [if_pos h4]
      refine (parseFuncDecl_spec F B r hr _).callQ hs (by omega) (by omega)
        (fun ns q2 hs2 _ hle2 _ => ?_)
      exact Returns.rpure ⟨hs2, fun _ => by omega⟩
    rw [if_neg h4]
    simp only [returns_getTt_iff]
    by_cases h5 : identLike q.tt = true
    · rw [if_pos h5]
      refine call_parseToken hs (fun t2 q2 hs2 _ hle2 => ?_)
      simp only [returns_getTt_iff]
      by_cases h6 : q2.tt ≠ ArrowToken
      · rw [if_pos h6]
        refine call_fail _ _ hs2 (fun q6 hs6 he => ?_)
        exact Returns.rpure (prog_of_error hs6 he)
      · rw [if_neg h6]
        exact arrowBody_after F B r hr _ _ _ p q2 hs2 (by omega) (by omega)
          (fun _ => by omega)
    rw [if_neg h5]
    refine call_fail _ _ hs (fun q6 hs6 he => ?_)
    exact Returns.rpure (prog_of_error hs6 he)
  rw [if_neg h2]
  exact assignLoop_spec F B r hr F [] p hwf hB hF hF

/-! ### Bindings -/

theorem elisionLoop_spec (f : Nat) :
    ∀ (p : Parser), WF p → meas p < f → Returns (elisionLoop f) p (fun _ q => Step p q) := by
  induction f with
  | zero => intro p _ h; omega
  | succ f ih =>
    intro p hwf hf
    unfold elisionLoop
    simp only [returns_getTt_iff]
    by_cases h1 : p.tt = CommaToken
    · rw [if_pos h1]
      have hne : p.tt ≠ ErrorToken := by rw [h1]; decide
      refine call_next (Step.srefl hwf) (fun q hs hlt hle => ?_)
      have := hlt hne
      exact (ih q hs.1 (by omega)).rmono (fun _ q3 hq3 => hs.sthen hq3)
    · rw [if_neg h1]
      exact Returns.rpure (Step.srefl hwf)

theorem call_elision {β : Type} {p q : Parser} {f : Unit → M β} {R : β → Parser → Prop}
    {F : Nat} (hs : Step p q) (hF : meas q < F)
    (h : ∀ q2, Step p q2 → meas q2 ≤ meas q → Returns (f ()) q2 R) :
    Returns (elisionLoop F >>= f) q R :=
  call_of_step (Q := fun _ _ => True)
    ((elisionLoop_spec F q hs.1 hF).rmono (fun _ _ h => ⟨h, trivial⟩)) hs
    (fun _ q2 h1 h2 _ => h q2 h1 h2)

theorem arrayBindingLoop_spec (F B : Nat) (r : Rec) (hr : RecOK F B r) (f : Nat) :
    ∀ (nodes : List Node) (p : Parser), WF p → 3 * meas p + 1 ≤ B → meas p < F →
      meas p < f → Returns (arrayBindingLoop F r f nodes) p (fun _ q => Step p q) := by
  induction f with
  | zero => intro _ p _ _ _ h; omega
  | succ f ih =>
    intro nodes p hwf hB hF hf
    unfold arrayBindingLoop
    simp only [returns_getTt_iff]
    by_cases h1 : p.tt ≠ CloseBracketToken
    · rw [if_pos h1]
      refine call_elision (Step.srefl hwf) hF (fun q hs hle => ?_)
      simp only [returns_getTt_iff]
      by_cases h2 : q.tt = EllipsisToken
      · rw [if_pos h2]
        have hq : q.tt ≠ ErrorToken := by rw [h2]; decide
        refine call_parseToken hs (fun t q2 hs2 hlt2 hle2 => ?_)
        have := hlt2 hq
        refine hr.2.2.2.call hs2 (by omega) (by omega) (fun b q3 hs3 _ hle3 => ?_)
        simp only [returns_getTt_iff]
        by_cases h3 : q3.tt ≠ CloseBracketToken
        · rw [if_pos h3]
          refine call_fail _ _ hs3 (fun q6 hs6 he => ?_)
          exact Returns.rpure hs6
        · rw [if_neg h3]
          exact Returns.rpure hs3
      · rw [if_neg h2]
        refine (parseBindingElement_spec F B r hr).call hs (by omega) (by omega)
          (fun b q2 hs2 hlt2 hle2 => ?_)
        have hprog : q2.tt ≠ ErrorToken → meas q2 < meas p := fun hne => by
          have h3 := meas_pos hne
          have hq : q.tt ≠ ErrorToken := fun h => by
            have := meas_error h
            omega
          have := hlt2 hq
          omega
        simp only [returns_getTt_iff]
        by_cases h3 : q2.tt = CommaToken
        · rw [if_pos h3]
          have := hprog (by rw [h3]; decide)
          refine call_elision hs2 (by omega) (fun q3 hs3 hle3 => ?_)
          exact (ih _ q3 hs3.1 (by omega) (by omega) (by omega)).rmono
            (fun _ q4 hq4 => hs3.sthen hq4)
        · rw [if_neg h3]
          simp only [returns_getTt_iff]
          by_cases h4 : q2.tt ≠ CloseBracketToken
          · rw [if_pos h4]
            refine call_fail _ _ hs2 (fun q6 hs6 he => ?_)
            exact Returns.rpure hs6
          · rw [if_neg h4]
            have := hprog (by rw [not_not.mp h4]; decide)
            exact (ih _ q2 hs2.1 (by omega) (by omega) (by omega)).rmono
              (fun _ q4 hq4 => hs2.sthen hq4)
    · rw [if_neg h1]
      exact Returns.rpure (Step.srefl hwf)

theorem objectBindingProperty_spec (env : Env) (F B : Nat) (r : Rec) (hr : RecOK F B r)
    (nodes : List Node) : Spec F B 0 (objectBindingProperty env r nodes) := by
  intro p hwf hB hF
  unfold objectBindingProperty
  simp only [returns_getTt_iff]
  by_cases h1 : identLike p.tt = true
  · rw [if_pos h1]
    have hne := identLike_ne_error h1
    refine call_parseToken (Step.srefl hwf) (fun t q hs hlt hle => ?_)
    have := hlt hne
    simp only [returns_getTt_iff]
    by_cases h2 : q.tt = ColonToken
    · rw [if_pos h2]
      refine call_parseToken hs (fun t2 q2 hs2 _ hle2 => ?_)
      refine (parseBindingElement_spec F B r hr).call hs2 (by omega) (by omega)
        (fun b q3 hs3 _ hle3 => ?_)
      exact Returns.rpure ⟨hs3, fun _ => by omega⟩
    rw [if_neg h2]
    simp only [returns_getTt_iff]
    by_cases h3 : q.tt = EqToken
    · rw [if_pos h3]
      refine call_parseToken hs (fun t2 q2 hs2 _ hle2 => ?_)
      refine hr.2.1.call hs2 (by omega) (by omega) (fun b q3 hs3 _ hle3 => ?_)
      exact Returns.rpure ⟨hs3, fun _ => by omega⟩
    rw [if_neg h3]
    exact Returns.rpure ⟨hs, fun _ => by omega⟩
  rw [if_neg h1]
  by_cases h2 : env.IsIdentifier p.tt = true ∨ p.tt = StringToken ∨ p.tt = NumericToken ∨
      p.tt = OpenBracketToken
  · rw [if_pos h2]
    refine call_of_prog (Q := fun o q => o = none → q.tt = ErrorToken) ?_ (Step.srefl hwf)
      (fun name q hs hlt hle hname => ?_)
    · by_cases h3 : p.tt = OpenBracketToken
      · rw [if_pos h3]
        have hne : p.tt ≠ ErrorToken := by rw [h3]; decide
        refine call_parseToken (Step.srefl hwf) (fun t q hs hlt hle => ?_)
        have := hlt hne
        refine hr.2.1.call hs (by omega) (by omega) (fun e q2 hs2 _ hle2 => ?_)
        simp only [returns_getTt_iff]
        by_cases h4 : q2.tt ≠ CloseBracketToken
        · rw [if_pos h4]
          refine call_fail _ _ hs2 (fun q6 hs6 he => ?_)
          exact Returns.rpure ⟨prog_of_error hs6 he, fun _ => he⟩
        · rw [if_neg h4]
          refine call_parseToken hs2 (fun t2 q3 hs3 _ hle3 => ?_)
          exact Returns.rpure ⟨⟨hs3, fun _ => by omega⟩, fun h => by simp at h⟩
      · rw [if_neg h3]
        refine call_parseToken (Step.srefl hwf) (fun t q hs hlt hle => ?_)
        exact Returns.rpure ⟨⟨hs, hlt⟩, fun h => by simp at h⟩
    · cases name with
      | none =>
        dsimp only
        exact Returns.rpure (prog_of_error hs (hname rfl))
      | some ns =>
        dsimp only
        simp only [returns_getTt_iff]
        by_cases h4 : q.tt ≠ ColonToken
        · rw [if_pos h4]
          refine call_fail _ _ hs (fun q6 hs6 he => ?_)
          exact Returns.rpure (prog_of_error hs6 he)
        · rw [if_neg h4]
          have hq : q.tt ≠ ErrorToken := by rw [not_not.mp h4]; decide
          refine call_parseToken hs (fun t2 q2 hs2 hlt2 hle2 => ?_)
          have := hlt2 hq
          refine (parseBindingElement_spec F B r hr).call hs2 (by omega) (by omega)
            (fun b q3 hs3 _ hle3 => ?_)
          exact Returns.rpure ⟨hs3, fun _ => by omega⟩
  rw [if_neg h2]
  refine call_fail _ _ (Step.srefl hwf) (fun q6 hs6 he => ?_)
  exact Returns.rpure (prog_of_error hs6 he)

theorem objectBindingLoop_spec (env : Env) (F B : Nat) (r : Rec) (hr : RecOK F B r)
    (f : Nat) :
    ∀ (nodes : List Node) (p : Parser), WF p → 3 * meas p ≤ B → meas p < F →
      meas p < f → Returns (objectBindingLoop env r f nodes) p (fun _ q => Step p q) := by
  induction f with
  | zero => intro _ p _ _ _ h; omega
  | succ f ih =>
    intro nodes p hwf hB hF hf
    unfold objectBindingLoop
    simp only [returns_getTt_iff]
    by_cases h1 : p.tt ≠ CloseBraceToken
    · rw [if_pos h1]
      simp only [returns_getTt_iff]
      by_cases h2 : p.tt = EllipsisToken
      · rw [if_pos h2]
        refine call_parseToken (Step.srefl hwf) (fun t q hs hlt hle => ?_)
        refine call_of_step (Q := fun _ _ => True) ?_ hs (fun _ q2 hs2 hle2 _ => ?_)
        · simp only [returns_getTt_iff]
          by_cases h3 : (!identLike q.tt) = true
          · rw [if_pos h3]
            exact (returns_fail _ _ q hs.1).rmono (fun _ _ h => ⟨h.1.1, trivial⟩)
          · rw [if_neg h3]
            exact Returns.rpure ⟨Step.srefl hs.1, trivial⟩
        refine call_parseToken hs2 (fun t2 q3 hs3 _ hle3 => ?_)
        simp only [returns_getTt_iff]
        by_cases h4 : q3.tt ≠ CloseBraceToken
        · rw [if_pos h4]
          refine call_fail _ _ hs3 (fun q6 hs6 he => ?_)
          exact Returns.rpure hs6
        · rw [if_neg h4]
          exact Returns.rpure hs3
      · rw [if_neg h2]
        refine (objectBindingProperty_spec env F B r hr nodes).call (Step.srefl hwf)
          (by omega) hF (fun o q hs hlt hle => ?_)
        have hprog : q.tt ≠ ErrorToken → meas q < meas p := fun hne =>
          hlt (ne_error_of_step hs hne)
        cases o with
        | none => exact Returns.rpure hs
        | some ns =>
          dsimp only
          simp only [returns_getTt_iff]
          by_cases h3 : q.tt = CommaToken
          · rw [if_pos h3]
            have := hprog (by rw [h3]; decide)
            refine call_next hs (fun q2 hs2 _ hle2 => ?_)
            exact (ih _ q2 hs2.1 (by omega) (by omega) (by omega)).rmono
              (fun _ q4 hq4 => hs2.sthen hq4)
          · rw [if_neg h3]
            simp only [returns_getTt_iff]
            by_cases h4 : q.tt ≠ CloseBraceToken
            · rw [if_pos h4]
              refine call_fail _ _ hs (fun q6 hs6 he => ?_)
              exact Returns.rpure hs6
            · rw [if_neg h4]
              have := hprog (by rw [not_not.mp h4]; decide)
              exact (ih _ q hs.1 (by omega) (by omega) (by omega)).rmono
                (fun _ q4 hq4 => hs.sthen hq4)
    · rw [if_neg h1]
      exact Returns.rpure (Step.srefl hwf)

theorem parseBindingF_spec (env : Env) (F B : Nat) (r : Rec) (hr : RecOK F B r) :
    Spec F B 0 (parseBindingF env F r) := by
  intro p hwf hB hF
  unfold parseBindingF
  simp only [returns_getTt_iff]
  by_cases h1 : identLike p.tt = true
  · rw [if_pos h1]
    refine call_parseToken (Step.srefl hwf) (fun t q hs hlt hle => ?_)
    exact Returns.rpure ⟨hs, hlt⟩
  rw [if_neg h1]
  simp only [returns_getTt_iff]
  by_cases h2 : p.tt = OpenBracketToken
  · rw [if_pos h2]
    have hne : p.tt ≠ ErrorToken := by rw [h2]; decide
    refine call_parseToken (Step.srefl hwf) (fun t q hs hlt hle => ?_)
    have := hlt hne
    refine call_of_step (Q := fun _ _ => True)
      ((arrayBindingLoop_spec F B r hr F [t] q hs.1 (by omega) (by omega) (by omega)).rmono
        (fun _ _ h => ⟨h, trivial⟩)) hs (fun o q2 hs2 hle2 _ => ?_)
    cases o with
    | none => exact Returns.rpure ⟨hs2, fun _ => by omega⟩
    | some ns =>
      dsimp only
      refine call_parseToken hs2 (fun t2 q3 hs3 _ hle3 => ?_)
      exact Returns.rpure ⟨hs3, fun _ => by omega⟩
  rw [if_neg h2]
  simp only [returns_getTt_iff]
  by_cases h3 : p.tt = OpenBraceToken
  · rw [if_pos h3]
    have hne : p.tt ≠ ErrorToken := by rw [h3]; decide
    refine call_parseToken (Step.srefl hwf) (fun t q hs hlt hle => ?_)
    have := hlt hne
    refine call_of_step (Q := fun _ _ => True)
      ((objectBindingLoop_spec env F B r hr F [t] q hs.1 (by omega) (by omega)
        (by omega)).rmono (fun _ _ h => ⟨h, trivial⟩)) hs (fun o q2 hs2 hle2 _ => ?_)
    cases o with
    | none => exact Returns.rpure ⟨hs2, fun _ => by omega⟩
    | some ns =>
      dsimp only
      refine call_parseToken hs2 (fun t2 q3 hs3 _ hle3 => ?_)
      exact Returns.rpure ⟨hs3, fun _ => by omega⟩
  rw [if_neg h3]
  refine call_fail _ _ (Step.srefl hwf) (fun q6 hs6 he => ?_)
  exact Returns.rpure (prog_of_error hs6 he)

/-! ### Statements -/

theorem call_consume_ok {β : Type} {p q : Parser} {R : Option β → Parser → Prop}
    {rest : M (Option β)} (rule : String) (tt : TokenType) (htt : tt ≠ ErrorToken)
    (hs : Step p q)
    (hnone : ∀ q2, Step p q2 → q2.tt = ErrorToken → R none q2)
    (h : ∀ q2, Step p q2 → meas q2 < meas q → q.tt = tt → Returns rest q2 R) :
    Returns (consume rule tt >>= fun b => if (!b) = true then pure none else rest) q R := by
  refine call_consume _ _ hs (fun b q2 hs2 hlt2 _ hb ht => ?_)
  cases b with
  | false =>
    simp only [Bool.not_false, if_true]
    exact Returns.rpure (hnone q2 hs2 (hb rfl))
  | true =>
    simp only [Bool.not_true, Bool.false_eq_true, if_false]
    exact h q2 hs2 (hlt2 (by rw [ht rfl]; exact htt)) (ht rfl)

theorem stmtParenExpr_spec (F B : Nat) (r : Rec) (hr : RecOK F B r) (rule : String)
    (p : Parser) (hwf : WF p) (hne : p.tt ≠ ErrorToken) (hB : 3 * meas p ≤ B)
    (hF : meas p < F) :
    Returns (stmtParenExpr rule F r) p
      (fun o q => Prog p q ∧ (o = none → q.tt = ErrorToken)) := by
  unfold stmtParenExpr
  refine call_parseToken (Step.srefl hwf) (fun t q hs hlt hle => ?_)
  have := hlt hne
  refine call_consume_ok _ _ (by decide) hs (fun q2 hs2 he => ⟨prog_of_error hs2 he, fun _ => he⟩)
    (fun q2 hs2 hlt2 _ => ?_)
  refine (parseExpr_spec F B r hr).call hs2 (by omega) (by omega) (fun e q3 hs3 _ hle3 => ?_)
  refine call_consume_ok _ _ (by decide) hs3 (fun q4 hs4 he => ⟨prog_of_error hs4 he, fun _ => he⟩)
    (fun q4 hs4 hlt4 _ => ?_)
  refine hr.1.call hs4 (by omega) (by omega) (fun st q5 hs5 _ hle5 => ?_)
  exact Returns.rpure ⟨⟨hs5, fun _ => by omega⟩, fun h => by simp at h⟩

theorem stmtIf_spec (F B : Nat) (r : Rec) (hr : RecOK F B r)
    (p : Parser) (hwf : WF p) (hne : p.tt ≠ ErrorToken) (hB : 3 * meas p ≤ B)
    (hF : meas p < F) :
    Returns (stmtIf F r) p (fun o q => Prog p q ∧ (o = none → q.tt = ErrorToken)) := by
  unfold stmtIf
  refine call_of_prog (stmtParenExpr_spec F B r hr _ p hwf hne hB hF) (Step.srefl hwf)
    (fun o q hs hlt hle ho => ?_)
  have := hlt hne
  cases o with
  | none => exact Returns.rpure ⟨⟨hs, hlt⟩, fun _ => ho rfl⟩
  | some ns =>
    dsimp only
    simp only [returns_getTt_iff]
    by_cases h1 : q.tt = ElseToken
    · rw [if_pos h1]
      refine call_parseToken hs (fun t q2 hs2 _ hle2 => ?_)
      refine hr.1.call hs2 (by omega) (by omega) (fun st q3 hs3 _ hle3 => ?_)
      exact Returns.rpure ⟨⟨hs3, fun _ => by omega⟩, fun h => by simp at h⟩
    · rw [if_neg h1]
      exact Returns.rpure ⟨⟨hs, hlt⟩, fun h => by simp at h⟩

theorem stmtDo_spec (F B : Nat) (r : Rec) (hr : RecOK F B r)
    (p : Parser) (hwf : WF p) (hne : p.tt ≠ ErrorToken) (hB : 3 * meas p ≤ B)
    (hF : meas p < F) :
    Returns (stmtDo F r) p (fun o q => Prog p q ∧ (o = none → q.tt = ErrorToken)) := by
  unfold stmtDo
  refine call_parseToken (Step.srefl hwf) (fun t q hs hlt hle => ?_)
  have := hlt hne
  refine hr.1.call hs (by omega) (by omega) (fun st q2 hs2 _ hle2 => ?_)
  simp only [returns_getTt_iff]
  by_cases h1 : q2.tt ≠ WhileToken
  · rw [if_pos h1]
    refine call_fail _ _ hs2 (fun q6 hs6 he => ?_)
    exact Returns.rpure ⟨prog_of_error hs6 he, fun _ => he⟩
  rw [if_neg h1]
  refine call_parseToken hs2 (fun t2 q3 hs3 _ hle3 => ?_)
  refine call_consume_ok _ _ (by decide) hs3 (fun q4 hs4 he => ⟨prog_of_error hs4 he, fun _ => he⟩)
    (fun q4 hs4 hlt4 _ => ?_)
  refine (parseExpr_spec F B r hr).call hs4 (by omega) (by omega) (fun e q5 hs5 _ hle5 => ?_)
  refine call_consume_ok _ _ (by decide) hs5 (fun q6 hs6 he => ⟨prog_of_error hs6 he, fun _ => he⟩)
    (fun q6 hs6 hlt6 _ => ?_)
  exact Returns.rpure ⟨⟨hs6, fun _ => by omega⟩, fun h => by simp at h⟩

theorem stmtFor_spec (F B : Nat) (r : Rec) (hr : RecOK F B r)
    (p : Parser) (hwf : WF p) (hne : p.tt ≠ ErrorToken) (hB : 3 * meas p ≤ B)
    (hF : meas p < F) :
    Returns (stmtFor F r) p (fun o q => Prog p q ∧ (o = none → q.tt = ErrorToken)) := by
  unfold stmtFor
  refine call_parseToken (Step.srefl hwf) (fun t q hs hlt hle => ?_)
  have := hlt hne
  dsimp only
  refine call_optToken hs (fun ns q1 hs1 hle1 _ => ?_)
  refine call_consume_ok _ _ (by decide) hs1 (fun q2 hs2 he => ⟨prog_of_error hs2 he, fun _ => he⟩)
    (fun q2 hs2 hlt2 _ => ?_)
  refine call_of_step (Q := fun _ _ => True) ?_ hs2 (fun ns2 q3 hs3 hle3 _ => ?_)
  · simp only [returns_getTt_iff]
    by_cases h1 : q2.tt = VarToken ∨ q2.tt = LetToken ∨ q2.tt = ConstToken
    · rw [if_pos h1]
      refine (parseVarDecl_spec F B r hr []).call (Step.srefl hs2.1) (by omega) (by omega)
        (fun d q3 hs3 _ _ => ?_)
      exact Returns.rpure ⟨hs3, trivial⟩
    · rw [if_neg h1]
      refine (hr.2.2.1 []).callQ (Step.srefl hs2.1) (by omega) (by omega)
        (fun d q3 hs3 _ _ _ => ?_)
      exact Returns.rpure ⟨hs3, trivial⟩
  refine call_of_step (Q := fun o q4 => o = none → q4.tt = ErrorToken) ?_ hs3
    (fun head q4 hs4 hle4 hhead => ?_)
  · simp only [returns_getTt_iff]
    by_cases h1 : q3.tt = SemicolonToken
    · rw [if_pos h1]
      refine call_next (Step.srefl hs3.1) (fun q4 hs4 _ hle4 => ?_)
      refine (parseExpr_spec F B r hr).call hs4 (by omega) (by omega)
        (fun e q5 hs5 _ hle5 => ?_)
      refine call_consume_ok _ _ (by decide) hs5 (fun q6 hs6 he => ⟨hs6, fun _ => he⟩)
        (fun q6 hs6 hlt6 _ => ?_)
      refine (parseExpr_spec F B r hr).call hs6 (by omega) (by omega)
        (fun e2 q7 hs7 _ hle7 => ?_)
      exact Returns.rpure ⟨hs7, fun h => by simp at h⟩
    rw [if_neg h1]
    simp only [returns_getTt_iff]
    by_cases h2 : q3.tt = InToken
    · rw [if_pos h2]
      refine call_parseToken (Step.srefl hs3.1) (fun t2 q4 hs4 _ hle4 => ?_)
      refine (parseExpr_spec F B r hr).call hs4 (by omega) (by omega)
        (fun e q5 hs5 _ hle5 => ?_)
      exact Returns.rpure ⟨hs5, fun h => by simp at h⟩
    rw [if_neg h2]
    simp only [returns_getTt_iff, returns_getData_iff]
    by_cases h3 : q3.tt = IdentifierToken ∧ q3.data = bytesOf
    · rw [if_pos h3]
      refine call_parseToken (Step.srefl hs3.1) (fun t2 q4 hs4 _ hle4 => ?_)
      refine hr.2.1.call hs4 (by omega) (by omega) (fun e q5 hs5 _ hle5 => ?_)
      exact Returns.rpure ⟨hs5, fun h => by simp at h⟩
    rw [if_neg h3]
    refine call_fail _ _ (Step.srefl hs3.1) (fun q6 hs6 he => ?_)
    exact Returns.rpure ⟨hs6, fun _ => he⟩
  cases head with
  | none => exact Returns.rpure ⟨prog_of_error hs4 (hhead rfl), fun _ => hhead rfl⟩
  | some ns3 =>
    dsimp only
    refine call_consume_ok _ _ (by decide) hs4 (fun q6 hs6 he => ⟨prog_of_error hs6 he, fun _ => he⟩)
      (fun q5 hs5 hlt5 _ => ?_)
    refine hr.1.call hs5 (by omega) (by omega) (fun st q6 hs6 _ hle6 => ?_)
    exact Returns.rpure ⟨⟨hs6, fun _ => by omega⟩, fun h => by simp at h⟩

theorem clauseStmtsLoop_spec (F B : Nat) (r : Rec) (hr : RecOK F B r) (f : Nat) :
    ∀ (nodes : List Node) (p : Parser), WF p → 3 * meas p + 3 ≤ B → meas p < F →
      meas p < f → Returns (clauseStmtsLoop r f nodes) p (fun _ q => Step p q) := by
  induction f with
  | zero => intro _ p _ _ _ h; omega
  | succ f ih =>
    intro nodes p hwf hB hF hf
    unfold clauseStmtsLoop
    simp only [returns_getTt_iff]
    by_cases h1 : p.tt ≠ CaseToken ∧ p.tt ≠ DefaultToken ∧ p.tt ≠ CloseBraceToken ∧
        p.tt ≠ ErrorToken
    · rw [if_pos h1]
      refine hr.1.call (Step.srefl hwf) hB hF (fun st q hs hlt hle => ?_)
      have := hlt h1.2.2.2
      exact (ih _ q hs.1 (by omega) (by omega) (by omega)).rmono
        (fun _ q3 hq3 => hs.sthen hq3)
    · rw [if_neg h1]
      exact Returns.rpure (Step.srefl hwf)

theorem caseBlockLoop_spec (F B : Nat) (r : Rec) (hr : RecOK F B r) (f : Nat) :
    ∀ (nodes : List Node) (p : Parser), WF p → 3 * meas p ≤ B → meas p < F →
      meas p < f → Returns (caseBlockLoop F r f nodes) p
        (fun o q => Step p q ∧ (o = none → q.tt = ErrorToken)) := by
  induction f with
  | zero => intro _ p _ _ _ h; omega
  | succ f ih =>
    intro nodes p hwf hB hF hf
    unfold caseBlockLoop
    simp only [returns_getTt_iff]
    by_cases h1 : p.tt ≠ ErrorToken
    · rw [if_pos h1]
      simp only [returns_getTt_iff]
      by_cases h2 : p.tt = CloseBraceToken
      · rw [if_pos h2]
        refine call_next (Step.srefl hwf) (fun q hs _ _ => ?_)
        exact Returns.rpure ⟨hs, fun h => by simp at h⟩
      rw [if_neg h2]
      refine call_of_prog (Q := fun o q => o = none → q.tt = ErrorToken) ?_ (Step.srefl hwf)
        (fun head q hs hlt hle hhead => ?_)
      · simp only [returns_getTt_iff]
        by_cases h3 : p.tt = CaseToken
        · rw [if_pos h3]
          refine call_parseToken (Step.srefl hwf) (fun t q hs hlt hle => ?_)
          have := hlt h1
          refine (parseExpr_spec F B r hr).call hs (by omega) (by omega)
            (fun e q2 hs2 _ hle2 => ?_)
          exact Returns.rpure ⟨⟨hs2, fun _ => by omega⟩, fun h => by simp at h⟩
        rw [if_neg h3]
        simp only [returns_getTt_iff]
        by_cases h4 : p.tt = DefaultToken
        · rw [if_pos h4]
          refine call_parseToken (Step.srefl hwf) (fun t q hs hlt hle => ?_)
          exact Returns.rpure ⟨⟨hs, hlt⟩, fun h => by simp at h⟩
        rw [if_neg h4]
        refine call_fail _ _ (Step.srefl hwf) (fun q6 hs6 he => ?_)
        exact Returns.rpure ⟨prog_of_error hs6 he, fun _ => he⟩
      have := hlt h1
      cases head with
      | none => exact Returns.rpure ⟨hs, fun _ => hhead rfl⟩
      | some cn =>
        dsimp only
        refine call_consume_ok _ _ (by decide) hs (fun q6 hs6 he => ⟨hs6, fun _ => he⟩)
          (fun q2 hs2 hlt2 _ => ?_)
        refine call_of_step (Q := fun _ _ => True)
          ((clauseStmtsLoop_spec F B r hr F cn q2 hs2.1 (by omega) (by omega)
            (by omega)).rmono (fun _ _ h => ⟨h, trivial⟩)) hs2 (fun cn2 q3 hs3 hle3 _ => ?_)
        exact (ih _ q3 hs3.1 (by omega) (by omega) (by omega)).rmono
          (fun _ q4 hq4 => ⟨hs3.sthen hq4.1, hq4.2⟩)
    · rw [if_neg h1]
      exact Returns.rpure ⟨Step.srefl hwf, fun h => by simp at h⟩

theorem stmtSwitch_spec (F B : Nat) (r : Rec) (hr : RecOK F B r)
    (p : Parser) (hwf : WF p) (hne : p.tt ≠ ErrorToken) (hB : 3 * meas p ≤ B)
    (hF : meas p < F) :
    Returns (stmtSwitch F r) p (fun o q => Prog p q ∧ (o = none → q.tt = ErrorToken)) := by
  unfold stmtSwitch
  refine call_parseToken (Step.srefl hwf) (fun t q hs hlt hle => ?_)
  have := hlt hne
  refine call_consume_ok _ _ (by decide) hs
    (fun q2 hs2 he => ⟨prog_of_error hs2 he, fun _ => he⟩) (fun q2 hs2 hlt2 _ => ?_)
  refine (parseExpr_spec F B r hr).call hs2 (by omega) (by omega) (fun e q3 hs3 _ hle3 => ?_)
  refine call_consume_ok _ _ (by decide) hs3
    (fun q4 hs4 he => ⟨prog_of_error hs4 he, fun _ => he⟩) (fun q4 hs4 hlt4 _ => ?_)
  refine call_consume_ok _ _ (by decide) hs4
    (fun q5 hs5 he => ⟨prog_of_error hs5 he, fun _ => he⟩) (fun q5 hs5 hlt5 _ => ?_)
  exact (caseBlockLoop_spec F B r hr F _ q5 hs5.1 (by omega) (by omega) (by omega)).rmono
    (fun _ q6 hq6 => ⟨⟨hs5.sthen hq6.1, fun _ => by have := hq6.1.2.1; omega⟩, hq6.2⟩)

theorem stmtTry_spec (F B : Nat) (r : Rec) (hr : RecOK F B r)
    (p : Parser) (hwf : WF p) (hne : p.tt ≠ ErrorToken) (hB : 3 * meas p ≤ B)
    (hF : meas p < F) :
    Returns (stmtTry F r) p (fun o q => Prog p q ∧ (o = none → q.tt = ErrorToken)) := by
  unfold stmtTry
  refine call_parseToken (Step.srefl hwf) (fun t q hs hlt hle => ?_)
  have := hlt hne
  refine (parseBlockStmt_spec F B r hr _).call hs (by omega) (by omega)
    (fun b q2 hs2 _ hle2 => ?_)
  dsimp only
  refine call_of_step (Q := fun o q4 => o = none → q4.tt = ErrorToken) ?_ hs2
    (fun caught q3 hs3 hle3 hcaught => ?_)
  · simp only [returns_getTt_iff]
    by_cases h1 : q2.tt = CatchToken
    · rw [if_pos h1]
      refine call_parseToken (Step.srefl hs2.1) (fun t2 q3 hs3 _ hle3 => ?_)
      dsimp only
      refine call_of_step (Q := fun o q4 => o = none → q4.tt = ErrorToken) ?_ hs3
        (fun param q4 hs4 hle4 hparam => ?_)
      · simp only [returns_getTt_iff]
        by_cases h2 : q3.tt = OpenParenToken
        · rw [if_pos h2]
          refine call_next (Step.srefl hs3.1) (fun q4 hs4 _ hle4 => ?_)
          refine hr.2.2.2.call hs4 (by omega) (by omega) (fun bd q5 hs5 _ hle5 => ?_)
          simp only [returns_getTt_iff]
          by_cases h3 : q5.tt ≠ CloseParenToken
          · rw [if_pos h3]
            refine call_fail _ _ hs5 (fun q6 hs6 he => ?_)
            exact Returns.rpure ⟨hs6, fun _ => he⟩
          · rw [if_neg h3]
            refine call_next hs5 (fun q6 hs6 _ _ => ?_)
            exact Returns.rpure ⟨hs6, fun h => by simp at h⟩
        · rw [if_neg h2]
          exact Returns.rpure ⟨Step.srefl hs3.1, fun h => by simp at h⟩
      cases param with
      | none => exact Returns.rpure ⟨hs4, fun _ => hparam rfl⟩
      | some ns =>
        dsimp only
        refine (parseBlockStmt_spec F B r hr _).call hs4 (by omega) (by omega)
          (fun b2 q5 hs5 _ _ => ?_)
        exact Returns.rpure ⟨hs5, fun h => by simp at h⟩
    · rw [if_neg h1]
      exact Returns.rpure ⟨Step.srefl hs2.1, fun h => by simp at h⟩
  cases caught with
  | none => exact Returns.rpure ⟨prog_of_error hs3 (hcaught rfl), fun _ => hcaught rfl⟩
  | some ns =>
    dsimp only
    simp only [returns_getTt_iff]
    by_cases h1 : q3.tt = FinallyToken
    · rw [if_pos h1]
      refine call_parseToken hs3 (fun t3 q4 hs4 _ hle4 => ?_)
      refine (parseBlockStmt_spec F B r hr _).call hs4 (by omega) (by omega)
        (fun b3 q5 hs5 _ hle5 => ?_)
      exact Returns.rpure ⟨⟨hs5, fun _ => by omega⟩, fun h => by simp at h⟩
    · rw [if_neg h1]
      exact Returns.rpure ⟨⟨hs3, fun _ => by omega⟩, fun h => by simp at h⟩

/-- What `stmtCases` hands to `parseStmt`: no result only after a failure, and progress
unless the statement is empty. -/
theorem stmt_of_prog {p : Parser} {m : M (Option (List Node))}
    (h : Returns m p (fun o q => Prog p q ∧ (o = none → q.tt = ErrorToken))) :
    Returns m p (fun o q => Step p q ∧ (o = none → q.tt = ErrorToken) ∧
      (p.tt ≠ ErrorToken → meas q < meas p ∨ q.tt = SemicolonToken ∨
        q.tt = LineTerminatorToken)) :=
  h.rmono (fun _ _ h => ⟨h.1.1, h.2, fun hne => Or.inl (h.1.2 hne)⟩)

theorem stmt_some {p q : Parser} {ns : List Node} (hs : Step p q)
    (hlt : p.tt ≠ ErrorToken → meas q < meas p) :
    Returns (pure (some ns) : M (Option (List Node))) q
      (fun o q => Step p q ∧ (o = none → q.tt = ErrorToken) ∧
        (p.tt ≠ ErrorToken → meas q < meas p ∨ q.tt = SemicolonToken ∨
          q.tt = LineTerminatorToken)) :=
  Returns.rpure ⟨hs, fun h => by simp at h, fun hne => Or.inl (hlt hne)⟩

theorem stmt_none {p q : Parser} (hs : Step p q) (he : q.tt = ErrorToken) :
    Returns (pure none : M (Option (List Node))) q
      (fun o q => Step p q ∧ (o = none → q.tt = ErrorToken) ∧
        (p.tt ≠ ErrorToken → meas q < meas p ∨ q.tt = SemicolonToken ∨
          q.tt = LineTerminatorToken)) :=
  Returns.rpure ⟨hs, fun _ => he, fun hne => Or.inl ((prog_of_error hs he).2 hne)⟩

theorem stmtCases_spec (env : Env) (F B : Nat) (r : Rec) (hr : RecOK F B r)
    (p : Parser) (hwf : WF p) (hB : 3 * meas p + 2 ≤ B) (hF : meas p < F) :
    Returns (stmtCases env F r) p
      (fun o q => Step p q ∧ (o = none → q.tt = ErrorToken) ∧
        (p.tt ≠ ErrorToken → meas q < meas p ∨ q.tt = SemicolonToken ∨
          q.tt = LineTerminatorToken)) := by
  unfold stmtCases
  simp only [returns_getTt_iff]
  by_cases h1 : p.tt = LetToken ∨ p.tt = ConstToken ∨ p.tt = VarToken
  · rw [if_pos h1]
    refine (parseVarDecl_spec F B r hr []).call (Step.srefl hwf) (by omega) hF
      (fun ns q hs hlt _ => ?_)
    exact stmt_some hs hlt
  rw [if_neg h1]
  by_cases h2 : p.tt = ContinueToken ∨ p.tt = BreakToken
  · rw [if_pos h2]
    refine call_parseToken (Step.srefl hwf) (fun t q hs hlt hle => ?_)
    simp only [returns_getTt_iff, returns_getPLT_iff]
    by_cases h3 : (!q.prevLineTerminator) = true ∧ identLike q.tt = true
    · rw [if_pos h3]
      refine call_parseToken hs (fun t2 q2 hs2 _ hle2 => ?_)
      exact stmt_some hs2 (fun hne => by have := hlt hne; omega)
    · rw [if_neg h3]
      exact stmt_some hs hlt
  rw [if_neg h2]
  by_cases h3 : p.tt = ReturnToken
  · rw [if_pos h3]
    have hne : p.tt ≠ ErrorToken := by rw [h3]; decide
    refine call_parseToken (Step.srefl hwf) (fun t q hs hlt hle => ?_)
    have := hlt hne
    simp only [returns_getTt_iff, returns_getPLT_iff]
    by_cases h4 : (!q.prevLineTerminator) = true ∧ q.tt ≠ SemicolonToken ∧
        q.tt ≠ LineTerminatorToken ∧ q.tt ≠ ErrorToken
    · rw [if_pos h4]
      refine (parseExpr_spec F B r hr).call hs (by omega) (by omega)
        (fun e q2 hs2 _ hle2 => ?_)
      exact stmt_some hs2 (fun _ => by omega)
    · rw [if_neg h4]
      exact stmt_some hs hlt
  rw [if_neg h3]
  by_cases h4 : p.tt = IfToken
  · rw [if_pos h4]
    exact stmt_of_prog (stmtIf_spec F B r hr p hwf (by rw [h4]; decide) (by omega) hF)
  rw [if_neg h4]
  by_cases h5 : p.tt = WithToken
  · rw [if_pos h5]
    exact stmt_of_prog
      (stmtParenExpr_spec F B r hr _ p hwf (by rw [h5]; decide) (by omega) hF)
  rw [if_neg h5]
  by_cases h6 : p.tt = DoToken
  · rw [if_pos h6]
    exact stmt_of_prog (stmtDo_spec F B r hr p hwf (by rw [h6]; decide) (by omega) hF)
  rw [if_neg h6]
  by_cases h7 : p.tt = WhileToken
  · rw [if_pos h7]
    exact stmt_of_prog
      (stmtParenExpr_spec F B r hr _ p hwf (by rw [h7]; decide) (by omega) hF)
  rw [if_neg h7]
  by_cases h8 : p.tt = ForToken
  · rw [if_pos h8]
    exact stmt_of_prog (stmtFor_spec F B r hr p hwf (by rw [h8]; decide) (by omega) hF)
  rw [if_neg h8]
  by_cases h9 : p.tt = IdentifierToken ∨ p.tt = YieldToken ∨ p.tt = AwaitToken
  · rw [if_pos h9]
    have hne : p.tt ≠ ErrorToken := by rcases h9 with h | h | h <;> rw [h] <;> decide
    refine (parseExpr_spec F B r hr).call (Step.srefl hwf) hB hF (fun e q hs hlt hle => ?_)
    have := hlt hne
    simp only [returns_getTt_iff]
    by_cases h10 : q.tt = ColonToken ∧ e.nodes.length = 1
    · rw [if_pos h10]
      refine call_next hs (fun q2 hs2 _ hle2 => ?_)
      refine hr.1.call hs2 (by omega) (by omega) (fun st q3 hs3 _ hle3 => ?_)
      exact stmt_some hs3 (fun _ => by omega)
    · rw [if_neg h10]
      exact stmt_some hs hlt
  rw [if_neg h9]
  by_cases h10 : p.tt = SwitchToken
  · rw [if_pos h10]
    exact stmt_of_prog (stmtSwitch_spec F B r hr p hwf (by rw [h10]; decide) (by omega) hF)
  rw [if_neg h10]
  by_cases h11 : p.tt = FunctionToken
  · rw [if_pos h11]
    refine (parseFuncDecl_spec F B r hr []).callQ (Step.srefl hwf) (by omega) hF
      (fun ns q hs hlt _ _ => ?_)
    exact stmt_some hs hlt
  rw [if_neg h11]
  by_cases h12 : p.tt = AsyncToken
  · rw [if_pos h12]
    refine call_parseToken (Step.srefl hwf) (fun t q hs hlt hle => ?_)
    simp only [returns_getTt_iff]
    by_cases h13 : q.tt ≠ FunctionToken
    · rw [if_pos h13]
      refine call_fail _ _ hs (fun q6 hs6 he => ?_)
      exact stmt_none hs6 he
    · rw [if_neg h13]
      refine (parseFuncDecl_spec F B r hr _).callQ hs (by omega) (by omega)
        (fun ns q2 hs2 _ hle2 _ => ?_)
      exact stmt_some hs2 (fun hne => by have := hlt hne; omega)
  rw [if_neg h12]
  by_cases h13 : p.tt = ClassToken
  · rw [if_pos h13]
    refine (parseClassDecl_spec env F B r hr []).callQ (Step.srefl hwf) (by omega) hF
      (fun ns q hs hlt _ _ => ?_)
    exact stmt_some hs hlt
  rw [if_neg h13]
  by_cases h14 : p.tt = ThrowToken
  · rw [if_pos h14]
    have hne : p.tt ≠ ErrorToken := by rw [h14]; decide
    refine call_parseToken (Step.srefl hwf) (fun t q hs hlt hle => ?_)
    have := hlt hne
    simp only [returns_getPLT_iff]
    by_cases h15 : (!q.prevLineTerminator) = true
    · rw [if_pos h15]
      refine (parseExpr_spec F B r hr).call hs (by omega) (by omega)
        (fun e q2 hs2 _ hle2 => ?_)
      exact stmt_some hs2 (fun _ => by omega)
    · rw [if_neg h15]
      exact stmt_some hs hlt
  rw [if_neg h14]
  by_cases h15 : p.tt = TryToken
  · rw [if_pos h15]
    exact stmt_of_prog (stmtTry_spec F B r hr p hwf (by rw [h15]; decide) (by omega) hF)
  rw [if_neg h15]
  by_cases h16 : p.tt = DebuggerToken
  · rw [if_pos h16]
    refine call_parseToken (Step.srefl hwf) (fun t q hs hlt hle => ?_)
    exact stmt_some hs hlt
  rw [if_neg h16]
  by_cases h17 : p.tt = SemicolonToken ∨ p.tt = LineTerminatorToken
  · rw [if_pos h17]
    exact Returns.rpure ⟨Step.srefl hwf, fun h => by simp at h, fun _ => Or.inr h17⟩
  rw [if_neg h17]
  refine (parseExpr_spec F B r hr).call (Step.srefl hwf) hB hF (fun e q hs hlt hle => ?_)
  by_cases h18 : 0 < e.nodes.length
  · rw [if_pos h18]
    exact stmt_some hs hlt
  · rw [if_neg h18]
    refine call_fail _ _ hs (fun q6 hs6 he => ?_)
    exact stmt_none hs6 he

theorem parseStmtF_spec (env : Env) (F B : Nat) (r : Rec) (hr : RecOK F B r) :
    Spec F B 2 (parseStmtF env F r) := by
  intro p hwf hB hF
  unfold parseStmtF
  simp only [returns_getTt_iff]
  by_cases h1 : p.tt = OpenBraceToken
  · rw [if_pos h1]
    exact parseBlockStmt_spec F B r hr _ p hwf (by omega) hF
  rw [if_neg h1]
  refine call_of_step (stmtCases_spec env F B r hr p hwf hB hF) (Step.srefl hwf)
    (fun o q hs hle ho => ?_)
  cases o with
  | none => exact Returns.rpure (prog_of_error hs (ho.1 rfl))
  | some ns =>
    dsimp only
    refine call_of_step (Q := fun _ q2 =>
      (q.tt = SemicolonToken ∨ q.tt = LineTerminatorToken) → meas q2 < meas q) ?_ hs
      (fun _ q2 hs2 hle2 hsemi => ?_)
    · simp only [returns_getTt_iff]
      by_cases h2 : q.tt = SemicolonToken ∨ q.tt = LineTerminatorToken
      · rw [if_pos h2]
        have hq : q.tt ≠ ErrorToken := by rcases h2 with h | h <;> rw [h] <;> decide
        exact (returns_next q hs.1).rmono (fun _ _ h => ⟨h.1.1, fun _ => h.1.2 hq⟩)
      · rw [if_neg h2]
        exact Returns.rpure ⟨Step.srefl hs.1, fun h => absurd h h2⟩
    · refine Returns.rpure ⟨hs2, fun hne => ?_⟩
      rcases ho.2 hne with h | h
      · omega
      · have := hsemi h
        omega

/-! ### The descent functions, the module and `Parse` -/

theorem descent_ok (env : Env) (henv : EnvOK env) (F : Nat) :
    ∀ k, RecOK F k (descent env F k) := by
  intro k
  induction k with
  | zero =>
    refine ⟨fun p _ h _ => ?_, fun p _ h _ => ?_, fun _ p _ h _ => ?_, fun p _ h _ => ?_⟩ <;>
      omega
  | succ k ih =>
    refine ⟨fun p hwf hB hF => ?_, fun p hwf hB hF => ?_, fun nodes p hwf hB hF => ?_,
      fun p hwf hB hF => ?_⟩
    · exact parseStmtF_spec env F k _ ih p hwf (by omega) hF
    · exact parseAssignmentExprF_spec F k _ ih p hwf (by omega) hF
    · exact parseLeftHandSideExprF_spec env henv F k _ ih nodes p hwf (by omega) hF
    · exact parseBindingF_spec env F k _ ih p hwf (by omega) hF

theorem parseStmt_spec (env : Env) (henv : EnvOK env) (F k : Nat) :
    Spec F k 3 (parseStmt env F k) := (descent_ok env henv F k).1

theorem parseAssignmentExpr_spec (env : Env) (henv : EnvOK env) (F k : Nat) :
    Spec F k 2 (parseAssignmentExpr env F k) := (descent_ok env henv F k).2.1

theorem parseLeftHandSideExpr_spec (env : Env) (henv : EnvOK env) (F k : Nat)
    (nodes : List Node) : SpecQ F k 1 (parseLeftHandSideExpr env F k nodes) NE :=
  (descent_ok env henv F k).2.2.1 nodes

theorem parseBinding_spec (env : Env) (henv : EnvOK env) (F k : Nat) :
    Spec F k 1 (parseBinding env F k) := (descent_ok env henv F k).2.2.2

theorem parseModuleLoop_spec (env : Env) (henv : EnvOK env) (F k : Nat) (f : Nat) :
    ∀ (nodes : List Node) (p : Parser), WF p → 3 * meas p + 3 ≤ k → meas p < F →
      meas p < f →
      (∀ t ∈ moduleStarts env F k f p, t ≠ ImportToken ∧ t ≠ ExportToken) →
      Returns (parseModuleLoop env F k f nodes) p
        (fun m q => Step p q ∧ m.gt = ModuleGrammar ∧ q.tt = ErrorToken) := by
  induction f with
  | zero => intro _ p _ _ _ h; omega
  | succ f ih =>
    intro nodes p hwf hB hF hf hst
    unfold parseModuleLoop
    simp only [returns_getTt_iff]
    by_cases h1 : p.tt = ErrorToken
    · rw [if_pos h1]
      exact Returns.rpure ⟨Step.srefl hwf, rfl, h1⟩
    rw [if_neg h1]
    have hmem : p.tt ∈ moduleStarts env F k (f + 1) p := by
      rw [moduleStarts, if_neg h1]
      exact List.mem_cons_self _ _
    have h2 : ¬ (p.tt = ImportToken ∨ p.tt = ExportToken) := by
      have := hst p.tt hmem
      intro h
      rcases h with h | h
      · exact this.1 h
      · exact this.2 h
    rw [if_neg h2]
    obtain ⟨st, q, e, hq⟩ := parseStmt_spec env henv F k p hwf hB hF
    have hlt := hq.2 h1
    have hle := hq.1.2.1
    have hst3 : ∀ t ∈ moduleStarts env F k f q, t ≠ ImportToken ∧ t ≠ ExportToken := by
      intro t ht
      refine hst t ?_
      rw [moduleStarts, if_neg h1, e]
      exact List.mem_cons_of_mem _ ht
    obtain ⟨m, q2, e2, hq2⟩ := ih (nodes ++ [st]) q hq.1.1 (by omega) (by omega) (by omega) hst3
    exact ⟨m, q2, by rw [bind_eq, e]; exact e2, hq.1.sthen hq2.1, hq2.2⟩

theorem newParser_next (l : Lexer) :
    WF (nextState (newParser l)) ∧ meas (nextState (newParser l)) ≤ l.toks.length := by
  have hwf : WF (newParser l) := fun h => absurd rfl h
  have h := nextState_prog (newParser l) hwf
  have h2 := h.2 (show WhitespaceToken ≠ ErrorToken by decide)
  have h3 : meas (newParser l) = l.toks.length + 1 := rfl
  exact ⟨h.1.1, by omega⟩

theorem Parse_eq (env : Env) (F k : Nat) (l : Lexer) :
    Parse env F k l = match parseModule env F k (nextState (newParser l)) with
      | .error a => .error a
      | .ok (module, p) =>
        match p.err with
        | none => .ok (module, Error.lexer p.l.Err)
        | some e => .ok (module, e) := rfl

theorem stuck_of_spec {α : Type} {F B c : Nat} {m : M α} (hm : Spec F B c m) (p : Parser)
    (he : p.err ≠ none) (ht : p.tt = ErrorToken) (hB : c ≤ B) (hF : 0 < F) :
    ∃ a, m p = .ok (a, p) := by
  have h0 := meas_error ht
  obtain ⟨a, q, e, hq⟩ := hm p (fun _ => ht) (by omega) (by omega)
  have := hq.1.2.2 he
  exact ⟨a, by rw [e, this]⟩

theorem stdEnv_ok : EnvOK stdEnv := by
  refine ⟨by decide, fun l => ?_⟩
  show (stdRegExp l).2.toks.length ≤ l.toks.length
  unfold stdRegExp
  split
  · rename_i body close rest h
    rw [List.span_eq_take_drop] at h
    have h2 : l.toks.dropWhile (fun t => decide (t.1 ≠ DivToken)) = close :: rest :=
      (Prod.mk.inj h).2
    have h3 := (List.dropWhile_sublist (fun t : TokenType × List Nat =>
      decide (t.1 ≠ DivToken)) (l := l.toks)).length_le
    rw [h2] at h3
    simp only [List.length_cons] at h3
    show rest.length ≤ l.toks.length
    omega
  · exact Nat.zero_le _

theorem failedParser_err :
    failedParser.err
      = some (Error.grammar 0 [] (Found.data [114, 101, 116, 117, 114, 110]) "expression") :=
  rfl

theorem failedParser_failed : failedParser.err ≠ none := by
  rw [failedParser_err]
  exact fun h => Option.noConfusion h

/-- C18 fails on `return )`: the `return` case of `parseStmt` appends the node of `parseExpr`
without the check `0 < len(expr.nodes)` of the default case, and `parseAssignmentExpr`
returns an `Expr` node without children when `parseLeftHandSideExpr` has failed. The tree
that `Parse` returns is a Module with the statement `return` and an `Expr` node with no
children, next to the error of the rule "expression". -/
theorem return_keeps_empty_expr :
    ∀ env : Env, Parse env 4 12 (lexerOf returnParenTokens)
      = .ok (Node.inner ModuleGrammar [Node.inner StmtGrammar
          [Node.mk TokenGrammar [] ReturnToken [114, 101, 116, 117, 114, 110],
            Node.inner ExprGrammar []]],
          Error.grammar 7 [] (Found.data [41]) "expression") ∧
      (Node.inner ModuleGrammar [Node.inner StmtGrammar
        [Node.mk TokenGrammar [] ReturnToken [114, 101, 116, 117, 114, 110],
          Node.inner ExprGrammar []]]).hasEmptyExpr = true :=
  fun _ => ⟨rfl, rfl⟩

/-- C19: an error that `fail` records stays. (1) From a parser without an error `fail`
records one and sets the current token kind to ErrorToken. (2) In a parser with an error
`next` and `fail` change nothing. (3) With enough fuel each of `parseStmt`,
`parseAssignmentExpr`, `parseLeftHandSideExpr` and `parseBinding` returns, the current token
kind is ErrorToken once an error is recorded, and from a parser with an error they return in
the same parser; so does `parseModule`. (4) `Parse` returns the error that is recorded in the
parser in which `parseModule` returns, which by (2) and (3) is the first that `fail` has
recorded. -/
theorem first_error_is_kept (env : Env) (henv : EnvOK env) (F k : Nat) (hF : 0 < F) :
    (∀ rule expected p, p.err = none →
      (failState rule expected p).err ≠ none ∧
        (failState rule expected p).tt = ErrorToken) ∧
    (∀ p : Parser, p.err ≠ none → p.tt = ErrorToken →
      nextState p = p ∧ ∀ rule expected, failState rule expected p = p) ∧
    (∀ p : Parser, (p.err ≠ none → p.tt = ErrorToken) → meas p < F → 3 * meas p + 3 ≤ k →
      (∃ a q, parseStmt env F k p = .ok (a, q) ∧ (q.err ≠ none → q.tt = ErrorToken) ∧
        (p.err ≠ none → q = p)) ∧
      (∃ a q, parseAssignmentExpr env F k p = .ok (a, q) ∧
        (q.err ≠ none → q.tt = ErrorToken) ∧ (p.err ≠ none → q = p)) ∧
      (∀ nodes, ∃ a q, parseLeftHandSideExpr env F k nodes p = .ok (a, q) ∧
        (q.err ≠ none → q.tt = ErrorToken) ∧ (p.err ≠ none → q = p)) ∧
      (∃ a q, parseBinding env F k p = .ok (a, q) ∧ (q.err ≠ none → q.tt = ErrorToken) ∧
        (p.err ≠ none → q = p))) ∧
    (∀ p : Parser, p.err ≠ none → p.tt = ErrorToken →
      ∃ m, parseModule env F k p = .ok (m, p)) ∧
    (∀ l m q e, parseModule env F k (nextState (newParser l)) = .ok (m, q) →
      q.err = some e → Parse env F k l = .ok (m, e)) := by
  refine ⟨fun rule expected p he => ?_, fun p he ht => ?_, fun p hwf hF2 hk2 => ?_,
    fun p he ht => ?_, fun l m q e h1 h2 => ?_⟩
  · have : failState rule expected p
        = { p with err := some (Error.grammar ((p.l.offset : Int) - (p.data.length : Int))
              expected (if p.tt = ErrorToken then Found.lexer p.l.Err else Found.data p.data)
              rule), tt := ErrorToken, data := [] } := by
      simp [failState, he]
    rw [this]
    exact ⟨by simp, rfl⟩
  · refine ⟨nextState_error p ht, fun rule expected => ?_⟩
    cases h : p.err with
    | none => exact absurd h he
    | some x => simp [failState, h]
  · have hd := descent_ok env henv F k
    refine ⟨?_, ?_, fun nodes => ?_, ?_⟩
    · obtain ⟨a, q, e, hq⟩ := hd.1 p hwf hk2 hF2
      exact ⟨a, q, e, hq.1.1, hq.1.2.2⟩
    · obtain ⟨a, q, e, hq⟩ := hd.2.1 p hwf (by omega) hF2
      exact ⟨a, q, e, hq.1.1, hq.1.2.2⟩
    · obtain ⟨a, q, e, hq⟩ := hd.2.2.1 nodes p hwf (by omega) hF2
      exact ⟨a, q, e, hq.1.1.1, hq.1.1.2.2⟩
    · obtain ⟨a, q, e, hq⟩ := hd.2.2.2 p hwf (by omega) hF2
      exact ⟨a, q, e, hq.1.1, hq.1.2.2⟩
  · obtain ⟨F2, rfl⟩ : ∃ F2, F = F2 + 1 := ⟨F - 1, by omega⟩
    refine ⟨Node.inner ModuleGrammar [], ?_⟩
    show parseModuleLoop env (F2 + 1) k (F2 + 1) [] p = _
    unfold parseModuleLoop
    rw [bind_eq]
    show (if p.tt = ErrorToken then (pure (Node.inner ModuleGrammar []) : M Node) else _) p = _
    rw [if_pos ht]
    rfl
  · rw [Parse_eq, h1]
    simp only [h2]

/-- C19 with the lexer package as modelled and the parser in which `fail` has recorded the
error of `return )`: `parseStmt` returns in the same parser. -/
theorem first_error_is_kept_witness :
    EnvOK stdEnv ∧ 0 < 1 ∧ failedParser.err ≠ none ∧
      failedParser.tt = ErrorToken ∧ nextState failedParser = failedParser ∧
      ∃ m, parseModule stdEnv 1 3 failedParser = .ok (m, failedParser) :=
  ⟨stdEnv_ok, by decide, failedParser_failed, rfl,
    ((first_error_is_kept stdEnv stdEnv_ok 1 3 (by decide)).2.1 failedParser
      failedParser_failed rfl).1,
    (first_error_is_kept stdEnv stdEnv_ok 1 3 (by decide)).2.2.2.1 failedParser
      failedParser_failed rfl⟩

/-- C20 fails on `import x`: at the token `import` the loop of `parseModule` reaches
`panic("import and export statements not implemented")`, and `Parse` returns no tree; the
fuel is enough for three tokens, and the abort is the panic, not the end of the fuel. -/
theorem import_statement_aborts :
    Parse stdEnv 4 12 (lexerOf importTokens) = .error Abort.panic :=
  rfl

/-- C20, amended: when no top-level statement begins with an `import` or `export` token,
`Parse` returns a node with the grammar Module together with its error result. The lexer
package is as `EnvOK` says, the fuel `F` of the loops is more than the number of tokens and
the fuel `k` of the recursion at least three times that number plus three. -/
theorem parse_returns_module (env : Env) (henv : EnvOK env) (F k : Nat) (l : Lexer)
    (hF : l.toks.length < F) (hk : 3 * l.toks.length + 3 ≤ k)
    (hst : ∀ t ∈ moduleStarts env F k F (nextState (newParser l)),
      t ≠ ImportToken ∧ t ≠ ExportToken) :
    ∃ m e, Parse env F k l = .ok (m, e) ∧ m.gt = ModuleGrammar := by
  have h0 := newParser_next l
  obtain ⟨m, q, e, hq⟩ := parseModuleLoop_spec env henv F k F [] (nextState (newParser l))
    h0.1 (by omega) (by omega) (by omega) hst
  have e2 : parseModule env F k (nextState (newParser l)) = .ok (m, q) := e
  rw [Parse_eq, e2]
  cases h : q.err with
  | none => exact ⟨m, Error.lexer q.l.Err, by simp only [h], hq.2.1⟩
  | some x => exact ⟨m, x, by simp only [h], hq.2.1⟩

/-- C20, amended, on `x;` with the lexer package as modelled. -/
theorem parse_returns_module_witness :
    EnvOK stdEnv ∧ (lexerOf identTokens).toks.length < 3 ∧
      3 * (lexerOf identTokens).toks.length + 3 ≤ 9 ∧
      (∀ t ∈ moduleStarts stdEnv 3 9 3 (nextState (newParser (lexerOf identTokens))),
        t ≠ ImportToken ∧ t ≠ ExportToken) ∧
      ∃ m e, Parse stdEnv 3 9 (lexerOf identTokens) = .ok (m, e) ∧ m.gt = ModuleGrammar :=
  ⟨stdEnv_ok, by decide, by decide, by decide,
    parse_returns_module stdEnv stdEnv_ok 3 9 (lexerOf identTokens) (by decide) (by decide)
      (by decide)⟩

/-! ### Template literals and prefix operators -/

/-- C25 fails on the template literal with the two interpolations `b` and `d`: the body of
the loop `for p.tt == TemplateStartToken || p.tt == TemplateMiddleToken` of
`parseTemplateLiteral` returns in both branches of its `if`, so that after the first
expression only the template end is taken: at the template middle `fail` records the error of
the rule "template literal" and the result is nil. With one interpolation the result is the
template start, the Expr node of `b` and the template end. -/
theorem template_middle_fails :
    (parseTemplateLiteral 6 (descent stdEnv 6 6) [] (startParser templateTwoTokens)).map
        (fun r => (r.1, r.2.tt, r.2.err))
      = .ok ([], ErrorToken,
          some (Error.grammar 5 [TemplateToken] (Found.data [125, 99, 36, 123])
            "template literal")) ∧
    (parseTemplateLiteral 6 (descent stdEnv 6 6) [] (startParser templateOneTokens)).map
        (fun r => (r.1, r.2.tt, r.2.err))
      = .ok ([leaf (TemplateStartToken, [96, 97, 36, 123]),
          Node.inner ExprGrammar [leaf (IdentifierToken, [98])],
          leaf (TemplateEndToken, [125, 101, 96])], ErrorToken, none) :=
  ⟨rfl, rfl⟩

/-- C30 fails on `!x` and on `a + -b`: a prefix operator stands where
`parseLeftHandSideExpr` is called, `parsePrimaryExpr` has no case for it and fails with the
error of the rule "expression", and `parseAssignmentExpr` returns an Expr node without
children. The operators `!`, `~`, `typeof`, `void` and `delete` are among the cases of the
`switch` after the left-hand side, which append the operator and go back to `LHS`: after an
operand, as in `a ! x`, the operator is taken and the result is the flat Expr node. -/
theorem prefix_operator_fails :
    (parseAssignmentExpr stdEnv 6 6 (startParser notTokens)).map
        (fun r => (r.1, r.2.tt, r.2.err))
      = .ok (Node.inner ExprGrammar [], ErrorToken,
          some (Error.grammar 0 [] (Found.data [33]) "expression")) ∧
    (parseAssignmentExpr stdEnv 6 6 (startParser addNegTokens)).map
        (fun r => (r.1, r.2.tt, r.2.err))
      = .ok (Node.inner ExprGrammar [], ErrorToken,
          some (Error.grammar 4 [] (Found.data [45]) "expression")) ∧
    (parseAssignmentExpr stdEnv 6 6 (startParser binaryNotTokens)).map
        (fun r => (r.1, r.2.tt, r.2.err))
      = .ok (Node.inner ExprGrammar [leaf (IdentifierToken, [97]), leaf (NotToken, [33]),
          leaf (IdentifierToken, [120])], ErrorToken, none) :=
  ⟨rfl, rfl, rfl⟩

/-! ### Termination -/

theorem Returns.exists_ok {α : Type} {m : M α} {p : Parser} {Q : α → Parser → Prop}
    (h : Returns m p Q) : ∃ a q, m p = .ok (a, q) :=
  let ⟨a, q, e, _⟩ := h
  ⟨a, q, e⟩

theorem lt_of_meas_lt {p q : Parser} (hp : p.tt ≠ ErrorToken) (h : meas q < meas p) :
    q.tt = ErrorToken ∨ q.l.toks.length < p.l.toks.length := by
  by_cases hq : q.tt = ErrorToken
  · exact Or.inl hq
  · right
    simp only [meas, if_neg hp, if_neg hq] at h
    omega

/-- C27: the lexer package is as `EnvOK` says (`IsIdentifier` does not hold of the error
token, `RegExp` does not lengthen the input), the fuel `F` of the loops is more than the
number of tokens and the fuel `k` of the recursion at least three times that number plus
three, and no top-level statement begins with `import` or `export`. Then (1) `parseModule`
returns, at the error token; (2) every call of `parseStmt` returns, and from a token other
than the error token it ends at the error token or with fewer tokens to come; (3) each loop
of the parameter, binding, object-literal, array-literal, argument, class-body and switch
parsers returns whenever its fuel, which counts its iterations, is more than the measure
`meas` of the tokens to come: an iteration that goes on has consumed a token. -/
theorem parseModule_terminates (env : Env) (henv : EnvOK env) (F k : Nat) (l : Lexer)
    (hF : l.toks.length < F) (hk : 3 * l.toks.length + 3 ≤ k)
    (hst : ∀ t ∈ moduleStarts env F k F (nextState (newParser l)),
      t ≠ ImportToken ∧ t ≠ ExportToken) :
    (∃ m q, parseModule env F k (nextState (newParser l)) = .ok (m, q) ∧
      q.tt = ErrorToken) ∧
    (∀ p : Parser, (p.err ≠ none → p.tt = ErrorToken) → meas p < F → 3 * meas p + 3 ≤ k →
      ∃ st q, parseStmt env F k p = .ok (st, q) ∧
        (p.tt ≠ ErrorToken → q.tt = ErrorToken ∨ q.l.toks.length < p.l.toks.length)) ∧
    (∀ (p : Parser) (f : Nat) (nodes : List Node), (p.err ≠ none → p.tt = ErrorToken) →
      meas p < F → 3 * meas p + 3 ≤ k → meas p < f →
      (∀ rule, ∃ a q, parseFuncParamsLoop rule (descent env F k) f nodes p = .ok (a, q)) ∧
      (∃ a q, arrayBindingLoop F (descent env F k) f nodes p = .ok (a, q)) ∧
      (∃ a q, objectBindingLoop env (descent env F k) f nodes p = .ok (a, q)) ∧
      (∃ a q, parseObjectLiteralLoop env F (descent env F k) f nodes p = .ok (a, q)) ∧
      (∃ a q, arrayLiteralLoop (descent env F k) f nodes p = .ok (a, q)) ∧
      (∃ a q, argumentsLoop (descent env F k) f nodes p = .ok (a, q)) ∧
      (∃ a q, parseClassDeclLoop env F (descent env F k) f nodes p = .ok (a, q)) ∧
      (∃ a q, caseBlockLoop F (descent env F k) f nodes p = .ok (a, q)) ∧
      (∃ a q, clauseStmtsLoop (descent env F k) f nodes p = .ok (a, q))) := by
  have hd := descent_ok env henv F k
  refine ⟨?_, fun p hwf hF2 hk2 => ?_, fun p f nodes hwf hF2 hk2 hf => ?_⟩
  · have h0 := newParser_next l
    obtain ⟨m, q, e, hq⟩ := parseModuleLoop_spec env henv F k F [] (nextState (newParser l))
      h0.1 (by omega) (by omega) (by omega) hst
    exact ⟨m, q, e, hq.2.2⟩
  · obtain ⟨st, q, e, hq⟩ := hd.1 p hwf hk2 hF2
    exact ⟨st, q, e, fun hne => lt_of_meas_lt hne (hq.2 hne)⟩
  · exact ⟨fun rule =>
        (parseFuncParamsLoop_spec F k _ hd rule f nodes p hwf (by omega) hF2 hf).exists_ok,
      (arrayBindingLoop_spec F k _ hd f nodes p hwf (by omega) hF2 hf).exists_ok,
      (objectBindingLoop_spec env F k _ hd f nodes p hwf (by omega) hF2 hf).exists_ok,
      (parseObjectLiteralLoop_spec env henv F k _ hd f nodes p hwf (by omega) hF2
        hf).exists_ok,
      (arrayLiteralLoop_spec F k _ hd f nodes p hwf (by omega) hF2 hf).exists_ok,
      (argumentsLoop_spec F k _ hd f nodes p hwf (by omega) hF2 hf).exists_ok,
      (parseClassDeclLoop_spec env F k _ hd f nodes p hwf (by omega) hF2 hf).exists_ok,
      (caseBlockLoop_spec F k _ hd f nodes p hwf (by omega) hF2 hf).exists_ok,
      (clauseStmtsLoop_spec F k _ hd f nodes p hwf (by omega) hF2 hf).exists_ok⟩

/-- C27 on `x;` with the lexer package as modelled. -/
theorem parseModule_terminates_witness :
    EnvOK stdEnv ∧ (lexerOf identTokens).toks.length < 3 ∧
      3 * (lexerOf identTokens).toks.length + 3 ≤ 9 ∧
      (∀ t ∈ moduleStarts stdEnv 3 9 3 (nextState (newParser (lexerOf identTokens))),
        t ≠ ImportToken ∧ t ≠ ExportToken) ∧
      ∃ m q, parseModule stdEnv 3 9 (nextState (newParser (lexerOf identTokens)))
        = .ok (m, q) ∧ q.tt = ErrorToken :=
  ⟨stdEnv_ok, by decide, by decide, by decide,
    (parseModule_terminates stdEnv stdEnv_ok 3 9 (lexerOf identTokens) (by decide) (by decide)
      (by decide)).1⟩

/-! ### The tokens that `next` delivers -/

theorem significant_cons (t : TokenType × List Nat) (ts : List (TokenType × List Nat)) :
    significant (t :: ts) = if isSpace t then significant ts else t :: significant ts := by
  unfold significant
  rw [List.filter_cons]
  cases isSpace t <;> simp

theorem lineBreakFirst_cons (t : TokenType × List Nat) (ts : List (TokenType × List Nat)) :
    lineBreakFirst (t :: ts)
      = if isSpace t then (decide (t.1 = LineTerminatorToken) || lineBreakFirst ts)
        else false := by
  unfold lineBreakFirst
  rw [List.takeWhile_cons]
  cases isSpace t <;> simp

theorem isSpace_iff (p : Parser) :
    (p.tt = WhitespaceToken ∨ p.tt = LineTerminatorToken) ↔ isSpace (p.tt, p.data) = true := by
  simp [isSpace]

theorem nextLoop_step (n : Nat) (p : Parser)
    (hs : p.tt = WhitespaceToken ∨ p.tt = LineTerminatorToken) :
    nextLoop (n + 1) p
      = nextLoop n (Parser.mk (p.l.Next).2 p.err (p.l.Next).1.1 (p.l.Next).1.2
          (p.prevLineTerminator || decide (p.tt = LineTerminatorToken))) := by
  rw [nextLoop, if_pos hs]
  by_cases hlt : p.tt = LineTerminatorToken
  · simp [hlt]
  · simp [hlt]

theorem nextLoop_stop (n : Nat) (p : Parser)
    (hs : ¬ (p.tt = WhitespaceToken ∨ p.tt = LineTerminatorToken)) : nextLoop n p = p := by
  cases n with
  | zero => rfl
  | succ n => rw [nextLoop, if_neg hs]

theorem nextLoop_sig (toks : List (TokenType × List Nat)) :
    ∀ (n : Nat) (p : Parser), p.l.toks = toks → toks.length < n →
      (nextLoop n p).err = p.err ∧
      (nextLoop n p).tt = headKind (significant ((p.tt, p.data) :: toks)) ∧
      (nextLoop n p).data = headData (significant ((p.tt, p.data) :: toks)) ∧
      significant (nextLoop n p).l.toks = (significant ((p.tt, p.data) :: toks)).tail ∧
      (nextLoop n p).prevLineTerminator
        = (p.prevLineTerminator || lineBreakFirst ((p.tt, p.data) :: toks)) := by
  induction toks with
  | nil =>
    intro n p hl hn
    by_cases hs : p.tt = WhitespaceToken ∨ p.tt = LineTerminatorToken
    · obtain ⟨n, rfl⟩ : ∃ m, n = m + 1 := ⟨n - 1, by simp at hn; omega⟩
      have hsp := (isSpace_iff p).mp hs
      have hN : p.l.Next = ((ErrorToken, []), p.l) := by unfold Lexer.Next; rw [hl]
      rw [nextLoop_step n p hs, hN]
      dsimp only
      rw [nextLoop_stop _ _ (by simp)]
      rw [significant_cons, if_pos hsp, lineBreakFirst_cons, if_pos hsp]
      simp [significant, hl, headKind, headData, lineBreakFirst]
    · rw [nextLoop_stop n p hs]
      have hsp : isSpace (p.tt, p.data) = false := by
        rw [← Bool.not_eq_true, ← isSpace_iff]; exact hs
      rw [significant_cons, lineBreakFirst_cons]
      simp [hsp, hl, headKind, headData, significant]
  | cons t ts ih =>
    intro n p hl hn
    by_cases hs : p.tt = WhitespaceToken ∨ p.tt = LineTerminatorToken
    · obtain ⟨n, rfl⟩ : ∃ m, n = m + 1 := ⟨n - 1, by simp at hn; omega⟩
      have hsp := (isSpace_iff p).mp hs
      have hN : p.l.Next = (t, { p.l with toks := ts, offset := p.l.offset + t.2.length }) := by
        unfold Lexer.Next; rw [hl]
      rw [nextLoop_step n p hs, hN]
      dsimp only
      obtain ⟨h1, h2, h3, h4, h5⟩ := ih n
        (Parser.mk { p.l with toks := ts, offset := p.l.offset + t.2.length } p.err t.1 t.2
          (p.prevLineTerminator || decide (p.tt = LineTerminatorToken)))
        rfl (by simp at hn; omega)
      rw [significant_cons (p.tt, p.data), if_pos hsp, lineBreakFirst_cons (p.tt, p.data),
        if_pos hsp]
      refine ⟨h1, h2, h3, h4, ?_⟩
      rw [h5]
      simp [Bool.or_assoc]
    · rw [nextLoop_stop n p hs]
      have hsp : isSpace (p.tt, p.data) = false := by
        rw [← Bool.not_eq_true, ← isSpace_iff]; exact hs
      rw [significant_cons, lineBreakFirst_cons]
      simp [hsp, hl, headKind, headData]

/-- What `next` does at a token other than the error token: the parser gets to the first
token to come that is neither whitespace nor a line terminator, or to the error token when
there is none. -/
theorem nextState_sig (p : Parser) (hp : p.tt ≠ ErrorToken) :
    (nextState p).err = p.err ∧
    (nextState p).tt = headKind (significant p.l.toks) ∧
    (nextState p).data = headData (significant p.l.toks) ∧
    significant (nextState p).l.toks = (significant p.l.toks).tail ∧
    (nextState p).prevLineTerminator = lineBreakFirst p.l.toks := by
  simp only [nextState, if_neg hp]
  cases hl : p.l.toks with
  | nil =>
    have e1 : p.l.Next = ((ErrorToken, []), p.l) := by unfold Lexer.Next; rw [hl]
    rw [e1]
    dsimp only
    rw [hl]
    simp [nextLoop, significant, headKind, headData, lineBreakFirst, hl]
  | cons t ts =>
    have e1 : p.l.Next = (t, { p.l with toks := ts, offset := p.l.offset + t.2.length }) := by
      unfold Lexer.Next; rw [hl]
    rw [e1]
    dsimp only
    have := nextLoop_sig ts (ts.length + 1)
      { p with prevLineTerminator := false, tt := t.1, data := t.2,
               l := { p.l with toks := ts, offset := p.l.offset + t.2.length } } rfl
      (Nat.lt_succ_self _)
    obtain ⟨h1, h2, h3, h4, h5⟩ := this
    exact ⟨h1, h2, h3, h4, by rw [h5]; simp⟩

/-! ### The methods as equations -/

theorem M.ite_apply {α : Type} (c : Prop) [Decidable c] (m1 m2 : M α) (p : Parser) :
    (if c then m1 else m2) p = if c then m1 p else m2 p := by
  split <;> rfl

theorem getTt_eq (p : Parser) : getTt p = .ok (p.tt, p) := rfl

theorem getData_eq (p : Parser) : getData p = .ok (p.data, p) := rfl

theorem getPLT_eq (p : Parser) :
    getPrevLineTerminator p = .ok (p.prevLineTerminator, p) := rfl

theorem parseToken_eq (p : Parser) : parseToken p = .ok (leaf (p.tt, p.data), nextState p) :=
  rfl

theorem next_eq (p : Parser) : next p = .ok ((), nextState p) := rfl

theorem fail_eq (rule : String) (expected : List TokenType) (p : Parser) :
    fail rule expected p = .ok ((), failState rule expected p) := rfl

theorem reLex_eq (env : Env) (p : Parser) : reLex env p = .ok ((), relex env p) := rfl

theorem bind_ok {α β : Type} {m : M α} {f : α → M β} {p q : Parser} {a : α}
    (h : m p = .ok (a, q)) : (m >>= f) p = f a q := by
  rw [bind_eq, h]

theorem primary_facts {tt : TokenType} (h : tt ∈ primaryTokens) :
    tt ≠ NewToken ∧ tt ≠ SuperToken ∧ tt ≠ ImportToken ∧ tt ≠ DivToken ∧ tt ≠ DivEqToken ∧
      tt ≠ ErrorToken ∧ tt ≠ IncrToken ∧ tt ≠ DecrToken := by
  simp only [primaryTokens, List.mem_cons, List.mem_singleton, List.not_mem_nil,
    or_false] at h
  rcases h with h | h | h | h | h | h | h | h | h | h <;> subst h <;> decide

theorem binary_facts {tt : TokenType} (h : tt ∈ binaryTokens) :
    tt ∉ lhsEndTokens ∧ tt ≠ OptChainToken ∧ tt ≠ IncrToken ∧ tt ≠ DecrToken ∧
      tt ≠ ErrorToken := by
  simp only [binaryTokens, List.mem_cons, List.mem_singleton, List.not_mem_nil,
    or_false] at h
  rcases h with h | h | h | h | h | h | h | h | h | h | h | h | h | h | h | h | h | h | h | h |
    h | h | h | h | h | h | h | h | h | h <;> subst h <;> decide

theorem newLoop_skip (f : Nat) (nodes : List Node) (p : Parser) (h : p.tt ≠ NewToken) :
    newLoop (f + 1) nodes p = .ok ((some false, nodes), p) := by
  rw [newLoop]
  simp only [bind_eq, getTt_eq, M.ite_apply, if_neg h, pure_eq]

theorem lhsEndLoop_skip (env : Env) (F : Nat) (r : Rec) (f : Nat) (nodes : List Node)
    (p : Parser) (h : p.tt ∉ lhsEndTokens) :
    lhsEndLoop env F r (f + 1) nodes p = .ok (nodes, p) := by
  rw [lhsEndLoop]
  simp only [bind_eq, getTt_eq, M.ite_apply, if_neg h, pure_eq]

theorem optChainLoop_skip (env : Env) (F : Nat) (r : Rec) (f : Nat) (nodes : List Node)
    (p : Parser) (h : p.tt ≠ OptChainToken) :
    optChainLoop env F r (f + 1) nodes p = .ok (nodes, p) := by
  rw [optChainLoop]
  simp only [bind_eq, getTt_eq, M.ite_apply, if_neg h, pure_eq]

theorem lhsEnd_skip (env : Env) (F : Nat) (r : Rec) (nodes : List Node) (p : Parser)
    (h1 : p.tt ∉ lhsEndTokens) (h2 : p.tt ≠ OptChainToken) :
    lhsEnd env (F + 1) r nodes p = .ok (nodes, p) := by
  unfold lhsEnd
  rw [bind_ok (lhsEndLoop_skip env (F + 1) r F nodes p h1)]
  exact optChainLoop_skip env (F + 1) r F nodes p h2

theorem parsePrimaryExpr_token (env : Env) (F : Nat) (r : Rec) (nodes : List Node)
    (p : Parser) (h : p.tt ∈ primaryTokens) :
    parsePrimaryExpr env F r nodes p = .ok (nodes ++ [leaf (p.tt, p.data)], nextState p) := by
  have hf := primary_facts h
  have hd : ¬ (p.tt = DivToken ∨ p.tt = DivEqToken) := fun hx => by
    rcases hx with hx | hx
    · exact hf.2.2.2.1 hx
    · exact hf.2.2.2.2.1 hx
  unfold parsePrimaryExpr
  simp only [bind_eq, getTt_eq, M.ite_apply, if_neg hd, pure_eq, if_pos h, parseToken_eq]

theorem parseLeftHandSideExprF_token (env : Env) (F : Nat) (r : Rec) (nodes : List Node)
    (p : Parser) (h : p.tt ∈ primaryTokens) (h1 : (nextState p).tt ∉ lhsEndTokens)
    (h2 : (nextState p).tt ≠ OptChainToken) :
    parseLeftHandSideExprF env (F + 1) r nodes p
      = .ok (nodes ++ [leaf (p.tt, p.data)], nextState p) := by
  have hf := primary_facts h
  unfold parseLeftHandSideExprF
  rw [bind_ok (newLoop_skip F nodes p hf.1)]
  simp only [bind_eq, getTt_eq, M.ite_apply, if_neg hf.2.1, if_neg hf.2.2.1]
  rw [parsePrimaryExpr_token env (F + 1) r nodes p h]
  exact lhsEnd_skip env F r _ _ h1 h2

/-! ### The loop of `parseAssignmentExpr` after a left-hand side -/

theorem assignLoop_binary (F : Nat) (r : Rec) (f : Nat) (nodes ns : List Node) (p q : Parser)
    (hpre : ¬ (p.tt = IncrToken ∨ p.tt = DecrToken))
    (hl : r.parseLeftHandSideExpr nodes p = .ok (ns, q)) (hb : q.tt ∈ binaryTokens) :
    assignLoop F r (f + 1) nodes p
      = assignLoop F r f (ns ++ [leaf (q.tt, q.data)]) (nextState q) := by
  have hf := binary_facts hb
  have hpost : ¬ ((!q.prevLineTerminator) = true ∧ (q.tt = IncrToken ∨ q.tt = DecrToken)) :=
    fun h => by
      rcases h.2 with h | h
      · exact hf.2.2.1 h
      · exact hf.2.2.2.1 h
  rw [assignLoop]
  simp only [bind_eq, getTt_eq, getPLT_eq, M.ite_apply, if_neg hpre, pure_eq, hl, if_neg hpost,
    if_pos hb, parseToken_eq]

theorem assignLoop_done (F : Nat) (r : Rec) (f : Nat) (nodes ns : List Node) (p q : Parser)
    (hpre : ¬ (p.tt = IncrToken ∨ p.tt = DecrToken))
    (hl : r.parseLeftHandSideExpr nodes p = .ok (ns, q)) (he : q.tt = ErrorToken) :
    assignLoop F r (f + 1) nodes p = .ok (Node.inner ExprGrammar ns, q) := by
  have hpost : ¬ ((!q.prevLineTerminator) = true ∧ (q.tt = IncrToken ∨ q.tt = DecrToken)) :=
    fun h => by
      rw [he] at h
      rcases h.2 with h | h <;> exact absurd h (by decide)
  have h1 : q.tt ∉ binaryTokens := by rw [he]; decide
  have h2 : q.tt ∉ assignTokens := by rw [he]; decide
  have h3 : q.tt ≠ QuestionToken := by rw [he]; decide
  have h4 : q.tt ≠ ArrowToken := by rw [he]; decide
  rw [assignLoop]
  simp only [bind_eq, getTt_eq, getPLT_eq, M.ite_apply, if_neg hpre, pure_eq, hl, if_neg hpost,
    if_neg h1, if_neg h2, if_neg h3, if_neg h4]

/-! ### Flat expressions -/

theorem operand_primary {t : TokenType × List Nat} (h : isOperand t = true) :
    t.1 ∈ primaryTokens := by
  simp only [isOperand, Bool.or_eq_true, decide_eq_true_eq] at h
  rcases h with (h | h) | h <;> rw [h] <;> decide

theorem headKind_cons (t : TokenType × List Nat) (ts : List (TokenType × List Nat)) :
    headKind (t :: ts) = t.1 := rfl

theorem headData_cons (t : TokenType × List Nat) (ts : List (TokenType × List Nat)) :
    headData (t :: ts) = t.2 := rfl

theorem assignLoop_flat (env : Env) (F k : Nat) (f : Nat) :
    ∀ (rest : List (TokenType × List Nat)) (a : TokenType × List Nat) (nodes : List Node)
      (p : Parser), p.tt = a.1 → p.data = a.2 → significant p.l.toks = rest →
      alternating (a :: rest) = true → rest.length < 2 * f →
      ∃ q, assignLoop (F + 1) (descent env (F + 1) (k + 1)) f nodes p
          = .ok (Node.inner ExprGrammar (nodes ++ (a :: rest).map leaf), q) ∧
        q.tt = ErrorToken ∧ q.err = p.err := by
  induction f with
  | zero => intro rest _ _ _ _ _ _ _ h; omega
  | succ f ih =>
    intro rest a nodes p htt hdata hsig halt hlen
    have hop : isOperand a = true := by
      cases rest with
      | nil => simpa [alternating] using halt
      | cons o rest2 =>
        simp only [alternating, Bool.and_eq_true] at halt
        exact halt.1.1
    have hprim : p.tt ∈ primaryTokens := by rw [htt]; exact operand_primary hop
    have hpf := primary_facts hprim
    have hns := nextState_sig p hpf.2.2.2.2.2.1
    have hpre : ¬ (p.tt = IncrToken ∨ p.tt = DecrToken) := fun h => by
      rcases h with h | h
      · exact hpf.2.2.2.2.2.2.1 h
      · exact hpf.2.2.2.2.2.2.2 h
    have hleaf : leaf (p.tt, p.data) = leaf a := by rw [htt, hdata]
    cases rest with
    | nil =>
      have hq : (nextState p).tt = ErrorToken := by rw [hns.2.1, hsig]; rfl
      have hl : (descent env (F + 1) (k + 1)).parseLeftHandSideExpr nodes p
          = .ok (nodes ++ [leaf (p.tt, p.data)], nextState p) :=
        parseLeftHandSideExprF_token env F _ nodes p hprim (by rw [hq]; decide)
          (by rw [hq]; decide)
      refine ⟨nextState p, ?_, hq, hns.1⟩
      rw [assignLoop_done _ _ f nodes _ p _ hpre hl hq, hleaf]
      rfl
    | cons o rest2 =>
      simp only [alternating, Bool.and_eq_true, decide_eq_true_eq] at halt
      obtain ⟨⟨_, hob⟩, halt2⟩ := halt
      have hq : (nextState p).tt = o.1 := by rw [hns.2.1, hsig]; rfl
      have hqd : (nextState p).data = o.2 := by rw [hns.2.2.1, hsig]; rfl
      have hqs : significant (nextState p).l.toks = rest2 := by rw [hns.2.2.2.1, hsig]; rfl
      have hbf := binary_facts hob
      have hl : (descent env (F + 1) (k + 1)).parseLeftHandSideExpr nodes p
          = .ok (nodes ++ [leaf (p.tt, p.data)], nextState p) :=
        parseLeftHandSideExprF_token env F _ nodes p hprim (by rw [hq]; exact hbf.1)
          (by rw [hq]; exact hbf.2.1)
      rw [assignLoop_binary _ _ f nodes _ p _ hpre hl (by rw [hq]; exact hob)]
      cases rest2 with
      | nil => simp [alternating] at halt2
      | cons b rest3 =>
        have hns2 := nextState_sig (nextState p) (by rw [hq]; exact hbf.2.2.2.2)
        obtain ⟨q2, e, hq2, herr⟩ := ih rest3 b
          (nodes ++ [leaf (p.tt, p.data)] ++ [leaf ((nextState p).tt, (nextState p).data)])
          (nextState (nextState p)) (by rw [hns2.2.1, hqs]; rfl) (by rw [hns2.2.2.1, hqs]; rfl)
          (by rw [hns2.2.2.2.1, hqs]; rfl) halt2 (by simp at hlen ⊢; omega)
        refine ⟨q2, ?_, hq2, by rw [herr, hns2.1, hns.1]⟩
        rw [e, hleaf, hq, hqd]
        simp

/-- C21: the tokens of the stream that are neither whitespace nor line terminators are an
operand, then operators of the fixed set and operands in turn, up to a last operand; an
operand is an identifier, numeric or string token. With fuel for the loop of at least the
number of these tokens, and two levels of recursion, `parseAssignmentExpr` returns one Expr
node whose children are the leaves of these tokens in source order, at the end of the input
and without an error. -/
theorem binary_expression_is_flat (env : Env) (F k : Nat)
    (toks : List (TokenType × List Nat)) (halt : alternating (significant toks) = true)
    (hF : (significant toks).length ≤ F + 1) :
    ∃ q, parseAssignmentExpr env (F + 1) (k + 2) (startParser toks)
        = .ok (Node.inner ExprGrammar ((significant toks).map leaf), q) ∧
      q.tt = ErrorToken ∧ q.err = none := by
  have hns := nextState_sig (newParser (lexerOf toks))
    (show WhitespaceToken ≠ ErrorToken by decide)
  cases hs : significant toks with
  | nil => rw [hs] at halt; simp [alternating] at halt
  | cons a rest =>
    rw [hs] at halt hF
    have h1 : (startParser toks).tt = a.1 := by
      show (nextState _).tt = _
      rw [hns.2.1]
      show headKind (significant toks) = _
      rw [hs]; rfl
    have h2 : (startParser toks).data = a.2 := by
      show (nextState _).data = _
      rw [hns.2.2.1]
      show headData (significant toks) = _
      rw [hs]; rfl
    have h3 : significant (startParser toks).l.toks = rest := by
      show significant (nextState _).l.toks = _
      rw [hns.2.2.2.1]
      show (significant toks).tail = _
      rw [hs]; rfl
    have herr : (startParser toks).err = none := hns.1
    obtain ⟨q, e, hq, hqe⟩ := assignLoop_flat env F k (F + 1) rest a [] (startParser toks)
      h1 h2 h3 halt (by simp at hF; omega)
    refine ⟨q, ?_, hq, by rw [hqe, herr]⟩
    have hop : isOperand a = true := by
      cases rest with
      | nil => simpa [alternating] using halt
      | cons o rest2 =>
        simp only [alternating, Bool.and_eq_true] at halt
        exact halt.1.1
    have hy : ¬ (startParser toks).tt = YieldToken := by
      rw [h1]
      simp only [isOperand, Bool.or_eq_true, decide_eq_true_eq] at hop
      rcases hop with (h | h) | h <;> rw [h] <;> decide
    have hasync : ¬ (startParser toks).tt = AsyncToken := by
      rw [h1]
      simp only [isOperand, Bool.or_eq_true, decide_eq_true_eq] at hop
      rcases hop with (h | h) | h <;> rw [h] <;> decide
    show parseAssignmentExprF (F + 1) (descent env (F + 1) (k + 1)) (startParser toks) = _
    unfold parseAssignmentExprF
    simp only [bind_eq, getTt_eq, M.ite_apply, if_neg hy, if_neg hasync]
    rw [e]
    simp

/-! ### `return` before a line terminator -/

theorem headKind_significant (toks : List (TokenType × List Nat)) :
    headKind (significant toks) ≠ WhitespaceToken ∧
      headKind (significant toks) ≠ LineTerminatorToken := by
  cases h : significant toks with
  | nil => exact ⟨by decide, by decide⟩
  | cons t ts =>
    have hm : t ∈ significant toks := by rw [h]; exact List.mem_cons_self _ _
    have := (List.mem_filter.mp hm).2
    simp only [isSpace, Bool.not_eq_true', Bool.or_eq_false_iff, decide_eq_false_iff_not] at this
    exact ⟨this.1, this.2⟩

/-- C23: the parser is at a `return` token, a line terminator comes before the next token
that is neither whitespace nor a line terminator, and that token is not a `;`. Then
`parseStmt` returns the Stmt node whose only child is the `return` token, in the parser that
`next` reaches from `return`, which is at that token: the loop of `parseModule` appends this
statement and goes on with the statement that begins there. -/
theorem return_before_line_break (env : Env) (F k : Nat) (p : Parser)
    (hret : p.tt = ReturnToken) (hlb : lineBreakFirst p.l.toks = true)
    (hsemi : headKind (significant p.l.toks) ≠ SemicolonToken) :
    parseStmt env F (k + 1) p
      = .ok (Node.inner StmtGrammar [leaf (ReturnToken, p.data)], nextState p) ∧
    (nextState p).tt = headKind (significant p.l.toks) ∧
    (nextState p).data = headData (significant p.l.toks) ∧
    significant (nextState p).l.toks = (significant p.l.toks).tail ∧
    ∀ (f : Nat) (nodes : List Node),
      parseModuleLoop env F (k + 1) (f + 1) nodes p
        = parseModuleLoop env F (k + 1) f
            (nodes ++ [Node.inner StmtGrammar [leaf (ReturnToken, p.data)]]) (nextState p) := by
  have hne : p.tt ≠ ErrorToken := by rw [hret]; decide
  have hns := nextState_sig p hne
  have hsp := headKind_significant p.l.toks
  have hstmt : parseStmt env F (k + 1) p
      = .ok (Node.inner StmtGrammar [leaf (ReturnToken, p.data)], nextState p) := by
    show parseStmtF env F (descent env F k) p = _
    have h1 : ¬ p.tt = OpenBraceToken := by rw [hret]; decide
    have hc : stmtCases env F (descent env F k) p
        = .ok (some [leaf (ReturnToken, p.data)], nextState p) := by
      have h2 : ¬ (p.tt = LetToken ∨ p.tt = ConstToken ∨ p.tt = VarToken) := by
        rw [hret]; decide
      have h3 : ¬ (p.tt = ContinueToken ∨ p.tt = BreakToken) := by rw [hret]; decide
      have h4 : ¬ ((!(nextState p).prevLineTerminator) = true ∧
          (nextState p).tt ≠ SemicolonToken ∧ (nextState p).tt ≠ LineTerminatorToken ∧
          (nextState p).tt ≠ ErrorToken) := by
        rw [hns.2.2.2.2, hlb]
        simp
      unfold stmtCases
      simp only [bind_eq, getTt_eq, getPLT_eq, M.ite_apply, if_neg h2, if_neg h3, if_pos hret,
        parseToken_eq, if_neg h4, pure_eq]
      rw [hret]
    have h5 : ¬ ((nextState p).tt = SemicolonToken ∨ (nextState p).tt = LineTerminatorToken) := by
      rw [hns.2.1]
      intro h
      rcases h with h | h
      · exact hsemi h
      · exact hsp.2 h
    unfold parseStmtF
    simp only [bind_eq, getTt_eq, M.ite_apply, if_neg h1, hc, if_neg h5, pure_eq]
  refine ⟨hstmt, hns.2.1, hns.2.2.1, hns.2.2.2.1, fun f nodes => ?_⟩
  have h6 : ¬ (p.tt = ImportToken ∨ p.tt = ExportToken) := by rw [hret]; decide
  rw [parseModuleLoop]
  simp only [bind_eq, getTt_eq, M.ite_apply, if_neg hne, if_neg h6, hstmt]

/-- C23 on `return`, a line terminator and `1`: the Module has the two children
Stmt[`return`] and Stmt[Expr[`1`]]. -/
theorem return_before_line_break_witness :
    (startParser returnBreakTokens).tt = ReturnToken ∧
      lineBreakFirst (startParser returnBreakTokens).l.toks = true ∧
      headKind (significant (startParser returnBreakTokens).l.toks) ≠ SemicolonToken ∧
      parseStmt stdEnv 4 12 (startParser returnBreakTokens)
        = .ok (Node.inner StmtGrammar [leaf (ReturnToken, [114, 101, 116, 117, 114, 110])],
            nextState (startParser returnBreakTokens)) ∧
      Parse stdEnv 4 12 (lexerOf returnBreakTokens)
        = .ok (Node.inner ModuleGrammar
            [Node.inner StmtGrammar [leaf (ReturnToken, [114, 101, 116, 117, 114, 110])],
              Node.inner StmtGrammar [Node.inner ExprGrammar [leaf (NumericToken, [49])]]],
            Error.lexer LexError.EOF) :=
  ⟨rfl, rfl, by decide,
    (return_before_line_break stdEnv 4 11 (startParser returnBreakTokens) rfl rfl
      (by decide)).1, rfl⟩

/-- C21 on `a + b * c`. -/
theorem binary_expression_is_flat_witness :
    alternating (significant sumTokens) = true ∧ (significant sumTokens).length ≤ 4 + 1 ∧
      ∃ q, parseAssignmentExpr stdEnv (4 + 1) (0 + 2) (startParser sumTokens)
          = .ok (Node.inner ExprGrammar ((significant sumTokens).map leaf), q) ∧
        q.tt = ErrorToken ∧ q.err = none :=
  ⟨by decide, by decide, binary_expression_is_flat stdEnv 4 0 sumTokens (by decide) (by decide)⟩

/-! ### Arrow functions -/

theorem bind_pure_map {α β : Type} (m : M α) (g : α → β) (p : Parser) :
    (m >>= fun a => pure (g a)) p = (m p).map (fun r => (g r.1, r.2)) := by
  rw [bind_eq]
  cases m p with
  | error e => rfl
  | ok r => rfl

theorem arrowBody_eq (env : Env) (F k : Nat) (nodes : List Node) (q : Parser) :
    (arrowBody "arrow function expression" F (descent env F k) nodes >>= fun ns =>
        pure (Node.inner ExprGrammar ns)) q
      = (arrowBodyAt env F k (nextState q)).map
          (fun r => (Node.inner ExprGrammar (nodes ++ [leaf (q.tt, q.data)] ++ [r.1]), r.2)) := by
  unfold arrowBody arrowBodyAt
  simp only [bind_eq, parseToken_eq, getTt_eq, M.ite_apply, pure_eq]
  by_cases h : (nextState q).tt = OpenBraceToken
  · rw [if_pos h, if_pos h]
    cases parseBlockStmt "arrow function expression" F (descent env F k) (nextState q) with
    | error e => rfl
    | ok r => rfl
  · rw [if_neg h, if_neg h]
    have hx : (descent env F k).parseAssignmentExpr (nextState q)
        = parseAssignmentExpr env F k (nextState q) := rfl
    rw [hx]
    cases parseAssignmentExpr env F k (nextState q) with
    | error e => rfl
    | ok r => rfl

theorem assignLoop_arrow (env : Env) (F k f : Nat) (nodes ns : List Node) (p q : Parser)
    (last : Node)
    (hl : (descent env F k).parseLeftHandSideExpr (lhsStart nodes p).1 (lhsStart nodes p).2
      = .ok (ns, q))
    (harrow : q.tt = ArrowToken) (hlast : ns.getLast? = some last) :
    assignLoop F (descent env F k) (f + 1) nodes p
      = if identLike last.tt = true then
          (arrowBodyAt env F k (nextState q)).map (fun r =>
            (Node.inner ExprGrammar (ns.dropLast ++ [Node.inner BindingGrammar [last]] ++
              [leaf (ArrowToken, q.data)] ++ [r.1]), r.2))
        else if last.tt ≠ CloseParenToken then
          .ok (Node.zero, failState "arrow function expression" [] q)
        else
          (arrowBodyAt env F k (nextState q)).map (fun r =>
            (Node.inner ExprGrammar (ns ++ [leaf (ArrowToken, q.data)] ++ [r.1]), r.2)) := by
  have hpost : ¬ ((!q.prevLineTerminator) = true ∧ (q.tt = IncrToken ∨ q.tt = DecrToken)) :=
    fun h => by
      rw [harrow] at h
      rcases h.2 with h | h <;> exact absurd h (by decide)
  have h1 : q.tt ∉ binaryTokens := by rw [harrow]; decide
  have h2 : q.tt ∉ assignTokens := by rw [harrow]; decide
  have h3 : q.tt ≠ QuestionToken := by rw [harrow]; decide
  have e1 := arrowBody_eq env F k (ns.dropLast ++ [Node.inner BindingGrammar [last]]) q
  have e2 := arrowBody_eq env F k ns q
  rw [harrow] at e1 e2
  rw [assignLoop]
  by_cases hpre : p.tt = IncrToken ∨ p.tt = DecrToken
  · have hs : lhsStart nodes p = (nodes ++ [leaf (p.tt, p.data)], nextState p) := by
      unfold lhsStart; rw [if_pos hpre]
    rw [hs] at hl
    simp only [bind_eq, getTt_eq, getPLT_eq, M.ite_apply, if_pos hpre, parseToken_eq, pure_eq,
      hl, if_neg hpost, if_neg h1, if_neg h2, if_neg h3, if_pos harrow, hlast]
    by_cases h5 : identLike last.tt = true
    · rw [if_pos h5, if_pos h5]
      rw [← e1]
      rfl
    · rw [if_neg h5, if_neg h5]
      by_cases h6 : last.tt ≠ CloseParenToken
      · rw [if_pos h6, if_pos h6]
        simp only [bind_eq, fail_eq, pure_eq]
      · rw [if_neg h6, if_neg h6]
        rw [← e2]
        rfl
  · have hs : lhsStart nodes p = (nodes, p) := by
      unfold lhsStart; rw [if_neg hpre]
    rw [hs] at hl
    simp only [bind_eq, getTt_eq, getPLT_eq, M.ite_apply, if_neg hpre, pure_eq, hl,
      if_neg hpost, if_neg h1, if_neg h2, if_neg h3, if_pos harrow, hlast]
    by_cases h5 : identLike last.tt = true
    · rw [if_pos h5, if_pos h5]
      rw [← e1]
      rfl
    · rw [if_neg h5, if_neg h5]
      by_cases h6 : last.tt ≠ CloseParenToken
      · rw [if_pos h6, if_pos h6]
        simp only [bind_eq, fail_eq, pure_eq]
      · rw [if_neg h6, if_neg h6]
        rw [← e2]
        rfl

theorem yield_arrow (env : Env) (F k : Nat) (p : Parser) (hy : p.tt = YieldToken)
    (harrow : (nextState p).tt = ArrowToken) :
    parseAssignmentExpr env F (k + 1) p
      = (arrowBodyAt env F k (nextState (nextState p))).map (fun r =>
          (Node.inner ExprGrammar ([Node.inner BindingGrammar [leaf (YieldToken, p.data)]] ++
            [leaf (ArrowToken, (nextState p).data)] ++ [r.1]), r.2)) := by
  have e1 := arrowBody_eq env F k [Node.inner BindingGrammar [leaf (YieldToken, p.data)]]
    (nextState p)
  rw [harrow] at e1
  rw [← e1]
  show parseAssignmentExprF F (descent env F k) p = _
  unfold parseAssignmentExprF
  simp only [bind_eq, getTt_eq, M.ite_apply, if_pos hy, parseToken_eq, if_pos harrow]
  rw [hy]

/-- C22 fails on `a.b => 1`: the left-hand side `a.b` is not a single identifier-like token
and does not end with `)`, yet no error is reported and an arrow function is produced. The
case `ArrowToken` looks at the last node of the left-hand side only, the identifier `b`,
which it replaces by a Binding node. -/
theorem member_arrow_is_accepted :
    (parseAssignmentExpr stdEnv 5 5 (startParser memberArrowTokens)).map
        (fun r => (r.1, r.2.err))
      = .ok (Node.inner ExprGrammar [leaf (IdentifierToken, [97]), leaf (DotToken, [46]),
          Node.inner BindingGrammar [leaf (IdentifierToken, [98])],
          leaf (ArrowToken, [61, 62]),
          Node.inner ExprGrammar [leaf (NumericToken, [49])]], none) :=
  rfl

/-- C22, amended: the parser is at the start of an assignment expression that does not begin
with `yield` or `async`, `parseLeftHandSideExpr` (called after the prefix `++` or `--` if
there is one) returns the nodes `ns` with the last node `last`, and the current token is then
`=>`. If `last` is an identifier-like token, it is replaced by a Binding node that wraps it,
and the result is the Expr node of the nodes, the `=>` token and the body; if `last` is
neither an identifier-like token nor a `)` token, `fail` records the error of the rule
"arrow function expression" and the result is the zero node; if `last` is a `)` token the
nodes are kept as they are. An expression that begins with `yield` and goes on with `=>` is
the Expr node of the Binding node of `yield`, the `=>` token and the body. -/
theorem arrow_checks_last_node (env : Env) (F k : Nat) (p q : Parser) (ns : List Node)
    (last : Node) (hy : p.tt ≠ YieldToken) (ha : p.tt ≠ AsyncToken)
    (hl : parseLeftHandSideExpr env (F + 1) (k + 1) (lhsStart [] p).1 (lhsStart [] p).2
      = .ok (ns, q))
    (harrow : q.tt = ArrowToken) (hlast : ns.getLast? = some last) :
    parseAssignmentExpr env (F + 1) (k + 2) p
      = (if identLike last.tt = true then
          (arrowBodyAt env (F + 1) (k + 1) (nextState q)).map (fun r =>
            (Node.inner ExprGrammar (ns.dropLast ++ [Node.inner BindingGrammar [last]] ++
              [leaf (ArrowToken, q.data)] ++ [r.1]), r.2))
        else if last.tt ≠ CloseParenToken then
          .ok (Node.zero, failState "arrow function expression" [] q)
        else
          (arrowBodyAt env (F + 1) (k + 1) (nextState q)).map (fun r =>
            (Node.inner ExprGrammar (ns ++ [leaf (ArrowToken, q.data)] ++ [r.1]), r.2))) ∧
    ∀ y : Parser, y.tt = YieldToken → (nextState y).tt = ArrowToken →
      parseAssignmentExpr env (F + 1) (k + 2) y
        = (arrowBodyAt env (F + 1) (k + 1) (nextState (nextState y))).map (fun r =>
            (Node.inner ExprGrammar ([Node.inner BindingGrammar [leaf (YieldToken, y.data)]] ++
              [leaf (ArrowToken, (nextState y).data)] ++ [r.1]), r.2)) := by
  refine ⟨?_, fun y h1 h2 => yield_arrow env (F + 1) (k + 1) y h1 h2⟩
  rw [← assignLoop_arrow env (F + 1) (k + 1) F [] ns p q last hl harrow hlast]
  show parseAssignmentExprF (F + 1) (descent env (F + 1) (k + 1)) p = _
  unfold parseAssignmentExprF
  simp only [bind_eq, getTt_eq, M.ite_apply, if_neg hy, if_neg ha]

/-- C22, amended, on `x => x+1`, which yields Expr[Binding[x], `=>`, Expr[x, +, 1]], and on
`a[0] => 1`, whose left-hand side ends with `]`: the error is recorded and the result is the
zero node. -/
theorem arrow_checks_last_node_witness :
    parseLeftHandSideExpr stdEnv (4 + 1) (2 + 1) (lhsStart [] (startParser arrowTokens)).1
        (lhsStart [] (startParser arrowTokens)).2
      = .ok ([leaf (IdentifierToken, [120])], nextState (startParser arrowTokens)) ∧
    (nextState (startParser arrowTokens)).tt = ArrowToken ∧
    parseAssignmentExpr stdEnv (4 + 1) (2 + 2) (startParser arrowTokens)
      = (if identLike (leaf (IdentifierToken, [120])).tt = true then
          (arrowBodyAt stdEnv (4 + 1) (2 + 1)
            (nextState (nextState (startParser arrowTokens)))).map (fun r =>
              (Node.inner ExprGrammar (([leaf (IdentifierToken, [120])] : List Node).dropLast ++
                [Node.inner BindingGrammar [leaf (IdentifierToken, [120])]] ++
                [leaf (ArrowToken, (nextState (startParser arrowTokens)).data)] ++ [r.1]), r.2))
        else if (leaf (IdentifierToken, [120])).tt ≠ CloseParenToken then
          .ok (Node.zero,
            failState "arrow function expression" [] (nextState (startParser arrowTokens)))
        else
          (arrowBodyAt stdEnv (4 + 1) (2 + 1)
            (nextState (nextState (startParser arrowTokens)))).map (fun r =>
              (Node.inner ExprGrammar ([leaf (IdentifierToken, [120])] ++
                [leaf (ArrowToken, (nextState (startParser arrowTokens)).data)] ++ [r.1]),
                r.2))) ∧
    (parseAssignmentExpr stdEnv 5 4 (startParser arrowTokens)).map (fun r => (r.1, r.2.err))
      = .ok (Node.inner ExprGrammar [Node.inner BindingGrammar [leaf (IdentifierToken, [120])],
          leaf (ArrowToken, [61, 62]),
          Node.inner ExprGrammar [leaf (IdentifierToken, [120]), leaf (AddToken, [43]),
            leaf (NumericToken, [49])]], none) ∧
    (parseAssignmentExpr stdEnv 5 4 (startParser indexArrowTokens)).map
        (fun r => (r.1, r.2.err))
      = .ok (Node.zero,
          some (Error.grammar 5 [] (Found.data [61, 62]) "arrow function expression")) :=
  ⟨rfl, rfl,
    (arrow_checks_last_node stdEnv 4 2 (startParser arrowTokens)
      (nextState (startParser arrowTokens)) [leaf (IdentifierToken, [120])]
      (leaf (IdentifierToken, [120])) (by decide) (by decide) rfl rfl rfl).1,
    rfl, rfl⟩

/-! ### Where the lexer is asked to re-lex -/

theorem Lexer.Next_regexps (l : Lexer) : (l.Next).2.regexps = l.regexps := by
  unfold Lexer.Next
  split <;> rfl

theorem nextLoop_regexps (f : Nat) (p : Parser) :
    (nextLoop f p).l.regexps = p.l.regexps := by
  induction f generalizing p with
  | zero => rfl
  | succ f ih =>
    by_cases h : p.tt = WhitespaceToken ∨ p.tt = LineTerminatorToken
    · rw [nextLoop_step f p h, ih]
      exact Lexer.Next_regexps p.l
    · rw [nextLoop_stop (f + 1) p h]

theorem nextState_regexps (p : Parser) : (nextState p).l.regexps = p.l.regexps := by
  unfold nextState
  split
  · rfl
  · rw [nextLoop_regexps]
    exact Lexer.Next_regexps p.l

theorem failState_lexer (rule : String) (expected : List TokenType) (p : Parser) :
    (failState rule expected p).l = p.l := by
  unfold failState
  split <;> rfl

/-! #### The methods that get the lexer package and do not call `RegExp` -/

section
variable (I : TokenType → Bool) (R1 R2 : Lexer → (TokenType × List Nat) × Lexer)
variable (F : Nat) (r : Rec)

theorem parseMethodDef_regexp : parseMethodDef ⟨I, R1⟩ F r = parseMethodDef ⟨I, R2⟩ F r := rfl

theorem parseClassDeclLoop_regexp (f : Nat) (nodes : List Node) :
    parseClassDeclLoop ⟨I, R1⟩ F r f nodes = parseClassDeclLoop ⟨I, R2⟩ F r f nodes := by
  induction f generalizing nodes with
  | zero => rfl
  | succ f ih =>
    simp only [parseClassDeclLoop, ih]
    rfl

theorem parseClassDecl_regexp (nodes : List Node) :
    parseClassDecl ⟨I, R1⟩ F r nodes = parseClassDecl ⟨I, R2⟩ F r nodes := by
  simp only [parseClassDecl, parseClassDeclLoop_regexp I R1 R2]

theorem propertyLoop_regexp (f : Nat) (nodes : List Node) :
    propertyLoop ⟨I, R1⟩ f nodes = propertyLoop ⟨I, R2⟩ f nodes := by
  induction f generalizing nodes with
  | zero => rfl
  | succ f ih => simp only [propertyLoop, ih]

theorem parseProperty_regexp (nodes : List Node) :
    parseProperty ⟨I, R1⟩ F r nodes = parseProperty ⟨I, R2⟩ F r nodes := by
  simp only [parseProperty, propertyLoop_regexp I R1 R2]

theorem parseObjectLiteralLoop_regexp (f : Nat) (nodes : List Node) :
    parseObjectLiteralLoop ⟨I, R1⟩ F r f nodes = parseObjectLiteralLoop ⟨I, R2⟩ F r f nodes := by
  induction f generalizing nodes with
  | zero => rfl
  | succ f ih => simp only [parseObjectLiteralLoop, ih, parseProperty_regexp I R1 R2]

theorem parseObjectLiteral_regexp (nodes : List Node) :
    parseObjectLiteral ⟨I, R1⟩ F r nodes = parseObjectLiteral ⟨I, R2⟩ F r nodes := by
  simp only [parseObjectLiteral, parseObjectLiteralLoop_regexp I R1 R2]

theorem parseLeftHandSideExprEnd_regexp (nodes : List Node) :
    parseLeftHandSideExprEnd ⟨I, R1⟩ F r nodes = parseLeftHandSideExprEnd ⟨I, R2⟩ F r nodes :=
  rfl

theorem lhsEndLoop_regexp (f : Nat) (nodes : List Node) :
    lhsEndLoop ⟨I, R1⟩ F r f nodes = lhsEndLoop ⟨I, R2⟩ F r f nodes := by
  induction f generalizing nodes with
  | zero => rfl
  | succ f ih => simp only [lhsEndLoop, ih, parseLeftHandSideExprEnd_regexp I R1 R2]

theorem optChainLoop_regexp (f : Nat) (nodes : List Node) :
    optChainLoop ⟨I, R1⟩ F r f nodes = optChainLoop ⟨I, R2⟩ F r f nodes := by
  induction f generalizing nodes with
  | zero => rfl
  | succ f ih =>
    simp only [optChainLoop, ih, parseLeftHandSideExprEnd_regexp I R1 R2,
      lhsEndLoop_regexp I R1 R2]

theorem lhsEnd_regexp (nodes : List Node) :
    lhsEnd ⟨I, R1⟩ F r nodes = lhsEnd ⟨I, R2⟩ F r nodes := by
  simp only [lhsEnd, lhsEndLoop_regexp I R1 R2, optChainLoop_regexp I R1 R2]

theorem objectBindingProperty_regexp (nodes : List Node) :
    objectBindingProperty ⟨I, R1⟩ r nodes = objectBindingProperty ⟨I, R2⟩ r nodes := rfl

theorem objectBindingLoop_regexp (f : Nat) (nodes : List Node) :
    objectBindingLoop ⟨I, R1⟩ r f nodes = objectBindingLoop ⟨I, R2⟩ r f nodes := by
  induction f generalizing nodes with
  | zero => rfl
  | succ f ih => simp only [objectBindingLoop, ih, objectBindingProperty_regexp I R1 R2]

theorem parseBindingF_regexp : parseBindingF ⟨I, R1⟩ F r = parseBindingF ⟨I, R2⟩ F r := by
  simp only [parseBindingF, objectBindingLoop_regexp I R1 R2]

theorem stmtCases_regexp : stmtCases ⟨I, R1⟩ F r = stmtCases ⟨I, R2⟩ F r := by
  simp only [stmtCases, parseClassDecl_regexp I R1 R2]

theorem parseStmtF_regexp : parseStmtF ⟨I, R1⟩ F r = parseStmtF ⟨I, R2⟩ F r := by
  simp only [parseStmtF, stmtCases_regexp I R1 R2]

theorem parsePrimaryExpr_regexp (nodes : List Node) (p : Parser) (h1 : p.tt ≠ DivToken)
    (h2 : p.tt ≠ DivEqToken) :
    parsePrimaryExpr ⟨I, R1⟩ F r nodes p = parsePrimaryExpr ⟨I, R2⟩ F r nodes p := by
  have hd : ¬ (p.tt = DivToken ∨ p.tt = DivEqToken) := fun h => h.elim h1 h2
  unfold parsePrimaryExpr
  simp only [bind_eq, getTt_eq, M.ite_apply, if_neg hd, pure_eq,
    parseObjectLiteral_regexp I R1 R2, parseClassDecl_regexp I R1 R2]

theorem parseLeftHandSideExprF_regexp
    (hP : ∀ nodes, parsePrimaryExpr ⟨I, R1⟩ F r nodes = parsePrimaryExpr ⟨I, R2⟩ F r nodes)
    (nodes : List Node) :
    parseLeftHandSideExprF ⟨I, R1⟩ F r nodes = parseLeftHandSideExprF ⟨I, R2⟩ F r nodes := by
  simp only [parseLeftHandSideExprF, hP, lhsEnd_regexp I R1 R2,
    parseLeftHandSideExprEnd_regexp I R1 R2]

end

/-! ### A `/` at the start of an expression, and a `/` after a left-hand side -/

theorem parsePrimaryExpr_relex (env : Env) (F : Nat) (r : Rec) (nodes : List Node)
    (p : Parser) (hdiv : p.tt = DivToken ∨ p.tt = DivEqToken)
    (h1 : (relex env p).tt ≠ DivToken) (h2 : (relex env p).tt ≠ DivEqToken) :
    parsePrimaryExpr env F r nodes p = parsePrimaryExpr env F r nodes (relex env p) := by
  have hd : ¬ ((relex env p).tt = DivToken ∨ (relex env p).tt = DivEqToken) :=
    fun h => h.elim h1 h2
  unfold parsePrimaryExpr
  simp only [bind_eq, getTt_eq, M.ite_apply, if_pos hdiv, reLex_eq, if_neg hd, pure_eq]

theorem div_facts {tt : TokenType} (h : tt = DivToken ∨ tt = DivEqToken) :
    tt ≠ NewToken ∧ tt ≠ SuperToken ∧ tt ≠ ImportToken ∧ tt ≠ IncrToken ∧ tt ≠ DecrToken ∧
      tt ≠ YieldToken ∧ tt ≠ AsyncToken ∧ tt ≠ SemicolonToken ∧ tt ≠ LineTerminatorToken ∧
      tt ≠ ErrorToken := by
  rcases h with h | h <;> subst h <;> decide

theorem regexp_facts {tt : TokenType} (h : tt = RegExpToken ∨ tt = ErrorToken) :
    tt ≠ NewToken ∧ tt ≠ SuperToken ∧ tt ≠ ImportToken ∧ tt ≠ IncrToken ∧ tt ≠ DecrToken ∧
      tt ≠ YieldToken ∧ tt ≠ AsyncToken ∧ tt ≠ DivToken ∧ tt ≠ DivEqToken := by
  rcases h with h | h <;> subst h <;> decide

theorem parseLeftHandSideExprF_relex (env : Env) (F : Nat) (r : Rec) (nodes : List Node)
    (p : Parser) (hdiv : p.tt = DivToken ∨ p.tt = DivEqToken)
    (hre : (relex env p).tt = RegExpToken ∨ (relex env p).tt = ErrorToken) :
    parseLeftHandSideExprF env (F + 1) r nodes p
      = parseLeftHandSideExprF env (F + 1) r nodes (relex env p) := by
  have hd := div_facts hdiv
  have hr := regexp_facts hre
  unfold parseLeftHandSideExprF
  rw [bind_ok (newLoop_skip F nodes p hd.1), bind_ok (newLoop_skip F nodes (relex env p) hr.1)]
  simp only [bind_eq, getTt_eq, M.ite_apply, if_neg hd.2.1, if_neg hd.2.2.1, if_neg hr.2.1,
    if_neg hr.2.2.1]
  rw [parsePrimaryExpr_relex env (F + 1) r nodes p hdiv hr.2.2.2.2.2.2.2.1 hr.2.2.2.2.2.2.2.2]

theorem assignLoop_relex (env : Env) (F k f : Nat) (nodes : List Node) (p : Parser)
    (hdiv : p.tt = DivToken ∨ p.tt = DivEqToken)
    (hre : (relex env p).tt = RegExpToken ∨ (relex env p).tt = ErrorToken) :
    assignLoop (F + 1) (descent env (F + 1) (k + 1)) (f + 1) nodes p
      = assignLoop (F + 1) (descent env (F + 1) (k + 1)) (f + 1) nodes (relex env p) := by
  have hd := div_facts hdiv
  have hr := regexp_facts hre
  have hpre : ¬ (p.tt = IncrToken ∨ p.tt = DecrToken) := fun h => h.elim hd.2.2.2.1 hd.2.2.2.2.1
  have hpre2 : ¬ ((relex env p).tt = IncrToken ∨ (relex env p).tt = DecrToken) :=
    fun h => h.elim hr.2.2.2.1 hr.2.2.2.2.1
  have hx : (descent env (F + 1) (k + 1)).parseLeftHandSideExpr nodes p
      = (descent env (F + 1) (k + 1)).parseLeftHandSideExpr nodes (relex env p) :=
    parseLeftHandSideExprF_relex env F (descent env (F + 1) k) nodes p hdiv hre
  rw [assignLoop]
  simp only [bind_eq, getTt_eq, M.ite_apply, if_neg hpre, if_neg hpre2, pure_eq, hx]

theorem parseAssignmentExpr_relex (env : Env) (F k : Nat) (p : Parser)
    (hdiv : p.tt = DivToken ∨ p.tt = DivEqToken)
    (hre : (relex env p).tt = RegExpToken ∨ (relex env p).tt = ErrorToken) :
    parseAssignmentExpr env (F + 1) (k + 2) p
      = parseAssignmentExpr env (F + 1) (k + 2) (relex env p) := by
  have hd := div_facts hdiv
  have hr := regexp_facts hre
  show parseAssignmentExprF (F + 1) (descent env (F + 1) (k + 1)) p
    = parseAssignmentExprF (F + 1) (descent env (F + 1) (k + 1)) (relex env p)
  unfold parseAssignmentExprF
  simp only [bind_eq, getTt_eq, M.ite_apply, if_neg hd.2.2.2.2.2.1, if_neg hd.2.2.2.2.2.2.1,
    if_neg hr.2.2.2.2.2.1, if_neg hr.2.2.2.2.2.2.1]
  exact assignLoop_relex env F k F [] p hdiv hre

theorem parseExpr_relex (env : Env) (F k : Nat) (p : Parser)
    (hdiv : p.tt = DivToken ∨ p.tt = DivEqToken)
    (hre : (relex env p).tt = RegExpToken ∨ (relex env p).tt = ErrorToken) :
    parseExpr (F + 1) (descent env (F + 1) (k + 2)) p
      = parseExpr (F + 1) (descent env (F + 1) (k + 2)) (relex env p) := by
  have hx : (descent env (F + 1) (k + 2)).parseAssignmentExpr p
      = (descent env (F + 1) (k + 2)).parseAssignmentExpr (relex env p) :=
    parseAssignmentExpr_relex env F k p hdiv hre
  unfold parseExpr
  rw [bind_eq, bind_eq, hx]

theorem return_relex (env : Env) (F k : Nat) (p : Parser) (hret : p.tt = ReturnToken)
    (hlb : lineBreakFirst p.l.toks = false)
    (hdiv : headKind (significant p.l.toks) = DivToken ∨
      headKind (significant p.l.toks) = DivEqToken)
    (hre : (env.RegExp (nextState p).l).1.1 = RegExpToken ∨
      (env.RegExp (nextState p).l).1.1 = ErrorToken) :
    parseStmt env (F + 1) (k + 3) p
      = returnStmtOf p.data
          (parseExpr (F + 1) (descent env (F + 1) (k + 2)) (relex env (nextState p))) := by
  have hne : p.tt ≠ ErrorToken := by rw [hret]; decide
  have hns := nextState_sig p hne
  have hdiv2 : (nextState p).tt = DivToken ∨ (nextState p).tt = DivEqToken := by
    rw [hns.2.1]; exact hdiv
  have hd := div_facts hdiv2
  show parseStmtF env (F + 1) (descent env (F + 1) (k + 2)) p = _
  have h1 : ¬ p.tt = OpenBraceToken := by rw [hret]; decide
  have h2 : ¬ (p.tt = LetToken ∨ p.tt = ConstToken ∨ p.tt = VarToken) := by
    rw [hret]; decide
  have h3 : ¬ (p.tt = ContinueToken ∨ p.tt = BreakToken) := by rw [hret]; decide
  have h4 : (!(nextState p).prevLineTerminator) = true ∧
      (nextState p).tt ≠ SemicolonToken ∧ (nextState p).tt ≠ LineTerminatorToken ∧
      (nextState p).tt ≠ ErrorToken := by
    refine ⟨?_, hd.2.2.2.2.2.2.2.1, hd.2.2.2.2.2.2.2.2.1, hd.2.2.2.2.2.2.2.2.2⟩
    rw [hns.2.2.2.2, hlb]
    rfl
  unfold parseStmtF stmtCases
  simp only [bind_eq, getTt_eq, getPLT_eq, M.ite_apply, if_neg h1, if_neg h2, if_neg h3,
    if_pos hret, parseToken_eq, if_pos h4, pure_eq]
  rw [parseExpr_relex env F k (nextState p) hdiv2 hre, hret]
  unfold returnStmtOf
  cases parseExpr (F + 1) (descent env (F + 1) (k + 2)) (relex env (nextState p)) with
  | error e => rfl
  | ok x =>
    by_cases h5 : x.2.tt = SemicolonToken ∨ x.2.tt = LineTerminatorToken
    · simp only [Except.map, bind_eq, getTt_eq, M.ite_apply, if_pos h5, next_eq, pure_eq]
    · simp only [Except.map, bind_eq, getTt_eq, M.ite_apply, if_neg h5, pure_eq]

theorem assignLoop_postfix_div (F : Nat) (r : Rec) (f : Nat) (nodes ns : List Node)
    (p q : Parser) (hpre : ¬ (p.tt = IncrToken ∨ p.tt = DecrToken))
    (hl : r.parseLeftHandSideExpr nodes p = .ok (ns, q))
    (hplt : q.prevLineTerminator = false) (hq : q.tt = IncrToken ∨ q.tt = DecrToken)
    (hd : (nextState q).tt = DivToken) :
    assignLoop F r (f + 1) nodes p
      = assignLoop F r f (ns ++ [leaf (q.tt, q.data)] ++ [leaf (DivToken, (nextState q).data)])
          (nextState (nextState q)) := by
  have hpost : (!q.prevLineTerminator) = true ∧ (q.tt = IncrToken ∨ q.tt = DecrToken) := by
    rw [hplt]; exact ⟨rfl, hq⟩
  have hb : (nextState q).tt ∈ binaryTokens := by rw [hd]; decide
  rw [assignLoop]
  simp only [bind_eq, getTt_eq, getPLT_eq, M.ite_apply, if_neg hpre, pure_eq, hl, if_pos hpost,
    if_pos hb, parseToken_eq]
  rw [hd]

/-- C24: the parser is at a `return` token, no line terminator comes before the next token
that is neither whitespace nor a line terminator, that token is `/` or `/=`, and `RegExp`
there gives a regular expression token (or the error token). Then `parseStmt` returns the
statement of the `return` token and the expression that `parseExpr` parses from the re-lexed
parser. In general: `parsePrimaryExpr` entered at `/` or `/=` goes on from the re-lexed
parser; entered at another token it does not depend on `RegExp`, and neither does any other
method that gets the lexer package, `parseLeftHandSideExpr` apart, which depends on it through
`parsePrimaryExpr` only; `next` and `fail` leave the count of the re-lexings of the lexer as it
is; and a `/` after a left-hand side, or after a postfix `++` or `--` on the line of the
left-hand side, is appended as a division token and followed by `next`. -/
theorem regexp_only_in_primary (env : Env) (F k : Nat) (p : Parser)
    (hret : p.tt = ReturnToken) (hlb : lineBreakFirst p.l.toks = false)
    (hdiv : headKind (significant p.l.toks) = DivToken ∨
      headKind (significant p.l.toks) = DivEqToken)
    (hre : (env.RegExp (nextState p).l).1.1 = RegExpToken ∨
      (env.RegExp (nextState p).l).1.1 = ErrorToken) :
    parseStmt env (F + 1) (k + 3) p
      = returnStmtOf p.data
          (parseExpr (F + 1) (descent env (F + 1) (k + 2)) (relex env (nextState p))) ∧
    (∀ (r : Rec) (nodes : List Node) (q : Parser), q.tt = DivToken ∨ q.tt = DivEqToken →
      (relex env q).tt ≠ DivToken → (relex env q).tt ≠ DivEqToken →
      parsePrimaryExpr env F r nodes q = parsePrimaryExpr env F r nodes (relex env q)) ∧
    (∀ (I : TokenType → Bool) (R1 R2 : Lexer → (TokenType × List Nat) × Lexer) (r : Rec),
      (∀ (nodes : List Node) (q : Parser), q.tt ≠ DivToken → q.tt ≠ DivEqToken →
        parsePrimaryExpr ⟨I, R1⟩ F r nodes q = parsePrimaryExpr ⟨I, R2⟩ F r nodes q) ∧
      ((∀ nodes, parsePrimaryExpr ⟨I, R1⟩ F r nodes = parsePrimaryExpr ⟨I, R2⟩ F r nodes) →
        ∀ nodes, parseLeftHandSideExprF ⟨I, R1⟩ F r nodes
          = parseLeftHandSideExprF ⟨I, R2⟩ F r nodes) ∧
      parseStmtF ⟨I, R1⟩ F r = parseStmtF ⟨I, R2⟩ F r ∧
      parseBindingF ⟨I, R1⟩ F r = parseBindingF ⟨I, R2⟩ F r ∧
      (∀ nodes, lhsEnd ⟨I, R1⟩ F r nodes = lhsEnd ⟨I, R2⟩ F r nodes) ∧
      (∀ nodes, parseLeftHandSideExprEnd ⟨I, R1⟩ F r nodes
        = parseLeftHandSideExprEnd ⟨I, R2⟩ F r nodes) ∧
      (∀ nodes, parseObjectLiteral ⟨I, R1⟩ F r nodes = parseObjectLiteral ⟨I, R2⟩ F r nodes) ∧
      (∀ nodes, parseClassDecl ⟨I, R1⟩ F r nodes = parseClassDecl ⟨I, R2⟩ F r nodes) ∧
      parseMethodDef ⟨I, R1⟩ F r = parseMethodDef ⟨I, R2⟩ F r) ∧
    (∀ q : Parser, (nextState q).l.regexps = q.l.regexps) ∧
    (∀ (rule : String) (expected : List TokenType) (q : Parser),
      (failState rule expected q).l = q.l) ∧
    (∀ (r : Rec) (f : Nat) (nodes ns : List Node) (q0 q : Parser),
      ¬ (q0.tt = IncrToken ∨ q0.tt = DecrToken) →
      r.parseLeftHandSideExpr nodes q0 = .ok (ns, q) →
      (q.tt = DivToken →
        assignLoop F r (f + 1) nodes q0
          = assignLoop F r f (ns ++ [leaf (DivToken, q.data)]) (nextState q)) ∧
      (q.prevLineTerminator = false → q.tt = IncrToken ∨ q.tt = DecrToken →
        (nextState q).tt = DivToken →
        assignLoop F r (f + 1) nodes q0
          = assignLoop F r f
              (ns ++ [leaf (q.tt, q.data)] ++ [leaf (DivToken, (nextState q).data)])
              (nextState (nextState q)))) := by
  refine ⟨return_relex env F k p hret hlb hdiv hre,
    fun r nodes q h h1 h2 => parsePrimaryExpr_relex env F r nodes q h h1 h2,
    fun I R1 R2 r => ⟨fun nodes q h1 h2 => parsePrimaryExpr_regexp I R1 R2 F r nodes q h1 h2,
      fun hP nodes => parseLeftHandSideExprF_regexp I R1 R2 F r hP nodes,
      parseStmtF_regexp I R1 R2 F r, parseBindingF_regexp I R1 R2 F r,
      fun nodes => lhsEnd_regexp I R1 R2 F r nodes,
      fun nodes => parseLeftHandSideExprEnd_regexp I R1 R2 F r nodes,
      fun nodes => parseObjectLiteral_regexp I R1 R2 F r nodes,
      fun nodes => parseClassDecl_regexp I R1 R2 F r nodes,
      parseMethodDef_regexp I R1 R2 F r⟩,
    nextState_regexps, failState_lexer, fun r f nodes ns q0 q hpre hl => ⟨fun hd => ?_,
      fun hplt hq hd => assignLoop_postfix_div F r f nodes ns q0 q hpre hl hplt hq hd⟩⟩
  have hb : q.tt ∈ binaryTokens := by rw [hd]; decide
  rw [assignLoop_binary F r f nodes ns q0 q hpre hl hb, hd]

/-- C24 on `return /a/`, where the lexer is asked once and the statement is
Stmt[`return`, Expr[`/a/`]] with `/a/` a regular expression token, and on `a++ / b`, where
the lexer is not asked and the expression is Expr[`a`, `++`, `/`, `b`]. -/
theorem regexp_only_in_primary_witness :
    (startParser returnRegexpTokens).tt = ReturnToken ∧
    lineBreakFirst (startParser returnRegexpTokens).l.toks = false ∧
    headKind (significant (startParser returnRegexpTokens).l.toks) = DivToken ∧
    (stdEnv.RegExp (nextState (startParser returnRegexpTokens)).l).1.1 = RegExpToken ∧
    parseStmt stdEnv (4 + 1) (2 + 3) (startParser returnRegexpTokens)
      = returnStmtOf (startParser returnRegexpTokens).data
          (parseExpr (4 + 1) (descent stdEnv (4 + 1) (2 + 2))
            (relex stdEnv (nextState (startParser returnRegexpTokens)))) ∧
    (parseStmt stdEnv 5 5 (startParser returnRegexpTokens)).map
        (fun r => (r.1, r.2.err, r.2.l.regexps))
      = .ok (Node.inner StmtGrammar [leaf (ReturnToken, [114, 101, 116, 117, 114, 110]),
          Node.inner ExprGrammar [leaf (RegExpToken, [47, 97, 47])]], none, 1) ∧
    (parseAssignmentExpr stdEnv 5 5 (startParser postfixDivTokens)).map
        (fun r => (r.1, r.2.err, r.2.l.regexps))
      = .ok (Node.inner ExprGrammar [leaf (IdentifierToken, [97]), leaf (IncrToken, [43, 43]),
          leaf (DivToken, [47]), leaf (IdentifierToken, [98])], none, 0) ∧
    (parseAssignmentExpr stdEnv 5 5 (startParser divTokens)).map
        (fun r => (r.1, r.2.err, r.2.l.regexps))
      = .ok (Node.inner ExprGrammar [leaf (IdentifierToken, [97]), leaf (DivToken, [47]),
          leaf (IdentifierToken, [98])], none, 0) :=
  ⟨rfl, rfl, rfl, rfl,
    (regexp_only_in_primary stdEnv 4 2 (startParser returnRegexpTokens) rfl rfl (Or.inl rfl)
      (Or.inl rfl)).1,
    rfl, rfl, rfl⟩

end js
